import Mathlib

/-!
# paralleltest: a shallow embedding of the analyzer

The Go analyzer of `pkg/paralleltest` (files `paralleltest.go` and `util.go`) is
embedded as Lean functions over a small model of `go/ast`.

* Syntax trees are values of `Node`.  The node kinds the analyzer tells apart have a
  constructor of their own; every other kind is `Node.other`, which only records the
  children in the order in which `ast.Inspect` walks them.
* The analyzer's mutable state (the `visited` cache and the diagnostics handed to
  `pass.Reportf`) is threaded explicitly as a `State`.
* The recursion of the analyzer through helper resolution is not bounded by the size
  of the syntax tree, so every function of the recursive core takes a bound on the
  depth of the Go call stack (`fuel`) and returns `none` when the bound is reached.
-/

namespace Paralleltest

/-! ## Syntax -/

/-- Syntax tree nodes (`ast.Node`).  Positions (`token.Pos`) are natural numbers and are
kept where the analyzer reads them: `Pos()` of a call, a function literal and a defer
statement (diagnostic positions) and the opening brace of a block (cache key). -/
inductive Node where
  /-- An `*ast.Ident`. -/
  | ident (name : String)
  /-- An `*ast.SelectorExpr` with operand `X` and selected name `Sel.Name`. -/
  | selectorExpr (x : Node) (sel : String)
  /-- An `*ast.StarExpr`. -/
  | starExpr (x : Node)
  /-- An `*ast.CallExpr` with callee `Fun` and arguments `Args`. -/
  | callExpr (pos : Nat) (func : Node) (args : List Node)
  /-- An `*ast.Field` of a parameter list: its names and its type. -/
  | field (names : List String) (type : Node)
  /-- An `*ast.FuncLit`: parameter and result fields of its type, and its body block
  (position of the opening brace and statement list). -/
  | funcLit (pos : Nat) (params : List Node) (results : List Node) (lbrace : Nat)
      (body : List Node)
  /-- An `*ast.ExprStmt`. -/
  | exprStmt (x : Node)
  /-- An `*ast.DeferStmt`. -/
  | deferStmt (pos : Nat) (call : Node)
  /-- An `*ast.ReturnStmt`. -/
  | returnStmt (results : List Node)
  /-- An `*ast.RangeStmt`: the key, value and range expressions that are present, and
  the body block. -/
  | rangeStmt (header : List Node) (lbrace : Nat) (body : List Node)
  /-- Any other node kind, with its children in `ast.Inspect` order. -/
  | other (children : List Node)

/-- A top-level function or method declaration (`*ast.FuncDecl`) with a body. -/
structure FuncDecl where
  pos : Nat
  recv : List Node
  name : String
  params : List Node
  results : List Node
  lbrace : Nat
  body : List Node

/-- A top-level declaration of a file (`ast.Decl`). -/
inductive Decl where
  | funcDecl (d : FuncDecl)
  | genDecl

/-- A parsed source file together with the name the file set gives it. -/
structure File where
  name : String
  decls : List Decl

/-- The part of `*analysis.Pass` the analyzer reads. -/
structure Pass where
  files : List File

/-- The children of a node, in the order `ast.Inspect` visits them. -/
def Node.children : Node → List Node
  | .ident _ => []
  | .selectorExpr x sel => [x, .ident sel]
  | .starExpr x => [x]
  | .callExpr _ func args => func :: args
  | .field names type => names.map Node.ident ++ [type]
  | .funcLit _ params results _ body => params ++ results ++ body
  | .exprStmt x => [x]
  | .deferStmt _ call => [call]
  | .returnStmt results => results
  | .rangeStmt header _ body => header ++ body
  | .other children => children

/-- The type test `n.(*ast.CallExpr)`. -/
def Node.isCallExpr : Node → Bool
  | .callExpr _ _ _ => true
  | _ => false

/-- The type test `n.(*ast.DeferStmt)`. -/
def Node.isDeferStmt : Node → Bool
  | .deferStmt _ _ => true
  | _ => false

/-- The arguments `callExpr.Args` of a call expression. -/
def Node.args : Node → List Node
  | .callExpr _ _ args => args
  | _ => []

/-- The position `node.Pos()` of the nodes that carry one in the model. -/
def Node.pos : Node → Nat
  | .callExpr pos _ _ => pos
  | .funcLit pos _ _ _ _ => pos
  | .deferStmt pos _ => pos
  | _ => 0

/-! ## Predicates of `util.go` -/

/-- The package name `testMethodPackageType`. -/
def testMethodPackageType : String := "testing"

/-- The type name `testMethodStruct`. -/
def testMethodStruct : String := "T"

/-- The Go function `exprCallHasMethod`: the callee is a selector on an identifier named
`receiverName` that selects `methodName`. -/
def exprCallHasMethod (callExpr : Node) (receiverName methodName : String) : Bool :=
  match callExpr with
  | .callExpr _ (.selectorExpr (.ident receiver) sel) _ =>
    receiver == receiverName && sel == methodName
  | _ => false

/-- The Go function `isParallelCall`. -/
def isParallelCall (node : Node) (testVar : String) : Bool :=
  exprCallHasMethod node testVar "Parallel"

/-- The Go function `isTestRunCall`. -/
def isTestRunCall (node : Node) (testVar : String) : Bool :=
  exprCallHasMethod node testVar "Run"

/-- The Go function `isSetenvCall`. -/
def isSetenvCall (node : Node) (testVar : String) : Bool :=
  exprCallHasMethod node testVar "Setenv"

/-- The Go function `isChdirCall`. -/
def isChdirCall (node : Node) (testVar : String) : Bool :=
  exprCallHasMethod node testVar "Chdir"

/-- The Go function `getCallName`: the name of the function called in a call expression. -/
def getCallName (callExpr : Node) : String :=
  match callExpr with
  | .callExpr _ (.ident name) _ => name
  | .callExpr _ (.selectorExpr _ sel) _ => sel
  | _ => ""

/-- The Go function `findTestParamName`: the first name of the first parameter field of
type `*testing.T` that has a name, and the empty string when there is none. -/
def findTestParamName : List Node → String
  | [] => ""
  | .field names (.starExpr (.selectorExpr (.ident pkg) sel)) :: rest =>
    if sel == testMethodStruct && pkg == testMethodPackageType then
      match names with
      | name :: _ => name
      | [] => findTestParamName rest
    else findTestParamName rest
  | _ :: rest => findTestParamName rest

/-- The Go function `hasExactlyOneParameter`: the parameter list has exactly one field. -/
def hasExactlyOneParameter (funcDecl : FuncDecl) : Bool :=
  funcDecl.params.length == 1

/-- The Go function `isTestFunction`. -/
def isTestFunction (funcDecl : FuncDecl) : Bool :=
  if !("Test".toList.isPrefixOf funcDecl.name.toList) then false
  else if !hasExactlyOneParameter funcDecl then false
  else findTestParamName funcDecl.params != ""

/-- The Go function `findFunction`: the first function declaration with the given name,
files in order and declarations of a file in order. -/
def findFunction (pass : Pass) (name : String) : Option FuncDecl :=
  if name == "" then none
  else pass.files.findSome? fun file =>
    file.decls.findSome? fun decl =>
      match decl with
      | .funcDecl funcDecl => if funcDecl.name == name then some funcDecl else none
      | .genDecl => none

/-! ## Fingerprints of bodies -/

mutual
/-- The text `go/printer` writes for a node.  Positions are not part of it. -/
def Node.print : Node → String
  | .ident name => name
  | .selectorExpr x sel => x.print ++ "." ++ sel
  | .starExpr x => "*" ++ x.print
  | .callExpr _ func args => func.print ++ "(" ++ printList args ++ ")"
  | .field names type => String.intercalate "," names ++ " " ++ type.print
  | .funcLit _ params results _ body =>
    "func(" ++ printList params ++ ")(" ++ printList results ++ ")[" ++ printList body ++ "]"
  | .exprStmt x => x.print
  | .deferStmt _ call => "defer " ++ call.print
  | .returnStmt results => "return " ++ printList results
  | .rangeStmt header _ body => "range " ++ printList header ++ "[" ++ printList body ++ "]"
  | .other children => "<" ++ printList children ++ ">"
/-- The texts of a list of nodes, each closed by a semicolon. -/
def printList : List Node → String
  | [] => ""
  | n :: ns => n.print ++ ";" ++ printList ns
end

/-- The Go function `goFmt` on a block statement: the position of the block (its
opening brace) followed by the printed block. -/
def goFmt (lbrace : Nat) (body : List Node) : String :=
  toString lbrace ++ "[" ++ printList body ++ "]"

/-- The Go function `nodeHash` on a block statement.  The MD5 digest is taken to be
free of collisions: the fingerprint is the digested text itself. -/
def nodeHash (lbrace : Nat) (body : List Node) : String :=
  goFmt lbrace body

/-! ## Facts, diagnostics and analyzer state -/

/-- The Go struct `testAnalysis`.  `numberOfTestRun` is a Go `int`; it is only ever
incremented, summed and compared with zero, and is modelled without overflow. -/
structure TestAnalysis where
  hasParallel : Bool := false
  cantParallel : Bool := false
  funcHasDeferStatement : Bool := false
  numberOfTestRun : Nat := 0
  deferStatements : List Node := []

/-- The Go method `testAnalysis.merge`; the receiver is updated in place in Go and
returned here. -/
def TestAnalysis.merge (a other : TestAnalysis) : TestAnalysis :=
  { a with
    hasParallel := a.hasParallel || other.hasParallel
    cantParallel := a.cantParallel || other.cantParallel
    numberOfTestRun := a.numberOfTestRun + other.numberOfTestRun }

/-- The three format strings the analyzer passes to `pass.Reportf`. -/
inductive Format where
  /-- The top-level message of `analyzeTestFunction`. -/
  | missingParallel
  /-- The sub-test message of `reportParallelSubtest`. -/
  | missingParallelSubtest
  /-- The defer message of `reportDefer`. -/
  | deferWithParallel
  deriving DecidableEq, Repr

/-- One call `pass.Reportf(pos, format, name)`. -/
structure Diagnostic where
  pos : Nat
  format : Format
  name : String
  deriving DecidableEq, Repr

/-- The text of a diagnostic: its format string with the name filled in. -/
def Diagnostic.message (d : Diagnostic) : String :=
  match d.format with
  | .missingParallel => "Function " ++ d.name ++ " missing the call to method parallel\n"
  | .missingParallelSubtest =>
    "Function " ++ d.name ++ " missing the call to method parallel in the t.Run\n"
  | .deferWithParallel =>
    "Function " ++ d.name ++ " uses defer with t.Parallel, use t.Cleanup instead to ensure cleanup runs after parallel subtests complete\n"

/-- The options of the Go struct `parallelAnalyzer`, fixed for the life of an analyzer. -/
structure ParallelAnalyzer where
  ignoreMissing : Bool := false
  ignoreMissingSubtests : Bool := false
  ignoreLoopVar : Bool := false
  checkCleanup : Bool := false

/-- The mutable state of a run: the map `parallelAnalyzer.visited` from fingerprints to
facts (the entry nearest the head of the list is the current one) and the diagnostics
reported so far, oldest first. -/
structure State where
  visited : List (String × TestAnalysis) := []
  reports : List Diagnostic := []

/-- The cached entry of a fingerprint: the map lookup of the Go method `getAnalysis`. -/
def State.getAnalysis (st : State) (hash : String) : Option TestAnalysis :=
  st.visited.lookup hash

/-- The Go method `cacheAnalysis`. -/
def State.cacheAnalysis (st : State) (hash : String) (analysis : TestAnalysis) : State :=
  { st with visited := (hash, analysis) :: st.visited }

/-- One call of `pass.Reportf`. -/
def State.report (st : State) (d : Diagnostic) : State :=
  { st with reports := st.reports ++ [d] }

/-- A value of type `*testAnalysis` returned by `analyzeFunctionF`.  The map `visited`
holds pointers, so the object the function returns for a body with a test parameter is
the very object stored under the fingerprint of the body; `key` records that
fingerprint.  For a function without a test parameter the object is fresh and `key` is
`none`. -/
structure Ref where
  key : Option String
  val : TestAnalysis

/-- A write through a pointer returned by `analyzeFunctionF`: when the pointer is a
cache entry, the entry changes with it. -/
def State.store (st : State) (key : Option String) (analysis : TestAnalysis) : State :=
  match key with
  | some hash => st.cacheAnalysis hash analysis
  | none => st

/-- The Go method `reportDefer`. -/
def reportDefer (a : ParallelAnalyzer) (st : State) (analysis : TestAnalysis)
    (name : String) : State :=
  if a.checkCleanup && analysis.hasParallel && analysis.funcHasDeferStatement
      && decide (analysis.numberOfTestRun > 0) then
    analysis.deferStatements.foldl
      (fun st deferStmt => st.report ⟨deferStmt.pos, .deferWithParallel, name⟩) st
  else st

/-- The Go method `reportParallelSubtest`; `pos` is `node.Pos()`. -/
def reportParallelSubtest (a : ParallelAnalyzer) (st : State) (analysis : TestAnalysis)
    (pos : Nat) (name : String) : State :=
  if !a.ignoreMissing && !a.ignoreMissingSubtests && !analysis.hasParallel
      && !analysis.cantParallel then
    st.report ⟨pos, .missingParallelSubtest, name⟩
  else st

/-! ## The recursive core of `paralleltest.go`

Every function below takes the bound `fuel` on the depth of the Go call stack first and
gives `none` when the bound is reached.  The functions that fill facts in place in Go
(`analysis *testAnalysis` as an argument) take the facts and return them. -/

/-- The facts of a fresh `&testAnalysis{}`. -/
def TestAnalysis.empty : TestAnalysis := {}

/-- The increment `analysis.numberOfTestRun++`. -/
def TestAnalysis.incr (analysis : TestAnalysis) : TestAnalysis :=
  { analysis with numberOfTestRun := analysis.numberOfTestRun + 1 }

/-- The three flag updates of `analyzeCallExpr` that precede its two merges. -/
def TestAnalysis.flags (analysis : TestAnalysis) (callExpr : Node) (testVar : String) :
    TestAnalysis :=
  { analysis with
    hasParallel := analysis.hasParallel || isParallelCall callExpr testVar
    cantParallel :=
      (analysis.cantParallel || isSetenvCall callExpr testVar) || isChdirCall callExpr testVar }

/-- The defer case of the statement switch of `analyzeFunctionF`. -/
def TestAnalysis.addDefer (a : ParallelAnalyzer) (analysis : TestAnalysis) (stmt : Node) :
    TestAnalysis :=
  if a.checkCleanup then
    { analysis with
      funcHasDeferStatement := true
      deferStatements := analysis.deferStatements ++ [stmt] }
  else analysis

mutual
/-- The Go method `analyzeTestRun`. -/
def analyzeTestRun (a : ParallelAnalyzer) (pass : Pass) :
    Nat → State → Node → String → Option (State × TestAnalysis)
  | 0, _, _, _ => none
  | fuel + 1, st, callExpr, testVar =>
    if isTestRunCall callExpr testVar && decide (callExpr.args.length > 1) then
      match (callExpr.args.get? 1 : Option Node) with
      | some (.funcLit pos params _ lbrace body) =>
        (analyzeFunctionF a pass fuel st params lbrace body).bind fun r =>
          let st1 := reportDefer a r.1 r.2.val "literal"
          let st2 := reportParallelSubtest a st1 r.2.val pos "literal"
          some (st2.store r.2.key r.2.val.incr, r.2.val.incr)
      | some (.ident name) =>
        match findFunction pass name with
        | some funcDecl =>
          if hasExactlyOneParameter funcDecl then
            (analyzeFunctionF a pass fuel st funcDecl.params funcDecl.lbrace
              funcDecl.body).bind fun r =>
              let st1 := reportDefer a r.1 r.2.val name
              let st2 := reportParallelSubtest a st1 r.2.val callExpr.pos name
              some (st2.store r.2.key r.2.val.incr, r.2.val.incr)
          else some (st, TestAnalysis.empty)
        | none => some (st, TestAnalysis.empty)
      | some (.callExpr bpos bfunc bargs) =>
        let funcName := getCallName (.callExpr bpos bfunc bargs)
        match findFunction pass funcName with
        | some funcDecl =>
          (analyzeBuilderCall a pass fuel st funcDecl).bind fun r =>
            let st1 := reportDefer a r.1 r.2.2 funcName
            let st2 := reportParallelSubtest a st1 r.2.2 callExpr.pos funcName
            some (st2, (r.2.1.merge r.2.2).incr)
        | none => some (st, TestAnalysis.empty)
      | _ => some (st, TestAnalysis.empty)
    else some (st, TestAnalysis.empty)

/-- The Go method `analyzeFunctionCall`. -/
def analyzeFunctionCall (a : ParallelAnalyzer) (pass : Pass) :
    Nat → State → Node → Option (State × TestAnalysis)
  | 0, _, _ => none
  | fuel + 1, st, callExpr =>
    match findFunction pass (getCallName callExpr) with
    | none => some (st, TestAnalysis.empty)
    | some funcDecl =>
      (analyzeFunctionF a pass fuel st funcDecl.params funcDecl.lbrace funcDecl.body).bind
        fun r => some (r.1, r.2.val)

/-- The walk `ast.Inspect(n, a.visitExprStmt(pass, analysis, testVar))`: a call
expression is handed to `analyzeCallExpr` and not entered, any other node is entered. -/
def visitExprStmt (a : ParallelAnalyzer) (pass : Pass) :
    Nat → State → TestAnalysis → String → Node → Option (State × TestAnalysis)
  | 0, _, _, _, _ => none
  | fuel + 1, st, analysis, testVar, n =>
    if n.isCallExpr then analyzeCallExpr a pass fuel st analysis testVar n
    else n.children.foldlM
      (fun (r : State × TestAnalysis) (child : Node) => visitExprStmt a pass fuel r.1 r.2 testVar child)
      (st, analysis)

/-- The Go method `analyzeCallExpr`. -/
def analyzeCallExpr (a : ParallelAnalyzer) (pass : Pass) :
    Nat → State → TestAnalysis → String → Node → Option (State × TestAnalysis)
  | 0, _, _, _, _ => none
  | fuel + 1, st, analysis, testVar, callExpr =>
    (callExpr.args.foldlM
      (fun (r : State × TestAnalysis) (arg : Node) =>
        if arg.isCallExpr then analyzeCallExpr a pass fuel r.1 r.2 testVar arg else some r)
      (st, analysis)).bind fun r1 =>
    (analyzeTestRun a pass fuel r1.1 callExpr testVar).bind fun r2 =>
    (analyzeFunctionCall a pass fuel r2.1 callExpr).bind fun r3 =>
    some (r3.1, ((r1.2.flags callExpr testVar).merge r2.2).merge r3.2)

/-- The Go method `analyzeFunctionF` on a parameter list and a body block. -/
def analyzeFunctionF (a : ParallelAnalyzer) (pass : Pass) :
    Nat → State → List Node → Nat → List Node → Option (State × Ref)
  | 0, _, _, _, _ => none
  | fuel + 1, st, params, lbrace, body =>
    if findTestParamName params == "" then some (st, ⟨none, TestAnalysis.empty⟩)
    else
      match st.getAnalysis (nodeHash lbrace body) with
      | some v => some (st, ⟨some (nodeHash lbrace body), v⟩)
      | none =>
        (body.foldlM
          (fun (r : State × TestAnalysis) (l : Node) =>
            if l.isDeferStmt then some (r.1, r.2.addDefer a l)
            else visitExprStmt a pass fuel r.1 r.2 (findTestParamName params) l)
          (st, TestAnalysis.empty)).bind fun r =>
        some (r.1.cacheAnalysis (nodeHash lbrace body) r.2, ⟨some (nodeHash lbrace body), r.2⟩)

/-- The walk `ast.Inspect(n, ...)` of `analyzeBuilderCall` below a node of the builder:
the callback handles the node and always asks for its children.  The pair of facts is
`(parentAnalysis, builderAnalysis)`. -/
def inspectBuilder (a : ParallelAnalyzer) (pass : Pass) :
    Nat → State → TestAnalysis × TestAnalysis → String → Node →
      Option (State × TestAnalysis × TestAnalysis)
  | 0, _, _, _, _ => none
  | fuel + 1, st, facts, testVar, n =>
    (match n with
      | .exprStmt _ | .rangeStmt _ _ _ =>
        if testVar != "" then
          (visitExprStmt a pass fuel st facts.1 testVar n).bind fun r =>
            some (r.1, r.2, facts.2)
        else some (st, facts)
      | .returnStmt results =>
        results.foldlM
          (fun (r : State × TestAnalysis × TestAnalysis) (result : Node) =>
            match result with
            | .funcLit _ params _ lbrace body =>
              (analyzeFunctionF a pass fuel r.1 params lbrace body).bind fun inner =>
                some (inner.1, r.2.1, r.2.2.merge inner.2.val)
            | _ => some r)
          (st, facts)
      | _ => some (st, facts)).bind fun r =>
    n.children.foldlM
      (fun (r : State × TestAnalysis × TestAnalysis) (child : Node) =>
        inspectBuilder a pass fuel r.1 r.2 testVar child)
      r

/-- The Go method `analyzeBuilderCall`: the walk of the whole declaration, giving
`(parentAnalysis, builderAnalysis)`. -/
def analyzeBuilderCall (a : ParallelAnalyzer) (pass : Pass) :
    Nat → State → FuncDecl → Option (State × TestAnalysis × TestAnalysis)
  | 0, _, _ => none
  | fuel + 1, st, funcDecl =>
    (funcDecl.recv ++ funcDecl.params ++ funcDecl.results ++ funcDecl.body).foldlM
      (fun (r : State × TestAnalysis × TestAnalysis) (child : Node) =>
        inspectBuilder a pass fuel r.1 r.2 (findTestParamName funcDecl.params) child)
      (st, TestAnalysis.empty, TestAnalysis.empty)
end

/-! ## The entry points -/

/-- The Go method `analyzeFuncLit`. -/
def analyzeFuncLit (a : ParallelAnalyzer) (pass : Pass) (fuel : Nat) (st : State)
    (funcLit : Node) : Option (State × Ref) :=
  match funcLit with
  | .funcLit _ params _ lbrace body => analyzeFunctionF a pass fuel st params lbrace body
  | _ => none

/-- The Go method `analyzeFunction`. -/
def analyzeFunction (a : ParallelAnalyzer) (pass : Pass) (fuel : Nat) (st : State)
    (funcDecl : FuncDecl) : Option (State × Ref) :=
  analyzeFunctionF a pass fuel st funcDecl.params funcDecl.lbrace funcDecl.body

/-- The Go method `analyzeTestFunction`. -/
def analyzeTestFunction (a : ParallelAnalyzer) (pass : Pass) (fuel : Nat) (st : State)
    (funcDecl : FuncDecl) : Option State :=
  (analyzeFunction a pass fuel st funcDecl).bind fun r =>
    let st1 :=
      if !a.ignoreMissing && !r.2.val.hasParallel && !r.2.val.cantParallel then
        r.1.report ⟨funcDecl.pos, .missingParallel, funcDecl.name⟩
      else r.1
    some (reportDefer a st1 r.2.val funcDecl.name)

/-- The function declarations of a file, in order. -/
def File.funcDecls (file : File) : List FuncDecl :=
  file.decls.filterMap fun decl =>
    match decl with
    | .funcDecl funcDecl => some funcDecl
    | .genDecl => none

/-- The callback `run` hands to `inspector.Preorder`, on a function declaration of the
file named `fileName`. -/
def runDecl (a : ParallelAnalyzer) (pass : Pass) (fuel : Nat) (st : State)
    (fileName : String) (funcDecl : FuncDecl) : Option State :=
  if !("_test.go".toList.isSuffixOf fileName.toList) then some st
  else if isTestFunction funcDecl then analyzeTestFunction a pass fuel st funcDecl
  else some st

/-- The Go method `run`: every function declaration of every file, in order. -/
def run (a : ParallelAnalyzer) (pass : Pass) (fuel : Nat) (st : State) : Option State :=
  pass.files.foldlM
    (fun st file => file.funcDecls.foldlM (fun st d => runDecl a pass fuel st file.name d) st)
    st

/-! ## Specification-side definitions -/

/-- What the second argument of a sub-test invocation resolves to. -/
inductive RunTarget where
  | lit (pos : Nat) (params : List Node) (lbrace : Nat) (body : List Node)
  | named (name : String) (funcDecl : FuncDecl)
  | builder (name : String) (funcDecl : FuncDecl)
  | unresolved

/-- The resolution of `analyzeTestRun`. -/
def runTarget (pass : Pass) (callExpr : Node) (testVar : String) : RunTarget :=
  if isTestRunCall callExpr testVar && decide (callExpr.args.length > 1) then
    match callExpr.args.get? 1 with
    | some (.funcLit pos params _ lbrace body) => .lit pos params lbrace body
    | some (.ident name) =>
      match findFunction pass name with
      | some funcDecl => if hasExactlyOneParameter funcDecl then .named name funcDecl else .unresolved
      | none => .unresolved
    | some (.callExpr bpos bfunc bargs) =>
      match findFunction pass (getCallName (.callExpr bpos bfunc bargs)) with
      | some funcDecl => .builder (getCallName (.callExpr bpos bfunc bargs)) funcDecl
      | none => .unresolved
    | _ => .unresolved
  else .unresolved

/-- The tail of the literal and named cases of `analyzeTestRun`. -/
def subtestStep (a : ParallelAnalyzer) (pos : Nat) (name : String) (r : State × Ref) :
    State × TestAnalysis :=
  ((reportParallelSubtest a (reportDefer a r.1 r.2.val name) r.2.val pos name).store
      r.2.key r.2.val.incr, r.2.val.incr)

/-- The tail of the builder case of `analyzeTestRun`. -/
def builderStep (a : ParallelAnalyzer) (pos : Nat) (name : String)
    (r : State × TestAnalysis × TestAnalysis) : State × TestAnalysis :=
  (reportParallelSubtest a (reportDefer a r.1 r.2.2 name) r.2.2 pos name,
    (r.2.1.merge r.2.2).incr)

/-- A relation between the state before and after a step that every state change of the
analyzer respects. -/
structure StepRel (a : ParallelAnalyzer) (R : State → State → Prop) : Prop where
  refl : ∀ s, R s s
  trans : ∀ s t u, R s t → R t u → R s u
  defer : ∀ s an name, R s (reportDefer a s an name)
  subtest : ∀ s an pos name, R s (reportParallelSubtest a s an pos name)
  cache : ∀ s hash an, R s (s.cacheAnalysis hash an)


/-- The seven statements of `core_rel`, at one bound. -/
def CoreRel (a : ParallelAnalyzer) (pass : Pass) (R : State → State → Prop) (fuel : Nat) :
    Prop :=
  (∀ st c tv r, analyzeTestRun a pass fuel st c tv = some r → R st r.1) ∧
  (∀ st c r, analyzeFunctionCall a pass fuel st c = some r → R st r.1) ∧
  (∀ st acc tv n r, visitExprStmt a pass fuel st acc tv n = some r → R st r.1) ∧
  (∀ st acc tv c r, analyzeCallExpr a pass fuel st acc tv c = some r → R st r.1) ∧
  (∀ st params lbrace body r, analyzeFunctionF a pass fuel st params lbrace body = some r →
    R st r.1) ∧
  (∀ st facts tv n r, inspectBuilder a pass fuel st facts tv n = some r → R st r.1) ∧
  (∀ st fd r, analyzeBuilderCall a pass fuel st fd = some r → R st r.1)

/-- The diagnostics one call of `reportDefer` hands to `pass.Reportf`, in order. -/
def deferDiagnostics (a : ParallelAnalyzer) (analysis : TestAnalysis) (name : String) :
    List Diagnostic :=
  if a.checkCleanup && analysis.hasParallel && analysis.funcHasDeferStatement
      && decide (analysis.numberOfTestRun > 0) then
    analysis.deferStatements.map fun deferStmt => ⟨deferStmt.pos, .deferWithParallel, name⟩
  else []

/-- The diagnostics one call of `reportParallelSubtest` hands to `pass.Reportf`. -/
def subtestDiagnostics (a : ParallelAnalyzer) (analysis : TestAnalysis) (pos : Nat)
    (name : String) : List Diagnostic :=
  if !a.ignoreMissing && !a.ignoreMissingSubtests && !analysis.hasParallel
      && !analysis.cantParallel then
    [⟨pos, .missingParallelSubtest, name⟩]
  else []

/-- The state `st'` has the cache of some later moment and the reports of `st` followed
by diagnostics that all satisfy `Q`. -/
def Ext (Q : Diagnostic → Prop) (st st' : State) : Prop :=
  ∃ added, st'.reports = st.reports ++ added ∧ ∀ d ∈ added, Q d

/-- The diagnostics the recursive core may report under the options of `a`: never the
top-level message, the sub-test message only when neither ignore option is set, the
defer message only under `checkCleanup`. -/
def CoreFormat (a : ParallelAnalyzer) (d : Diagnostic) : Prop :=
  d.format ≠ .missingParallel ∧
  (d.format = .missingParallelSubtest → a.ignoreMissing = false ∧ a.ignoreMissingSubtests = false) ∧
  (d.format = .deferWithParallel → a.checkCleanup = true)

/-! ## Building blocks for concrete packages -/

/-- The type expression `*testing.T`. -/
def testingT : Node := .starExpr (.selectorExpr (.ident "testing") "T")

/-- The parameter field `v *testing.T`. -/
def testParam (v : String) : Node := .field [v] testingT

/-- The call `recv.method(args)` at position `pos`. -/
def methodCall (pos : Nat) (recv method : String) (args : List Node) : Node :=
  .callExpr pos (.selectorExpr (.ident recv) method) args

/-- The call `func(args)` at position `pos`. -/
def funcCall (pos : Nat) (func : String) (args : List Node) : Node :=
  .callExpr pos (.ident func) args

/-- A basic literal such as `"foo"`. -/
def basicLit : Node := .other []

/-- The literal `func(v *testing.T) { body }`. -/
def testLit (pos : Nat) (v : String) (lbrace : Nat) (body : List Node) : Node :=
  .funcLit pos [testParam v] [] lbrace body

/-- The declaration `func name(params) { body }` without receiver and results. -/
def mkFunc (pos : Nat) (name : String) (params : List Node) (lbrace : Nat)
    (body : List Node) : FuncDecl :=
  ⟨pos, [], name, params, [], lbrace, body⟩

/-- The package of one file `a_test.go` with the given function declarations. -/
def mkPass (decls : List FuncDecl) : Pass :=
  ⟨[⟨"a_test.go", decls.map Decl.funcDecl⟩]⟩

/-- The declaration
`func TestBoth(t *testing.T) { t.Parallel(); t.Setenv("k", "v") }`. -/
def testBoth : FuncDecl :=
  mkFunc 10 "TestBoth" [testParam "t"] 40
    [.exprStmt (methodCall 42 "t" "Parallel" []),
     .exprStmt (methodCall 56 "t" "Setenv" [basicLit, basicLit])]

mutual
/-- Whether some call expression in the subtree of a node satisfies `p`. -/
def Node.anyCall (p : Node → Bool) : Node → Bool
  | .ident _ => false
  | .selectorExpr x _ => x.anyCall p
  | .starExpr x => x.anyCall p
  | .callExpr pos func args =>
    p (.callExpr pos func args) || func.anyCall p || anyCallList p args
  | .field _ type => type.anyCall p
  | .funcLit _ params results _ body =>
    anyCallList p params || anyCallList p results || anyCallList p body
  | .exprStmt x => x.anyCall p
  | .deferStmt _ call => call.anyCall p
  | .returnStmt results => anyCallList p results
  | .rangeStmt header _ body => anyCallList p header || anyCallList p body
  | .other children => anyCallList p children
/-- Whether some call expression in the subtrees of a list of nodes satisfies `p`. -/
def anyCallList (p : Node → Bool) : List Node → Bool
  | [] => false
  | n :: ns => n.anyCall p || anyCallList p ns
end

/-- Whether some call expression anywhere in a declaration satisfies `p`. -/
def FuncDecl.anyCall (p : Node → Bool) (funcDecl : FuncDecl) : Bool :=
  anyCallList p (funcDecl.recv ++ funcDecl.params ++ funcDecl.results ++ funcDecl.body)

/-- The declaration
`func TestSub(t *testing.T) { t.Run("a", func(x *testing.T) { x.Parallel() }) }`. -/
def testSub : FuncDecl :=
  mkFunc 10 "TestSub" [testParam "t"] 40
    [.exprStmt (methodCall 42 "t" "Run"
      [basicLit, testLit 53 "x" 72 [.exprStmt (methodCall 74 "x" "Parallel" [])]])]

/-- The declaration `func TestFunctionMissingCallToParallel(t *testing.T) {}` of
`testdata/src/t/t_test.go`. -/
def testFunctionMissingCallToParallel : FuncDecl :=
  mkFunc 10 "TestFunctionMissingCallToParallel" [testParam "t"] 60 []

/-- The result of a walk that started from fresh facts, merged into the facts `acc` the
walk was really given. -/
def mergeInto (acc : TestAnalysis) (r : State × TestAnalysis) : State × TestAnalysis :=
  (r.1, acc.merge r.2)

/-- The walk `visitExprStmt` from the first node hands the second node, a call
expression, to `analyzeCallExpr`: the call is met outside every other call expression,
or it is, at any depth, a direct call-expression argument of such a call. -/
inductive Visits : Node → Node → Prop where
  | here (c : Node) : c.isCallExpr = true → Visits c c
  | child (n child c : Node) : n.isCallExpr = false → child ∈ n.children → Visits child c →
      Visits n c
  | arg (n arg c : Node) : n.isCallExpr = true → arg ∈ n.args → arg.isCallExpr = true →
      Visits arg c → Visits n c

/-- The flags of the first facts are flags of the second. -/
def FactsLe (d x : TestAnalysis) : Prop :=
  (d.hasParallel = true → x.hasParallel = true) ∧
  (d.cantParallel = true → x.cantParallel = true)

/-- A walk that started in state `st` and ended with `r` has applied the two analyses of
`analyzeCallExpr` to the call `c`: `analyzeTestRun` in some state `sa` reached from `st`,
with result `(sb, dRun)`, then `analyzeFunctionCall` in `sb`, with result `(sc, dCall)`,
and `r` was reached from `sc`; the flags the call sets by itself and the flags of both
results are flags of the final facts. -/
def Reached (a : ParallelAnalyzer) (pass : Pass) (st : State) (c : Node) (tv : String)
    (r : State × TestAnalysis) : Prop :=
  ∃ fuel sa sb sc dRun dCall,
    Ext (CoreFormat a) st sa ∧
    analyzeTestRun a pass fuel sa c tv = some (sb, dRun) ∧
    analyzeFunctionCall a pass fuel sb c = some (sc, dCall) ∧
    Ext (CoreFormat a) sc r.1 ∧
    FactsLe (TestAnalysis.empty.flags c tv) r.2 ∧ FactsLe dRun r.2 ∧ FactsLe dCall r.2

/-- The state grows and the flags stay: what relates the pairs of state and facts
before and after any part of a walk. -/
def WalkLe (a : ParallelAnalyzer) (s t : State × TestAnalysis) : Prop :=
  Ext (CoreFormat a) s.1 t.1 ∧ FactsLe s.2 t.2 ∧
    t.2.funcHasDeferStatement = s.2.funcHasDeferStatement ∧
    t.2.deferStatements = s.2.deferStatements

/-- The statement loop of `analyzeFunctionF`: the walk of a body that is not in the
cache, for the test parameter `testVar`, from fresh facts. -/
def walkBody (a : ParallelAnalyzer) (pass : Pass) (fuel : Nat) (st : State) (testVar : String)
    (body : List Node) : Option (State × TestAnalysis) :=
  body.foldlM
    (fun (r : State × TestAnalysis) (l : Node) =>
      if l.isDeferStmt then some (r.1, r.2.addDefer a l)
      else visitExprStmt a pass fuel r.1 r.2 testVar l)
    (st, TestAnalysis.empty)

/-- The node of a sub-test invocation at which its diagnostic is reported: the literal,
or the invocation. -/
def RunTarget.pos (callExpr : Node) : RunTarget → Nat
  | .lit pos _ _ _ => pos
  | _ => callExpr.pos

/-- The name a sub-test diagnostic gives the function. -/
def RunTarget.label : RunTarget → String
  | .lit _ _ _ _ => "literal"
  | .named name _ => name
  | .builder name _ => name
  | .unresolved => ""

/-- The analysis `analyzeTestRun` makes of the function handed to `Run`: the state after
it and the facts the sub-test diagnostic is decided on (for a builder, the merged facts
of the literals it returns). -/
def analyzeTarget (a : ParallelAnalyzer) (pass : Pass) (fuel : Nat) (st : State) :
    RunTarget → Option (State × TestAnalysis)
  | .lit _ params lbrace body =>
    (analyzeFunctionF a pass fuel st params lbrace body).bind fun q => some (q.1, q.2.val)
  | .named _ funcDecl =>
    (analyzeFunctionF a pass fuel st funcDecl.params funcDecl.lbrace funcDecl.body).bind
      fun q => some (q.1, q.2.val)
  | .builder _ funcDecl =>
    (analyzeBuilderCall a pass fuel st funcDecl).bind fun q => some (q.1, q.2.2)
  | .unresolved => none

/-- The declaration
`func b(t *testing.T) func(*testing.T) { t.Run("x", func(t *testing.T) {}); return func(t *testing.T) { t.Parallel() } }`. -/
def builderWithRun : FuncDecl :=
  mkFunc 10 "b" [testParam "t"] 50
    [.exprStmt (methodCall 52 "t" "Run" [basicLit, testLit 63 "t" 82 []]),
     .returnStmt [testLit 95 "t" 114 [.exprStmt (methodCall 116 "t" "Parallel" [])]]]

/-- The declaration
`func TestUsesBuilder(t *testing.T) { t.Parallel(); t.Run("y", b(t)) }`. -/
def testUsesBuilder : FuncDecl :=
  mkFunc 140 "TestUsesBuilder" [testParam "t"] 175
    [.exprStmt (methodCall 177 "t" "Parallel" []),
     .exprStmt (methodCall 191 "t" "Run" [basicLit, funcCall 202 "b" [.ident "t"]])]

/-- The invocation `t.Run("1", func(t *testing.T) { fmt.Println("1") })`. -/
def runPrintln : Node :=
  methodCall 20 "t" "Run"
    [basicLit, testLit 31 "t" 50 [.exprStmt (methodCall 52 "fmt" "Println" [basicLit])]]

/-- The diagnostic `analyzeTestFunction` reports at a declaration, if any. -/
def topLevelDiagnostics (a : ParallelAnalyzer) (analysis : TestAnalysis) (funcDecl : FuncDecl) :
    List Diagnostic :=
  if !a.ignoreMissing && !analysis.hasParallel && !analysis.cantParallel then
    [⟨funcDecl.pos, .missingParallel, funcDecl.name⟩]
  else []

/-- The declaration `TestFunctionSetenvChildrenCanBeParallel` of
`testdata/src/t/setenv_test.go`, with one of its two sub-tests:
`func TestFunctionSetenvChildrenCanBeParallel(t *testing.T) { t.Setenv("foo", "bar"); t.Run("1", func(t *testing.T) { fmt.Println("1") }) }`. -/
def testFunctionSetenvChildrenCanBeParallel : FuncDecl :=
  mkFunc 10 "TestFunctionSetenvChildrenCanBeParallel" [testParam "t"] 60
    [.exprStmt (methodCall 62 "t" "Setenv" [basicLit, basicLit]),
     .exprStmt (methodCall 90 "t" "Run"
       [basicLit, testLit 101 "t" 120 [.exprStmt (methodCall 122 "fmt" "Println" [basicLit])]])]

/-- The invocation `t.Run(tc.name, func(t *testing.T) { t.Setenv("foo", "bar") })`. -/
def setenvRangeRun : Node :=
  methodCall 92 "t" "Run"
    [.selectorExpr (.ident "tc") "name",
     testLit 108 "t" 127 [.exprStmt (methodCall 129 "t" "Setenv" [basicLit, basicLit])]]

/-- The loop `for _, tc := range testCases { t.Run(...) }` around `setenvRangeRun`. -/
def setenvRangeLoop : Node :=
  .rangeStmt [.ident "_", .ident "tc", .ident "testCases"] 90 [.exprStmt setenvRangeRun]

/-- The declaration `TestFunctionWithSetenvRange` of `testdata/src/t/setenv_test.go`:
`func TestFunctionWithSetenvRange(t *testing.T) { testCases := ...; for _, tc := range testCases { t.Run(tc.name, func(t *testing.T) { t.Setenv("foo", "bar") }) } }`. -/
def testFunctionWithSetenvRange : FuncDecl :=
  mkFunc 10 "TestFunctionWithSetenvRange" [testParam "t"] 50
    [.other [.ident "testCases", .other []], setenvRangeLoop]

/-- The defer warnings of a function named `name` at the given statements, in order. -/
def deferWarnings (name : String) (stmts : List Node) : List Diagnostic :=
  stmts.map fun deferStmt => ⟨deferStmt.pos, .deferWithParallel, name⟩

/-- The declaration
`func TestA(t *testing.T) { t.Parallel(); defer f(); t.Run("x", func(t *testing.T) { t.Parallel() }) }`. -/
def testWithDefer : FuncDecl :=
  mkFunc 10 "TestA" [testParam "t"] 35
    [.exprStmt (methodCall 37 "t" "Parallel" []),
     .deferStmt 51 (funcCall 57 "f" []),
     .exprStmt (methodCall 62 "t" "Run"
       [basicLit, testLit 73 "t" 92 [.exprStmt (methodCall 94 "t" "Parallel" [])]])]

/-- The declaration `func TestB(t *testing.T) { t.Parallel(); t.Run("a", TestA) }`. -/
def testRunsTestA : FuncDecl :=
  mkFunc 120 "TestB" [testParam "t"] 145
    [.exprStmt (methodCall 147 "t" "Parallel" []),
     .exprStmt (methodCall 161 "t" "Run" [basicLit, .ident "TestA"])]

/-- The declaration `TestWithMultipleDefersAndParallel` of
`testdata/src/cleanup/cleanup_test.go`:
`func TestWithMultipleDefersAndParallel(t *testing.T) { t.Parallel(); defer fmt.Println("cleanup 1"); defer fmt.Println("cleanup 2"); defer fmt.Println("cleanup 3"); fmt.Println("test") }`. -/
def testWithMultipleDefersAndParallel : FuncDecl :=
  mkFunc 10 "TestWithMultipleDefersAndParallel" [testParam "t"] 62
    [.exprStmt (methodCall 65 "t" "Parallel" []),
     .deferStmt 80 (methodCall 86 "fmt" "Println" [basicLit]),
     .deferStmt 112 (methodCall 118 "fmt" "Println" [basicLit]),
     .deferStmt 144 (methodCall 150 "fmt" "Println" [basicLit]),
     .exprStmt (methodCall 177 "fmt" "Println" [basicLit])]

/-- Two optional results are both absent, or both present and related. -/
def OptRel {α β : Type} (R : α → β → Prop) : Option α → Option β → Prop
  | none, none => True
  | some x, some y => R x y
  | _, _ => False

/-- A simulation between two analyzers `a` and `a'` on the same package: a relation `RS`
between their states and a relation `RF` between their facts that every primitive step
of the analysis keeps. -/
structure Sim (a a' : ParallelAnalyzer) (RS : State → State → Prop)
    (RF : TestAnalysis → TestAnalysis → Prop) : Prop where
  lookup : ∀ s s' hash, RS s s' → OptRel RF (s.getAnalysis hash) (s'.getAnalysis hash)
  cache : ∀ s s' hash x y, RS s s' → RF x y →
    RS (s.cacheAnalysis hash x) (s'.cacheAnalysis hash y)
  defer : ∀ s s' x y name, RS s s' → RF x y →
    RS (reportDefer a s x name) (reportDefer a' s' y name)
  subtest : ∀ s s' x y pos name, RS s s' → RF x y →
    RS (reportParallelSubtest a s x pos name) (reportParallelSubtest a' s' y pos name)
  empty : RF TestAnalysis.empty TestAnalysis.empty
  merge : ∀ x y u v, RF x y → RF u v → RF (x.merge u) (y.merge v)
  flags : ∀ x y c tv, RF x y → RF (x.flags c tv) (y.flags c tv)
  incr : ∀ x y, RF x y → RF x.incr y.incr
  addDefer : ∀ x y l, RF x y → RF (x.addDefer a l) (y.addDefer a' l)

/-- The relation of a simulation on results `(state, facts)`. -/
def SimFacts (RS : State → State → Prop) (RF : TestAnalysis → TestAnalysis → Prop)
    (r r' : State × TestAnalysis) : Prop :=
  RS r.1 r'.1 ∧ RF r.2 r'.2

/-- The relation of a simulation on results `(state, pointer)`. -/
def SimRef (RS : State → State → Prop) (RF : TestAnalysis → TestAnalysis → Prop)
    (r r' : State × Ref) : Prop :=
  RS r.1 r'.1 ∧ r.2.key = r'.2.key ∧ RF r.2.val r'.2.val

/-- The relation of a simulation on results `(state, parent facts, builder facts)`. -/
def SimPair (RS : State → State → Prop) (RF : TestAnalysis → TestAnalysis → Prop)
    (r r' : State × TestAnalysis × TestAnalysis) : Prop :=
  RS r.1 r'.1 ∧ RF r.2.1 r'.2.1 ∧ RF r.2.2 r'.2.2

/-- The seven statements of `core_sim`, at one bound. -/
def CoreSim (a a' : ParallelAnalyzer) (pass : Pass) (RS : State → State → Prop)
    (RF : TestAnalysis → TestAnalysis → Prop) (fuel : Nat) : Prop :=
  (∀ st st' c tv, RS st st' →
    OptRel (SimFacts RS RF) (analyzeTestRun a pass fuel st c tv)
      (analyzeTestRun a' pass fuel st' c tv)) ∧
  (∀ st st' c, RS st st' →
    OptRel (SimFacts RS RF) (analyzeFunctionCall a pass fuel st c)
      (analyzeFunctionCall a' pass fuel st' c)) ∧
  (∀ st st' acc acc' tv n, RS st st' → RF acc acc' →
    OptRel (SimFacts RS RF) (visitExprStmt a pass fuel st acc tv n)
      (visitExprStmt a' pass fuel st' acc' tv n)) ∧
  (∀ st st' acc acc' tv c, RS st st' → RF acc acc' →
    OptRel (SimFacts RS RF) (analyzeCallExpr a pass fuel st acc tv c)
      (analyzeCallExpr a' pass fuel st' acc' tv c)) ∧
  (∀ st st' params lbrace body, RS st st' →
    OptRel (SimRef RS RF) (analyzeFunctionF a pass fuel st params lbrace body)
      (analyzeFunctionF a' pass fuel st' params lbrace body)) ∧
  (∀ st st' facts facts' tv n, SimPair RS RF (st, facts) (st', facts') →
    OptRel (SimPair RS RF) (inspectBuilder a pass fuel st facts tv n)
      (inspectBuilder a' pass fuel st' facts' tv n)) ∧
  (∀ st st' fd, RS st st' →
    OptRel (SimPair RS RF) (analyzeBuilderCall a pass fuel st fd)
      (analyzeBuilderCall a' pass fuel st' fd))

/-- The diagnostics a run may report under the options of `a`. -/
def RunFormat (a : ParallelAnalyzer) (d : Diagnostic) : Prop :=
  (d.format = .missingParallel → a.ignoreMissing = false) ∧
  (d.format = .missingParallelSubtest → a.ignoreMissing = false ∧ a.ignoreMissingSubtests = false) ∧
  (d.format = .deferWithParallel → a.checkCleanup = true)

/-- The reports that are not sub-test diagnostics, in order. -/
def nonSubtest (reports : List Diagnostic) : List Diagnostic :=
  reports.filter fun d => !decide (d.format = .missingParallelSubtest)

/-- Two states have the same cache and the same reports apart from sub-test
diagnostics. -/
def SameButSubtest (s s' : State) : Prop :=
  s.visited = s'.visited ∧ nonSubtest s.reports = nonSubtest s'.reports

/-- The package of `testFunctionSetenvChildrenCanBeParallel` and a test without any
call: `func TestEmpty(t *testing.T) {}`. -/
def optionsPass : Pass :=
  mkPass [testFunctionSetenvChildrenCanBeParallel, mkFunc 200 "TestEmpty" [testParam "t"] 230 []]

/-! ## The functions of a package -/

mutual
/-- The values `f` gives for a node and all nodes below it, in `ast.Inspect` order. -/
def Node.collect {α : Type} (f : Node → List α) : Node → List α
  | .ident name => f (.ident name)
  | .selectorExpr x sel => f (.selectorExpr x sel) ++ (x.collect f ++ f (.ident sel))
  | .starExpr x => f (.starExpr x) ++ x.collect f
  | .callExpr pos func args =>
    f (.callExpr pos func args) ++ (func.collect f ++ collectList f args)
  | .field names type =>
    f (.field names type) ++ ((names.map fun s => f (.ident s)).flatten ++ type.collect f)
  | .funcLit pos params results lbrace body =>
    f (.funcLit pos params results lbrace body) ++
      (collectList f params ++ (collectList f results ++ collectList f body))
  | .exprStmt x => f (.exprStmt x) ++ x.collect f
  | .deferStmt pos call => f (.deferStmt pos call) ++ call.collect f
  | .returnStmt results => f (.returnStmt results) ++ collectList f results
  | .rangeStmt header lbrace body =>
    f (.rangeStmt header lbrace body) ++ (collectList f header ++ collectList f body)
  | .other children => f (.other children) ++ collectList f children
/-- The values `f` gives for all nodes of a list of trees. -/
def collectList {α : Type} (f : Node → List α) : List Node → List α
  | [] => []
  | n :: ns => n.collect f ++ collectList f ns
end

mutual
/-- The call expressions the walk `visitExprStmt` from a node hands to `analyzeCallExpr`,
nested call-expression arguments included, in the order in which the flags of the calls
are set. -/
def Node.visited : Node → List Node
  | .callExpr pos func args => visitedArgs args ++ [.callExpr pos func args]
  | .ident _ => []
  | .selectorExpr x _ => x.visited
  | .starExpr x => x.visited
  | .field _ type => type.visited
  | .funcLit _ params results _ body =>
    visitedList params ++ (visitedList results ++ visitedList body)
  | .exprStmt x => x.visited
  | .deferStmt _ call => call.visited
  | .returnStmt results => visitedList results
  | .rangeStmt header _ body => visitedList header ++ visitedList body
  | .other children => visitedList children
/-- The calls handed on by the walks from the nodes of a list. -/
def visitedList : List Node → List Node
  | [] => []
  | n :: ns => n.visited ++ visitedList ns
/-- The calls handed on for the arguments of a call: those of the arguments that are
call expressions themselves. -/
def visitedArgs : List Node → List Node
  | [] => []
  | arg :: rest => (if arg.isCallExpr then arg.visited else []) ++ visitedArgs rest
end

/-- The second node lies in the subtree of the first. -/
inductive Sub : Node → Node → Prop where
  | here (n : Node) : Sub n n
  | child (n c x : Node) : c ∈ n.children → Sub c x → Sub n x

/-- What `analyzeFunctionF` is applied to: the parameter list of a function type and a
body block. -/
structure Func where
  params : List Node
  lbrace : Nat
  body : List Node

/-- The name of the test parameter of a function. -/
def Func.testVar (x : Func) : String := findTestParamName x.params

/-- The fingerprint of the body of a function. -/
def Func.hash (x : Func) : String := nodeHash x.lbrace x.body

/-- The function of a declaration. -/
def FuncDecl.toFunc (funcDecl : FuncDecl) : Func :=
  ⟨funcDecl.params, funcDecl.lbrace, funcDecl.body⟩

/-- The children of a declaration that `ast.Inspect` walks into. -/
def FuncDecl.nodes (funcDecl : FuncDecl) : List Node :=
  funcDecl.recv ++ funcDecl.params ++ funcDecl.results ++ funcDecl.body

/-- The function of a node that is a function literal. -/
def Node.ownFunc : Node → List Func
  | .funcLit _ params _ lbrace body => [⟨params, lbrace, body⟩]
  | _ => []

/-- The function declarations of a package, in order. -/
def Pass.funcDecls (pass : Pass) : List FuncDecl :=
  pass.files.flatMap File.funcDecls

/-- The functions of a package: every declaration and every function literal in it. -/
def Pass.functions (pass : Pass) : List Func :=
  pass.funcDecls.flatMap fun funcDecl =>
    funcDecl.toFunc :: collectList Node.ownFunc funcDecl.nodes

/-- A node of the syntax trees of a package. -/
def PassNode (pass : Pass) (n : Node) : Prop :=
  ∃ funcDecl ∈ pass.funcDecls, ∃ root ∈ funcDecl.nodes, Sub root n

/-- A function of a package: the function of a declaration or of a function literal. -/
def PassFn (pass : Pass) (x : Func) : Prop :=
  (∃ funcDecl ∈ pass.funcDecls, x = funcDecl.toFunc) ∨
  (∃ pos results, PassNode pass (.funcLit pos x.params results x.lbrace x.body))

/-- The body, walked for the test parameter `testVar`, visits outside its top-level defer
statements a call `testVar.Setenv(..)` or `testVar.Chdir(..)`. -/
def callsDisqualifier (testVar : String) (body : List Node) : Bool :=
  body.any fun stmt =>
    !stmt.isDeferStmt &&
      stmt.visited.any fun c => isSetenvCall c testVar || isChdirCall c testVar

/-- No other body of the package has the fingerprint of the body of `x`. -/
def Pass.uniqueHash (pass : Pass) (x : Func) : Bool :=
  decide ((pass.functions.filter fun y => y.hash == x.hash).length ≤ 1)

/-- The pointer a call of `analyzeFunctionF` returned is the cache entry of its key. -/
def RefOK (r : State × Ref) : Prop :=
  ∀ k, r.2.key = some k → r.1.getAnalysis k = some r.2.val

/-- A property `I` of the cache that every change the analyzer makes to the cache keeps:
the increment through a returned pointer, and the insertion of the facts `w.2` that the
walk of the body of a function of the package has computed. -/
structure CacheInv (a : ParallelAnalyzer) (pass : Pass) (I : State → Prop) : Prop where
  visited : ∀ s s', s.visited = s'.visited → I s → I s'
  store : ∀ s k v, I s → s.getAnalysis k = some v → I (s.cacheAnalysis k v.incr)
  cache : ∀ fuel s x w, PassFn pass x → x.testVar ≠ "" → s.getAnalysis x.hash = none → I s →
    walkBody a pass fuel s x.testVar x.body = some w → I w.1 →
    I (w.1.cacheAnalysis x.hash w.2)

/-- The seven statements of `core_inv`, at one bound. -/
def CoreInv (a : ParallelAnalyzer) (pass : Pass) (I : State → Prop) (fuel : Nat) : Prop :=
  (∀ st c tv r, PassNode pass c → I st → analyzeTestRun a pass fuel st c tv = some r → I r.1) ∧
  (∀ st c r, I st → analyzeFunctionCall a pass fuel st c = some r → I r.1) ∧
  (∀ st acc tv n r, PassNode pass n → I st →
    visitExprStmt a pass fuel st acc tv n = some r → I r.1) ∧
  (∀ st acc tv c r, PassNode pass c → I st →
    analyzeCallExpr a pass fuel st acc tv c = some r → I r.1) ∧
  (∀ st x r, PassFn pass x → I st →
    analyzeFunctionF a pass fuel st x.params x.lbrace x.body = some r → I r.1 ∧ RefOK r) ∧
  (∀ st facts tv n r, PassNode pass n → I st →
    inspectBuilder a pass fuel st facts tv n = some r → I r.1) ∧
  (∀ st fd r, fd ∈ pass.funcDecls → I st → analyzeBuilderCall a pass fuel st fd = some r → I r.1)

/-- As `Reached`, for a walk of nodes of the package from a state with the cache
property `I`: the two analyses of the visited call `c` were made in states with `I`. -/
def ReachedInv (a : ParallelAnalyzer) (pass : Pass) (I : State → Prop) (c : Node)
    (tv : String) (r : State × TestAnalysis) : Prop :=
  ∃ fuel sa sb sc dRun dCall,
    I sa ∧ PassNode pass c ∧
    analyzeTestRun a pass fuel sa c tv = some (sb, dRun) ∧ I sb ∧
    analyzeFunctionCall a pass fuel sb c = some (sc, dCall) ∧
    FactsLe (TestAnalysis.empty.flags c tv) r.2 ∧ FactsLe dRun r.2 ∧ FactsLe dCall r.2

/-- The cache is sound for direct disqualification: for every function of the package
that has a test parameter, whose body has a fingerprint of its own and calls `Setenv` or
`Chdir` on that parameter, the facts cached under the fingerprint have `cantParallel`.
The empty cache is sound, and the analyzer keeps the cache sound. -/
def DisqSound (pass : Pass) (st : State) : Prop :=
  ∀ x ∈ pass.functions, pass.uniqueHash x = true → x.testVar ≠ "" →
    callsDisqualifier x.testVar x.body = true →
    ∀ v, st.getAnalysis x.hash = some v → v.cantParallel = true

/-- The helper `func setEnvHelper(testT *testing.T) { testT.Setenv("foo", "bar") }`. -/
def setEnvHelper : FuncDecl :=
  mkFunc 10 "setEnvHelper" [testParam "testT"] 50
    [.exprStmt (methodCall 52 "testT" "Setenv" [basicLit, basicLit])]

/-- The declaration `TestFunctionWithHelperSetenv` of `testdata/src/t/setenv_test.go`:
`func TestFunctionWithHelperSetenv(t *testing.T) { setEnvHelper(t) }`. -/
def testFunctionWithHelperSetenv : FuncDecl :=
  mkFunc 90 "TestFunctionWithHelperSetenv" [testParam "t"] 140
    [.exprStmt (funcCall 142 "setEnvHelper" [.ident "t"])]

/-- The type test `n.(*ast.FuncLit)`. -/
def Node.isFuncLit : Node → Bool
  | .funcLit _ _ _ _ _ => true
  | _ => false

/-- The function literals among the result operands of a node that is a return
statement. -/
def Node.ownReturned : Node → List Node
  | .returnStmt results => results.filter Node.isFuncLit
  | _ => []

/-- The function literals that are result operands of the return statements of a
declaration, in `ast.Inspect` order. -/
def FuncDecl.returnedLits (funcDecl : FuncDecl) : List Node :=
  collectList Node.ownReturned funcDecl.nodes

/-- The node kinds whose subtree `analyzeBuilderCall` walks with `visitExprStmt`:
expression statements and range statements. -/
def Node.isBuilderStmt : Node → Bool
  | .exprStmt _ => true
  | .rangeStmt _ _ _ => true
  | _ => false

/-- The relation between the state and the parent facts before and after a part of the
walk of `analyzeBuilderCall`. -/
def PairLe (a : ParallelAnalyzer) (s t : State × TestAnalysis × TestAnalysis) : Prop :=
  Ext (CoreFormat a) s.1 t.1 ∧ FactsLe s.2.1 t.2.1

/-- The helper `func setEnvHelper(t *testing.T) { t.Setenv("foo", "bar") }` of
`testdata/src/t/setenv_test.go`. -/
def setEnvHelperT : FuncDecl :=
  mkFunc 10 "setEnvHelper" [testParam "t"] 46
    [.exprStmt (methodCall 48 "t" "Setenv" [basicLit, basicLit])]

/-- The builder `builderWithSetenvHelper` of `testdata/src/t/setenv_test.go`:
`func builderWithSetenvHelper(t *testing.T) func(t *testing.T) { setEnvHelper(t); return func(t *testing.T) { t.Parallel() } }`. -/
def builderWithSetenvHelper : FuncDecl :=
  ⟨80, [], "builderWithSetenvHelper", [testParam "t"], [.field [] (.other [testingT])], 140,
    [.exprStmt (funcCall 142 "setEnvHelper" [.ident "t"]),
     .returnStmt [testLit 167 "t" 186 [.exprStmt (methodCall 188 "t" "Parallel" [])]]]⟩

/-- The invocation `t.Run("1", builderWithSetenvHelper(t))`. -/
def runBuilderWithSetenvHelper : Node :=
  methodCall 262 "t" "Run" [basicLit, funcCall 273 "builderWithSetenvHelper" [.ident "t"]]

/-- The declaration `TestFunctionWithBuilderHelperSetenv` of
`testdata/src/t/setenv_test.go`:
`func TestFunctionWithBuilderHelperSetenv(t *testing.T) { t.Run("1", builderWithSetenvHelper(t)) }`. -/
def testFunctionWithBuilderHelperSetenv : FuncDecl :=
  mkFunc 210 "TestFunctionWithBuilderHelperSetenv" [testParam "t"] 260
    [.exprStmt runBuilderWithSetenvHelper]

/-- The package of the three declarations above. -/
def builderPass : Pass :=
  mkPass [setEnvHelperT, builderWithSetenvHelper, testFunctionWithBuilderHelperSetenv]

/-- The seven statements of `fuel_mono`, at one bound: a result at the bound `fuel` is
the result at the bound `fuel + 1`. -/
def FuelMono (a : ParallelAnalyzer) (pass : Pass) (fuel : Nat) : Prop :=
  (∀ st c tv r, analyzeTestRun a pass fuel st c tv = some r →
    analyzeTestRun a pass (fuel + 1) st c tv = some r) ∧
  (∀ st c r, analyzeFunctionCall a pass fuel st c = some r →
    analyzeFunctionCall a pass (fuel + 1) st c = some r) ∧
  (∀ st acc tv n r, visitExprStmt a pass fuel st acc tv n = some r →
    visitExprStmt a pass (fuel + 1) st acc tv n = some r) ∧
  (∀ st acc tv c r, analyzeCallExpr a pass fuel st acc tv c = some r →
    analyzeCallExpr a pass (fuel + 1) st acc tv c = some r) ∧
  (∀ st params lbrace body r, analyzeFunctionF a pass fuel st params lbrace body = some r →
    analyzeFunctionF a pass (fuel + 1) st params lbrace body = some r) ∧
  (∀ st facts tv n r, inspectBuilder a pass fuel st facts tv n = some r →
    inspectBuilder a pass (fuel + 1) st facts tv n = some r) ∧
  (∀ st fd r, analyzeBuilderCall a pass fuel st fd = some r →
    analyzeBuilderCall a pass (fuel + 1) st fd = some r)

/-- The body of `x` visits, outside its top-level defer statements, a call whose name
resolves to a package-level function with a test parameter whose body has a fingerprint
of its own and calls `Setenv` or `Chdir` on that parameter. -/
def CallsDisqHelper (pass : Pass) (x : Func) : Prop :=
  ∃ stmt ∈ x.body, stmt.isDeferStmt = false ∧ ∃ c h, Visits stmt c ∧
    findFunction pass (getCallName c) = some h ∧ findTestParamName h.params ≠ "" ∧
    pass.uniqueHash h.toFunc = true ∧
    callsDisqualifier (findTestParamName h.params) h.body = true

/-- The cache is sound for disqualification through a helper: it is sound for direct
disqualification, and for every function of the package with a test parameter, whose
body has a fingerprint of its own and calls a directly disqualified helper, the facts
cached under the fingerprint have `cantParallel`. -/
def HelperSound (pass : Pass) (st : State) : Prop :=
  DisqSound pass st ∧
  ∀ x ∈ pass.functions, pass.uniqueHash x = true → x.testVar ≠ "" → CallsDisqHelper pass x →
    ∀ v, st.getAnalysis x.hash = some v → v.cantParallel = true

/-- The defer fields the analysis gives a body: under `checkCleanup` the top-level defer
statements in order, and nothing otherwise. -/
def DeferFields (a : ParallelAnalyzer) (body : List Node) (v : TestAnalysis) : Prop :=
  v.deferStatements = (if a.checkCleanup then body.filter Node.isDeferStmt else []) ∧
  v.funcHasDeferStatement = (a.checkCleanup && body.any Node.isDeferStmt)

/-- The cache is sound for the defer fields: for every function of the package with a
test parameter whose body has a fingerprint of its own, the facts cached under the
fingerprint have the defer fields of the body. -/
def DeferSound (a : ParallelAnalyzer) (pass : Pass) (st : State) : Prop :=
  ∀ x ∈ pass.functions, pass.uniqueHash x = true → x.testVar ≠ "" →
    ∀ v, st.getAnalysis x.hash = some v → DeferFields a x.body v

/-- The package `skip` of `testdata/src/skip/extra_sigs_test.go`:
`func ExtraSigs() {}`, `type Obj struct {}`, `func (o Obj) ExtraSigs() {}`,
`func TestSkipExtraSigsFunction(t *testing.T) { ExtraSigs() }`,
`func TestSkipExtraSigsMethod(t *testing.T) { Obj{}.ExtraSigs() }` and
`func TestSkipNoExtraSigs(t *testing.T) {}`. -/
def skipPass : Pass :=
  ⟨[⟨"extra_sigs_test.go",
    [.genDecl,
     .funcDecl (mkFunc 33 "ExtraSigs" [] 50 []),
     .genDecl,
     .funcDecl ⟨76, [.field ["o"] (.ident "Obj")], "ExtraSigs", [], [], 101, []⟩,
     .funcDecl (mkFunc 105 "TestSkipExtraSigsFunction" [testParam "t"] 150
       [.exprStmt (funcCall 153 "ExtraSigs" [])]),
     .funcDecl (mkFunc 168 "TestSkipExtraSigsMethod" [testParam "t"] 211
       [.exprStmt (.callExpr 214 (.selectorExpr (.other [.ident "Obj"]) "ExtraSigs") [])]),
     .funcDecl (mkFunc 235 "TestSkipNoExtraSigs" [testParam "t"] 274 [])]⟩]⟩

/-- A call that leaves the facts of a walk for the test parameter `testVar` as they are:
it is no call of `Parallel`, `Setenv`, `Chdir` or `Run` on `testVar`, and its name
resolves to no declaration of the package that has a test parameter. -/
def inertCall (pass : Pass) (testVar : String) (c : Node) : Bool :=
  !isParallelCall c testVar && !isSetenvCall c testVar && !isChdirCall c testVar &&
    !isTestRunCall c testVar &&
    match findFunction pass (getCallName c) with
    | none => true
    | some h => findTestParamName h.params == ""

/-- From the bound `f0` on, the walk `visitExprStmt` from `n` returns with the state and
the facts it was given. -/
def InertNode (a : ParallelAnalyzer) (pass : Pass) (tv : String) (f0 : Nat) (n : Node) : Prop :=
  ∀ fuel, f0 ≤ fuel → ∀ st acc, visitExprStmt a pass fuel st acc tv n = some (st, acc)

/-- From the bound `f0` on, the walks from the nodes of a list return with the state and
the facts they were given. -/
def InertList (a : ParallelAnalyzer) (pass : Pass) (tv : String) (f0 : Nat) (ns : List Node) :
    Prop :=
  ∀ fuel, f0 ≤ fuel → ∀ st acc,
    ns.foldlM
      (fun (r : State × TestAnalysis) (child : Node) => visitExprStmt a pass fuel r.1 r.2 tv child)
      (st, acc) = some (st, acc)

/-- From the bound `f0` on, the argument loop of `analyzeCallExpr` over a list of arguments
returns with the state and the facts it was given. -/
def InertArgs (a : ParallelAnalyzer) (pass : Pass) (tv : String) (f0 : Nat) (args : List Node) :
    Prop :=
  ∀ fuel, f0 ≤ fuel → ∀ st acc,
    args.foldlM
      (fun (r : State × TestAnalysis) (arg : Node) =>
        if arg.isCallExpr then analyzeCallExpr a pass fuel r.1 r.2 tv arg else some r)
      (st, acc) = some (st, acc)

/-- A look-alike for the test parameter `testVar`: a call `other.m(..)` of a method on an
identifier other than `testVar`. -/
def isLookalike (testVar : String) : Node → Bool
  | .callExpr _ (.selectorExpr (.ident other) _) _ => other != testVar
  | _ => false

/-- The name of a call resolves to no declaration of the package that has a test
parameter. -/
def resolvesToNoHelper (pass : Pass) (c : Node) : Bool :=
  match findFunction pass (getCallName c) with
  | none => true
  | some h => findTestParamName h.params == ""

/-- Every call the walk of the body visits outside the top-level defer statements is a
look-alike for `testVar` whose name resolves to no declaration with a test parameter. -/
def onlyLookalikes (pass : Pass) (testVar : String) (body : List Node) : Bool :=
  body.all fun stmt =>
    stmt.isDeferStmt ||
      stmt.visited.all fun c => isLookalike testVar c && resolvesToNoHelper pass c

/-- The declaration `func Run(t *testing.T) { t.Parallel() }`. -/
def runHelper : FuncDecl :=
  mkFunc 10 "Run" [testParam "t"] 35 [.exprStmt (methodCall 37 "t" "Parallel" [])]

/-- The declaration `func TestLookalike(t *testing.T) { other.Run(1, 1) }`, where `other`
is a variable of the package whose type has a method `Run`. -/
def testLookalike : FuncDecl :=
  mkFunc 60 "TestLookalike" [testParam "t"] 95
    [.exprStmt (methodCall 97 "other" "Run" [basicLit, basicLit])]

/-- The declaration `TestFunctionWithParallelLookalike` of `testdata/src/t/t_test.go`:
`func TestFunctionWithParallelLookalike(t *testing.T) { var other notATest; other.Parallel() }`. -/
def testFunctionWithParallelLookalike : FuncDecl :=
  mkFunc 200 "TestFunctionWithParallelLookalike" [testParam "t"] 252
    [.other [.other [.other [.ident "other", .ident "notATest"]]],
     .exprStmt (methodCall 278 "other" "Parallel" [])]

/-- The declaration `TestFunctionWithOtherTestingVar` of `testdata/src/t/t_test.go`:
`func TestFunctionWithOtherTestingVar(q *testing.T) { q.Parallel() }`. -/
def testFunctionWithOtherTestingVar : FuncDecl :=
  mkFunc 300 "TestFunctionWithOtherTestingVar" [testParam "q"] 350
    [.exprStmt (methodCall 353 "q" "Parallel" [])]

/-- The look-alike declarations of `testdata/src/t/t_test.go`: the type `notATest`, its
methods `Run`, `Parallel`, `Setenv` and `Chdir`, and the two tests above. -/
def lookalikePass : Pass :=
  ⟨[⟨"t_test.go",
    [.genDecl,
     .funcDecl ⟨20, [.field [] (.ident "notATest")], "Run",
       [.field ["args"] (.other [.other []])], [], 60, []⟩,
     .funcDecl ⟨70, [.field [] (.ident "notATest")], "Parallel", [], [], 100, []⟩,
     .funcDecl ⟨110, [.field [] (.ident "notATest")], "Setenv",
       [.field ["_", "_"] (.ident "string")], [], 145, []⟩,
     .funcDecl ⟨150, [.field [] (.ident "notATest")], "Chdir",
       [.field ["_"] (.ident "string")], [], 185, []⟩,
     .funcDecl testFunctionWithParallelLookalike,
     .funcDecl testFunctionWithOtherTestingVar]⟩]⟩

/-- The number of parameters a parameter list declares: a field declares one parameter
for each of its names, and one parameter when it has no name. -/
def numParams (params : List Node) : Nat :=
  (params.map fun p =>
    match p with
    | .field names _ => max 1 names.length
    | _ => 1).sum

/-- The declaration `func TestX(*testing.T) {}`. -/
def testUnnamedParam : FuncDecl := mkFunc 10 "TestX" [.field [] testingT] 30 []

/-- The declaration `func TestX(a, b *testing.T) {}`. -/
def testGroupedParams : FuncDecl := mkFunc 10 "TestX" [.field ["a", "b"] testingT] 36 []

/-- The package of the method `func (o Obj) Setup(t *testing.T) {}` followed by the
function `func Setup(t *testing.T) { t.Setenv("k", "v") }`. -/
def methodFirstPass : Pass :=
  mkPass
    [⟨10, [.field ["o"] (.ident "Obj")], "Setup", [testParam "t"], [], 50, []⟩,
     mkFunc 60 "Setup" [testParam "t"] 90
       [.exprStmt (methodCall 92 "t" "Setenv" [basicLit, basicLit])]]

/-- The helper `func h(t *testing.T) { h(t) }`, which calls itself. -/
def recHelper : FuncDecl :=
  mkFunc 10 "h" [testParam "t"] 32 [.exprStmt (funcCall 34 "h" [.ident "t"])]

/-- The declaration `func TestCallsRec(t *testing.T) { h(t) }`. -/
def testCallsRec : FuncDecl :=
  mkFunc 50 "TestCallsRec" [testParam "t"] 85 [.exprStmt (funcCall 87 "h" [.ident "t"])]

/-- The package of `recHelper` and `testCallsRec`. -/
def recPass : Pass := mkPass [recHelper, testCallsRec]

/-- The declaration `func foo(t *testing.T) {}`. -/
def fooHelper : FuncDecl := mkFunc 10 "foo" [testParam "t"] 34 []

/-- The invocation `t.Run("1", foo)`. -/
def runFooFirst : Node := methodCall 72 "t" "Run" [basicLit, .ident "foo"]

/-- The invocation `t.Run("2", foo)`. -/
def runFooSecond : Node := methodCall 92 "t" "Run" [basicLit, .ident "foo"]

/-- The declaration `func TestTwice(t *testing.T) { t.Run("1", foo); t.Run("2", foo) }`. -/
def testTwice : FuncDecl :=
  mkFunc 40 "TestTwice" [testParam "t"] 70 [.exprStmt runFooFirst, .exprStmt runFooSecond]

/-- The package of `fooHelper` and `testTwice`. -/
def twicePass : Pass := mkPass [fooHelper, testTwice]

/-- The type test `n.(*ast.Ident)`. -/
def Node.isIdent : Node → Bool
  | .ident _ => true
  | _ => false

/-- The defer-field invariant of facts under the options of `a`:
`funcHasDeferStatement` is set exactly when defer statements are recorded, and without
`checkCleanup` it is not set and none is recorded. -/
def DeferOK (a : ParallelAnalyzer) (v : TestAnalysis) : Prop :=
  (v.funcHasDeferStatement = true ↔ v.deferStatements ≠ []) ∧
  (a.checkCleanup = false → v.funcHasDeferStatement = false ∧ v.deferStatements = [])

/-- Every facts value in the cache satisfies the defer-field invariant. -/
def CacheDeferOK (a : ParallelAnalyzer) (st : State) : Prop :=
  ∀ k v, st.getAnalysis k = some v → DeferOK a v

/-- The declaration
`func TestMissingBoth(t *testing.T) { t.Run("a", func(t *testing.T) {}) }`. -/
def testMissingBoth : FuncDecl :=
  mkFunc 10 "TestMissingBoth" [testParam "t"] 45
    [.exprStmt (methodCall 47 "t" "Run" [basicLit, testLit 58 "t" 77 []])]

/-- The flags and the count of facts: what `merge` combines. -/
def TestAnalysis.core (v : TestAnalysis) : Bool × Bool × Nat :=
  (v.hasParallel, v.cantParallel, v.numberOfTestRun)

/-- The declaration
`func TestDefers(t *testing.T) { t.Parallel(); defer t.Setenv("k", "v"); if c { defer f() }; t.Run("a", func(t *testing.T) { t.Parallel() }) }`. -/
def testDefers : FuncDecl :=
  mkFunc 10 "TestDefers" [testParam "t"] 40
    [.exprStmt (methodCall 42 "t" "Parallel" []),
     .deferStmt 56 (methodCall 62 "t" "Setenv" [basicLit, basicLit]),
     .other [.ident "c", .other [.deferStmt 90 (funcCall 96 "f" [])]],
     .exprStmt (methodCall 104 "t" "Run"
       [basicLit, testLit 115 "t" 134 [.exprStmt (methodCall 136 "t" "Parallel" [])]])]

/-- The helper `func nestedHelper1(t *testing.T) { fmt.Println("nested1") }` of
`testdata/src/t/t_test.go`. -/
def nestedHelper1 : FuncDecl :=
  mkFunc 10 "nestedHelper1" [testParam "t"] 45
    [.exprStmt (methodCall 47 "fmt" "Println" [basicLit])]

/-- The helper `func nestedParallel(t *testing.T) *testing.T { t.Parallel(); return t }`
of `testdata/src/t/t_test.go`. -/
def nestedParallel : FuncDecl :=
  ⟨70, [], "nestedParallel", [testParam "t"], [.field [] testingT], 115,
    [.exprStmt (methodCall 117 "t" "Parallel" []), .returnStmt [.ident "t"]]⟩

/-- The call `nestedParallel(t)`. -/
def nestedParallelCall : Node := funcCall 206 "nestedParallel" [.ident "t"]

/-- The call `nestedHelper1(nestedParallel(t))`. -/
def nestedHelperCall : Node := funcCall 192 "nestedHelper1" [nestedParallelCall]

/-- The declaration `TestNestedFunctionWithParallel` of `testdata/src/t/t_test.go`:
`func TestNestedFunctionWithParallel(t *testing.T) { nestedHelper1(nestedParallel(t)) }`. -/
def testNestedFunctionWithParallel : FuncDecl :=
  mkFunc 140 "TestNestedFunctionWithParallel" [testParam "t"] 190 [.exprStmt nestedHelperCall]

/-- The package of the three declarations above. -/
def nestedPass : Pass :=
  mkPass [nestedHelper1, nestedParallel, testNestedFunctionWithParallel]

/-- Two calls agree in everything `analyzeCallExpr` reads of a call for the test
parameter `tv`: the resolved name, the four receiver predicates, the direct arguments
that are call expressions and, for a sub-test invocation `tv.Run`, the position and the
second argument. -/
def SameView (tv : String) (c c' : Node) : Prop :=
  getCallName c = getCallName c' ∧
  isParallelCall c tv = isParallelCall c' tv ∧
  isSetenvCall c tv = isSetenvCall c' tv ∧
  isChdirCall c tv = isChdirCall c' tv ∧
  isTestRunCall c tv = isTestRunCall c' tv ∧
  c.args.filter Node.isCallExpr = c'.args.filter Node.isCallExpr ∧
  (isTestRunCall c tv = true → c.pos = c'.pos ∧ c.args.get? 1 = c'.args.get? 1)

/-- The statement `t.Cleanup(func() { t.Setenv("k", "v") })`. -/
def cleanupWithSetenv : Node :=
  methodCall 42 "t" "Cleanup"
    [.funcLit 52 [] [] 59 [.exprStmt (methodCall 61 "t" "Setenv" [basicLit, basicLit])]]

/-- The sub-test invocation `t.Run("x", func(t *testing.T) {})`. -/
def hiddenRun : Node := methodCall 100 "t" "Run" [basicLit, testLit 111 "t" 130 []]

/-- The declaration
`func TestHidden(t *testing.T) { t.Cleanup(func() { t.Setenv("k", "v") }); f(!t.Run("x", func(t *testing.T) {})); pick(t.Run("x", func(t *testing.T) {})).Do(); func() { t.Parallel() }() }`. -/
def testHidden : FuncDecl :=
  mkFunc 10 "TestHidden" [testParam "t"] 40
    [.exprStmt cleanupWithSetenv,
     .exprStmt (funcCall 96 "f" [.other [hiddenRun]]),
     .exprStmt (.callExpr 140 (.selectorExpr (funcCall 140 "pick" [hiddenRun]) "Do") []),
     .exprStmt (.callExpr 180 (.funcLit 180 [] [] 187
       [.exprStmt (methodCall 189 "t" "Parallel" [])]) [])]

/-- The helper `func Setup(t *testing.T) { t.Setenv("k", "v") }`. -/
def setupHelper : FuncDecl :=
  mkFunc 10 "Setup" [testParam "t"] 38
    [.exprStmt (methodCall 40 "t" "Setenv" [basicLit, basicLit])]

/-- The call `obj.Setup(t)`. -/
def qualifiedSetup : Node := methodCall 102 "obj" "Setup" [.ident "t"]

/-- The declaration `func TestQualified(t *testing.T) { obj.Setup(t) }`. -/
def testQualified : FuncDecl :=
  mkFunc 70 "TestQualified" [testParam "t"] 100 [.exprStmt qualifiedSetup]

/-- The declaration
`func TestRunResolved(t *testing.T) { t.Run("a", func(t *testing.T) {}) }`. -/
def testRunResolved : FuncDecl :=
  mkFunc 70 "TestRunResolved" [testParam "t"] 105
    [.exprStmt (methodCall 107 "t" "Run" [basicLit, testLit 118 "t" 137 []])]

/-- The reports that are not defer warnings, in order. -/
def nonDefer (reports : List Diagnostic) : List Diagnostic :=
  reports.filter fun d => !decide (d.format = .deferWithParallel)

/-- Two facts values have the same `hasParallel`, `cantParallel` and `numberOfTestRun`. -/
def SameCore (x y : TestAnalysis) : Prop := x.core = y.core

/-- Two states have caches with the same fingerprints and, under each, facts with the same
flags and count, and have the same reports apart from defer warnings. -/
def SameButDefer (s s' : State) : Prop :=
  (∀ k, OptRel SameCore (s.getAnalysis k) (s'.getAnalysis k)) ∧
  nonDefer s.reports = nonDefer s'.reports

/-! ## Packages without recursion -/

/-- The names `analyzeCallExpr` looks up for a call expression: the name of the call, which
`analyzeFunctionCall` resolves, and the name `analyzeTestRun` resolves when the second
argument is an identifier or a call. -/
def Node.ownCallees : Node → List String
  | .callExpr pos func args =>
    getCallName (.callExpr pos func args) ::
      (match args.get? 1 with
       | some (.ident name) => [name]
       | some (.callExpr bpos bfunc bargs) => [getCallName (.callExpr bpos bfunc bargs)]
       | _ => [])
  | _ => []

/-- The names looked up for the call expressions anywhere in a declaration. -/
def FuncDecl.callees (funcDecl : FuncDecl) : List String :=
  collectList Node.ownCallees funcDecl.nodes

/-- The package has no recursion through resolved names: `rank` gives every declaration a
number, and every name looked up for a call expression in a declaration that resolves to a
declaration of the package has a smaller number than the declaration the call is in. -/
def Pass.ranked (pass : Pass) (rank : String → Nat) : Bool :=
  pass.funcDecls.all fun funcDecl =>
    funcDecl.callees.all fun name =>
      match findFunction pass name with
      | some _ => decide (rank name < rank funcDecl.name)
      | none => true

/-- From the bound `b` on, `analyzeFunctionF` and `analyzeBuilderCall` return on the
declaration, in every state. -/
def DeclTotal (a : ParallelAnalyzer) (pass : Pass) (b : Nat) (funcDecl : FuncDecl) : Prop :=
  ∀ fuel, b ≤ fuel → ∀ st,
    (analyzeFunctionF a pass fuel st funcDecl.params funcDecl.lbrace funcDecl.body).isSome = true ∧
    (analyzeBuilderCall a pass fuel st funcDecl).isSome = true

/-- The declaration the name resolves to, if any, is analyzed from the bound `b` on. -/
def Good (a : ParallelAnalyzer) (pass : Pass) (b : Nat) (name : String) : Prop :=
  ∀ funcDecl, findFunction pass name = some funcDecl → DeclTotal a pass b funcDecl

/-- At the bound `fuel`, the functions of the core that take a node return on `n`, in
every state and for all facts. -/
def NodeTotalAt (a : ParallelAnalyzer) (pass : Pass) (n : Node) (fuel : Nat) : Prop :=
  ∀ st,
    (∀ acc tv, (visitExprStmt a pass fuel st acc tv n).isSome = true) ∧
    (∀ acc tv, n.isCallExpr = true → (analyzeCallExpr a pass fuel st acc tv n).isSome = true) ∧
    (∀ facts tv, (inspectBuilder a pass fuel st facts tv n).isSome = true) ∧
    (∀ pos params results lbrace body, n = .funcLit pos params results lbrace body →
      (analyzeFunctionF a pass fuel st params lbrace body).isSome = true)

/-- From the bound `b` on, the functions of the core that take a node return on `n`. -/
def NodeTotal (a : ParallelAnalyzer) (pass : Pass) (b : Nat) (n : Node) : Prop :=
  ∀ fuel, b ≤ fuel → NodeTotalAt a pass n fuel

/-! ## The calls of a walk, in order -/

/-- The part of `analyzeCallExpr` that follows its argument loop: the three flag updates
for the call, `analyzeTestRun` on the call in the state `r.1`, `analyzeFunctionCall` on
the call in the state that leaves, and the two merges into the facts `r.2`. -/
def callStep (a : ParallelAnalyzer) (pass : Pass) (fuel : Nat) (testVar : String)
    (r : State × TestAnalysis) (callExpr : Node) : Option (State × TestAnalysis) :=
  (analyzeTestRun a pass fuel r.1 callExpr testVar).bind fun r2 =>
  (analyzeFunctionCall a pass fuel r2.1 callExpr).bind fun r3 =>
  some (r3.1, ((r.2.flags callExpr testVar).merge r2.2).merge r3.2)

/-- The call expressions the statement loop of `analyzeFunctionF` hands to
`analyzeCallExpr`, in the order in which their flags are set: the calls the walks of the
statements visit, top-level defer statements left out. -/
def walkCalls (body : List Node) : List Node :=
  (body.filter fun l => !l.isDeferStmt).flatMap Node.visited

/-! ## Packages for calls the walk does not visit -/

/-- The sub-test invocation `t.Run("a", func(t *testing.T) { t.Setenv("k", "v") })`. -/
def runSetenvChild : Node :=
  methodCall 60 "t" "Run"
    [basicLit, testLit 71 "t" 90 [.exprStmt (methodCall 92 "t" "Setenv" [basicLit, basicLit])]]

/-- The declaration
`func TestHiddenChild(t *testing.T) { t.Cleanup(func() { t.Run("a", func(t *testing.T) { t.Setenv("k", "v") }) }) }`. -/
def testHiddenChild : FuncDecl :=
  mkFunc 10 "TestHiddenChild" [testParam "t"] 40
    [.exprStmt (methodCall 42 "t" "Cleanup" [.funcLit 52 [] [] 59 [.exprStmt runSetenvChild]])]

/-- The sub-test invocation `t.Run("a", func(x *testing.T) { x.Parallel() })`. -/
def runParallelChild : Node :=
  methodCall 48 "t" "Run"
    [basicLit, testLit 59 "x" 78 [.exprStmt (methodCall 80 "x" "Parallel" [])]]

/-- The declaration
`func TestDeferredRun(t *testing.T) { defer t.Run("a", func(x *testing.T) { x.Parallel() }) }`. -/
def testDeferredRun : FuncDecl :=
  mkFunc 10 "TestDeferredRun" [testParam "t"] 40 [.deferStmt 42 runParallelChild]

/-- The declaration
`func TestDeferredSetenv(t *testing.T) { defer t.Setenv("k", "v"); t.Run("a", func(t *testing.T) {}) }`. -/
def testDeferredSetenv : FuncDecl :=
  mkFunc 10 "TestDeferredSetenv" [testParam "t"] 43
    [.deferStmt 45 (methodCall 51 "t" "Setenv" [basicLit, basicLit]),
     .exprStmt (methodCall 70 "t" "Run" [basicLit, testLit 81 "t" 100 []])]

/-- The declaration `func TestDeferredHelper(t *testing.T) { defer setEnvHelper(t) }`. -/
def testDeferredHelper : FuncDecl :=
  mkFunc 90 "TestDeferredHelper" [testParam "t"] 130
    [.deferStmt 132 (funcCall 138 "setEnvHelper" [.ident "t"])]

/-- The declaration
`func TestDeferredNested(t *testing.T) { defer nestedHelper1(nestedParallel(t)) }`. -/
def testDeferredNested : FuncDecl :=
  mkFunc 140 "TestDeferredNested" [testParam "t"] 180
    [.deferStmt 182 (funcCall 188 "nestedHelper1" [funcCall 202 "nestedParallel" [.ident "t"]])]

/-- What the walk of `analyzeBuilderCall` does at the nodes of a builder: it hands a call
to `analyzeCallExpr` for the parent facts, or a function literal that is a result operand
of a return statement to `analyzeFuncLit`. -/
inductive BuilderEvent where
  | visit (callExpr : Node)
  | returned (funcLit : Node)

/-- The function literal of an event of the second kind. -/
def BuilderEvent.returnedLit? : BuilderEvent → Option Node
  | .visit _ => none
  | .returned funcLit => some funcLit

/-- What the callback of the walk of `analyzeBuilderCall` does at one node, for the test
parameter `testVar` of the builder: at an expression statement or range statement, when
the builder has a test parameter, the calls the walk `visitExprStmt` from the statement
hands to `analyzeCallExpr`; at a return statement, the result operands that are function
literals. -/
def Node.ownEvents (testVar : String) : Node → List BuilderEvent
  | .exprStmt x =>
    if testVar != "" then (Node.exprStmt x).visited.map BuilderEvent.visit else []
  | .rangeStmt header lbrace body =>
    if testVar != "" then (Node.rangeStmt header lbrace body).visited.map BuilderEvent.visit
    else []
  | .returnStmt results => (results.filter Node.isFuncLit).map BuilderEvent.returned
  | _ => []

/-- What the walk of `analyzeBuilderCall` does on a declaration, in `ast.Inspect` order. -/
def FuncDecl.builderEvents (funcDecl : FuncDecl) : List BuilderEvent :=
  collectList (Node.ownEvents (findTestParamName funcDecl.params)) funcDecl.nodes

/-- One step of the walk of `analyzeBuilderCall`, on the state, the parent facts and the
list of the facts of the returned literals analyzed so far: for a call, the step of
`analyzeCallExpr` on the parent facts; for a returned literal, `analyzeFuncLit` in the
state of the moment, whose facts are added to the list. -/
def builderEvent (a : ParallelAnalyzer) (pass : Pass) (fuel : Nat) (testVar : String)
    (r : State × TestAnalysis × List TestAnalysis) :
    BuilderEvent → Option (State × TestAnalysis × List TestAnalysis)
  | .visit callExpr =>
    (callStep a pass fuel testVar (r.1, r.2.1) callExpr).bind fun x => some (x.1, x.2, r.2.2)
  | .returned funcLit =>
    (analyzeFuncLit a pass fuel r.1 funcLit).bind fun inner =>
      some (inner.1, r.2.1, r.2.2 ++ [inner.2.val])

/-- The builder
`func deferBuilder(t *testing.T) func(*testing.T) { defer t.Setenv("k", "v"); return func(t *testing.T) {} }`. -/
def deferBuilder : FuncDecl :=
  ⟨10, [], "deferBuilder", [testParam "t"], [.field [] (.other [testingT])], 60,
    [.deferStmt 62 (methodCall 68 "t" "Setenv" [basicLit, basicLit]),
     .returnStmt [testLit 95 "t" 115 []]]⟩

/-- The invocation `t.Run("x", deferBuilder(t))`. -/
def runDeferBuilder : Node :=
  methodCall 172 "t" "Run" [basicLit, funcCall 183 "deferBuilder" [.ident "t"]]

/-- The declaration
`func TestDeferBuilder(t *testing.T) { t.Run("x", deferBuilder(t)) }`. -/
def testDeferBuilder : FuncDecl :=
  mkFunc 130 "TestDeferBuilder" [testParam "t"] 170 [.exprStmt runDeferBuilder]

/-! ## Basic lemmas -/

theorem analyzeTestRun_succ (a : ParallelAnalyzer) (pass : Pass) (fuel : Nat) (st : State)
    (callExpr : Node) (testVar : String) :
    analyzeTestRun a pass (fuel + 1) st callExpr testVar =
      match runTarget pass callExpr testVar with
      | .lit pos params lbrace body =>
        (analyzeFunctionF a pass fuel st params lbrace body).bind fun r =>
          some (subtestStep a pos "literal" r)
      | .named name funcDecl =>
        (analyzeFunctionF a pass fuel st funcDecl.params funcDecl.lbrace funcDecl.body).bind
          fun r => some (subtestStep a callExpr.pos name r)
      | .builder name funcDecl =>
        (analyzeBuilderCall a pass fuel st funcDecl).bind fun r =>
          some (builderStep a callExpr.pos name r)
      | .unresolved => some (st, TestAnalysis.empty) := by
  simp only [analyzeTestRun, runTarget]
  split
  · split
    · rfl
    · split
      · split <;> rfl
      · rfl
    · split <;> rfl
    · rfl
  · rfl

theorem foldlM_rel {σ α : Type} (R : σ → σ → Prop) (hrefl : ∀ s, R s s)
    (htrans : ∀ s t u, R s t → R t u → R s u) (f : σ → α → Option σ) :
    ∀ (l : List α) (s s' : σ), (∀ x ∈ l, ∀ t t', f t x = some t' → R t t') →
      l.foldlM f s = some s' → R s s' := by
  intro l
  induction l with
  | nil => intro s s' _ h; simp at h; subst h; exact hrefl _
  | cons x xs ih =>
    intro s s' hf h
    simp only [List.foldlM_cons, Option.bind_eq_bind, Option.bind_eq_some] at h
    obtain ⟨t, h1, h2⟩ := h
    exact htrans _ _ _ (hf x (List.mem_cons_self _ _) _ _ h1)
      (ih t s' (fun y hy => hf y (List.mem_cons_of_mem _ hy)) h2)


theorem StepRel.store {a : ParallelAnalyzer} {R : State → State → Prop} (hR : StepRel a R)
    (s : State) (key : Option String) (an : TestAnalysis) : R s (s.store key an) := by
  cases key with
  | none => exact hR.refl s
  | some h => exact hR.cache s h an


theorem core_rel (a : ParallelAnalyzer) (pass : Pass) (R : State → State → Prop)
    (hR : StepRel a R) : ∀ fuel, CoreRel a pass R fuel := by
  intro fuel
  induction fuel with
  | zero =>
    refine ⟨?_, ?_, ?_, ?_, ?_, ?_, ?_⟩ <;> intros <;>
      simp_all [analyzeTestRun, analyzeFunctionCall, visitExprStmt, analyzeCallExpr,
        analyzeFunctionF, inspectBuilder, analyzeBuilderCall]
  | succ fuel ih =>
    obtain ⟨ihRun, ihCall, ihVisit, ihExpr, ihF, ihInsp, ihB⟩ := ih
    refine ⟨?_, ?_, ?_, ?_, ?_, ?_, ?_⟩
    · intro st c tv r h
      rw [analyzeTestRun_succ] at h
      split at h
      · simp only [Option.bind_eq_some] at h
        obtain ⟨q, hq, h⟩ := h
        cases h
        exact hR.trans _ _ _ (ihF _ _ _ _ _ hq)
          (hR.trans _ _ _ (hR.defer _ _ _) (hR.trans _ _ _ (hR.subtest _ _ _ _) (hR.store _ _ _)))
      · simp only [Option.bind_eq_some] at h
        obtain ⟨q, hq, h⟩ := h
        cases h
        exact hR.trans _ _ _ (ihF _ _ _ _ _ hq)
          (hR.trans _ _ _ (hR.defer _ _ _) (hR.trans _ _ _ (hR.subtest _ _ _ _) (hR.store _ _ _)))
      · simp only [Option.bind_eq_some] at h
        obtain ⟨q, hq, h⟩ := h
        cases h
        exact hR.trans _ _ _ (ihB _ _ _ hq) (hR.trans _ _ _ (hR.defer _ _ _) (hR.subtest _ _ _ _))
      · cases h; exact hR.refl _
    · intro st c r h
      simp only [analyzeFunctionCall] at h
      split at h
      · cases h; exact hR.refl _
      · simp only [Option.bind_eq_some] at h
        obtain ⟨q, hq, h⟩ := h
        cases h
        exact ihF _ _ _ _ _ hq
    · intro st acc tv n r h
      simp only [visitExprStmt] at h
      split at h
      · exact ihExpr _ _ _ _ _ h
      · exact foldlM_rel (fun (s t : State × TestAnalysis) => R s.1 t.1) (fun s => hR.refl _)
          (fun s t u => hR.trans _ _ _) _ _ (st, acc) r
          (fun x _ t t' ht => ihVisit _ _ _ _ _ ht) h
    · intro st acc tv c r h
      simp only [analyzeCallExpr, Option.bind_eq_some] at h
      obtain ⟨r1, h1, r2, h2, r3, h3, h⟩ := h
      cases h
      have e1 : R st r1.1 :=
        foldlM_rel (fun (s t : State × TestAnalysis) => R s.1 t.1) (fun s => hR.refl _)
          (fun s t u => hR.trans _ _ _) _ _ (st, acc) r1
          (fun x _ t t' ht => by
            split at ht
            · exact ihExpr _ _ _ _ _ ht
            · cases ht; exact hR.refl _) h1
      exact hR.trans _ _ _ e1 (hR.trans _ _ _ (ihRun _ _ _ _ h2) (ihCall _ _ r3 h3))
    · intro st params lbrace body r h
      simp only [analyzeFunctionF] at h
      split at h
      · cases h; exact hR.refl _
      · split at h
        · cases h; exact hR.refl _
        · simp only [Option.bind_eq_some] at h
          obtain ⟨q, hq, h⟩ := h
          cases h
          have e1 : R st q.1 :=
            foldlM_rel (fun (s t : State × TestAnalysis) => R s.1 t.1) (fun s => hR.refl _)
              (fun s t u => hR.trans _ _ _) _ _ (st, TestAnalysis.empty) q
              (fun x _ t t' ht => by
                split at ht
                · cases ht; exact hR.refl _
                · exact ihVisit _ _ _ _ _ ht) hq
          exact hR.trans _ _ _ e1 (hR.cache _ _ _)
    · intro st facts tv n r h
      simp only [inspectBuilder, Option.bind_eq_some] at h
      obtain ⟨q, hq, h⟩ := h
      have e1 : R st q.1 := by
        split at hq
        · split at hq
          · simp only [Option.bind_eq_some] at hq
            obtain ⟨q', hq', hq⟩ := hq
            cases hq
            exact ihVisit _ _ _ _ _ hq'
          · cases hq; exact hR.refl _
        · split at hq
          · simp only [Option.bind_eq_some] at hq
            obtain ⟨q', hq', hq⟩ := hq
            cases hq
            exact ihVisit _ _ _ _ _ hq'
          · cases hq; exact hR.refl _
        · exact foldlM_rel (fun (s t : State × TestAnalysis × TestAnalysis) => R s.1 t.1)
            (fun s => hR.refl _) (fun s t u => hR.trans _ _ _) _ _ (st, facts) q
            (fun x _ t t' ht => by
              split at ht
              · simp only [Option.bind_eq_some] at ht
                obtain ⟨q', hq', ht⟩ := ht
                cases ht
                exact ihF _ _ _ _ _ hq'
              · cases ht; exact hR.refl _) hq
        · cases hq; exact hR.refl _
      exact hR.trans _ _ _ e1
        (foldlM_rel (fun (s t : State × TestAnalysis × TestAnalysis) => R s.1 t.1)
          (fun s => hR.refl _) (fun s t u => hR.trans _ _ _) _ _ q r
          (fun x _ t t' ht => ihInsp _ _ _ _ _ ht) h)
    · intro st fd r h
      simp only [analyzeBuilderCall] at h
      exact foldlM_rel (fun (s t : State × TestAnalysis × TestAnalysis) => R s.1 t.1)
        (fun s => hR.refl _) (fun s t u => hR.trans _ _ _) _ _ _ r
        (fun x _ t t' ht => ihInsp _ _ _ _ _ ht) h

theorem foldl_report_reports (f : Node → Diagnostic) (l : List Node) (st : State) :
    (l.foldl (fun st n => st.report (f n)) st).reports = st.reports ++ l.map f ∧
    (l.foldl (fun st n => st.report (f n)) st).visited = st.visited := by
  induction l generalizing st with
  | nil => simp
  | cons x xs ih =>
    simp only [List.foldl_cons, List.map_cons]
    obtain ⟨h1, h2⟩ := ih (st.report (f x))
    rw [h1, h2]
    simp [State.report]

theorem reportDefer_reports (a : ParallelAnalyzer) (st : State) (an : TestAnalysis)
    (name : String) :
    (reportDefer a st an name).reports = st.reports ++ deferDiagnostics a an name := by
  unfold reportDefer deferDiagnostics
  split
  · exact (foldl_report_reports _ _ _).1
  · simp

theorem reportDefer_visited (a : ParallelAnalyzer) (st : State) (an : TestAnalysis)
    (name : String) : (reportDefer a st an name).visited = st.visited := by
  unfold reportDefer
  split
  · exact (foldl_report_reports _ _ _).2
  · rfl

theorem reportParallelSubtest_reports (a : ParallelAnalyzer) (st : State) (an : TestAnalysis)
    (pos : Nat) (name : String) :
    (reportParallelSubtest a st an pos name).reports =
      st.reports ++ subtestDiagnostics a an pos name := by
  unfold reportParallelSubtest subtestDiagnostics
  split <;> simp [State.report]

theorem reportParallelSubtest_visited (a : ParallelAnalyzer) (st : State) (an : TestAnalysis)
    (pos : Nat) (name : String) :
    (reportParallelSubtest a st an pos name).visited = st.visited := by
  unfold reportParallelSubtest
  split <;> simp [State.report]

theorem store_reports (st : State) (key : Option String) (an : TestAnalysis) :
    (st.store key an).reports = st.reports := by
  cases key <;> rfl

theorem Ext.ext_refl (Q : Diagnostic → Prop) (st : State) : Ext Q st st :=
  ⟨[], by simp, by simp⟩

theorem Ext.ext_trans {Q : Diagnostic → Prop} {s t u : State} (h1 : Ext Q s t) (h2 : Ext Q t u) :
    Ext Q s u := by
  obtain ⟨l1, e1, q1⟩ := h1
  obtain ⟨l2, e2, q2⟩ := h2
  refine ⟨l1 ++ l2, by rw [e2, e1, List.append_assoc], ?_⟩
  intro d hd
  rcases List.mem_append.1 hd with h | h
  · exact q1 d h
  · exact q2 d h

theorem deferDiagnostics_format (a : ParallelAnalyzer) (an : TestAnalysis) (name : String) :
    ∀ d ∈ deferDiagnostics a an name,
      d.format = .deferWithParallel ∧ d.name = name ∧ a.checkCleanup = true := by
  intro d hd
  unfold deferDiagnostics at hd
  split at hd
  · rename_i hc
    simp only [Bool.and_eq_true] at hc
    simp only [List.mem_map] at hd
    obtain ⟨n, _, rfl⟩ := hd
    exact ⟨rfl, rfl, hc.1.1.1⟩
  · simp at hd

theorem subtestDiagnostics_format (a : ParallelAnalyzer) (an : TestAnalysis) (pos : Nat)
    (name : String) :
    ∀ d ∈ subtestDiagnostics a an pos name,
      d = ⟨pos, .missingParallelSubtest, name⟩ ∧ a.ignoreMissing = false ∧
        a.ignoreMissingSubtests = false := by
  intro d hd
  unfold subtestDiagnostics at hd
  split at hd
  · rename_i hc
    simp only [Bool.and_eq_true, Bool.not_eq_true'] at hc
    simp only [List.mem_singleton] at hd
    exact ⟨hd, hc.1.1.1, hc.1.1.2⟩
  · simp at hd

theorem coreFormat_stepRel (a : ParallelAnalyzer) : StepRel a (Ext (CoreFormat a)) where
  refl := Ext.ext_refl _
  trans := fun _ _ _ => Ext.ext_trans
  defer := fun s an name => ⟨_, reportDefer_reports a s an name, fun d hd => by
    obtain ⟨h1, _, h3⟩ := deferDiagnostics_format a an name d hd
    refine ⟨(by rw [h1]; exact fun h => by cases h), fun h => ?_, fun _ => h3⟩
    rw [h1] at h; cases h⟩
  subtest := fun s an pos name =>
    ⟨_, reportParallelSubtest_reports a s an pos name, fun d hd => by
      obtain ⟨h1, h2, h3⟩ := subtestDiagnostics_format a an pos name d hd
      subst h1
      exact ⟨fun h => (by cases h), fun _ => ⟨h2, h3⟩, fun h => (by cases h)⟩⟩
  cache := fun s hash an => ⟨[], by simp [State.cacheAnalysis], by simp⟩

theorem analyzeFunctionF_ext (a : ParallelAnalyzer) (pass : Pass) (fuel : Nat) (st : State)
    (params : List Node) (lbrace : Nat) (body : List Node) (r : State × Ref)
    (h : analyzeFunctionF a pass fuel st params lbrace body = some r) :
    Ext (CoreFormat a) st r.1 :=
  (core_rel a pass _ (coreFormat_stepRel a) fuel).2.2.2.2.1 st params lbrace body r h

theorem filter_coreFormat (a : ParallelAnalyzer) (l : List Diagnostic)
    (h : ∀ d ∈ l, CoreFormat a d) :
    l.filter (fun d => decide (d.format = .missingParallel)) = [] := by
  rw [List.filter_eq_nil_iff]
  intro d hd
  simpa using (h d hd).1

theorem filter_deferDiagnostics (a : ParallelAnalyzer) (an : TestAnalysis) (name : String) :
    (deferDiagnostics a an name).filter (fun d => decide (d.format = .missingParallel)) = [] := by
  rw [List.filter_eq_nil_iff]
  intro d hd
  have := (deferDiagnostics_format a an name d hd).1
  simp [this]

/-- C2: given the facts `r` that `analyzeFunction` computes for the body of a
declaration, `analyzeTestFunction` returns, and the top-level missing-parallel
diagnostics among the reports it adds are exactly the one diagnostic of the declaration
when `ignoreMissing` is off and the facts have neither `hasParallel` nor
`cantParallel`, and none otherwise (so none when both flags are set, and never more
than one). -/
theorem analyzeTestFunction_topLevel_iff (a : ParallelAnalyzer) (pass : Pass) (fuel : Nat)
    (st : State) (funcDecl : FuncDecl) (r : State × Ref)
    (h : analyzeFunction a pass fuel st funcDecl = some r) :
    ∃ st' added, analyzeTestFunction a pass fuel st funcDecl = some st' ∧
      st'.reports = st.reports ++ added ∧
      added.filter (fun d => decide (d.format = .missingParallel)) =
        if a.ignoreMissing = false ∧ r.2.val.hasParallel = false ∧ r.2.val.cantParallel = false
        then [⟨funcDecl.pos, .missingParallel, funcDecl.name⟩] else [] := by
  obtain ⟨added0, e0, q0⟩ := analyzeFunctionF_ext a pass fuel st _ _ _ r h
  simp only [analyzeTestFunction, h, Option.some_bind]
  refine ⟨_, added0 ++ (if a.ignoreMissing = false ∧ r.2.val.hasParallel = false ∧
      r.2.val.cantParallel = false
      then [⟨funcDecl.pos, .missingParallel, funcDecl.name⟩] else []) ++
      deferDiagnostics a r.2.val funcDecl.name, rfl, ?_, ?_⟩
  · rw [reportDefer_reports]
    by_cases hc : a.ignoreMissing = false ∧ r.2.val.hasParallel = false ∧
        r.2.val.cantParallel = false
    · obtain ⟨h1, h2, h3⟩ := hc
      simp [h1, h2, h3, State.report, e0]
    · have hc' : (!a.ignoreMissing && !r.2.val.hasParallel && !r.2.val.cantParallel) = false := by
        revert hc
        cases a.ignoreMissing <;> cases r.2.val.hasParallel <;> cases r.2.val.cantParallel <;> simp
      simp [hc, hc', e0]
  · rw [List.filter_append, List.filter_append, filter_coreFormat a added0 q0,
      filter_deferDiagnostics]
    split <;> simp

theorem analyzeTestFunction_topLevel_iff_witness :
    ∃ st', analyzeTestFunction {} (mkPass [testBoth]) 10 {} testBoth = some st' ∧
      st'.reports.filter (fun d => decide (d.format = .missingParallel)) = [] := by
  obtain ⟨st', added, h1, h2, h3⟩ :=
    analyzeTestFunction_topLevel_iff {} (mkPass [testBoth]) 10 {} testBoth _ rfl
  refine ⟨st', h1, ?_⟩
  rw [h2]
  exact h3.trans (if_neg (by decide))

/-- C1, as stated, fails: `TestSub` is a test function in a `_test.go` file, no call in
its body is `t.Parallel()` on its receiver `t`, no function of the package calls `Setenv`
or `Chdir` at all, `ignoreMissing` is off, and the run reports nothing, because the
sub-test literal calls `x.Parallel()` and `merge` hands its `hasParallel` to the body. -/
theorem missing_parallel_counterexample :
    isTestFunction testSub = true ∧
    anyCallList (fun c => isParallelCall c "t") testSub.body = false ∧
    testSub.anyCall (fun c => getCallName c == "Setenv" || getCallName c == "Chdir") = false ∧
    ({} : ParallelAnalyzer).ignoreMissing = false ∧
    ∃ st', run {} (mkPass [testSub]) 10 {} = some st' ∧ st'.reports = [] := by
  refine ⟨by decide, by decide, by decide, rfl, _, rfl, by decide⟩

/-- C1, amended: if `ignoreMissing` is off and the facts computed for the body of a
declaration have neither `hasParallel` (set by a call `v.Parallel()` of the body, of a
resolved helper or of a sub-test) nor `cantParallel`, then `analyzeTestFunction` reports
exactly one top-level diagnostic, at the position of the declaration, whose message
begins with "Function <name> missing the call to method parallel". -/
theorem analyzeTestFunction_missing_parallel (a : ParallelAnalyzer) (pass : Pass) (fuel : Nat)
    (st : State) (funcDecl : FuncDecl) (r : State × Ref)
    (h : analyzeFunction a pass fuel st funcDecl = some r)
    (hi : a.ignoreMissing = false) (hp : r.2.val.hasParallel = false)
    (hc : r.2.val.cantParallel = false) :
    ∃ st' added d, analyzeTestFunction a pass fuel st funcDecl = some st' ∧
      st'.reports = st.reports ++ added ∧
      added.filter (fun d => decide (d.format = .missingParallel)) = [d] ∧
      d.pos = funcDecl.pos ∧
      d.message =
        "Function " ++ funcDecl.name ++ " missing the call to method parallel" ++ "\n" := by
  obtain ⟨added0, e0, q0⟩ := analyzeFunctionF_ext a pass fuel st _ _ _ r h
  simp only [analyzeTestFunction, h, Option.some_bind]
  refine ⟨_, added0 ++ [⟨funcDecl.pos, .missingParallel, funcDecl.name⟩] ++
      deferDiagnostics a r.2.val funcDecl.name, ⟨funcDecl.pos, .missingParallel, funcDecl.name⟩,
      rfl, ?_, ?_, rfl, ?_⟩
  · rw [reportDefer_reports]
    simp [hi, hp, hc, State.report, e0]
  · rw [List.filter_append, List.filter_append, filter_coreFormat a added0 q0,
      filter_deferDiagnostics]
    simp
  · simp only [Diagnostic.message, String.append_assoc]
    rfl

theorem analyzeTestFunction_missing_parallel_witness :
    ∃ st' d, analyzeTestFunction {} (mkPass [testFunctionMissingCallToParallel]) 10 {}
        testFunctionMissingCallToParallel = some st' ∧
      st'.reports.filter (fun d => decide (d.format = .missingParallel)) = [d] ∧
      d.pos = 10 := by
  obtain ⟨st', added, d, h1, h2, h3, h4, _⟩ :=
    analyzeTestFunction_missing_parallel {} (mkPass [testFunctionMissingCallToParallel]) 10 {}
      testFunctionMissingCallToParallel _ rfl rfl rfl rfl
  exact ⟨st', d, h1, by rw [h2]; exact h3, h4⟩

theorem merge_assoc (x y z : TestAnalysis) : (x.merge y).merge z = x.merge (y.merge z) := by
  simp [TestAnalysis.merge, Bool.or_assoc, Nat.add_assoc]

theorem merge_empty (x : TestAnalysis) : x.merge TestAnalysis.empty = x := by
  simp [TestAnalysis.merge, TestAnalysis.empty]

theorem flags_eq_merge (x : TestAnalysis) (c : Node) (tv : String) :
    x.flags c tv = x.merge (TestAnalysis.empty.flags c tv) := by
  simp [TestAnalysis.merge, TestAnalysis.flags, TestAnalysis.empty, Bool.or_assoc]

theorem mergeInto_mergeInto (x y : TestAnalysis) (r : State × TestAnalysis) :
    mergeInto x (mergeInto y r) = mergeInto (x.merge y) r := by
  simp [mergeInto, merge_assoc]

theorem map_bind_map {σ τ : Type} (X : Option σ) (g : σ → σ) (F G : σ → Option τ) (h : τ → τ)
    (hfg : ∀ x, F (g x) = (G x).map h) : (X.map g).bind F = (X.bind G).map h := by
  cases X with
  | none => rfl
  | some x => simpa using hfg x

theorem foldlM_writer {α : Type} (f : State × TestAnalysis → α → Option (State × TestAnalysis))
    (l : List α)
    (hf : ∀ x ∈ l, ∀ st acc, f (st, acc) x = (f (st, TestAnalysis.empty) x).map (mergeInto acc)) :
    ∀ st acc, l.foldlM f (st, acc) =
      (l.foldlM f (st, TestAnalysis.empty)).map (mergeInto acc) := by
  induction l with
  | nil => intro st acc; simp [mergeInto, merge_empty]
  | cons x xs ih =>
    intro st acc
    have ih' := ih (fun y hy => hf y (List.mem_cons_of_mem _ hy))
    simp only [List.foldlM_cons, Option.bind_eq_bind]
    rw [hf x (List.mem_cons_self _ _) st acc]
    cases hx : f (st, TestAnalysis.empty) x with
    | none => simp
    | some r =>
      obtain ⟨s1, d1⟩ := r
      simp only [Option.map_some', Option.some_bind, mergeInto]
      rw [ih' s1 (acc.merge d1), ih' s1 d1]
      cases xs.foldlM f (s1, TestAnalysis.empty) with
      | none => simp
      | some q => simp [mergeInto, merge_assoc]

/-- The walks fill the facts they are given like a writer: the result is the result of
the same walk from fresh facts, merged into the given facts. -/
theorem walk_writer (a : ParallelAnalyzer) (pass : Pass) : ∀ fuel,
    (∀ st acc tv n, visitExprStmt a pass fuel st acc tv n =
      (visitExprStmt a pass fuel st TestAnalysis.empty tv n).map (mergeInto acc)) ∧
    (∀ st acc tv c, analyzeCallExpr a pass fuel st acc tv c =
      (analyzeCallExpr a pass fuel st TestAnalysis.empty tv c).map (mergeInto acc)) := by
  intro fuel
  induction fuel with
  | zero => constructor <;> intros <;> simp [visitExprStmt, analyzeCallExpr]
  | succ fuel ih =>
    obtain ⟨ihV, ihC⟩ := ih
    constructor
    · intro st acc tv n
      simp only [visitExprStmt]
      split
      · exact ihC _ _ _ _
      · exact foldlM_writer _ _ (fun x _ s c => ihV s c tv x) st acc
    · intro st acc tv c
      simp only [analyzeCallExpr]
      rw [foldlM_writer _ c.args (fun x _ s d => by
        show (if x.isCallExpr = true then _ else _) = Option.map _ (if x.isCallExpr = true then _ else _)
        split
        · exact ihC s d tv x
        · simp [mergeInto, merge_empty]) st acc]
      refine map_bind_map _ _ _ _ _ (fun r1 => ?_)
      simp only [mergeInto]
      cases analyzeTestRun a pass fuel r1.1 c tv with
      | none => simp
      | some r2 =>
        simp only [Option.some_bind]
        cases analyzeFunctionCall a pass fuel r2.1 c with
        | none => simp
        | some r3 =>
          simp only [Option.some_bind, Option.map_some', Option.some.injEq, Prod.mk.injEq,
            true_and]
          rw [flags_eq_merge (acc.merge r1.2), flags_eq_merge r1.2]
          simp only [merge_assoc, mergeInto]

theorem foldlM_mem_split {σ α : Type} (f : σ → α → Option σ) (x : α) :
    ∀ (l : List α) (s s' : σ), l.foldlM f s = some s' → x ∈ l →
      ∃ l1 l2 s1 s2, l = l1 ++ x :: l2 ∧ l1.foldlM f s = some s1 ∧ f s1 x = some s2 ∧
        l2.foldlM f s2 = some s' := by
  intro l
  induction l with
  | nil => intro s s' _ hx; cases hx
  | cons y ys ih =>
    intro s s' h hx
    simp only [List.foldlM_cons, Option.bind_eq_bind, Option.bind_eq_some] at h
    obtain ⟨t, h1, h2⟩ := h
    rcases List.mem_cons.1 hx with rfl | hx'
    · exact ⟨[], ys, s, t, rfl, rfl, h1, h2⟩
    · obtain ⟨l1, l2, s1, s2, e, g1, g2, g3⟩ := ih t s' h2 hx'
      refine ⟨y :: l1, l2, s1, s2, by rw [e]; rfl, ?_, g2, g3⟩
      simp only [List.foldlM_cons, Option.bind_eq_bind, Option.bind_eq_some]
      exact ⟨t, h1, g1⟩

theorem FactsLe.le_refl (x : TestAnalysis) : FactsLe x x := ⟨id, id⟩

theorem FactsLe.le_trans {x y z : TestAnalysis} (h1 : FactsLe x y) (h2 : FactsLe y z) :
    FactsLe x z := ⟨fun h => h2.1 (h1.1 h), fun h => h2.2 (h1.2 h)⟩

theorem FactsLe.merge_left (x y : TestAnalysis) : FactsLe x (x.merge y) := by
  constructor <;> intro h <;> simp [TestAnalysis.merge, h]

theorem FactsLe.merge_right (x y : TestAnalysis) : FactsLe y (x.merge y) := by
  constructor <;> intro h <;> simp [TestAnalysis.merge, h]

theorem WalkLe.walk_refl (a : ParallelAnalyzer) (s : State × TestAnalysis) : WalkLe a s s :=
  ⟨Ext.ext_refl _ _, FactsLe.le_refl _, rfl, rfl⟩

theorem WalkLe.walk_trans {a : ParallelAnalyzer} {s t u : State × TestAnalysis}
    (h1 : WalkLe a s t) (h2 : WalkLe a t u) : WalkLe a s u :=
  ⟨h1.1.ext_trans h2.1, h1.2.1.le_trans h2.2.1, h2.2.2.1.trans h1.2.2.1, h2.2.2.2.trans h1.2.2.2⟩

theorem visitExprStmt_walkLe (a : ParallelAnalyzer) (pass : Pass) (fuel : Nat) (st : State)
    (acc : TestAnalysis) (tv : String) (n : Node) (r : State × TestAnalysis)
    (h : visitExprStmt a pass fuel st acc tv n = some r) : WalkLe a (st, acc) r := by
  have hext := (core_rel a pass _ (coreFormat_stepRel a) fuel).2.2.1 st acc tv n r h
  rw [(walk_writer a pass fuel).1] at h
  simp only [Option.map_eq_some'] at h
  obtain ⟨q, _, rfl⟩ := h
  exact ⟨hext, FactsLe.merge_left _ _, rfl, rfl⟩

theorem analyzeCallExpr_walkLe (a : ParallelAnalyzer) (pass : Pass) (fuel : Nat) (st : State)
    (acc : TestAnalysis) (tv : String) (n : Node) (r : State × TestAnalysis)
    (h : analyzeCallExpr a pass fuel st acc tv n = some r) : WalkLe a (st, acc) r := by
  have hext := (core_rel a pass _ (coreFormat_stepRel a) fuel).2.2.2.1 st acc tv n r h
  rw [(walk_writer a pass fuel).2] at h
  simp only [Option.map_eq_some'] at h
  obtain ⟨q, _, rfl⟩ := h
  exact ⟨hext, FactsLe.merge_left _ _, rfl, rfl⟩

theorem Reached.extend {a : ParallelAnalyzer} {pass : Pass} {st0 st : State} {c : Node}
    {tv : String} {r r' : State × TestAnalysis} (h : Reached a pass st c tv r)
    (h0 : Ext (CoreFormat a) st0 st) (h1 : WalkLe a r r') : Reached a pass st0 c tv r' := by
  obtain ⟨fuel, sa, sb, sc, dRun, dCall, e1, e2, e3, e4, l1, l2, l3⟩ := h
  exact ⟨fuel, sa, sb, sc, dRun, dCall, h0.ext_trans e1, e2, e3, e4.ext_trans h1.1,
    l1.le_trans h1.2.1, l2.le_trans h1.2.1, l3.le_trans h1.2.1⟩

theorem Reached.extend_le {a : ParallelAnalyzer} {pass : Pass} {st0 st : State} {c : Node}
    {tv : String} {r r' : State × TestAnalysis} (h : Reached a pass st c tv r)
    (h0 : Ext (CoreFormat a) st0 st) (h1 : Ext (CoreFormat a) r.1 r'.1)
    (h2 : FactsLe r.2 r'.2) : Reached a pass st0 c tv r' := by
  obtain ⟨fuel, sa, sb, sc, dRun, dCall, e1, e2, e3, e4, l1, l2, l3⟩ := h
  exact ⟨fuel, sa, sb, sc, dRun, dCall, h0.ext_trans e1, e2, e3, e4.ext_trans h1,
    l1.le_trans h2, l2.le_trans h2, l3.le_trans h2⟩

theorem analyzeTestRun_ext (a : ParallelAnalyzer) (pass : Pass) (fuel : Nat) (st : State)
    (c : Node) (tv : String) (r : State × TestAnalysis)
    (h : analyzeTestRun a pass fuel st c tv = some r) : Ext (CoreFormat a) st r.1 :=
  (core_rel a pass _ (coreFormat_stepRel a) fuel).1 st c tv r h

theorem analyzeFunctionCall_ext (a : ParallelAnalyzer) (pass : Pass) (fuel : Nat) (st : State)
    (c : Node) (r : State × TestAnalysis)
    (h : analyzeFunctionCall a pass fuel st c = some r) : Ext (CoreFormat a) st r.1 :=
  (core_rel a pass _ (coreFormat_stepRel a) fuel).2.1 st c r h

theorem FactsLe.flags (x : TestAnalysis) (c : Node) (tv : String) :
    FactsLe x (x.flags c tv) := by
  constructor <;> intro h <;> simp [TestAnalysis.flags, h]

theorem FactsLe.flags_empty (x : TestAnalysis) (c : Node) (tv : String) :
    FactsLe (TestAnalysis.empty.flags c tv) (x.flags c tv) := by
  rw [flags_eq_merge x]
  exact FactsLe.merge_right _ _

/-- The walks apply `analyzeTestRun` and `analyzeFunctionCall` to every call they
visit, and the flags found there stay in the facts to the end of the walk. -/
theorem walk_reaches (a : ParallelAnalyzer) (pass : Pass) : ∀ fuel,
    (∀ st acc tv n r c, visitExprStmt a pass fuel st acc tv n = some r → Visits n c →
      Reached a pass st c tv r) ∧
    (∀ st acc tv n r c, analyzeCallExpr a pass fuel st acc tv n = some r → Visits n c →
      n.isCallExpr = true → Reached a pass st c tv r) := by
  intro fuel
  induction fuel with
  | zero => constructor <;> intros <;> simp_all [visitExprStmt, analyzeCallExpr]
  | succ fuel ih =>
    obtain ⟨ihV, ihC⟩ := ih
    constructor
    · intro st acc tv n r c h hv
      simp only [visitExprStmt] at h
      split at h
      · rename_i hn
        exact ihC _ _ _ _ _ _ h hv hn
      · rename_i hn
        cases hv with
        | here _ hc => exact absurd hc hn
        | arg _ _ _ hc => exact absurd hc hn
        | child _ ch _ _ hmem hvc =>
          obtain ⟨l1, l2, s1, s2, _, g1, g2, g3⟩ := foldlM_mem_split _ ch _ _ _ h hmem
          have w1 : WalkLe a (st, acc) s1 :=
            foldlM_rel (WalkLe a) (WalkLe.walk_refl a) (fun _ _ _ => WalkLe.walk_trans) _ l1 _ _
              (fun x _ t t' ht => visitExprStmt_walkLe a pass fuel _ _ _ _ _ ht) g1
          have w2 : WalkLe a s2 r :=
            foldlM_rel (WalkLe a) (WalkLe.walk_refl a) (fun _ _ _ => WalkLe.walk_trans) _ l2 _ _
              (fun x _ t t' ht => visitExprStmt_walkLe a pass fuel _ _ _ _ _ ht) g3
          exact (ihV _ _ _ _ _ _ g2 hvc).extend w1.1 w2
    · intro st acc tv n r c h hv hn
      simp only [analyzeCallExpr, Option.bind_eq_some] at h
      obtain ⟨r1, h1, r2, h2, r3, h3, h⟩ := h
      have hstep : ∀ x ∈ n.args, ∀ t t' : State × TestAnalysis,
          (if x.isCallExpr = true then analyzeCallExpr a pass fuel t.1 t.2 tv x else some t)
            = some t' → WalkLe a t t' := by
        intro x _ t t' ht
        split at ht
        · exact analyzeCallExpr_walkLe a pass fuel _ _ _ _ _ ht
        · cases ht; exact WalkLe.walk_refl a _
      have wtail : WalkLe a r1 r := by
        cases h
        refine ⟨(analyzeTestRun_ext a pass fuel _ _ _ _ h2).ext_trans
          (analyzeFunctionCall_ext a pass fuel _ _ r3 h3), ?_, rfl, rfl⟩
        exact (FactsLe.flags r1.2 n tv).le_trans
          ((FactsLe.merge_left _ _).le_trans (FactsLe.merge_left _ _))
      cases hv with
      | child _ _ _ hc => rw [hn] at hc; cases hc
      | here _ _ =>
        have w1 : WalkLe a (st, acc) r1 :=
          foldlM_rel (WalkLe a) (WalkLe.walk_refl a) (fun _ _ _ => WalkLe.walk_trans) _ _ _ _ hstep h1
        cases h
        exact ⟨fuel, r1.1, r2.1, r3.1, r2.2, r3.2, w1.1, h2, h3, Ext.ext_refl _ _,
          (FactsLe.flags_empty r1.2 n tv).le_trans
            ((FactsLe.merge_left _ _).le_trans (FactsLe.merge_left _ _)),
          (FactsLe.merge_right _ _).le_trans (FactsLe.merge_left _ _),
          FactsLe.merge_right _ _⟩
      | arg _ ar _ _ hmem hac hvc =>
        obtain ⟨l1, l2, s1, s2, e, g1, g2, g3⟩ := foldlM_mem_split _ ar _ _ _ h1 hmem
        have w1 : WalkLe a (st, acc) s1 :=
          foldlM_rel (WalkLe a) (WalkLe.walk_refl a) (fun _ _ _ => WalkLe.walk_trans) _ l1 _ _
            (fun x hx => hstep x (by rw [e]; simp [hx])) g1
        have w2 : WalkLe a s2 r1 :=
          foldlM_rel (WalkLe a) (WalkLe.walk_refl a) (fun _ _ _ => WalkLe.walk_trans) _ l2 _ _
            (fun x hx => hstep x (by rw [e]; simp [hx])) g3
        rw [if_pos hac] at g2
        exact (ihC _ _ _ _ _ _ g2 hvc hac).extend w1.1 (w2.walk_trans wtail)

theorem analyzeFunctionF_succ (a : ParallelAnalyzer) (pass : Pass) (fuel : Nat) (st : State)
    (params : List Node) (lbrace : Nat) (body : List Node) :
    analyzeFunctionF a pass (fuel + 1) st params lbrace body =
      if findTestParamName params == "" then some (st, ⟨none, TestAnalysis.empty⟩)
      else
        match st.getAnalysis (nodeHash lbrace body) with
        | some v => some (st, ⟨some (nodeHash lbrace body), v⟩)
        | none =>
          (walkBody a pass fuel st (findTestParamName params) body).bind fun r =>
            some (r.1.cacheAnalysis (nodeHash lbrace body) r.2,
              ⟨some (nodeHash lbrace body), r.2⟩) := by
  simp only [analyzeFunctionF, walkBody]

theorem walkBody_step_le (a : ParallelAnalyzer) (pass : Pass) (fuel : Nat) (tv : String)
    (l : Node) (t t' : State × TestAnalysis)
    (h : (if l.isDeferStmt = true then some (t.1, t.2.addDefer a l)
      else visitExprStmt a pass fuel t.1 t.2 tv l) = some t') :
    Ext (CoreFormat a) t.1 t'.1 ∧ FactsLe t.2 t'.2 := by
  split at h
  · cases h
    refine ⟨Ext.ext_refl _ _, ?_⟩
    unfold TestAnalysis.addDefer
    split <;> exact ⟨id, id⟩
  · have := visitExprStmt_walkLe a pass fuel _ _ _ _ _ h
    exact ⟨this.1, this.2.1⟩

/-- The walk of a body applies the analyses to every call it visits in a statement that
is not a top-level defer statement. -/
theorem walkBody_reaches (a : ParallelAnalyzer) (pass : Pass) (fuel : Nat) (st : State)
    (tv : String) (body : List Node) (r : State × TestAnalysis) (stmt c : Node)
    (h : walkBody a pass fuel st tv body = some r) (hmem : stmt ∈ body)
    (hd : stmt.isDeferStmt = false) (hv : Visits stmt c) : Reached a pass st c tv r := by
  obtain ⟨l1, l2, s1, s2, _, g1, g2, g3⟩ := foldlM_mem_split _ stmt _ _ _ h hmem
  have w1 := foldlM_rel (fun s t : State × TestAnalysis =>
      Ext (CoreFormat a) s.1 t.1 ∧ FactsLe s.2 t.2)
    (fun s => ⟨Ext.ext_refl _ _, FactsLe.le_refl _⟩)
    (fun _ _ _ h1 h2 => ⟨h1.1.ext_trans h2.1, h1.2.le_trans h2.2⟩) _ l1 _ _
    (fun x _ t t' ht => walkBody_step_le a pass fuel tv x t t' ht) g1
  have w2 := foldlM_rel (fun s t : State × TestAnalysis =>
      Ext (CoreFormat a) s.1 t.1 ∧ FactsLe s.2 t.2)
    (fun s => ⟨Ext.ext_refl _ _, FactsLe.le_refl _⟩)
    (fun _ _ _ h1 h2 => ⟨h1.1.ext_trans h2.1, h1.2.le_trans h2.2⟩) _ l2 _ _
    (fun x _ t t' ht => walkBody_step_le a pass fuel tv x t t' ht) g3
  simp only [hd, Bool.false_eq_true, if_false] at g2
  obtain ⟨f, sa, sb, sc, dRun, dCall, e1, e2, e3, e4, k1, k2, k3⟩ :=
    (walk_reaches a pass fuel).1 _ _ _ _ _ _ g2 hv
  exact ⟨f, sa, sb, sc, dRun, dCall, w1.1.ext_trans e1, e2, e3, e4.ext_trans w2.1,
    k1.le_trans w2.2, k2.le_trans w2.2, k3.le_trans w2.2⟩

theorem deferDiagnostics_nil_of_not_parallel (a : ParallelAnalyzer) (g : TestAnalysis)
    (name : String) (hp : g.hasParallel = false) : deferDiagnostics a g name = [] := by
  simp [deferDiagnostics, hp]

theorem subtestStep_reports (a : ParallelAnalyzer) (pos : Nat) (name : String)
    (q : State × Ref) :
    (subtestStep a pos name q).1.reports =
      q.1.reports ++ deferDiagnostics a q.2.val name ++ subtestDiagnostics a q.2.val pos name := by
  simp only [subtestStep, store_reports, reportParallelSubtest_reports, reportDefer_reports]

theorem builderStep_reports (a : ParallelAnalyzer) (pos : Nat) (name : String)
    (q : State × TestAnalysis × TestAnalysis) :
    (builderStep a pos name q).1.reports =
      q.1.reports ++ deferDiagnostics a q.2.2 name ++ subtestDiagnostics a q.2.2 pos name := by
  simp only [builderStep, reportParallelSubtest_reports, reportDefer_reports]

/-- What `analyzeTestRun` does on a resolved sub-test invocation, in terms of the analysis
of the function handed to `Run`: it returns, and its reports are those of that analysis,
then the defer warnings and the sub-test diagnostic decided on the facts `g`. -/
theorem analyzeTestRun_reports (a : ParallelAnalyzer) (pass : Pass) (fuel : Nat) (st : State)
    (c : Node) (tv : String) (s1 : State) (g : TestAnalysis)
    (hg : analyzeTarget a pass fuel st (runTarget pass c tv) = some (s1, g)) :
    ∃ r, analyzeTestRun a pass (fuel + 1) st c tv = some r ∧
      r.1.reports = s1.reports ++ deferDiagnostics a g (runTarget pass c tv).label ++
        subtestDiagnostics a g ((runTarget pass c tv).pos c) (runTarget pass c tv).label ∧
      FactsLe g r.2 := by
  rw [analyzeTestRun_succ]
  cases ht : runTarget pass c tv with
  | unresolved => rw [ht] at hg; simp [analyzeTarget] at hg
  | lit pos params lbrace body =>
    rw [ht] at hg
    simp only [analyzeTarget, Option.bind_eq_some] at hg
    obtain ⟨q, hq, e⟩ := hg
    cases e
    refine ⟨_, (by simp only [hq, Option.some_bind]; rfl), subtestStep_reports _ _ _ _, ?_⟩
    exact ⟨fun h => by simpa [subtestStep, TestAnalysis.incr] using h,
      fun h => by simpa [subtestStep, TestAnalysis.incr] using h⟩
  | named name fd =>
    rw [ht] at hg
    simp only [analyzeTarget, Option.bind_eq_some] at hg
    obtain ⟨q, hq, e⟩ := hg
    cases e
    refine ⟨_, (by simp only [hq, Option.some_bind]; rfl), subtestStep_reports _ _ _ _, ?_⟩
    exact ⟨fun h => by simpa [subtestStep, TestAnalysis.incr] using h,
      fun h => by simpa [subtestStep, TestAnalysis.incr] using h⟩
  | builder name fd =>
    rw [ht] at hg
    simp only [analyzeTarget, Option.bind_eq_some] at hg
    obtain ⟨q, hq, e⟩ := hg
    cases e
    refine ⟨_, (by simp only [hq, Option.some_bind]; rfl), builderStep_reports _ _ _ _, ?_⟩
    exact ⟨fun h => by simp [builderStep, TestAnalysis.incr, TestAnalysis.merge, h],
      fun h => by simp [builderStep, TestAnalysis.incr, TestAnalysis.merge, h]⟩

/-- The converse reading of `analyzeTestRun_reports`: when `analyzeTestRun` returns on an
invocation that resolves, the analysis of the function handed to `Run` has returned. -/
theorem analyzeTarget_of_analyzeTestRun (a : ParallelAnalyzer) (pass : Pass) (fuel : Nat)
    (st : State) (c : Node) (tv : String) (r : State × TestAnalysis)
    (h : analyzeTestRun a pass fuel st c tv = some r)
    (ht : runTarget pass c tv ≠ .unresolved) :
    ∃ f s1 g, fuel = f + 1 ∧ analyzeTarget a pass f st (runTarget pass c tv) = some (s1, g) := by
  cases fuel with
  | zero => simp [analyzeTestRun] at h
  | succ f =>
    rw [analyzeTestRun_succ] at h
    cases hx : runTarget pass c tv with
    | unresolved => exact absurd hx ht
    | lit pos params lbrace body =>
      rw [hx] at h
      simp only [Option.bind_eq_some] at h
      obtain ⟨q, hq, _⟩ := h
      exact ⟨f, q.1, q.2.val, rfl, by simp [analyzeTarget, hq]⟩
    | named name fd =>
      rw [hx] at h
      simp only [Option.bind_eq_some] at h
      obtain ⟨q, hq, _⟩ := h
      exact ⟨f, q.1, q.2.val, rfl, by simp [analyzeTarget, hq]⟩
    | builder name fd =>
      rw [hx] at h
      simp only [Option.bind_eq_some] at h
      obtain ⟨q, hq, _⟩ := h
      exact ⟨f, q.1, q.2.2, rfl, by simp [analyzeTarget, hq]⟩

theorem analyzeTarget_ext (a : ParallelAnalyzer) (pass : Pass) (fuel : Nat) (st : State)
    (target : RunTarget) (r : State × TestAnalysis)
    (h : analyzeTarget a pass fuel st target = some r) : Ext (CoreFormat a) st r.1 := by
  cases target with
  | unresolved => simp [analyzeTarget] at h
  | lit pos params lbrace body =>
    simp only [analyzeTarget, Option.bind_eq_some] at h
    obtain ⟨q, hq, e⟩ := h
    cases e
    exact analyzeFunctionF_ext a pass fuel st _ _ _ q hq
  | named name fd =>
    simp only [analyzeTarget, Option.bind_eq_some] at h
    obtain ⟨q, hq, e⟩ := h
    cases e
    exact analyzeFunctionF_ext a pass fuel st _ _ _ q hq
  | builder name fd =>
    simp only [analyzeTarget, Option.bind_eq_some] at h
    obtain ⟨q, hq, e⟩ := h
    cases e
    exact (core_rel a pass _ (coreFormat_stepRel a) fuel).2.2.2.2.2.2 st fd q hq

theorem mem_added_of_chain {Q : Diagnostic → Prop} {s t t' u : State} {M X : List Diagnostic}
    (h1 : Ext Q s t) (h2 : t'.reports = t.reports ++ M) (h3 : Ext Q t' u)
    (h4 : u.reports = s.reports ++ X) : ∀ d ∈ M, d ∈ X := by
  obtain ⟨A, eA, _⟩ := h1
  obtain ⟨B, eB, _⟩ := h3
  have : s.reports ++ X = s.reports ++ (A ++ M ++ B) := by
    rw [← h4, eB, h2, eA]; simp
  have hX := List.append_cancel_left this
  intro d hd
  rw [hX]
  simp [hd]

/-- The walk of a body analyses the function of every sub-test invocation it visits
(outside top-level defer statements), reports the defer warnings and the sub-test
diagnostic decided on the facts `g` of that function, and keeps the flags of `g`. -/
theorem walkBody_subtest (a : ParallelAnalyzer) (pass : Pass) (fuel : Nat) (st : State)
    (tv : String) (body : List Node) (r : State × TestAnalysis) (stmt c : Node)
    (h : walkBody a pass fuel st tv body = some r) (hmem : stmt ∈ body)
    (hd : stmt.isDeferStmt = false) (hv : Visits stmt c)
    (ht : runTarget pass c tv ≠ .unresolved) :
    ∃ f sa s1 g sb, Ext (CoreFormat a) st sa ∧
      analyzeTarget a pass f sa (runTarget pass c tv) = some (s1, g) ∧
      sb.reports = s1.reports ++ deferDiagnostics a g (runTarget pass c tv).label ++
        subtestDiagnostics a g ((runTarget pass c tv).pos c) (runTarget pass c tv).label ∧
      Ext (CoreFormat a) sb r.1 ∧ FactsLe g r.2 ∧
      ∃ dRun, analyzeTestRun a pass (f + 1) sa c tv = some (sb, dRun) := by
  obtain ⟨f, sa, sb, sc, dRun, dCall, e1, e2, e3, e4, _, k2, _⟩ :=
    walkBody_reaches a pass fuel st tv body r stmt c h hmem hd hv
  obtain ⟨f', s1, g, rfl, hg⟩ := analyzeTarget_of_analyzeTestRun a pass f sa c tv _ e2 ht
  obtain ⟨r', hr', hrep, hle⟩ := analyzeTestRun_reports a pass f' sa c tv s1 g hg
  rw [e2] at hr'
  cases hr'
  exact ⟨f', sa, s1, g, sb, e1, hg, hrep,
    (analyzeFunctionCall_ext a pass _ _ _ _ e3).ext_trans e4, hle.le_trans k2, dRun, e2⟩

/-- C3, amended: each time `analyzeTestRun` is applied to a sub-test invocation
`v.Run(_, g)` whose `g` resolves (literal, one-parameter named function or builder), if
the facts of `g` have neither `hasParallel` nor `cantParallel` and neither
`ignoreMissing` nor `ignoreMissingSubtests` is set, it returns and reports, after the
reports of the analysis of `g`, exactly one diagnostic: the sub-test diagnostic, at the
literal or at the invocation, labelled "literal" or with the callee name. -/
theorem analyzeTestRun_one_subtest_diagnostic (a : ParallelAnalyzer) (pass : Pass)
    (fuel : Nat) (st : State) (c : Node) (tv : String) (s1 : State) (g : TestAnalysis)
    (hg : analyzeTarget a pass fuel st (runTarget pass c tv) = some (s1, g))
    (hp : g.hasParallel = false) (hc : g.cantParallel = false)
    (hi : a.ignoreMissing = false) (hs : a.ignoreMissingSubtests = false) :
    ∃ r d, analyzeTestRun a pass (fuel + 1) st c tv = some r ∧
      r.1.reports = s1.reports ++ [d] ∧
      d.format = .missingParallelSubtest ∧ d.pos = (runTarget pass c tv).pos c ∧
      d.message = "Function " ++ (runTarget pass c tv).label ++
        " missing the call to method parallel in the t.Run" ++ "\n" := by
  obtain ⟨r, hr, hrep, _⟩ := analyzeTestRun_reports a pass fuel st c tv s1 g hg
  refine ⟨r, ⟨(runTarget pass c tv).pos c, .missingParallelSubtest,
    (runTarget pass c tv).label⟩, hr, ?_, rfl, rfl, ?_⟩
  · rw [hrep, deferDiagnostics_nil_of_not_parallel a g _ hp]
    simp [subtestDiagnostics, hp, hc, hi, hs]
  · simp only [Diagnostic.message, String.append_assoc]
    rfl


/-- C3, as stated, fails: the invocation `t.Run("x", func(t *testing.T) {})` is a
statement of the analyzed body of `b`, its literal has neither flag, no option is set,
and the run reports the sub-test diagnostic of the literal twice, once when the body of
`b` is analyzed as the callee of the argument `b(t)` and once when `analyzeBuilderCall`
walks `b`. -/
theorem subtest_diagnostic_counterexample :
    Node.exprStmt (methodCall 52 "t" "Run" [basicLit, testLit 63 "t" 82 []]) ∈
      builderWithRun.body ∧
    (∃ q, analyzeFuncLit {} (mkPass [builderWithRun, testUsesBuilder]) 10 {}
        (testLit 63 "t" 82 []) = some q ∧
      q.2.val.hasParallel = false ∧ q.2.val.cantParallel = false) ∧
    ∃ st', run {} (mkPass [builderWithRun, testUsesBuilder]) 20 {} = some st' ∧
      st'.reports = [⟨63, .missingParallelSubtest, "literal"⟩,
        ⟨63, .missingParallelSubtest, "literal"⟩] := by
  have h1 : (analyzeFuncLit {} (mkPass [builderWithRun, testUsesBuilder]) 10 {}
      (testLit 63 "t" 82 [])).map (fun q => (q.2.val.hasParallel, q.2.val.cantParallel)) =
      some (false, false) := by decide!
  have h2 : (run {} (mkPass [builderWithRun, testUsesBuilder]) 20 {}).map (fun st => st.reports) =
      some [⟨63, .missingParallelSubtest, "literal"⟩,
        ⟨63, .missingParallelSubtest, "literal"⟩] := by decide!
  obtain ⟨q, hq, e⟩ := Option.map_eq_some'.1 h1
  obtain ⟨st', hst, e'⟩ := Option.map_eq_some'.1 h2
  exact ⟨by simp [builderWithRun, mkFunc], ⟨q, hq, (Prod.mk.inj e).1, (Prod.mk.inj e).2⟩,
    st', hst, e'⟩

theorem analyzeTestRun_one_subtest_diagnostic_witness :
    ∃ r d, analyzeTestRun {} (mkPass []) 11 {} runPrintln "t" = some r ∧
      r.1.reports = [d] ∧ d.pos = 31 ∧ d.format = .missingParallelSubtest := by
  have h : (analyzeTarget {} (mkPass []) 10 {} (runTarget (mkPass []) runPrintln "t")).map
      (fun q => (q.1.reports, q.2.hasParallel, q.2.cantParallel)) =
      some ([], false, false) := by decide!
  obtain ⟨q, hq, e⟩ := Option.map_eq_some'.1 h
  obtain ⟨e1, e2, e3⟩ := Prod.mk.inj e |>.imp id Prod.mk.inj
  obtain ⟨r, d, h1, h2, h3, h4, _⟩ :=
    analyzeTestRun_one_subtest_diagnostic {} (mkPass []) 10 {} runPrintln "t" q.1 q.2
      hq e2 e3 rfl rfl
  exact ⟨r, d, h1, by rw [h2, e1]; rfl, h4, h3⟩

theorem analyzeTestFunction_reports (a : ParallelAnalyzer) (pass : Pass) (fuel : Nat)
    (st st' : State) (funcDecl : FuncDecl)
    (h : analyzeTestFunction a pass fuel st funcDecl = some st') :
    ∃ r, analyzeFunction a pass fuel st funcDecl = some r ∧
      st'.reports = r.1.reports ++ topLevelDiagnostics a r.2.val funcDecl ++
        deferDiagnostics a r.2.val funcDecl.name := by
  simp only [analyzeTestFunction, Option.bind_eq_some] at h
  obtain ⟨r, hr, e⟩ := h
  cases e
  refine ⟨r, hr, ?_⟩
  rw [reportDefer_reports]
  unfold topLevelDiagnostics
  split <;> simp [State.report]

/-- The first analysis of a body with a test parameter is the walk of the body. -/
theorem analyzeFunctionF_miss (a : ParallelAnalyzer) (pass : Pass) (fuel : Nat) (st : State)
    (params : List Node) (lbrace : Nat) (body : List Node) (r : State × Ref)
    (htv : findTestParamName params ≠ "")
    (hmiss : st.getAnalysis (nodeHash lbrace body) = none)
    (h : analyzeFunctionF a pass fuel st params lbrace body = some r) :
    ∃ f w, fuel = f + 1 ∧ walkBody a pass f st (findTestParamName params) body = some w ∧
      r.1 = w.1.cacheAnalysis (nodeHash lbrace body) w.2 ∧ r.2.val = w.2 ∧
      r.2.key = some (nodeHash lbrace body) := by
  cases fuel with
  | zero => simp [analyzeFunctionF] at h
  | succ f =>
    rw [analyzeFunctionF_succ] at h
    have htv' : (findTestParamName params == "") = false := by simpa using htv
    simp only [htv', Bool.false_eq_true, if_false, hmiss, Option.bind_eq_some] at h
    obtain ⟨w, hw, e⟩ := h
    cases e
    exact ⟨f, w, rfl, hw, rfl, rfl, rfl⟩

theorem flags_cantParallel (c : Node) (tv : String)
    (h : isSetenvCall c tv = true ∨ isChdirCall c tv = true) :
    (TestAnalysis.empty.flags c tv).cantParallel = true := by
  rcases h with h | h <;> simp [TestAnalysis.flags, h]

theorem topLevelDiagnostics_nil_of_cantParallel (a : ParallelAnalyzer) (g : TestAnalysis)
    (funcDecl : FuncDecl) (h : g.cantParallel = true) : topLevelDiagnostics a g funcDecl = [] := by
  simp [topLevelDiagnostics, h]

theorem topLevelDiagnostics_nil_of_hasParallel (a : ParallelAnalyzer) (g : TestAnalysis)
    (funcDecl : FuncDecl) (h : g.hasParallel = true) : topLevelDiagnostics a g funcDecl = [] := by
  simp [topLevelDiagnostics, h]

theorem not_missingParallel_of_coreFormat (a : ParallelAnalyzer) (d : Diagnostic)
    (h : CoreFormat a d) : d.format ≠ .missingParallel := h.1

theorem not_missingParallel_of_defer (a : ParallelAnalyzer) (g : TestAnalysis) (name : String)
    (d : Diagnostic) (h : d ∈ deferDiagnostics a g name) : d.format ≠ .missingParallel := by
  rw [(deferDiagnostics_format a g name d h).1]
  exact fun e => by cases e

theorem subtestDiagnostics_nil_of_cantParallel (a : ParallelAnalyzer) (g : TestAnalysis)
    (pos : Nat) (name : String) (h : g.cantParallel = true) :
    subtestDiagnostics a g pos name = [] := by
  simp [subtestDiagnostics, h]

theorem walkBody_defers_aux (a : ParallelAnalyzer) (pass : Pass) (fuel : Nat) (tv : String)
    (body : List Node) :
    ∀ (s r : State × TestAnalysis),
      body.foldlM
        (fun (r : State × TestAnalysis) (l : Node) =>
          if l.isDeferStmt then some (r.1, r.2.addDefer a l)
          else visitExprStmt a pass fuel r.1 r.2 tv l) s = some r →
      r.2.deferStatements = s.2.deferStatements ++
        (if a.checkCleanup then body.filter Node.isDeferStmt else []) ∧
      r.2.funcHasDeferStatement =
        (s.2.funcHasDeferStatement || (a.checkCleanup && body.any Node.isDeferStmt)) := by
  induction body with
  | nil => intro s r h; simp at h; subst h; simp
  | cons x xs ih =>
    intro s r h
    simp only [List.foldlM_cons, Option.bind_eq_bind, Option.bind_eq_some] at h
    obtain ⟨t, h1, h2⟩ := h
    obtain ⟨i1, i2⟩ := ih t r h2
    by_cases hx : x.isDeferStmt = true
    · simp only [hx, if_true, Option.some.injEq] at h1
      subst h1
      rw [i1, i2]
      simp only [TestAnalysis.addDefer]
      cases a.checkCleanup <;> simp [hx]
    · simp only [hx, Bool.false_eq_true, if_false] at h1
      obtain ⟨_, _, w3, w4⟩ := visitExprStmt_walkLe a pass fuel _ _ _ _ _ h1
      rw [i1, i2, w3, w4]
      simp [hx]

/-- The defer fields after the walk of a body: under `checkCleanup` the top-level defer
statements of the body in order, and nothing otherwise. -/
theorem walkBody_defers (a : ParallelAnalyzer) (pass : Pass) (fuel : Nat) (st : State)
    (tv : String) (body : List Node) (r : State × TestAnalysis)
    (h : walkBody a pass fuel st tv body = some r) :
    r.2.deferStatements = (if a.checkCleanup then body.filter Node.isDeferStmt else []) ∧
    r.2.funcHasDeferStatement = (a.checkCleanup && body.any Node.isDeferStmt) := by
  have := walkBody_defers_aux a pass fuel tv body (st, TestAnalysis.empty) r h
  simpa [TestAnalysis.empty] using this

theorem deferDiagnostics_eq_warnings (a : ParallelAnalyzer) (g : TestAnalysis) (name : String)
    (hcc : a.checkCleanup = true) (hp : g.hasParallel = true) (hn : g.numberOfTestRun ≥ 1)
    (hf : g.funcHasDeferStatement = false → g.deferStatements = []) :
    deferDiagnostics a g name = deferWarnings name g.deferStatements := by
  unfold deferDiagnostics deferWarnings
  cases hfd : g.funcHasDeferStatement with
  | true =>
    have : decide (g.numberOfTestRun > 0) = true := by simpa using hn
    simp [hcc, hp, this]
  | false => simp [hf hfd]

/-- C8, as stated, fails: with `checkCleanup`, the body facts of `TestA` have
`hasParallel` and one sub-test, the body has one top-level defer statement, and the run
reports two defer warnings for `TestA` at that statement, the second when `TestB` hands
`TestA` to `t.Run`. -/
theorem defer_warnings_counterexample :
    (∃ r, analyzeFunction { checkCleanup := true } (mkPass [testWithDefer, testRunsTestA]) 12 {}
        testWithDefer = some r ∧
      r.2.val.hasParallel = true ∧ r.2.val.numberOfTestRun = 1) ∧
    (testWithDefer.body.filter Node.isDeferStmt).length = 1 ∧
    ∃ st', run { checkCleanup := true } (mkPass [testWithDefer, testRunsTestA]) 20 {} = some st' ∧
      st'.reports = [⟨51, .deferWithParallel, "TestA"⟩, ⟨51, .deferWithParallel, "TestA"⟩] := by
  have h0 : (analyzeFunction { checkCleanup := true } (mkPass [testWithDefer, testRunsTestA])
      12 {} testWithDefer).map (fun r => (r.2.val.hasParallel, r.2.val.numberOfTestRun)) =
      some (true, 1) := by decide!
  have h : (run { checkCleanup := true } (mkPass [testWithDefer, testRunsTestA]) 20 {}).map
      (fun st => st.reports) =
      some [⟨51, .deferWithParallel, "TestA"⟩, ⟨51, .deferWithParallel, "TestA"⟩] := by decide!
  obtain ⟨r, hr, e0⟩ := Option.map_eq_some'.1 h0
  obtain ⟨st', hst, e⟩ := Option.map_eq_some'.1 h
  exact ⟨⟨r, hr, (Prod.mk.inj e0).1, (Prod.mk.inj e0).2⟩, rfl, st', hst, e⟩

/-- C9, on the code: with `checkCleanup`, `TestWithMultipleDefersAndParallel` of
`testdata/src/cleanup/cleanup_test.go` calls `t.Parallel()` and has three top-level
defer statements and no sub-test, and the run reports nothing, where the test data
expects three defer warnings. -/
theorem defer_without_subtest_unreported :
    ∃ st', run { checkCleanup := true } (mkPass [testWithMultipleDefersAndParallel]) 12 {}
        = some st' ∧
      st'.reports = [] ∧
      (testWithMultipleDefersAndParallel.body.filter Node.isDeferStmt).length = 3 ∧
      anyCallList (fun c => isParallelCall c "t") testWithMultipleDefersAndParallel.body = true := by
  have h : (run { checkCleanup := true } (mkPass [testWithMultipleDefersAndParallel]) 12 {}).map
      (fun st => st.reports) = some [] := by decide!
  obtain ⟨st', hst, e⟩ := Option.map_eq_some'.1 h
  exact ⟨st', hst, e, rfl, by decide⟩

theorem optRel_bind {α β γ δ : Type} {R : α → β → Prop} {R2 : γ → δ → Prop}
    {o : Option α} {o' : Option β} {F : α → Option γ} {F' : β → Option δ}
    (h : OptRel R o o') (hF : ∀ r r', R r r' → OptRel R2 (F r) (F' r')) :
    OptRel R2 (o.bind F) (o'.bind F') := by
  cases o <;> cases o' <;> simp_all [OptRel]

theorem optRel_foldlM {σ τ α : Type} (R : σ → τ → Prop) (f : σ → α → Option σ)
    (f' : τ → α → Option τ) :
    ∀ (l : List α) (s : σ) (s' : τ),
      (∀ x ∈ l, ∀ t t', R t t' → OptRel R (f t x) (f' t' x)) → R s s' →
      OptRel R (l.foldlM f s) (l.foldlM f' s') := by
  intro l
  induction l with
  | nil => intro s s' _ h; simpa [OptRel] using h
  | cons x xs ih =>
    intro s s' hf h
    simp only [List.foldlM_cons, Option.bind_eq_bind]
    exact optRel_bind (hf x (List.mem_cons_self _ _) s s' h)
      (fun r r' hr => ih r r' (fun y hy => hf y (List.mem_cons_of_mem _ hy)) hr)

theorem Sim.sim_store {a a' : ParallelAnalyzer} {RS : State → State → Prop}
    {RF : TestAnalysis → TestAnalysis → Prop} (hS : Sim a a' RS RF) (s s' : State)
    (key : Option String) (x y : TestAnalysis) (h : RS s s') (hxy : RF x y) :
    RS (s.store key x) (s'.store key y) := by
  cases key with
  | none => exact h
  | some k => exact hS.cache s s' k x y h hxy

theorem Sim.sim_subtestStep {a a' : ParallelAnalyzer} {RS : State → State → Prop}
    {RF : TestAnalysis → TestAnalysis → Prop} (hS : Sim a a' RS RF) (pos : Nat) (name : String)
    (q q' : State × Ref) (h : SimRef RS RF q q') :
    SimFacts RS RF (subtestStep a pos name q) (subtestStep a' pos name q') := by
  obtain ⟨h1, h2, h3⟩ := h
  refine ⟨?_, hS.incr _ _ h3⟩
  simp only [subtestStep]
  rw [h2]
  exact hS.sim_store _ _ _ _ _ (hS.subtest _ _ _ _ _ _ (hS.defer _ _ _ _ _ h1 h3) h3) (hS.incr _ _ h3)

theorem Sim.sim_builderStep {a a' : ParallelAnalyzer} {RS : State → State → Prop}
    {RF : TestAnalysis → TestAnalysis → Prop} (hS : Sim a a' RS RF) (pos : Nat) (name : String)
    (q q' : State × TestAnalysis × TestAnalysis) (h : SimPair RS RF q q') :
    SimFacts RS RF (builderStep a pos name q) (builderStep a' pos name q') := by
  obtain ⟨h1, h2, h3⟩ := h
  exact ⟨hS.subtest _ _ _ _ _ _ (hS.defer _ _ _ _ _ h1 h3) h3,
    hS.incr _ _ (hS.merge _ _ _ _ h2 h3)⟩

/-- Two analyzers related by a simulation stay related through the whole recursive
core: from related states (and facts) each function either stops at the bound for both
or returns related results for both. -/
theorem core_sim (a a' : ParallelAnalyzer) (pass : Pass) (RS : State → State → Prop)
    (RF : TestAnalysis → TestAnalysis → Prop) (hS : Sim a a' RS RF) :
    ∀ fuel, CoreSim a a' pass RS RF fuel := by
  intro fuel
  induction fuel with
  | zero =>
    refine ⟨?_, ?_, ?_, ?_, ?_, ?_, ?_⟩ <;> intros <;>
      simp [analyzeTestRun, analyzeFunctionCall, visitExprStmt, analyzeCallExpr,
        analyzeFunctionF, inspectBuilder, analyzeBuilderCall, OptRel]
  | succ fuel ih =>
    obtain ⟨ihRun, ihCall, ihVisit, ihExpr, ihF, ihInsp, ihB⟩ := ih
    refine ⟨?_, ?_, ?_, ?_, ?_, ?_, ?_⟩
    · intro st st' c tv h
      rw [analyzeTestRun_succ, analyzeTestRun_succ]
      cases runTarget pass c tv with
      | lit pos params lbrace body =>
        exact optRel_bind (ihF _ _ _ _ _ h) (fun q q' hq => hS.sim_subtestStep _ _ q q' hq)
      | named name fd =>
        exact optRel_bind (ihF _ _ _ _ _ h) (fun q q' hq => hS.sim_subtestStep _ _ q q' hq)
      | builder name fd =>
        exact optRel_bind (ihB _ _ _ h) (fun q q' hq => hS.sim_builderStep _ _ q q' hq)
      | unresolved => exact ⟨h, hS.empty⟩
    · intro st st' c h
      simp only [analyzeFunctionCall]
      split
      · exact ⟨h, hS.empty⟩
      · exact optRel_bind (ihF _ _ _ _ _ h) (fun q q' hq => ⟨hq.1, hq.2.2⟩)
    · intro st st' acc acc' tv n h hacc
      simp only [visitExprStmt]
      split
      · exact ihExpr _ _ _ _ _ _ h hacc
      · exact optRel_foldlM (SimFacts RS RF) _ _ _ _ _
          (fun x _ t t' ht => ihVisit _ _ _ _ _ _ ht.1 ht.2) ⟨h, hacc⟩
    · intro st st' acc acc' tv c h hacc
      simp only [analyzeCallExpr]
      refine optRel_bind (optRel_foldlM (SimFacts RS RF) _ _ _ _ _
        (fun x _ t t' ht => ?_) ⟨h, hacc⟩) (fun r1 r1' h1 => ?_)
      · show OptRel _ (if x.isCallExpr = true then _ else _) (if x.isCallExpr = true then _ else _)
        split
        · exact ihExpr _ _ _ _ _ _ ht.1 ht.2
        · exact ht
      · refine optRel_bind (ihRun _ _ _ _ h1.1) (fun r2 r2' h2 => ?_)
        refine optRel_bind (ihCall _ _ _ h2.1) (fun r3 r3' h3 => ?_)
        exact ⟨h3.1, hS.merge _ _ _ _ (hS.merge _ _ _ _ (hS.flags _ _ _ _ h1.2) h2.2) h3.2⟩
    · intro st st' params lbrace body h
      simp only [analyzeFunctionF]
      split
      · exact ⟨h, rfl, hS.empty⟩
      · have hl := hS.lookup st st' (nodeHash lbrace body) h
        cases h1 : st.getAnalysis (nodeHash lbrace body) <;>
          cases h2 : st'.getAnalysis (nodeHash lbrace body) <;>
          rw [h1, h2] at hl <;> simp only [OptRel] at hl
        · refine optRel_bind (optRel_foldlM (SimFacts RS RF) _ _ _ _ _
            (fun x _ t t' ht => ?_) ⟨h, hS.empty⟩) (fun r r' hr => ?_)
          · show OptRel _ (if x.isDeferStmt = true then _ else _)
              (if x.isDeferStmt = true then _ else _)
            split
            · exact ⟨ht.1, hS.addDefer _ _ _ ht.2⟩
            · exact ihVisit _ _ _ _ _ _ ht.1 ht.2
          · exact ⟨hS.cache _ _ _ _ _ hr.1 hr.2, rfl, hr.2⟩
        · exact ⟨h, rfl, hl⟩
    · intro st st' facts facts' tv n h
      simp only [inspectBuilder]
      refine optRel_bind ?_ (fun r r' hr => optRel_foldlM (SimPair RS RF) _ _ _ _ _
        (fun x _ t t' ht => ihInsp _ _ _ _ _ _ ht) hr)
      split
      · split
        · exact optRel_bind (ihVisit _ _ _ _ _ _ h.1 h.2.1) (fun r r' hr => ⟨hr.1, hr.2, h.2.2⟩)
        · exact h
      · split
        · exact optRel_bind (ihVisit _ _ _ _ _ _ h.1 h.2.1) (fun r r' hr => ⟨hr.1, hr.2, h.2.2⟩)
        · exact h
      · refine optRel_foldlM (SimPair RS RF) _ _ _ _ _ (fun x _ t t' ht => ?_) h
        split
        · exact optRel_bind (ihF _ _ _ _ _ ht.1)
            (fun q q' hq => ⟨hq.1, ht.2.1, hS.merge _ _ _ _ ht.2.2 hq.2.2⟩)
        · exact ht
      · exact h
    · intro st st' fd h
      simp only [analyzeBuilderCall]
      exact optRel_foldlM (SimPair RS RF) _ _ _ _ _
        (fun x _ t t' ht => ihInsp _ _ _ _ _ _ ht) ⟨h, hS.empty, hS.empty⟩

theorem optRel_eq_self {α : Type} (o : Option α) : OptRel (fun x y => x = y) o o := by
  cases o <;> simp [OptRel]

theorem nonSubtest_append (l1 l2 : List Diagnostic) :
    nonSubtest (l1 ++ l2) = nonSubtest l1 ++ nonSubtest l2 := by
  simp [nonSubtest]

theorem filter_top_nonSubtest (l : List Diagnostic) :
    (nonSubtest l).filter (fun d => decide (d.format = .missingParallel)) =
      l.filter (fun d => decide (d.format = .missingParallel)) := by
  induction l with
  | nil => rfl
  | cons x xs ih =>
    unfold nonSubtest at ih ⊢
    cases hf : x.format <;> simp [List.filter_cons, hf, ih]

theorem nonSubtest_subtestDiagnostics (a : ParallelAnalyzer) (g : TestAnalysis) (pos : Nat)
    (name : String) : nonSubtest (subtestDiagnostics a g pos name) = [] := by
  unfold subtestDiagnostics nonSubtest
  split <;> simp

theorem deferDiagnostics_congr (a a' : ParallelAnalyzer) (g : TestAnalysis) (name : String)
    (h : a.checkCleanup = a'.checkCleanup) :
    deferDiagnostics a g name = deferDiagnostics a' g name := by
  simp [deferDiagnostics, h]

/-- Two analyzers that differ at most in `ignoreMissingSubtests` simulate each other up
to sub-test diagnostics. -/
theorem sameButSubtest_sim (a a' : ParallelAnalyzer) (hcc : a.checkCleanup = a'.checkCleanup) :
    Sim a a' SameButSubtest (fun x y => x = y) where
  lookup := fun s s' hash h => by
    simp only [State.getAnalysis, h.1]
    exact optRel_eq_self _
  cache := fun s s' hash x y h hxy => by
    subst hxy
    exact ⟨by simp [State.cacheAnalysis, h.1], h.2⟩
  defer := fun s s' x y name h hxy => by
    subst hxy
    refine ⟨by rw [reportDefer_visited, reportDefer_visited, h.1], ?_⟩
    rw [reportDefer_reports, reportDefer_reports, nonSubtest_append, nonSubtest_append, h.2,
      deferDiagnostics_congr a a' x name hcc]
  subtest := fun s s' x y pos name h hxy => by
    subst hxy
    refine ⟨by rw [reportParallelSubtest_visited, reportParallelSubtest_visited, h.1], ?_⟩
    rw [reportParallelSubtest_reports, reportParallelSubtest_reports, nonSubtest_append,
      nonSubtest_append, nonSubtest_subtestDiagnostics, nonSubtest_subtestDiagnostics, h.2]
  empty := rfl
  merge := fun x y u v h1 h2 => by rw [h1, h2]
  flags := fun x y c tv h => by rw [h]
  incr := fun x y h => by rw [h]
  addDefer := fun x y l h => by rw [h]; simp [TestAnalysis.addDefer, hcc]

theorem analyzeTestFunction_sim (a a' : ParallelAnalyzer) (pass : Pass) (fuel : Nat)
    (hi : a.ignoreMissing = a'.ignoreMissing) (hcc : a.checkCleanup = a'.checkCleanup)
    (s s' : State) (fd : FuncDecl) (h : SameButSubtest s s') :
    OptRel SameButSubtest (analyzeTestFunction a pass fuel s fd)
      (analyzeTestFunction a' pass fuel s' fd) := by
  have hS := sameButSubtest_sim a a' hcc
  simp only [analyzeTestFunction, analyzeFunction]
  refine optRel_bind ((core_sim a a' pass _ _ hS fuel).2.2.2.2.1 s s' _ _ _ h)
    (fun q q' hq => ?_)
  obtain ⟨h1, _, h3⟩ := hq
  show SameButSubtest _ _
  refine hS.defer _ _ _ _ _ ?_ h3
  rw [← h3, ← hi]
  split
  · exact ⟨h1.1, by simp only [State.report, nonSubtest_append, h1.2]⟩
  · exact h1

theorem run_sim (a a' : ParallelAnalyzer) (pass : Pass) (fuel : Nat)
    (hi : a.ignoreMissing = a'.ignoreMissing) (hcc : a.checkCleanup = a'.checkCleanup)
    (s s' : State) (h : SameButSubtest s s') :
    OptRel SameButSubtest (run a pass fuel s) (run a' pass fuel s') := by
  simp only [run]
  refine optRel_foldlM SameButSubtest _ _ _ _ _ (fun file _ t t' ht => ?_) h
  refine optRel_foldlM SameButSubtest _ _ _ _ _ (fun fd _ u u' hu => ?_) ht
  simp only [runDecl]
  split
  · exact hu
  · split
    · exact analyzeTestFunction_sim a a' pass fuel hi hcc u u' fd hu
    · exact hu

theorem analyzeTestFunction_runFormat (a : ParallelAnalyzer) (pass : Pass) (fuel : Nat)
    (st st' : State) (fd : FuncDecl) (h : analyzeTestFunction a pass fuel st fd = some st') :
    Ext (RunFormat a) st st' := by
  obtain ⟨r, hr, hrep⟩ := analyzeTestFunction_reports a pass fuel st st' fd h
  obtain ⟨X, eX, qX⟩ := analyzeFunctionF_ext a pass fuel st _ _ _ r hr
  refine ⟨X ++ topLevelDiagnostics a r.2.val fd ++ deferDiagnostics a r.2.val fd.name,
    by rw [hrep, eX]; simp, ?_⟩
  intro d hd
  rcases List.mem_append.1 hd with hd | hd
  · rcases List.mem_append.1 hd with hd | hd
    · obtain ⟨q1, q2, q3⟩ := qX d hd
      exact ⟨fun e => absurd e q1, q2, q3⟩
    · unfold topLevelDiagnostics at hd
      split at hd
      · rename_i hc
        simp only [Bool.and_eq_true, Bool.not_eq_true'] at hc
        simp only [List.mem_singleton] at hd
        subst hd
        exact ⟨fun _ => hc.1.1, (fun e => by cases e), (fun e => by cases e)⟩
      · cases hd
  · obtain ⟨q1, _, q3⟩ := deferDiagnostics_format a _ _ d hd
    exact ⟨(fun e => by rw [q1] at e; cases e), (fun e => by rw [q1] at e; cases e), fun _ => q3⟩

theorem run_runFormat (a : ParallelAnalyzer) (pass : Pass) (fuel : Nat) (st st' : State)
    (h : run a pass fuel st = some st') : Ext (RunFormat a) st st' := by
  refine foldlM_rel (Ext (RunFormat a)) (Ext.ext_refl _) (fun _ _ _ => Ext.ext_trans) _ _ _ _
    (fun file _ t t' ht => ?_) h
  refine foldlM_rel (Ext (RunFormat a)) (Ext.ext_refl _) (fun _ _ _ => Ext.ext_trans) _ _ _ _
    (fun fd _ u u' hu => ?_) ht
  simp only [runDecl] at hu
  split at hu
  · cases hu; exact Ext.ext_refl _ _
  · split at hu
    · exact analyzeTestFunction_runFormat a pass fuel _ _ fd hu
    · cases hu; exact Ext.ext_refl _ _

/-- C10: for every package and every run that returns, with `added` the reports of the
run: if `ignoreMissing` is set, `added` holds defer warnings only (no missing-parallel
diagnostic of either kind); if `ignoreMissingSubtests` is set, `added` holds no sub-test
diagnostic; and an analyzer that differs from `a` at most in `ignoreMissingSubtests`
returns as well, from the same state, with the same cache and the same reports apart
from sub-test diagnostics, so with the same top-level diagnostics. -/
theorem options_suppress_diagnostics (a : ParallelAnalyzer) (pass : Pass) (fuel : Nat)
    (st st' : State) (h : run a pass fuel st = some st') :
    ∃ added, st'.reports = st.reports ++ added ∧
      (a.ignoreMissing = true → ∀ d ∈ added, d.format = .deferWithParallel) ∧
      (a.ignoreMissingSubtests = true → ∀ d ∈ added, d.format ≠ .missingParallelSubtest) ∧
      ∀ a' : ParallelAnalyzer, a'.ignoreMissing = a.ignoreMissing →
        a'.checkCleanup = a.checkCleanup →
        ∃ st'', run a' pass fuel st = some st'' ∧ st''.visited = st'.visited ∧
          nonSubtest st''.reports = nonSubtest st'.reports ∧
          st''.reports.filter (fun d => decide (d.format = .missingParallel)) =
            st'.reports.filter (fun d => decide (d.format = .missingParallel)) := by
  obtain ⟨added, e, q⟩ := run_runFormat a pass fuel st st' h
  refine ⟨added, e, ?_, ?_, ?_⟩
  · intro hi d hd
    obtain ⟨q1, q2, _⟩ := q d hd
    cases hf : d.format with
    | missingParallel => rw [q1 hf] at hi; cases hi
    | missingParallelSubtest => rw [(q2 hf).1] at hi; cases hi
    | deferWithParallel => rfl
  · intro hs d hd hf
    rw [((q d hd).2.1 hf).2] at hs
    cases hs
  · intro a' hi hcc
    have hsim := run_sim a' a pass fuel hi hcc st st ⟨rfl, rfl⟩
    rw [h] at hsim
    cases h' : run a' pass fuel st with
    | none => rw [h'] at hsim; exact hsim.elim
    | some st'' =>
      rw [h'] at hsim
      refine ⟨st'', rfl, hsim.1, hsim.2, ?_⟩
      have := congrArg (List.filter fun d => decide (d.format = .missingParallel)) hsim.2
      rwa [filter_top_nonSubtest, filter_top_nonSubtest] at this

theorem options_suppress_diagnostics_witness :
    ∃ st' st'', run { ignoreMissingSubtests := true } optionsPass 12 {} = some st' ∧
      run {} optionsPass 12 {} = some st'' ∧
      st'.reports = [⟨200, .missingParallel, "TestEmpty"⟩] ∧
      nonSubtest st''.reports = [⟨200, .missingParallel, "TestEmpty"⟩] := by
  have h : (run { ignoreMissingSubtests := true } optionsPass 12 {}).map (fun s => s.reports) =
      some [⟨200, .missingParallel, "TestEmpty"⟩] := by decide!
  obtain ⟨st', hst, e⟩ := Option.map_eq_some'.1 h
  obtain ⟨added, _, _, _, h4⟩ :=
    options_suppress_diagnostics { ignoreMissingSubtests := true } optionsPass 12 {} st' hst
  obtain ⟨st'', h5, _, h7, _⟩ := h4 {} rfl rfl
  exact ⟨st', st'', hst, h5, e, by rw [h7, e]; rfl⟩

theorem collectList_append {α : Type} (f : Node → List α) (l1 l2 : List Node) :
    collectList f (l1 ++ l2) = collectList f l1 ++ collectList f l2 := by
  induction l1 with
  | nil => simp [collectList]
  | cons x xs ih => simp [collectList, ih]

theorem collectList_idents {α : Type} (f : Node → List α) (names : List String) :
    collectList f (names.map Node.ident) = (names.map fun s => f (.ident s)).flatten := by
  induction names with
  | nil => simp [collectList]
  | cons x xs ih => simp [collectList, Node.collect, ih]

theorem collect_eq {α : Type} (f : Node → List α) (n : Node) :
    n.collect f = f n ++ collectList f n.children := by
  cases n <;>
    simp [Node.collect, Node.children, collectList, collectList_append, collectList_idents]

theorem mem_collectList {α : Type} (f : Node → List α) (l : List Node) (x : α) :
    x ∈ collectList f l ↔ ∃ n ∈ l, x ∈ n.collect f := by
  induction l with
  | nil => simp [collectList]
  | cons y ys ih => simp [collectList, ih]

theorem mem_collect_of_sub {α : Type} (f : Node → List α) (n m : Node) (x : α)
    (h : Sub n m) (hx : x ∈ f m) : x ∈ n.collect f := by
  induction h with
  | here n => rw [collect_eq]; exact List.mem_append_left _ hx
  | child n c m hc _ ih =>
    rw [collect_eq]
    exact List.mem_append_right _ ((mem_collectList f _ x).2 ⟨c, hc, ih hx⟩)

theorem Sub.sub_child {n x c : Node} (h : Sub n x) (hc : c ∈ x.children) : Sub n c := by
  induction h with
  | here n => exact .child _ c _ hc (.here c)
  | child n d x hd _ ih => exact .child _ d _ hd (ih hc)

theorem PassNode.node_child {pass : Pass} {n c : Node} (h : PassNode pass n)
    (hc : c ∈ n.children) : PassNode pass c := by
  obtain ⟨fd, hfd, root, hroot, hs⟩ := h
  exact ⟨fd, hfd, root, hroot, hs.sub_child hc⟩

theorem PassNode.node_arg {pass : Pass} {n c : Node} (h : PassNode pass n)
    (hc : c ∈ n.args) : PassNode pass c := by
  cases n <;> simp [Node.args] at hc
  exact h.node_child (by simp [Node.children, hc])

theorem passNode_of_decl {pass : Pass} {fd : FuncDecl} {n : Node} (hfd : fd ∈ pass.funcDecls)
    (hn : n ∈ fd.nodes) : PassNode pass n :=
  ⟨fd, hfd, n, hn, .here n⟩

theorem findFunction_mem (pass : Pass) (name : String) (fd : FuncDecl)
    (h : findFunction pass name = some fd) : fd ∈ pass.funcDecls ∧ fd.name = name := by
  unfold findFunction at h
  split at h
  · cases h
  · obtain ⟨file, hfile, h⟩ := List.exists_of_findSome?_eq_some h
    obtain ⟨decl, hdecl, h⟩ := List.exists_of_findSome?_eq_some h
    cases decl with
    | genDecl => cases h
    | funcDecl d =>
      simp only at h
      split at h
      · rename_i hname
        cases h
        refine ⟨?_, by simpa using hname⟩
        simp only [Pass.funcDecls, List.mem_flatMap]
        refine ⟨file, hfile, ?_⟩
        simp only [File.funcDecls, List.mem_filterMap]
        exact ⟨_, hdecl, rfl⟩
      · cases h

theorem PassFn.mem_functions {pass : Pass} {x : Func} (h : PassFn pass x) :
    x ∈ pass.functions := by
  simp only [Pass.functions, List.mem_flatMap]
  rcases h with ⟨fd, hfd, rfl⟩ | ⟨pos, results, fd, hfd, root, hroot, hs⟩
  · exact ⟨fd, hfd, List.mem_cons_self _ _⟩
  · refine ⟨fd, hfd, List.mem_cons_of_mem _ ?_⟩
    exact (mem_collectList _ _ _).2 ⟨root, hroot,
      mem_collect_of_sub Node.ownFunc root _ x hs (by simp [Node.ownFunc])⟩

theorem PassFn.body_node {pass : Pass} {x : Func} (h : PassFn pass x) :
    ∀ n ∈ x.body, PassNode pass n := by
  intro n hn
  rcases h with ⟨fd, hfd, rfl⟩ | ⟨pos, results, hp⟩
  · exact passNode_of_decl hfd (by
      simp only [FuncDecl.nodes, List.mem_append]
      exact Or.inr hn)
  · exact hp.node_child (by simp [Node.children, hn])

theorem passFn_of_decl {pass : Pass} {fd : FuncDecl} (hfd : fd ∈ pass.funcDecls) :
    PassFn pass ⟨fd.params, fd.lbrace, fd.body⟩ :=
  Or.inl ⟨fd, hfd, rfl⟩

theorem passFn_of_lit {pass : Pass} {pos : Nat} {params results : List Node} {lbrace : Nat}
    {body : List Node} (h : PassNode pass (.funcLit pos params results lbrace body)) :
    PassFn pass ⟨params, lbrace, body⟩ :=
  Or.inr ⟨pos, results, h⟩

theorem runTarget_lit (pass : Pass) (c : Node) (tv : String) (pos : Nat) (params : List Node)
    (lbrace : Nat) (body : List Node) (h : runTarget pass c tv = .lit pos params lbrace body) :
    isTestRunCall c tv = true ∧
      ∃ results, Node.funcLit pos params results lbrace body ∈ c.args := by
  unfold runTarget at h
  split at h
  · rename_i hc
    simp only [Bool.and_eq_true] at hc
    refine ⟨hc.1, ?_⟩
    split at h
    · rename_i pos' params' results lbrace' body' hget
      cases h
      exact ⟨results, List.get?_mem hget⟩
    · split at h
      · split at h <;> cases h
      · cases h
    · split at h <;> cases h
    · cases h
  · cases h

theorem runTarget_named (pass : Pass) (c : Node) (tv : String) (name : String) (fd : FuncDecl)
    (h : runTarget pass c tv = .named name fd) :
    isTestRunCall c tv = true ∧ findFunction pass name = some fd ∧
      hasExactlyOneParameter fd = true := by
  unfold runTarget at h
  split at h
  · rename_i hc
    simp only [Bool.and_eq_true] at hc
    refine ⟨hc.1, ?_⟩
    split at h
    · cases h
    · split at h
      · rename_i hfind
        split at h
        · rename_i hone
          cases h
          exact ⟨hfind, hone⟩
        · cases h
      · cases h
    · split at h <;> cases h
    · cases h
  · cases h

theorem runTarget_builder (pass : Pass) (c : Node) (tv : String) (name : String) (fd : FuncDecl)
    (h : runTarget pass c tv = .builder name fd) :
    isTestRunCall c tv = true ∧ findFunction pass name = some fd ∧
      ∃ b ∈ c.args, b.isCallExpr = true ∧ getCallName b = name := by
  unfold runTarget at h
  split at h
  · rename_i hc
    simp only [Bool.and_eq_true] at hc
    refine ⟨hc.1, ?_⟩
    split at h
    · cases h
    · split at h
      · split at h <;> cases h
      · cases h
    · rename_i bpos bfunc bargs hget
      split at h
      · rename_i hfind
        cases h
        exact ⟨hfind, .callExpr bpos bfunc bargs, List.get?_mem hget, rfl, rfl⟩
      · cases h
    · cases h
  · cases h

theorem getAnalysis_cacheAnalysis_self (s : State) (k : String) (v : TestAnalysis) :
    (s.cacheAnalysis k v).getAnalysis k = some v := by
  simp [State.getAnalysis, State.cacheAnalysis, List.lookup]

theorem getAnalysis_cacheAnalysis_of_ne (s : State) (k k' : String) (v : TestAnalysis)
    (h : k' ≠ k) : (s.cacheAnalysis k v).getAnalysis k' = s.getAnalysis k' := by
  have : (k' == k) = false := by simpa using h
  simp [State.getAnalysis, State.cacheAnalysis, List.lookup, this]

theorem getAnalysis_congr (s s' : State) (k : String) (h : s.visited = s'.visited) :
    s.getAnalysis k = s'.getAnalysis k := by
  simp [State.getAnalysis, h]

theorem CacheInv.inv_subtestStep {a : ParallelAnalyzer} {pass : Pass} {I : State → Prop}
    (hI : CacheInv a pass I) (pos : Nat) (name : String) (q : State × Ref) (h : I q.1)
    (hq : RefOK q) : I (subtestStep a pos name q).1 := by
  have hv : (reportParallelSubtest a (reportDefer a q.1 q.2.val name) q.2.val pos name).visited
      = q.1.visited := by rw [reportParallelSubtest_visited, reportDefer_visited]
  have h2 := hI.visited _ _ hv.symm h
  simp only [subtestStep]
  cases hk : q.2.key with
  | none => exact h2
  | some k =>
    refine hI.store _ k _ h2 ?_
    rw [getAnalysis_congr _ _ k hv]
    exact hq k hk

theorem CacheInv.inv_builderStep {a : ParallelAnalyzer} {pass : Pass} {I : State → Prop}
    (hI : CacheInv a pass I) (pos : Nat) (name : String)
    (q : State × TestAnalysis × TestAnalysis) (h : I q.1) : I (builderStep a pos name q).1 := by
  refine hI.visited _ _ ?_ h
  simp only [builderStep]
  rw [reportParallelSubtest_visited, reportDefer_visited]

/-- A cache invariant holds after every function of the recursive core, applied to nodes
and functions of the package. -/
theorem core_inv (a : ParallelAnalyzer) (pass : Pass) (I : State → Prop)
    (hI : CacheInv a pass I) : ∀ fuel, CoreInv a pass I fuel := by
  intro fuel
  induction fuel with
  | zero =>
    refine ⟨?_, ?_, ?_, ?_, ?_, ?_, ?_⟩ <;> intros <;>
      simp_all [analyzeTestRun, analyzeFunctionCall, visitExprStmt, analyzeCallExpr,
        analyzeFunctionF, inspectBuilder, analyzeBuilderCall]
  | succ fuel ih =>
    obtain ⟨ihRun, ihCall, ihVisit, ihExpr, ihF, ihInsp, ihB⟩ := ih
    refine ⟨?_, ?_, ?_, ?_, ?_, ?_, ?_⟩
    · intro st c tv r hc hst h
      rw [analyzeTestRun_succ] at h
      split at h
      · rename_i pos params lbrace body ht
        obtain ⟨_, results, hmem⟩ := runTarget_lit pass c tv _ _ _ _ ht
        simp only [Option.bind_eq_some] at h
        obtain ⟨q, hq, h⟩ := h
        cases h
        obtain ⟨i1, i2⟩ := ihF st ⟨params, lbrace, body⟩ q (passFn_of_lit (hc.node_arg hmem)) hst hq
        exact hI.inv_subtestStep _ _ q i1 i2
      · rename_i name fd ht
        obtain ⟨_, hfind, _⟩ := runTarget_named pass c tv _ _ ht
        simp only [Option.bind_eq_some] at h
        obtain ⟨q, hq, h⟩ := h
        cases h
        obtain ⟨i1, i2⟩ := ihF st ⟨fd.params, fd.lbrace, fd.body⟩ q
          (passFn_of_decl (findFunction_mem pass _ _ hfind).1) hst hq
        exact hI.inv_subtestStep _ _ q i1 i2
      · rename_i name fd ht
        obtain ⟨_, hfind, _⟩ := runTarget_builder pass c tv _ _ ht
        simp only [Option.bind_eq_some] at h
        obtain ⟨q, hq, h⟩ := h
        cases h
        exact hI.inv_builderStep _ _ q (ihB st fd q (findFunction_mem pass _ _ hfind).1 hst hq)
      · cases h; exact hst
    · intro st c r hst h
      simp only [analyzeFunctionCall] at h
      split at h
      · cases h; exact hst
      · rename_i fd hfind
        simp only [Option.bind_eq_some] at h
        obtain ⟨q, hq, h⟩ := h
        cases h
        exact (ihF st ⟨fd.params, fd.lbrace, fd.body⟩ q
          (passFn_of_decl (findFunction_mem pass _ _ hfind).1) hst hq).1
    · intro st acc tv n r hn hst h
      simp only [visitExprStmt] at h
      split at h
      · exact ihExpr _ _ _ _ _ hn hst h
      · exact foldlM_rel (fun (s t : State × TestAnalysis) => I s.1 → I t.1) (fun _ => id)
          (fun _ _ _ h1 h2 => h2 ∘ h1) _ _ (st, acc) r
          (fun x hx t t' ht hi => ihVisit _ _ _ _ _ (hn.node_child hx) hi ht) h hst
    · intro st acc tv c r hc hst h
      simp only [analyzeCallExpr, Option.bind_eq_some] at h
      obtain ⟨r1, h1, r2, h2, r3, h3, h⟩ := h
      cases h
      have e1 : I r1.1 :=
        foldlM_rel (fun (s t : State × TestAnalysis) => I s.1 → I t.1) (fun _ => id)
          (fun _ _ _ h1 h2 => h2 ∘ h1) _ _ (st, acc) r1
          (fun x hx t t' ht hi => by
            split at ht
            · exact ihExpr _ _ _ _ _ (hc.node_arg hx) hi ht
            · cases ht; exact hi) h1 hst
      exact ihCall _ _ r3 (ihRun _ _ _ _ hc e1 h2) h3
    · intro st x r hx hst h
      rw [analyzeFunctionF_succ] at h
      split at h
      · cases h; exact ⟨hst, fun k hk => by cases hk⟩
      · rename_i htv
        split at h
        · rename_i v hv
          cases h
          exact ⟨hst, fun k hk => by cases hk; exact hv⟩
        · rename_i hmiss
          simp only [Option.bind_eq_some] at h
          obtain ⟨w, hw, h⟩ := h
          cases h
          have e1 : I w.1 :=
            foldlM_rel (fun (s t : State × TestAnalysis) => I s.1 → I t.1) (fun _ => id)
              (fun _ _ _ h1 h2 => h2 ∘ h1) _ _ (st, TestAnalysis.empty) w
              (fun l hl t t' ht hi => by
                split at ht
                · cases ht; exact hi
                · exact ihVisit _ _ _ _ _ (hx.body_node l hl) hi ht) hw hst
          refine ⟨hI.cache fuel st x w hx (by simpa [Func.testVar] using htv) hmiss hst hw e1, ?_⟩
          intro k hk
          cases hk
          exact getAnalysis_cacheAnalysis_self _ _ _
    · intro st facts tv n r hn hst h
      simp only [inspectBuilder, Option.bind_eq_some] at h
      obtain ⟨q, hq, h⟩ := h
      have e1 : I q.1 := by
        split at hq
        · split at hq
          · simp only [Option.bind_eq_some] at hq
            obtain ⟨q', hq', hq⟩ := hq
            cases hq
            exact ihVisit _ _ _ _ _ hn hst hq'
          · cases hq; exact hst
        · split at hq
          · simp only [Option.bind_eq_some] at hq
            obtain ⟨q', hq', hq⟩ := hq
            cases hq
            exact ihVisit _ _ _ _ _ hn hst hq'
          · cases hq; exact hst
        · rename_i results
          exact foldlM_rel (fun (s t : State × TestAnalysis × TestAnalysis) => I s.1 → I t.1)
            (fun _ => id) (fun _ _ _ h1 h2 => h2 ∘ h1) _ _ (st, facts) q
            (fun x hx t t' ht hi => by
              split at ht
              · rename_i pos params res lbrace body
                simp only [Option.bind_eq_some] at ht
                obtain ⟨q', hq', ht⟩ := ht
                cases ht
                exact (ihF t.1 ⟨params, lbrace, body⟩ q'
                  (passFn_of_lit (hn.node_child (by simpa [Node.children] using hx))) hi hq').1
              · cases ht; exact hi) hq hst
        · cases hq; exact hst
      exact foldlM_rel (fun (s t : State × TestAnalysis × TestAnalysis) => I s.1 → I t.1)
        (fun _ => id) (fun _ _ _ h1 h2 => h2 ∘ h1) _ _ q r
        (fun x hx t t' ht hi => ihInsp _ _ _ _ _ (hn.node_child hx) hi ht) h e1
    · intro st fd r hfd hst h
      simp only [analyzeBuilderCall] at h
      exact foldlM_rel (fun (s t : State × TestAnalysis × TestAnalysis) => I s.1 → I t.1)
        (fun _ => id) (fun _ _ _ h1 h2 => h2 ∘ h1) _ _ _ r
        (fun x hx t t' ht hi => ihInsp _ _ _ _ _ (passNode_of_decl hfd hx) hi ht) h hst

mutual
theorem visits_of_mem_visited : ∀ (n c : Node), c ∈ n.visited → Visits n c
  | .callExpr pos func args, c, h => by
    simp only [Node.visited, List.mem_append, List.mem_singleton] at h
    rcases h with h | h
    · obtain ⟨x, hx, hc, hv⟩ := visits_of_mem_visitedArgs args c h
      exact .arg _ x _ rfl hx hc hv
    · subst h; exact .here _ rfl
  | .ident _, c, h => by simp [Node.visited] at h
  | .selectorExpr x sel, c, h => by
    simp only [Node.visited] at h
    exact .child _ x _ rfl (by simp [Node.children]) (visits_of_mem_visited x c h)
  | .starExpr x, c, h => by
    simp only [Node.visited] at h
    exact .child _ x _ rfl (by simp [Node.children]) (visits_of_mem_visited x c h)
  | .field names type, c, h => by
    simp only [Node.visited] at h
    exact .child _ type _ rfl (by simp [Node.children]) (visits_of_mem_visited type c h)
  | .funcLit pos params results lbrace body, c, h => by
    simp only [Node.visited, List.mem_append] at h
    rcases h with h | h | h
    · obtain ⟨n, hn, hv⟩ := visits_of_mem_visitedList params c h
      exact .child _ n _ rfl (by simp [Node.children, hn]) hv
    · obtain ⟨n, hn, hv⟩ := visits_of_mem_visitedList results c h
      exact .child _ n _ rfl (by simp [Node.children, hn]) hv
    · obtain ⟨n, hn, hv⟩ := visits_of_mem_visitedList body c h
      exact .child _ n _ rfl (by simp [Node.children, hn]) hv
  | .exprStmt x, c, h => by
    simp only [Node.visited] at h
    exact .child _ x _ rfl (by simp [Node.children]) (visits_of_mem_visited x c h)
  | .deferStmt pos call, c, h => by
    simp only [Node.visited] at h
    exact .child _ call _ rfl (by simp [Node.children]) (visits_of_mem_visited call c h)
  | .returnStmt results, c, h => by
    simp only [Node.visited] at h
    obtain ⟨n, hn, hv⟩ := visits_of_mem_visitedList results c h
    exact .child _ n _ rfl (by simp [Node.children, hn]) hv
  | .rangeStmt header lbrace body, c, h => by
    simp only [Node.visited, List.mem_append] at h
    rcases h with h | h
    · obtain ⟨n, hn, hv⟩ := visits_of_mem_visitedList header c h
      exact .child _ n _ rfl (by simp [Node.children, hn]) hv
    · obtain ⟨n, hn, hv⟩ := visits_of_mem_visitedList body c h
      exact .child _ n _ rfl (by simp [Node.children, hn]) hv
  | .other children, c, h => by
    simp only [Node.visited] at h
    obtain ⟨n, hn, hv⟩ := visits_of_mem_visitedList children c h
    exact .child _ n _ rfl (by simp [Node.children, hn]) hv
theorem visits_of_mem_visitedList : ∀ (l : List Node) (c : Node), c ∈ visitedList l →
    ∃ n ∈ l, Visits n c
  | [], c, h => by simp [visitedList] at h
  | n :: ns, c, h => by
    simp only [visitedList, List.mem_append] at h
    rcases h with h | h
    · exact ⟨n, List.mem_cons_self _ _, visits_of_mem_visited n c h⟩
    · obtain ⟨m, hm, hv⟩ := visits_of_mem_visitedList ns c h
      exact ⟨m, List.mem_cons_of_mem _ hm, hv⟩
theorem visits_of_mem_visitedArgs : ∀ (l : List Node) (c : Node), c ∈ visitedArgs l →
    ∃ x ∈ l, x.isCallExpr = true ∧ Visits x c
  | [], c, h => by simp [visitedArgs] at h
  | n :: ns, c, h => by
    simp only [visitedArgs, List.mem_append] at h
    rcases h with h | h
    · by_cases hn : n.isCallExpr = true
      · simp only [hn, if_true] at h
        exact ⟨n, List.mem_cons_self _ _, hn, visits_of_mem_visited n c h⟩
      · simp [hn] at h
    · obtain ⟨m, hm, hc, hv⟩ := visits_of_mem_visitedArgs ns c h
      exact ⟨m, List.mem_cons_of_mem _ hm, hc, hv⟩
end

theorem visits_passNode {pass : Pass} {n c : Node} (hv : Visits n c) (hn : PassNode pass n) :
    PassNode pass c := by
  induction hv with
  | here _ _ => exact hn
  | child n ch c _ hmem _ ih => exact ih (hn.node_child hmem)
  | arg n ar c _ hmem _ _ ih => exact ih (hn.node_arg hmem)

/-- The trace lemma `walk_reaches` with a cache invariant carried along. -/
theorem walk_reaches_inv (a : ParallelAnalyzer) (pass : Pass) (I : State → Prop)
    (hI : CacheInv a pass I) : ∀ fuel,
    (∀ st acc tv n r c, PassNode pass n → I st →
      visitExprStmt a pass fuel st acc tv n = some r → Visits n c →
      ReachedInv a pass I c tv r) ∧
    (∀ st acc tv n r c, PassNode pass n → I st →
      analyzeCallExpr a pass fuel st acc tv n = some r → Visits n c → n.isCallExpr = true →
      ReachedInv a pass I c tv r) := by
  intro fuel
  induction fuel with
  | zero => constructor <;> intros <;> simp_all [visitExprStmt, analyzeCallExpr]
  | succ fuel ih =>
    obtain ⟨ihV, ihC⟩ := ih
    have hinv := core_inv a pass I hI fuel
    constructor
    · intro st acc tv n r c hn hst h hv
      simp only [visitExprStmt] at h
      split at h
      · rename_i hcall
        exact ihC _ _ _ _ _ _ hn hst h hv hcall
      · rename_i hcall
        cases hv with
        | here _ hc => exact absurd hc hcall
        | arg _ _ _ hc => exact absurd hc hcall
        | child _ ch _ _ hmem hvc =>
          obtain ⟨l1, l2, s1, s2, e, g1, g2, g3⟩ := foldlM_mem_split _ ch _ _ _ h hmem
          have i1 : I s1.1 :=
            foldlM_rel (fun (s t : State × TestAnalysis) => I s.1 → I t.1) (fun _ => id)
              (fun _ _ _ h1 h2 => h2 ∘ h1) _ l1 _ _
              (fun x hx t t' ht hi =>
                hinv.2.2.1 _ _ _ _ _ (hn.node_child (by rw [e]; simp [hx])) hi ht) g1 hst
          have w2 : WalkLe a s2 r :=
            foldlM_rel (WalkLe a) (WalkLe.walk_refl a) (fun _ _ _ => WalkLe.walk_trans) _ l2 _ _
              (fun x _ t t' ht => visitExprStmt_walkLe a pass fuel _ _ _ _ _ ht) g3
          obtain ⟨f, sa, sb, sc, dRun, dCall, x1, x2, x3, x4, x5, k1, k2, k3⟩ :=
            ihV _ _ _ _ _ _ (hn.node_child hmem) i1 g2 hvc
          exact ⟨f, sa, sb, sc, dRun, dCall, x1, x2, x3, x4, x5, k1.le_trans w2.2.1,
            k2.le_trans w2.2.1, k3.le_trans w2.2.1⟩
    · intro st acc tv n r c hn hst h hv hcall
      simp only [analyzeCallExpr, Option.bind_eq_some] at h
      obtain ⟨r1, h1, r2, h2, r3, h3, h⟩ := h
      have hstepI : ∀ x ∈ n.args, ∀ t t' : State × TestAnalysis,
          (if x.isCallExpr = true then analyzeCallExpr a pass fuel t.1 t.2 tv x else some t)
            = some t' → I t.1 → I t'.1 := by
        intro x hx t t' ht hi
        split at ht
        · exact hinv.2.2.2.1 _ _ _ _ _ (hn.node_arg hx) hi ht
        · cases ht; exact hi
      have hstep : ∀ x ∈ n.args, ∀ t t' : State × TestAnalysis,
          (if x.isCallExpr = true then analyzeCallExpr a pass fuel t.1 t.2 tv x else some t)
            = some t' → WalkLe a t t' := by
        intro x _ t t' ht
        split at ht
        · exact analyzeCallExpr_walkLe a pass fuel _ _ _ _ _ ht
        · cases ht; exact WalkLe.walk_refl a _
      have wtail : FactsLe r1.2 r.2 := by
        cases h
        exact (FactsLe.flags r1.2 n tv).le_trans
          ((FactsLe.merge_left _ _).le_trans (FactsLe.merge_left _ _))
      cases hv with
      | child _ _ _ hc => rw [hcall] at hc; cases hc
      | here _ _ =>
        have i1 : I r1.1 :=
          foldlM_rel (fun (s t : State × TestAnalysis) => I s.1 → I t.1) (fun _ => id)
            (fun _ _ _ h1 h2 => h2 ∘ h1) _ _ _ _ hstepI h1 hst
        cases h
        exact ⟨fuel, r1.1, r2.1, r3.1, r2.2, r3.2, i1, hn, h2, hinv.1 _ _ _ _ hn i1 h2, h3,
          (FactsLe.flags_empty r1.2 n tv).le_trans
            ((FactsLe.merge_left _ _).le_trans (FactsLe.merge_left _ _)),
          (FactsLe.merge_right _ _).le_trans (FactsLe.merge_left _ _),
          FactsLe.merge_right _ _⟩
      | arg _ ar _ _ hmem hac hvc =>
        obtain ⟨l1, l2, s1, s2, e, g1, g2, g3⟩ := foldlM_mem_split _ ar _ _ _ h1 hmem
        have i1 : I s1.1 :=
          foldlM_rel (fun (s t : State × TestAnalysis) => I s.1 → I t.1) (fun _ => id)
            (fun _ _ _ h1 h2 => h2 ∘ h1) _ l1 _ _
            (fun x hx => hstepI x (by rw [e]; simp [hx])) g1 hst
        have w2 : WalkLe a s2 r1 :=
          foldlM_rel (WalkLe a) (WalkLe.walk_refl a) (fun _ _ _ => WalkLe.walk_trans) _ l2 _ _
            (fun x hx => hstep x (by rw [e]; simp [hx])) g3
        rw [if_pos hac] at g2
        obtain ⟨f, sa, sb, sc, dRun, dCall, x1, x2, x3, x4, x5, k1, k2, k3⟩ :=
          ihC _ _ _ _ _ _ (hn.node_arg hmem) i1 g2 hvc hac
        exact ⟨f, sa, sb, sc, dRun, dCall, x1, x2, x3, x4, x5,
          k1.le_trans (w2.2.1.le_trans wtail), k2.le_trans (w2.2.1.le_trans wtail),
          k3.le_trans (w2.2.1.le_trans wtail)⟩

/-- The trace lemma `walkBody_reaches` with a cache invariant carried along. -/
theorem walkBody_reaches_inv (a : ParallelAnalyzer) (pass : Pass) (I : State → Prop)
    (hI : CacheInv a pass I) (fuel : Nat) (st : State) (x : Func)
    (r : State × TestAnalysis) (stmt c : Node) (hx : PassFn pass x) (hst : I st)
    (h : walkBody a pass fuel st x.testVar x.body = some r) (hmem : stmt ∈ x.body)
    (hd : stmt.isDeferStmt = false) (hv : Visits stmt c) :
    ReachedInv a pass I c x.testVar r := by
  obtain ⟨l1, l2, s1, s2, e, g1, g2, g3⟩ := foldlM_mem_split _ stmt _ _ _ h hmem
  have i1 : I s1.1 :=
    foldlM_rel (fun (s t : State × TestAnalysis) => I s.1 → I t.1) (fun _ => id)
      (fun _ _ _ h1 h2 => h2 ∘ h1) _ l1 _ _
      (fun y hy t t' ht hi => by
        split at ht
        · cases ht; exact hi
        · exact (core_inv a pass I hI fuel).2.2.1 _ _ _ _ _
            (hx.body_node y (by rw [e]; simp [hy])) hi ht) g1 hst
  have w2 := foldlM_rel (fun s t : State × TestAnalysis =>
      Ext (CoreFormat a) s.1 t.1 ∧ FactsLe s.2 t.2)
    (fun s => ⟨Ext.ext_refl _ _, FactsLe.le_refl _⟩)
    (fun _ _ _ h1 h2 => ⟨h1.1.ext_trans h2.1, h1.2.le_trans h2.2⟩) _ l2 _ _
    (fun y _ t t' ht => walkBody_step_le a pass fuel x.testVar y t t' ht) g3
  simp only [hd, Bool.false_eq_true, if_false] at g2
  obtain ⟨f, sa, sb, sc, dRun, dCall, x1, x2, x3, x4, x5, k1, k2, k3⟩ :=
    (walk_reaches_inv a pass I hI fuel).1 _ _ _ _ _ _ (hx.body_node stmt hmem) i1 g2 hv
  exact ⟨f, sa, sb, sc, dRun, dCall, x1, x2, x3, x4, x5, k1.le_trans w2.2,
    k2.le_trans w2.2, k3.le_trans w2.2⟩

theorem walkBody_cantParallel_of_calls (a : ParallelAnalyzer) (pass : Pass) (fuel : Nat)
    (st : State) (tv : String) (body : List Node) (w : State × TestAnalysis)
    (h : walkBody a pass fuel st tv body = some w)
    (hc : callsDisqualifier tv body = true) : w.2.cantParallel = true := by
  simp only [callsDisqualifier, List.any_eq_true, Bool.and_eq_true, Bool.not_eq_true',
    Bool.or_eq_true] at hc
  obtain ⟨stmt, hmem, hd, c, hcv, hdisq⟩ := hc
  obtain ⟨_, _, _, _, _, _, _, _, _, _, k1, _, _⟩ :=
    walkBody_reaches a pass fuel st tv body w stmt c h hmem hd (visits_of_mem_visited stmt c hcv)
  exact k1.2 (flags_cantParallel c tv hdisq)

theorem eq_of_filter_length_le_one {α : Type} (p : α → Bool) (l : List α) (x y : α)
    (hx : x ∈ l) (hy : y ∈ l) (px : p x = true) (py : p y = true)
    (h : (l.filter p).length ≤ 1) : y = x := by
  have hx' : x ∈ l.filter p := List.mem_filter.2 ⟨hx, px⟩
  have hy' : y ∈ l.filter p := List.mem_filter.2 ⟨hy, py⟩
  match hl : l.filter p with
  | [] => rw [hl] at hx'; cases hx'
  | [z] =>
    rw [hl] at hx' hy'
    simp only [List.mem_singleton] at hx' hy'
    rw [hx', hy']
  | _ :: _ :: _ => rw [hl] at h; simp at h

theorem eq_of_uniqueHash (pass : Pass) (x y : Func) (hx : x ∈ pass.functions)
    (hy : y ∈ pass.functions) (hu : pass.uniqueHash x = true) (hh : y.hash = x.hash) :
    y = x := by
  simp only [Pass.uniqueHash, decide_eq_true_eq] at hu
  exact eq_of_filter_length_le_one _ _ x y hx hy (by simp) (by simp [hh]) hu

/-- The analyzer keeps the cache sound for direct disqualification. -/
theorem disqSound_cacheInv (a : ParallelAnalyzer) (pass : Pass) :
    CacheInv a pass (DisqSound pass) where
  visited := fun s s' hv h x hx hu htv hc v hget =>
    h x hx hu htv hc v (by rw [getAnalysis_congr s s' _ hv]; exact hget)
  store := fun s k v h hk x hx hu htv hc v' hget => by
    by_cases hkx : x.hash = k
    · rw [hkx, getAnalysis_cacheAnalysis_self] at hget
      cases hget
      simpa [TestAnalysis.incr] using h x hx hu htv hc v (by rw [hkx]; exact hk)
    · rw [getAnalysis_cacheAnalysis_of_ne _ _ _ _ hkx] at hget
      exact h x hx hu htv hc v' hget
  cache := fun fuel s y w hy _ _ _ hw hw1 x hx hu htv hc v hget => by
    by_cases hkx : x.hash = y.hash
    · rw [hkx, getAnalysis_cacheAnalysis_self] at hget
      cases hget
      have := eq_of_uniqueHash pass x y hx hy.mem_functions hu hkx.symm
      subst this
      exact walkBody_cantParallel_of_calls a pass fuel s _ _ w hw hc
    · rw [getAnalysis_cacheAnalysis_of_ne _ _ _ _ hkx] at hget
      exact hw1 x hx hu htv hc v hget

theorem disqSound_empty (pass : Pass) : DisqSound pass {} := by
  intro x _ _ _ _ v hget
  simp [State.getAnalysis, List.lookup] at hget

/-- The facts of a function of the package with a test parameter whose body has a
fingerprint of its own and calls `Setenv` or `Chdir` on that parameter have
`cantParallel`, whenever the function is analyzed from a sound cache. -/
theorem analyzeFunctionF_cantParallel (a : ParallelAnalyzer) (pass : Pass) (fuel : Nat)
    (st : State) (x : Func) (r : State × Ref) (hx : PassFn pass x) (hst : DisqSound pass st)
    (hu : pass.uniqueHash x = true) (htv : x.testVar ≠ "")
    (hc : callsDisqualifier x.testVar x.body = true)
    (h : analyzeFunctionF a pass fuel st x.params x.lbrace x.body = some r) :
    r.2.val.cantParallel = true := by
  cases hget : st.getAnalysis (nodeHash x.lbrace x.body) with
  | some v =>
    cases fuel with
    | zero => simp [analyzeFunctionF] at h
    | succ f =>
      rw [analyzeFunctionF_succ] at h
      have htv' : (findTestParamName x.params == "") = false := by
        simpa [Func.testVar] using htv
      simp only [htv', Bool.false_eq_true, if_false, hget, Option.some.injEq] at h
      subst h
      exact hst x hx.mem_functions hu htv hc v hget
  | none =>
    obtain ⟨f, w, _, hw, _, e2, _⟩ := analyzeFunctionF_miss a pass fuel st _ _ _ r htv hget h
    rw [e2]
    exact walkBody_cantParallel_of_calls a pass f st _ _ w hw hc

/-- The walk of the body of a function of the package that calls a directly
disqualified helper, from a cache sound for direct disqualification, gives facts with
`cantParallel`. -/
theorem walkBody_cantParallel_of_helper (a : ParallelAnalyzer) (pass : Pass) (fuel : Nat)
    (st : State) (x : Func) (w : State × TestAnalysis) (hx : PassFn pass x)
    (hst : DisqSound pass st) (hc : CallsDisqHelper pass x)
    (h : walkBody a pass fuel st x.testVar x.body = some w) : w.2.cantParallel = true := by
  obtain ⟨stmt, hm, hd, c, hh, hv, hfind, htvh, hu, hcalls⟩ := hc
  obtain ⟨f', sa, sb, sc, dRun, dCall, _, _, _, isb, hcall, _, _, k3⟩ :=
    walkBody_reaches_inv a pass (DisqSound pass) (disqSound_cacheInv a pass) fuel st
      x w stmt c hx hst h hm hd hv
  refine k3.2 ?_
  cases f' with
  | zero => simp [analyzeFunctionCall] at hcall
  | succ g =>
    simp only [analyzeFunctionCall, hfind, Option.bind_eq_some] at hcall
    obtain ⟨q, hq, e⟩ := hcall
    cases e
    exact analyzeFunctionF_cantParallel a pass g sb hh.toFunc q
      (passFn_of_decl (findFunction_mem pass _ _ hfind).1) isb hu htvh hcalls hq

/-- The analyzer keeps the cache sound for disqualification through a helper. -/
theorem helperSound_cacheInv (a : ParallelAnalyzer) (pass : Pass) :
    CacheInv a pass (HelperSound pass) where
  visited := fun s s' hv h =>
    ⟨(disqSound_cacheInv a pass).visited s s' hv h.1, fun x hx hu htv hc v hget =>
      h.2 x hx hu htv hc v (by rw [getAnalysis_congr s s' _ hv]; exact hget)⟩
  store := fun s k v h hk =>
    ⟨(disqSound_cacheInv a pass).store s k v h.1 hk, fun x hx hu htv hc v' hget => by
      by_cases hkx : x.hash = k
      · rw [hkx, getAnalysis_cacheAnalysis_self] at hget
        cases hget
        simpa [TestAnalysis.incr] using h.2 x hx hu htv hc v (by rw [hkx]; exact hk)
      · rw [getAnalysis_cacheAnalysis_of_ne _ _ _ _ hkx] at hget
        exact h.2 x hx hu htv hc v' hget⟩
  cache := fun fuel s y w hy hytv hmiss hs hw hw1 =>
    ⟨(disqSound_cacheInv a pass).cache fuel s y w hy hytv hmiss hs.1 hw hw1.1,
      fun x hx hu htv hc v hget => by
        by_cases hkx : x.hash = y.hash
        · rw [hkx, getAnalysis_cacheAnalysis_self] at hget
          cases hget
          have := eq_of_uniqueHash pass x y hx hy.mem_functions hu hkx.symm
          subst this
          exact walkBody_cantParallel_of_helper a pass fuel s _ w hy hs.1 hc hw
        · rw [getAnalysis_cacheAnalysis_of_ne _ _ _ _ hkx] at hget
          exact hw1.2 x hx hu htv hc v hget⟩

theorem helperSound_empty (pass : Pass) : HelperSound pass {} :=
  ⟨disqSound_empty pass, fun x _ _ _ _ v hget => by
    simp [State.getAnalysis, List.lookup] at hget⟩

/-- From a cache sound for disqualification through a helper: when `analyzeTestFunction`
returns on a function of the package whose walk visits, outside top-level defer
statements, a call whose name resolves to a directly disqualified helper, the facts of
the function have `cantParallel` and no top-level diagnostic is among the reports
added. -/
theorem helper_disqualifies (a : ParallelAnalyzer) (pass : Pass) (fuel : Nat) (st st' : State)
    (funcDecl h : FuncDecl) (stmt c : Node)
    (hsound : HelperSound pass st)
    (hfd : funcDecl ∈ pass.funcDecls)
    (htv : findTestParamName funcDecl.params ≠ "")
    (hufd : pass.uniqueHash funcDecl.toFunc = true)
    (hm : stmt ∈ funcDecl.body) (hd : stmt.isDeferStmt = false) (hv : Visits stmt c)
    (hh : findFunction pass (getCallName c) = some h)
    (htvh : findTestParamName h.params ≠ "")
    (hcalls : callsDisqualifier (findTestParamName h.params) h.body = true)
    (hu : pass.uniqueHash h.toFunc = true)
    (hrun : analyzeTestFunction a pass fuel st funcDecl = some st') :
    ∃ r, analyzeFunction a pass fuel st funcDecl = some r ∧ r.2.val.cantParallel = true ∧
      ∃ added, st'.reports = st.reports ++ added ∧
        ∀ d ∈ added, d.format ≠ .missingParallel := by
  obtain ⟨r, hr, hrep⟩ := analyzeTestFunction_reports a pass fuel st st' funcDecl hrun
  have hhelper : CallsDisqHelper pass funcDecl.toFunc :=
    ⟨stmt, hm, hd, c, h, hv, hh, htvh, hu, hcalls⟩
  have hcant : r.2.val.cantParallel = true := by
    cases hget : st.getAnalysis (nodeHash funcDecl.lbrace funcDecl.body) with
    | some v =>
      cases fuel with
      | zero => simp [analyzeFunction, analyzeFunctionF] at hr
      | succ f =>
        simp only [analyzeFunction] at hr
        rw [analyzeFunctionF_succ] at hr
        have htv' : (findTestParamName funcDecl.params == "") = false := by simpa using htv
        simp only [htv', Bool.false_eq_true, if_false, hget, Option.some.injEq] at hr
        subst hr
        exact hsound.2 funcDecl.toFunc (passFn_of_decl hfd).mem_functions hufd htv hhelper v hget
    | none =>
      obtain ⟨f, w, _, hw, _, e2, _⟩ :=
        analyzeFunctionF_miss a pass fuel st _ _ _ r htv hget hr
      rw [e2]
      exact walkBody_cantParallel_of_helper a pass f st funcDecl.toFunc w (passFn_of_decl hfd)
        hsound.1 hhelper hw
  refine ⟨r, hr, hcant, ?_⟩
  obtain ⟨X, eX, qX⟩ := analyzeFunctionF_ext a pass _ st _ _ _ r hr
  rw [topLevelDiagnostics_nil_of_cantParallel a _ _ hcant, List.append_nil, eX,
    List.append_assoc] at hrep
  refine ⟨_, hrep, fun d hd => ?_⟩
  rcases List.mem_append.1 hd with hd | hd
  · exact (qX d hd).1
  · exact not_missingParallel_of_defer a _ _ d hd

theorem returned_results (a : ParallelAnalyzer) (pass : Pass) (fuel : Nat)
    (results : List Node) :
    ∀ (s r : State × TestAnalysis × TestAnalysis),
      results.foldlM
        (fun (r : State × TestAnalysis × TestAnalysis) (result : Node) =>
          match result with
          | .funcLit _ params _ lbrace body =>
            (analyzeFunctionF a pass fuel r.1 params lbrace body).bind fun inner =>
              some (inner.1, r.2.1, r.2.2.merge inner.2.val)
          | _ => some r) s = some r →
      r.2.1 = s.2.1 := by
  induction results with
  | nil =>
    intro s r h
    simp only [List.foldlM_nil, Option.pure_def, Option.some.injEq] at h
    subst h
    rfl
  | cons x xs ih =>
    intro s r h
    simp only [List.foldlM_cons, Option.bind_eq_bind, Option.bind_eq_some] at h
    obtain ⟨t, h1, h2⟩ := h
    have i1 := ih t r h2
    cases x with
    | funcLit pos params res lbrace body =>
      simp only [Option.bind_eq_some] at h1
      obtain ⟨inner, hin, e⟩ := h1
      cases e
      exact i1
    | _ =>
      simp only [Option.some.injEq] at h1
      subst h1
      exact i1

theorem PairLe.pair_refl (a : ParallelAnalyzer) (s : State × TestAnalysis × TestAnalysis) :
    PairLe a s s := ⟨Ext.ext_refl _ _, FactsLe.le_refl _⟩

theorem PairLe.pair_trans {a : ParallelAnalyzer} {s t u : State × TestAnalysis × TestAnalysis}
    (h1 : PairLe a s t) (h2 : PairLe a t u) : PairLe a s u :=
  ⟨h1.1.ext_trans h2.1, h1.2.le_trans h2.2⟩

theorem inspectBuilder_own_le (a : ParallelAnalyzer) (pass : Pass) (fuel : Nat) (st : State)
    (facts : TestAnalysis × TestAnalysis) (tv : String) (n : Node)
    (q : State × TestAnalysis × TestAnalysis)
    (hq : (match n with
      | .exprStmt _ | .rangeStmt _ _ _ =>
        if tv != "" then
          (visitExprStmt a pass fuel st facts.1 tv n).bind fun r => some (r.1, r.2, facts.2)
        else some (st, facts)
      | .returnStmt results =>
        results.foldlM
          (fun (r : State × TestAnalysis × TestAnalysis) (result : Node) =>
            match result with
            | .funcLit _ params _ lbrace body =>
              (analyzeFunctionF a pass fuel r.1 params lbrace body).bind fun inner =>
                some (inner.1, r.2.1, r.2.2.merge inner.2.val)
            | _ => some r)
          (st, facts)
      | _ => some (st, facts)) = some q) : PairLe a (st, facts) q := by
  split at hq
  · split at hq
    · simp only [Option.bind_eq_some] at hq
      obtain ⟨q', hq', hq⟩ := hq
      cases hq
      have := visitExprStmt_walkLe a pass fuel _ _ _ _ _ hq'
      exact ⟨this.1, this.2.1⟩
    · cases hq; exact PairLe.pair_refl a _
  · split at hq
    · simp only [Option.bind_eq_some] at hq
      obtain ⟨q', hq', hq⟩ := hq
      cases hq
      have := visitExprStmt_walkLe a pass fuel _ _ _ _ _ hq'
      exact ⟨this.1, this.2.1⟩
    · cases hq; exact PairLe.pair_refl a _
  · refine ⟨?_, ?_⟩
    · exact foldlM_rel (fun (s t : State × TestAnalysis × TestAnalysis) =>
          Ext (CoreFormat a) s.1 t.1) (fun _ => Ext.ext_refl _ _) (fun _ _ _ => Ext.ext_trans)
        _ _ _ _ (fun x _ t t' ht => by
          split at ht
          · simp only [Option.bind_eq_some] at ht
            obtain ⟨q', hq', ht⟩ := ht
            cases ht
            exact analyzeFunctionF_ext a pass fuel _ _ _ _ q' hq'
          · cases ht; exact Ext.ext_refl _ _) hq
    · rw [returned_results a pass fuel _ (st, facts) q hq]
      exact FactsLe.le_refl _
  · cases hq; exact PairLe.pair_refl a _

theorem inspectBuilder_le (a : ParallelAnalyzer) (pass : Pass) : ∀ fuel,
    ∀ (st : State) (facts : TestAnalysis × TestAnalysis) (tv : String) (n : Node)
      (r : State × TestAnalysis × TestAnalysis),
      inspectBuilder a pass fuel st facts tv n = some r → PairLe a (st, facts) r := by
  intro fuel
  induction fuel with
  | zero => intro st facts tv n r h; simp [inspectBuilder] at h
  | succ fuel ih =>
    intro st facts tv n r h
    simp only [inspectBuilder, Option.bind_eq_some] at h
    obtain ⟨q, hq, h⟩ := h
    exact (inspectBuilder_own_le a pass fuel st facts tv n q hq).pair_trans
      (foldlM_rel (PairLe a) (PairLe.pair_refl a) (fun _ _ _ => PairLe.pair_trans) _ _ _ _
        (fun x _ t t' ht => ih _ _ _ _ _ ht) h)

/-- The walk of `analyzeBuilderCall` below a node applies the analyses, for the parent
facts, to every call visited from an expression statement or range statement in the
subtree of the node, when the builder has a test parameter. -/
theorem inspectBuilder_reaches (a : ParallelAnalyzer) (pass : Pass) : ∀ fuel,
    ∀ (st : State) (facts : TestAnalysis × TestAnalysis) (tv : String) (n : Node)
      (r : State × TestAnalysis × TestAnalysis) (s c : Node),
      inspectBuilder a pass fuel st facts tv n = some r → tv ≠ "" → Sub n s →
      s.isBuilderStmt = true → Visits s c → Reached a pass st c tv (r.1, r.2.1) := by
  intro fuel
  induction fuel with
  | zero => intro st facts tv n r s c h; simp [inspectBuilder] at h
  | succ fuel ih =>
    intro st facts tv n r s c h htv hsub hs hv
    simp only [inspectBuilder, Option.bind_eq_some] at h
    obtain ⟨q, hq, h⟩ := h
    have htv' : (tv != "") = true := by simpa using htv
    cases hsub with
    | here _ =>
      have hkids : PairLe a q r :=
        foldlM_rel (PairLe a) (PairLe.pair_refl a) (fun _ _ _ => PairLe.pair_trans) _ _ _ _
          (fun x _ t t' ht => inspectBuilder_le a pass fuel _ _ _ _ _ ht) h
      have hwalk : ∃ q', visitExprStmt a pass fuel st facts.1 tv n = some q' ∧
          q = (q'.1, q'.2, facts.2) := by
        cases n <;> simp [Node.isBuilderStmt] at hs <;>
          simp only [htv', if_true, Option.bind_eq_some] at hq <;>
          obtain ⟨q', hq', e⟩ := hq <;> exact ⟨q', hq', (Option.some.inj e).symm⟩
      obtain ⟨q', hq', rfl⟩ := hwalk
      exact ((walk_reaches a pass fuel).1 _ _ _ _ _ _ hq' hv).extend_le (Ext.ext_refl _ _)
        hkids.1 hkids.2
    | child _ ch _ hmem hsub' =>
      have hown := inspectBuilder_own_le a pass fuel st facts tv n q hq
      obtain ⟨l1, l2, s1, s2, _, g1, g2, g3⟩ := foldlM_mem_split _ ch _ _ _ h hmem
      have w1 : PairLe a q s1 :=
        foldlM_rel (PairLe a) (PairLe.pair_refl a) (fun _ _ _ => PairLe.pair_trans) _ l1 _ _
          (fun x _ t t' ht => inspectBuilder_le a pass fuel _ _ _ _ _ ht) g1
      have w2 : PairLe a s2 r :=
        foldlM_rel (PairLe a) (PairLe.pair_refl a) (fun _ _ _ => PairLe.pair_trans) _ l2 _ _
          (fun x _ t t' ht => inspectBuilder_le a pass fuel _ _ _ _ _ ht) g3
      exact (ih _ _ _ _ _ _ _ g2 htv hsub' hs hv).extend_le (hown.1.ext_trans w1.1)
        w2.1 w2.2

/-- The parent facts `analyzeBuilderCall` returns hold the flags of every call visited
from an expression statement or a range statement of the builder. -/
theorem analyzeBuilderCall_reaches (a : ParallelAnalyzer) (pass : Pass) (fuel : Nat)
    (st : State) (fd : FuncDecl) (r : State × TestAnalysis × TestAnalysis) (root s c : Node)
    (h : analyzeBuilderCall a pass fuel st fd = some r)
    (htv : findTestParamName fd.params ≠ "") (hroot : root ∈ fd.nodes) (hsub : Sub root s)
    (hs : s.isBuilderStmt = true) (hv : Visits s c) :
    Reached a pass st c (findTestParamName fd.params) (r.1, r.2.1) := by
  cases fuel with
  | zero => simp [analyzeBuilderCall] at h
  | succ f =>
    simp only [analyzeBuilderCall] at h
    obtain ⟨l1, l2, s1, s2, _, g1, g2, g3⟩ := foldlM_mem_split _ root _ _ _ h hroot
    have w1 : PairLe a (st, TestAnalysis.empty, TestAnalysis.empty) s1 :=
      foldlM_rel (PairLe a) (PairLe.pair_refl a) (fun _ _ _ => PairLe.pair_trans) _ l1 _ _
        (fun x _ t t' ht => inspectBuilder_le a pass f _ _ _ _ _ ht) g1
    have w2 : PairLe a s2 r :=
      foldlM_rel (PairLe a) (PairLe.pair_refl a) (fun _ _ _ => PairLe.pair_trans) _ l2 _ _
        (fun x _ t t' ht => inspectBuilder_le a pass f _ _ _ _ _ ht) g3
    exact (inspectBuilder_reaches a pass f _ _ _ _ _ _ _ g2 htv hsub hs hv).extend_le w1.1
      w2.1 w2.2

theorem bind_mono {α β : Type} {o o' : Option α} {F F' : α → Option β} {r : β}
    (h : o.bind F = some r) (ho : ∀ x, o = some x → o' = some x)
    (hF : ∀ x, F x = some r → F' x = some r) : o'.bind F' = some r := by
  simp only [Option.bind_eq_some] at h ⊢
  obtain ⟨x, hx, hr⟩ := h
  exact ⟨x, ho x hx, hF x hr⟩

theorem foldlM_mono {σ α : Type} (f f' : σ → α → Option σ) :
    ∀ (l : List α) (s t : σ), (∀ x ∈ l, ∀ u v, f u x = some v → f' u x = some v) →
      l.foldlM f s = some t → l.foldlM f' s = some t := by
  intro l
  induction l with
  | nil => intro s t _ h; simpa using h
  | cons x xs ih =>
    intro s t hf h
    simp only [List.foldlM_cons, Option.bind_eq_bind] at h ⊢
    exact bind_mono h (fun u hu => hf x (List.mem_cons_self _ _) s u hu)
      (fun u hu => ih u t (fun y hy => hf y (List.mem_cons_of_mem _ hy)) hu)

/-- The bound only cuts the analysis off: what a function of the recursive core returns
at one bound it returns at every larger bound. -/
theorem fuel_mono (a : ParallelAnalyzer) (pass : Pass) : ∀ fuel, FuelMono a pass fuel := by
  intro fuel
  induction fuel with
  | zero =>
    refine ⟨?_, ?_, ?_, ?_, ?_, ?_, ?_⟩ <;> intros <;>
      simp_all [analyzeTestRun, analyzeFunctionCall, visitExprStmt, analyzeCallExpr,
        analyzeFunctionF, inspectBuilder, analyzeBuilderCall]
  | succ fuel ih =>
    obtain ⟨ihRun, ihCall, ihVisit, ihExpr, ihF, ihInsp, ihB⟩ := ih
    refine ⟨?_, ?_, ?_, ?_, ?_, ?_, ?_⟩
    · intro st c tv r h
      rw [analyzeTestRun_succ] at h ⊢
      cases ht : runTarget pass c tv with
      | lit pos params lbrace body =>
        rw [ht] at h
        exact bind_mono h (fun x hx => ihF _ _ _ _ _ hx) (fun _ hx => hx)
      | named name fd =>
        rw [ht] at h
        exact bind_mono h (fun x hx => ihF _ _ _ _ _ hx) (fun _ hx => hx)
      | builder name fd =>
        rw [ht] at h
        exact bind_mono h (fun x hx => ihB _ _ _ hx) (fun _ hx => hx)
      | unresolved => rw [ht] at h; exact h
    · intro st c r h
      simp only [analyzeFunctionCall] at h ⊢
      split
      · rename_i hf; rw [hf] at h; exact h
      · rename_i fd hf
        rw [hf] at h
        exact bind_mono h (fun x hx => ihF _ _ _ _ _ hx) (fun _ hx => hx)
    · intro st acc tv n r h
      simp only [visitExprStmt] at h ⊢
      split
      · rename_i hc; rw [if_pos hc] at h; exact ihExpr _ _ _ _ _ h
      · rename_i hc
        rw [if_neg hc] at h
        exact foldlM_mono _ _ _ _ _ (fun x _ u v hu => ihVisit _ _ _ _ _ hu) h
    · intro st acc tv c r h
      simp only [analyzeCallExpr] at h ⊢
      refine bind_mono h (fun x hx => foldlM_mono _ _ _ _ _ (fun y _ u v hu => ?_) hx)
        (fun r1 h1 => bind_mono h1 (fun x hx => ihRun _ _ _ _ hx)
          (fun r2 h2 => bind_mono h2 (fun x hx => ihCall _ _ _ hx) (fun _ hx => hx)))
      split
      · rename_i hc; rw [if_pos hc] at hu; exact ihExpr _ _ _ _ _ hu
      · rename_i hc; rw [if_neg hc] at hu; exact hu
    · intro st params lbrace body r h
      rw [analyzeFunctionF_succ] at h
      rw [analyzeFunctionF_succ]
      split
      · rename_i htv; rw [if_pos htv] at h; exact h
      · rename_i htv
        rw [if_neg htv] at h
        split
        · rename_i v hv; rw [hv] at h; exact h
        · rename_i hv
          rw [hv] at h
          refine bind_mono h (fun x hx => foldlM_mono _ _ _ _ _ (fun y _ u v hu => ?_) hx)
            (fun _ hx => hx)
          split
          · rename_i hd; rw [if_pos hd] at hu; exact hu
          · rename_i hd; rw [if_neg hd] at hu; exact ihVisit _ _ _ _ _ hu
    · intro st facts tv n r h
      simp only [inspectBuilder] at h ⊢
      refine bind_mono h (fun x hx => ?_)
        (fun q hq => foldlM_mono _ _ _ _ _ (fun y _ u v hu => ihInsp _ _ _ _ _ hu) hq)
      cases n with
      | exprStmt e =>
        simp only at hx ⊢
        split
        · rename_i htv
          rw [if_pos htv] at hx
          exact bind_mono hx (fun y hy => ihVisit _ _ _ _ _ hy) (fun _ hy => hy)
        · rename_i htv; rw [if_neg htv] at hx; exact hx
      | rangeStmt header lb body =>
        simp only at hx ⊢
        split
        · rename_i htv
          rw [if_pos htv] at hx
          exact bind_mono hx (fun y hy => ihVisit _ _ _ _ _ hy) (fun _ hy => hy)
        · rename_i htv; rw [if_neg htv] at hx; exact hx
      | returnStmt results =>
        simp only at hx ⊢
        refine foldlM_mono _ _ _ _ _ (fun y _ u v hu => ?_) hx
        cases y with
        | funcLit pos params res lbrace body =>
          simp only at hu ⊢
          exact bind_mono hu (fun z hz => ihF _ _ _ _ _ hz) (fun _ hz => hz)
        | _ => exact hu
      | _ => exact hx
    · intro st fd r h
      simp only [analyzeBuilderCall] at h ⊢
      exact foldlM_mono _ _ _ _ _ (fun y _ u v hu => ihInsp _ _ _ _ _ hu) h

theorem analyzeTestFunction_fuel_mono (a : ParallelAnalyzer) (pass : Pass) (fuel : Nat)
    (st st' : State) (fd : FuncDecl) (h : analyzeTestFunction a pass fuel st fd = some st') :
    analyzeTestFunction a pass (fuel + 1) st fd = some st' := by
  simp only [analyzeTestFunction, analyzeFunction] at h ⊢
  exact bind_mono h (fun x hx => (fuel_mono a pass fuel).2.2.2.2.1 _ _ _ _ _ hx) (fun _ hx => hx)

/-- A run that returns at one bound returns the same state at every larger bound. -/
theorem run_fuel_mono (a : ParallelAnalyzer) (pass : Pass) (fuel : Nat) (st st' : State)
    (h : run a pass fuel st = some st') : run a pass (fuel + 1) st = some st' := by
  simp only [run] at h ⊢
  refine foldlM_mono _ _ _ _ _ (fun file _ u v hu => ?_) h
  refine foldlM_mono _ _ _ _ _ (fun fd _ s t hs => ?_) hu
  simp only [runDecl] at hs ⊢
  split
  · rename_i hc; rw [if_pos hc] at hs; exact hs
  · rename_i hc
    rw [if_neg hc] at hs
    split
    · rename_i ht
      rw [if_pos ht] at hs
      exact analyzeTestFunction_fuel_mono a pass fuel _ _ fd hs
    · rename_i ht; rw [if_neg ht] at hs; exact hs

theorem analyzeTestFunction_inv (a : ParallelAnalyzer) (pass : Pass) (I : State → Prop)
    (hI : CacheInv a pass I) (fuel : Nat) (st st' : State) (fd : FuncDecl)
    (hfd : fd ∈ pass.funcDecls) (hst : I st)
    (h : analyzeTestFunction a pass fuel st fd = some st') : I st' := by
  simp only [analyzeTestFunction, analyzeFunction, Option.bind_eq_some] at h
  obtain ⟨r, hr, e⟩ := h
  cases e
  have h1 := ((core_inv a pass _ hI fuel).2.2.2.2.1 st fd.toFunc r (passFn_of_decl hfd) hst hr).1
  refine hI.visited _ _ ?_ h1
  rw [reportDefer_visited]
  split <;> rfl

/-- Every run keeps a cache invariant; with `disqSound_empty` and `helperSound_empty`,
the cache of a fresh analyzer is sound for disqualification after any number of runs on
the package. -/
theorem run_inv (a : ParallelAnalyzer) (pass : Pass) (I : State → Prop)
    (hI : CacheInv a pass I) (fuel : Nat) (st st' : State)
    (hst : I st) (h : run a pass fuel st = some st') : I st' := by
  simp only [run] at h
  have key : ∀ (l : List File) (s t : State), (∀ file ∈ l, file ∈ pass.files) → I s →
      l.foldlM (fun st file =>
        file.funcDecls.foldlM (fun st d => runDecl a pass fuel st file.name d) st) s = some t →
      I t := by
    intro l
    induction l with
    | nil => intro s t _ hs ht; simp at ht; subst ht; exact hs
    | cons file rest ih =>
      intro s t hmem hs ht
      simp only [List.foldlM_cons, Option.bind_eq_bind, Option.bind_eq_some] at ht
      obtain ⟨u, hu, ht⟩ := ht
      refine ih u t (fun f hf => hmem f (List.mem_cons_of_mem _ hf)) ?_ ht
      have hfile := hmem file (List.mem_cons_self _ _)
      have inner : ∀ (ds : List FuncDecl) (s t : State), (∀ d ∈ ds, d ∈ file.funcDecls) →
          I s → ds.foldlM (fun st d => runDecl a pass fuel st file.name d) s = some t →
          I t := by
        intro ds
        induction ds with
        | nil => intro s t _ hs ht; simp at ht; subst ht; exact hs
        | cons d ds ihd =>
          intro s t hd hs ht
          simp only [List.foldlM_cons, Option.bind_eq_bind, Option.bind_eq_some] at ht
          obtain ⟨v, hv, ht⟩ := ht
          refine ihd v t (fun e he => hd e (List.mem_cons_of_mem _ he)) ?_ ht
          simp only [runDecl] at hv
          split at hv
          · cases hv; exact hs
          · split at hv
            · refine analyzeTestFunction_inv a pass I hI fuel s v d ?_ hs hv
              simp only [Pass.funcDecls, List.mem_flatMap]
              exact ⟨file, hfile, hd d (List.mem_cons_self _ _)⟩
            · cases hv; exact hs
      exact inner _ s u (fun _ hd => hd) hs hu
  exact key pass.files st st' (fun _ hf => hf) hst h

/-- The analyzer keeps the cache sound for the defer fields. -/
theorem deferSound_cacheInv (a : ParallelAnalyzer) (pass : Pass) :
    CacheInv a pass (DeferSound a pass) where
  visited := fun s s' hv h x hx hu htv v hget =>
    h x hx hu htv v (by rw [getAnalysis_congr s s' _ hv]; exact hget)
  store := fun s k v h hk x hx hu htv v' hget => by
    by_cases hkx : x.hash = k
    · rw [hkx, getAnalysis_cacheAnalysis_self] at hget
      cases hget
      exact h x hx hu htv v (by rw [hkx]; exact hk)
    · rw [getAnalysis_cacheAnalysis_of_ne _ _ _ _ hkx] at hget
      exact h x hx hu htv v' hget
  cache := fun fuel s y w hy _ _ _ hw hw1 x hx hu htv v hget => by
    by_cases hkx : x.hash = y.hash
    · rw [hkx, getAnalysis_cacheAnalysis_self] at hget
      cases hget
      have := eq_of_uniqueHash pass x y hx hy.mem_functions hu hkx.symm
      subst this
      exact walkBody_defers a pass fuel s _ _ w hw
    · rw [getAnalysis_cacheAnalysis_of_ne _ _ _ _ hkx] at hget
      exact hw1 x hx hu htv v hget

theorem deferSound_empty (a : ParallelAnalyzer) (pass : Pass) : DeferSound a pass {} := by
  intro x _ _ _ v hget
  simp [State.getAnalysis, List.lookup] at hget

/-- The facts `analyzeFunctionF` returns for a function of the package with a test
parameter and a fingerprint of its own, from a cache sound for the defer fields, have
the defer fields of the body, whether they come from the cache or from a walk. -/
theorem analyzeFunctionF_deferFields (a : ParallelAnalyzer) (pass : Pass) (fuel : Nat)
    (st : State) (x : Func) (r : State × Ref) (hx : PassFn pass x)
    (hst : DeferSound a pass st) (hu : pass.uniqueHash x = true) (htv : x.testVar ≠ "")
    (h : analyzeFunctionF a pass fuel st x.params x.lbrace x.body = some r) :
    DeferFields a x.body r.2.val := by
  cases hget : st.getAnalysis (nodeHash x.lbrace x.body) with
  | some v =>
    cases fuel with
    | zero => simp [analyzeFunctionF] at h
    | succ f =>
      rw [analyzeFunctionF_succ] at h
      have htv' : (findTestParamName x.params == "") = false := by
        simpa [Func.testVar] using htv
      simp only [htv', Bool.false_eq_true, if_false, hget, Option.some.injEq] at h
      subst h
      exact hst x hx.mem_functions hu htv v hget
  | none =>
    obtain ⟨f, w, _, hw, _, e2, _⟩ := analyzeFunctionF_miss a pass fuel st _ _ _ r htv hget h
    rw [e2]
    exact walkBody_defers a pass f st _ _ w hw

/-- C8, amended: let `checkCleanup` be set and the cache be sound for the defer fields
(as the cache of a fresh analyzer is, and stays). For every test function of the package
(its body having a fingerprint of its own) whose body facts have `hasParallel` and at
least one sub-test, the reports `analyzeTestFunction` adds after those of the body
analysis are exactly the defer warnings of the function, one at each top-level defer
statement of the body, in source order, each with the message "Function <name> uses
defer with t.Parallel, use t.Cleanup instead ...". -/
theorem analyzeTestFunction_defer_warnings (a : ParallelAnalyzer) (pass : Pass) (fuel : Nat)
    (st st' : State) (funcDecl : FuncDecl)
    (hcc : a.checkCleanup = true)
    (hsound : DeferSound a pass st)
    (hfd : funcDecl ∈ pass.funcDecls)
    (htv : findTestParamName funcDecl.params ≠ "")
    (hu : pass.uniqueHash funcDecl.toFunc = true)
    (h : analyzeTestFunction a pass fuel st funcDecl = some st') :
    ∃ r, analyzeFunction a pass fuel st funcDecl = some r ∧
      (r.2.val.hasParallel = true → r.2.val.numberOfTestRun ≥ 1 →
        st'.reports = r.1.reports ++
          deferWarnings funcDecl.name (funcDecl.body.filter Node.isDeferStmt) ∧
        ∀ d ∈ deferWarnings funcDecl.name (funcDecl.body.filter Node.isDeferStmt),
          d.message = "Function " ++ funcDecl.name ++
            " uses defer with t.Parallel, use t.Cleanup instead" ++
            " to ensure cleanup runs after parallel subtests complete\n") := by
  obtain ⟨r, hr, hrep⟩ := analyzeTestFunction_reports a pass fuel st st' funcDecl h
  obtain ⟨d1, d2⟩ := analyzeFunctionF_deferFields a pass fuel st funcDecl.toFunc r
    (passFn_of_decl hfd) hsound hu htv hr
  simp only [FuncDecl.toFunc] at d1 d2
  refine ⟨r, hr, fun hp hn => ⟨?_, ?_⟩⟩
  · rw [hrep, topLevelDiagnostics_nil_of_hasParallel a _ _ hp, List.append_nil,
      deferDiagnostics_eq_warnings a _ _ hcc hp hn, d1, hcc]
    · rfl
    · rw [d1, d2, hcc]
      intro hf
      simp only [Bool.true_and, List.any_eq_false] at hf
      simp only [if_true, List.filter_eq_nil_iff]
      intro x hx
      simpa using hf x hx
  · intro d hd
    simp only [deferWarnings, List.mem_map] at hd
    obtain ⟨n, _, rfl⟩ := hd
    simp only [Diagnostic.message, String.append_assoc]
    rfl

theorem analyzeTestFunction_defer_warnings_witness :
    ∃ st', analyzeTestFunction { checkCleanup := true } (mkPass [testWithDefer]) 12 {}
        testWithDefer = some st' ∧
      st'.reports = [⟨51, .deferWithParallel, "TestA"⟩] := by
  have h : (analyzeTestFunction { checkCleanup := true } (mkPass [testWithDefer]) 12 {}
      testWithDefer).map (fun st => st.reports) = some [⟨51, .deferWithParallel, "TestA"⟩] := by
    decide!
  obtain ⟨st', hst, e⟩ := Option.map_eq_some'.1 h
  obtain ⟨r, _, _⟩ :=
    analyzeTestFunction_defer_warnings { checkCleanup := true } (mkPass [testWithDefer]) 12 {} st'
      testWithDefer rfl (deferSound_empty _ _)
      (by simp [Pass.funcDecls, mkPass, File.funcDecls]) (by decide) (by decide!) hst
  exact ⟨st', hst, e⟩

/-- C11, on the code: the options of the analyzer hold no extra signatures, and under
every setting of the options that leaves `ignoreMissing` off, the run on the package
`skip` of the test data reports the top-level diagnostic for each of its three tests, in
order: for `TestSkipExtraSigsFunction`, which calls the free function `ExtraSigs()`, and
for `TestSkipExtraSigsMethod`, which calls the method `Obj{}.ExtraSigs()`, as for
`TestSkipNoExtraSigs`, which calls nothing. -/
theorem extra_sigs_not_honoured :
    ∀ subtests loopVar cleanup : Bool,
      (run ⟨false, subtests, loopVar, cleanup⟩ skipPass 10 {}).map (fun st => st.reports) =
        some [⟨105, .missingParallel, "TestSkipExtraSigsFunction"⟩,
          ⟨168, .missingParallel, "TestSkipExtraSigsMethod"⟩,
          ⟨235, .missingParallel, "TestSkipNoExtraSigs"⟩] := by
  decide!

/-! ## Walks that change nothing -/

theorem InertList.inert_nil (a : ParallelAnalyzer) (pass : Pass) (tv : String) :
    InertList a pass tv 0 [] := fun _ _ _ _ => rfl

theorem InertList.inert_cons {a : ParallelAnalyzer} {pass : Pass} {tv : String} {f1 f2 : Nat}
    {n : Node} {ns : List Node} (h1 : InertNode a pass tv f1 n) (h2 : InertList a pass tv f2 ns) :
    InertList a pass tv (max f1 f2) (n :: ns) := by
  intro fuel hf st acc
  rw [List.foldlM_cons, h1 fuel (le_trans (le_max_left _ _) hf)]
  exact h2 fuel (le_trans (le_max_right _ _) hf) st acc

theorem InertList.inert_append {a : ParallelAnalyzer} {pass : Pass} {tv : String} {f1 f2 : Nat}
    {l1 l2 : List Node} (h1 : InertList a pass tv f1 l1) (h2 : InertList a pass tv f2 l2) :
    InertList a pass tv (max f1 f2) (l1 ++ l2) := by
  intro fuel hf st acc
  rw [List.foldlM_append, h1 fuel (le_trans (le_max_left _ _) hf)]
  exact h2 fuel (le_trans (le_max_right _ _) hf) st acc

theorem InertNode.of_children {a : ParallelAnalyzer} {pass : Pass} {tv : String} {f0 : Nat}
    {n : Node} (hn : n.isCallExpr = false) (h : InertList a pass tv f0 n.children) :
    InertNode a pass tv (f0 + 1) n := by
  intro fuel hf st acc
  obtain ⟨f, rfl⟩ : ∃ f, fuel = f + 1 := ⟨fuel - 1, by omega⟩
  simp only [visitExprStmt, hn, Bool.false_eq_true, if_false]
  exact h f (by omega) st acc

theorem inertNode_ident (a : ParallelAnalyzer) (pass : Pass) (tv name : String) :
    InertNode a pass tv 1 (.ident name) :=
  InertNode.of_children rfl (InertList.inert_nil a pass tv)

theorem inertList_idents (a : ParallelAnalyzer) (pass : Pass) (tv : String) :
    ∀ names : List String, InertList a pass tv 1 (names.map Node.ident)
  | [] => fun _ _ _ _ => rfl
  | name :: names => by
    have h := InertList.inert_cons (inertNode_ident a pass tv name) (inertList_idents a pass tv names)
    simpa using h

theorem flags_of_inertCall {pass : Pass} {tv : String} {c : Node}
    (h : inertCall pass tv c = true) (acc : TestAnalysis) : acc.flags c tv = acc := by
  simp only [inertCall, Bool.and_eq_true, Bool.not_eq_true'] at h
  obtain ⟨⟨⟨⟨h1, h2⟩, h3⟩, _⟩, _⟩ := h
  simp [TestAnalysis.flags, h1, h2, h3]

theorem analyzeTestRun_of_inertCall {pass : Pass} {tv : String} {c : Node}
    (h : inertCall pass tv c = true) (a : ParallelAnalyzer) (fuel : Nat) (st : State) :
    analyzeTestRun a pass (fuel + 1) st c tv = some (st, TestAnalysis.empty) := by
  simp only [inertCall, Bool.and_eq_true, Bool.not_eq_true'] at h
  obtain ⟨⟨_, h4⟩, _⟩ := h
  simp [analyzeTestRun, h4]

theorem analyzeFunctionCall_of_inertCall {pass : Pass} {tv : String} {c : Node}
    (h : inertCall pass tv c = true) (a : ParallelAnalyzer) (fuel : Nat) (st : State) :
    analyzeFunctionCall a pass (fuel + 2) st c = some (st, TestAnalysis.empty) := by
  simp only [inertCall, Bool.and_eq_true, Bool.not_eq_true'] at h
  obtain ⟨_, h5⟩ := h
  simp only [analyzeFunctionCall]
  cases hf : findFunction pass (getCallName c) with
  | none => rfl
  | some d =>
    rw [hf] at h5
    simp only at h5
    simp only [analyzeFunctionF_succ, h5, if_true, Option.some_bind]

theorem InertNode.of_inertCall {a : ParallelAnalyzer} {pass : Pass} {tv : String} {f0 : Nat}
    {c : Node} (hc : c.isCallExpr = true) (hi : inertCall pass tv c = true)
    (h : InertArgs a pass tv f0 c.args) : InertNode a pass tv (max f0 2 + 2) c := by
  intro fuel hf st acc
  obtain ⟨f, rfl⟩ : ∃ f, fuel = f + 1 + 1 + 1 + 1 := ⟨fuel - 4, by omega⟩
  have hf0 : f0 ≤ f + 1 + 1 := by omega
  rw [visitExprStmt, if_pos hc, analyzeCallExpr, h (f + 1 + 1) hf0 st acc]
  simp only [Option.some_bind, analyzeTestRun_of_inertCall hi,
    analyzeFunctionCall_of_inertCall hi, flags_of_inertCall hi, merge_empty]

mutual
theorem inertNode_of_visited (a : ParallelAnalyzer) (pass : Pass) (tv : String) :
    ∀ n : Node, (∀ c ∈ n.visited, inertCall pass tv c = true) → ∃ f0, InertNode a pass tv f0 n
  | .callExpr pos func args, h => by
    obtain ⟨f0, h0⟩ := inertArgs_of_visited a pass tv args
      (fun c hc => h c (by simp [Node.visited, hc]))
    exact ⟨_, InertNode.of_inertCall (c := .callExpr pos func args) rfl
      (h _ (by simp [Node.visited])) h0⟩
  | .ident name, _ => ⟨1, inertNode_ident a pass tv name⟩
  | .selectorExpr x sel, h => by
    obtain ⟨f0, h0⟩ := inertNode_of_visited a pass tv x (by simpa [Node.visited] using h)
    exact ⟨_, InertNode.of_children (n := .selectorExpr x sel) rfl
      (InertList.inert_cons h0 (InertList.inert_cons (inertNode_ident a pass tv sel)
        (InertList.inert_nil a pass tv)))⟩
  | .starExpr x, h => by
    obtain ⟨f0, h0⟩ := inertNode_of_visited a pass tv x (by simpa [Node.visited] using h)
    exact ⟨_, InertNode.of_children (n := .starExpr x) rfl
      (InertList.inert_cons h0 (InertList.inert_nil a pass tv))⟩
  | .field names type, h => by
    obtain ⟨f0, h0⟩ := inertNode_of_visited a pass tv type (by simpa [Node.visited] using h)
    exact ⟨_, InertNode.of_children (n := .field names type) rfl
      ((inertList_idents a pass tv names).inert_append
        (InertList.inert_cons h0 (InertList.inert_nil a pass tv)))⟩
  | .funcLit pos params results lbrace body, h => by
    obtain ⟨f1, h1⟩ := inertList_of_visited a pass tv params
      (fun c hc => h c (by simp [Node.visited, hc]))
    obtain ⟨f2, h2⟩ := inertList_of_visited a pass tv results
      (fun c hc => h c (by simp [Node.visited, hc]))
    obtain ⟨f3, h3⟩ := inertList_of_visited a pass tv body
      (fun c hc => h c (by simp [Node.visited, hc]))
    exact ⟨_, InertNode.of_children (n := .funcLit pos params results lbrace body) rfl
      ((h1.inert_append h2).inert_append h3)⟩
  | .exprStmt x, h => by
    obtain ⟨f0, h0⟩ := inertNode_of_visited a pass tv x (by simpa [Node.visited] using h)
    exact ⟨_, InertNode.of_children (n := .exprStmt x) rfl
      (InertList.inert_cons h0 (InertList.inert_nil a pass tv))⟩
  | .deferStmt pos call, h => by
    obtain ⟨f0, h0⟩ := inertNode_of_visited a pass tv call (by simpa [Node.visited] using h)
    exact ⟨_, InertNode.of_children (n := .deferStmt pos call) rfl
      (InertList.inert_cons h0 (InertList.inert_nil a pass tv))⟩
  | .returnStmt results, h => by
    obtain ⟨f0, h0⟩ := inertList_of_visited a pass tv results (by simpa [Node.visited] using h)
    exact ⟨_, InertNode.of_children (n := .returnStmt results) rfl h0⟩
  | .rangeStmt header lbrace body, h => by
    obtain ⟨f1, h1⟩ := inertList_of_visited a pass tv header
      (fun c hc => h c (by simp [Node.visited, hc]))
    obtain ⟨f2, h2⟩ := inertList_of_visited a pass tv body
      (fun c hc => h c (by simp [Node.visited, hc]))
    exact ⟨_, InertNode.of_children (n := .rangeStmt header lbrace body) rfl
      (h1.inert_append h2)⟩
  | .other children, h => by
    obtain ⟨f0, h0⟩ := inertList_of_visited a pass tv children (by simpa [Node.visited] using h)
    exact ⟨_, InertNode.of_children (n := .other children) rfl h0⟩
theorem inertList_of_visited (a : ParallelAnalyzer) (pass : Pass) (tv : String) :
    ∀ ns : List Node, (∀ c ∈ visitedList ns, inertCall pass tv c = true) →
      ∃ f0, InertList a pass tv f0 ns
  | [], _ => ⟨0, InertList.inert_nil a pass tv⟩
  | n :: ns, h => by
    obtain ⟨f1, h1⟩ := inertNode_of_visited a pass tv n
      (fun c hc => h c (by simp [visitedList, hc]))
    obtain ⟨f2, h2⟩ := inertList_of_visited a pass tv ns
      (fun c hc => h c (by simp [visitedList, hc]))
    exact ⟨_, InertList.inert_cons h1 h2⟩
theorem inertArgs_of_visited (a : ParallelAnalyzer) (pass : Pass) (tv : String) :
    ∀ args : List Node, (∀ c ∈ visitedArgs args, inertCall pass tv c = true) →
      ∃ f0, InertArgs a pass tv f0 args
  | [], _ => ⟨0, fun _ _ _ _ => rfl⟩
  | arg :: rest, h => by
    obtain ⟨f2, h2⟩ := inertArgs_of_visited a pass tv rest
      (fun c hc => h c (by simp [visitedArgs, hc]))
    by_cases hc : arg.isCallExpr = true
    · obtain ⟨f1, h1⟩ := inertNode_of_visited a pass tv arg
        (fun c hcv => h c (by simp [visitedArgs, hc, hcv]))
      refine ⟨max f1 f2, fun fuel hf st acc => ?_⟩
      have e := h1 (fuel + 1) (by have := le_max_left f1 f2; omega) st acc
      rw [visitExprStmt, if_pos hc] at e
      rw [List.foldlM_cons, if_pos hc]
      show (analyzeCallExpr a pass fuel st acc tv arg).bind _ = _
      rw [e]
      exact h2 fuel (le_trans (le_max_right _ _) hf) st acc
    · refine ⟨f2, fun fuel hf st acc => ?_⟩
      rw [List.foldlM_cons, if_neg hc]
      exact h2 fuel hf st acc
end

theorem exprCallHasMethod_iff (call : Node) (r m : String) :
    exprCallHasMethod call r m = true ↔
      ∃ pos args, call = .callExpr pos (.selectorExpr (.ident r) m) args := by
  constructor
  · intro h
    unfold exprCallHasMethod at h
    split at h
    · simp only [Bool.and_eq_true, beq_iff_eq] at h
      obtain ⟨rfl, rfl⟩ := h
      exact ⟨_, _, rfl⟩
    · cases h
  · rintro ⟨pos, args, rfl⟩
    simp [exprCallHasMethod]

theorem exprCallHasMethod_of_isLookalike {tv : String} {c : Node} (h : isLookalike tv c = true)
    (m : String) : exprCallHasMethod c tv m = false := by
  cases hc : exprCallHasMethod c tv m with
  | false => rfl
  | true =>
    obtain ⟨pos, args, rfl⟩ := (exprCallHasMethod_iff c tv m).1 hc
    simp [isLookalike] at h

theorem inertCall_of_isLookalike {pass : Pass} {tv : String} {c : Node}
    (h : isLookalike tv c = true) (hr : resolvesToNoHelper pass c = true) :
    inertCall pass tv c = true := by
  have e := exprCallHasMethod_of_isLookalike h
  simp only [resolvesToNoHelper] at hr
  simp only [inertCall, isParallelCall, isSetenvCall, isChdirCall, isTestRunCall, e, hr,
    Bool.not_false, Bool.and_self]

theorem addDefer_flags (a : ParallelAnalyzer) (acc : TestAnalysis) (l : Node) :
    (acc.addDefer a l).hasParallel = acc.hasParallel ∧
    (acc.addDefer a l).cantParallel = acc.cantParallel ∧
    (acc.addDefer a l).numberOfTestRun = acc.numberOfTestRun := by
  unfold TestAnalysis.addDefer
  split <;> exact ⟨rfl, rfl, rfl⟩

/-- The walk of a body all of whose calls, outside the top-level defer statements, are
inert returns from some bound on, with the state it was given and with the flags and
the count it was given. -/
theorem walkBody_inert (a : ParallelAnalyzer) (pass : Pass) (tv : String) :
    ∀ body : List Node,
    (∀ stmt ∈ body, stmt.isDeferStmt = false → ∀ c ∈ stmt.visited, inertCall pass tv c = true) →
    ∃ f0, ∀ fuel, f0 ≤ fuel → ∀ st acc, ∃ acc',
      body.foldlM
        (fun (r : State × TestAnalysis) (l : Node) =>
          if l.isDeferStmt then some (r.1, r.2.addDefer a l)
          else visitExprStmt a pass fuel r.1 r.2 tv l)
        (st, acc) = some (st, acc') ∧
      acc'.hasParallel = acc.hasParallel ∧ acc'.cantParallel = acc.cantParallel ∧
      acc'.numberOfTestRun = acc.numberOfTestRun
  | [], _ => ⟨0, fun _ _ st acc => ⟨acc, rfl, rfl, rfl, rfl⟩⟩
  | l :: rest, h => by
    obtain ⟨f2, h2⟩ := walkBody_inert a pass tv rest
      (fun stmt hs => h stmt (List.mem_cons_of_mem _ hs))
    by_cases hd : l.isDeferStmt = true
    · refine ⟨f2, fun fuel hf st acc => ?_⟩
      obtain ⟨acc', e, k1, k2, k3⟩ := h2 fuel hf st (acc.addDefer a l)
      obtain ⟨d1, d2, d3⟩ := addDefer_flags a acc l
      refine ⟨acc', ?_, k1.trans d1, k2.trans d2, k3.trans d3⟩
      rw [List.foldlM_cons, if_pos hd]
      exact e
    · obtain ⟨f1, h1⟩ := inertNode_of_visited a pass tv l
        (h l (List.mem_cons_self _ _) (by simpa using hd))
      refine ⟨max f1 f2, fun fuel hf st acc => ?_⟩
      obtain ⟨acc', e, k⟩ := h2 fuel (le_trans (le_max_right _ _) hf) st acc
      refine ⟨acc', ?_, k⟩
      rw [List.foldlM_cons, if_neg hd, h1 fuel (le_trans (le_max_left _ _) hf)]
      exact e

/-- The first analysis of a function with a test parameter all of whose calls are inert
returns, from some bound on, facts without flags and sub-tests, and reports nothing. -/
theorem analyzeFunctionF_inert (a : ParallelAnalyzer) (pass : Pass) (st : State)
    (params : List Node) (lbrace : Nat) (body : List Node)
    (htv : findTestParamName params ≠ "")
    (hmiss : st.getAnalysis (nodeHash lbrace body) = none)
    (h : ∀ stmt ∈ body, stmt.isDeferStmt = false →
      ∀ c ∈ stmt.visited, inertCall pass (findTestParamName params) c = true) :
    ∃ f0, ∀ fuel, f0 ≤ fuel → ∃ w,
      analyzeFunctionF a pass fuel st params lbrace body =
        some (st.cacheAnalysis (nodeHash lbrace body) w, ⟨some (nodeHash lbrace body), w⟩) ∧
      w.hasParallel = false ∧ w.cantParallel = false ∧ w.numberOfTestRun = 0 := by
  obtain ⟨f0, h0⟩ := walkBody_inert a pass (findTestParamName params) body h
  refine ⟨f0 + 1, fun fuel hf => ?_⟩
  obtain ⟨f, rfl⟩ : ∃ f, fuel = f + 1 := ⟨fuel - 1, by omega⟩
  obtain ⟨w, e, k1, k2, k3⟩ := h0 f (by omega) st TestAnalysis.empty
  refine ⟨w, ?_, k1, k2, k3⟩
  have htv' : (findTestParamName params == "") = false := by simpa using htv
  rw [analyzeFunctionF_succ]
  simp only [htv', Bool.false_eq_true, if_false, hmiss, walkBody, e, Option.some_bind]

theorem inert_of_onlyLookalikes {pass : Pass} {tv : String} {body : List Node}
    (h : onlyLookalikes pass tv body = true) :
    ∀ stmt ∈ body, stmt.isDeferStmt = false → ∀ c ∈ stmt.visited, inertCall pass tv c = true := by
  intro stmt hs hd c hc
  simp only [onlyLookalikes, List.all_eq_true, Bool.or_eq_true, Bool.and_eq_true] at h
  rcases h stmt hs with h1 | h1
  · rw [hd] at h1; cases h1
  · exact inertCall_of_isLookalike (h1 c hc).1 (h1 c hc).2

/-- C12, as stated, fails: in `TestLookalike` the only call is `other.Run(1, 1)`, a call
on an identifier other than the test parameter `t`, which `isTestRunCall` and
`isParallelCall` reject. The package also declares `func Run(t *testing.T) { t.Parallel() }`;
the call resolves to it by its selected name, the facts of `TestLookalike` have
`hasParallel`, and the run reports nothing. -/
theorem lookalike_counterexample :
    testLookalike.body = [.exprStmt (methodCall 97 "other" "Run" [basicLit, basicLit])] ∧
    isTestRunCall (methodCall 97 "other" "Run" [basicLit, basicLit]) "t" = false ∧
    isParallelCall (methodCall 97 "other" "Run" [basicLit, basicLit]) "t" = false ∧
    (analyzeFunction {} (mkPass [runHelper, testLookalike]) 12 {} testLookalike).map
      (fun r => r.2.val.hasParallel) = some true ∧
    (run {} (mkPass [runHelper, testLookalike]) 12 {}).map (fun st => st.reports) =
      some [] := by
  refine ⟨rfl, by decide, by decide, ?_, ?_⟩ <;> decide!

/-- C12, amended: `exprCallHasMethod call r m` holds exactly when the callee of `call` is
a selector on the identifier `r` that selects `m`. A look-alike, a call `other.m(..)` on
an identifier other than the test parameter, leaves the flags of `analyzeCallExpr` as
they are and is no sub-test for `analyzeTestRun`. For a test function whose calls are all
look-alikes with names that resolve to no declaration with a test parameter, the first
analysis returns (from some bound on the call depth on) and `analyzeTestFunction`
reports exactly the top-level diagnostic, `ignoreMissing` being off. And a test function
whose walk visits `q.Parallel()` on its own test parameter, whatever its name `q`, gets
no top-level diagnostic in its first analysis. -/
theorem receiver_identity_by_name :
    (∀ (call : Node) (r m : String), exprCallHasMethod call r m = true ↔
      ∃ pos args, call = .callExpr pos (.selectorExpr (.ident r) m) args) ∧
    (∀ (a : ParallelAnalyzer) (pass : Pass) (fuel : Nat) (st : State) (acc : TestAnalysis)
        (tv : String) (c : Node), isLookalike tv c = true →
      acc.flags c tv = acc ∧
      analyzeTestRun a pass (fuel + 1) st c tv = some (st, TestAnalysis.empty)) ∧
    (∀ (a : ParallelAnalyzer) (pass : Pass) (st : State) (funcDecl : FuncDecl),
      a.ignoreMissing = false → findTestParamName funcDecl.params ≠ "" →
      st.getAnalysis (nodeHash funcDecl.lbrace funcDecl.body) = none →
      onlyLookalikes pass (findTestParamName funcDecl.params) funcDecl.body = true →
      ∃ f0, ∀ fuel, f0 ≤ fuel → ∃ st', analyzeTestFunction a pass fuel st funcDecl = some st' ∧
        st'.reports = st.reports ++ [⟨funcDecl.pos, .missingParallel, funcDecl.name⟩]) ∧
    (∀ (a : ParallelAnalyzer) (pass : Pass) (fuel : Nat) (st st' : State) (funcDecl : FuncDecl)
        (stmt : Node) (pos : Nat) (args : List Node),
      findTestParamName funcDecl.params ≠ "" →
      st.getAnalysis (nodeHash funcDecl.lbrace funcDecl.body) = none →
      stmt ∈ funcDecl.body → stmt.isDeferStmt = false →
      Visits stmt (methodCall pos (findTestParamName funcDecl.params) "Parallel" args) →
      analyzeTestFunction a pass fuel st funcDecl = some st' →
      ∃ added, st'.reports = st.reports ++ added ∧ ∀ d ∈ added, d.format ≠ .missingParallel) := by
  refine ⟨exprCallHasMethod_iff, ?_, ?_, ?_⟩
  · intro a pass fuel st acc tv c h
    have e := exprCallHasMethod_of_isLookalike h
    constructor
    · simp [TestAnalysis.flags, isParallelCall, isSetenvCall, isChdirCall, e]
    · simp [analyzeTestRun, isTestRunCall, e]
  · intro a pass st funcDecl hi htv hmiss hl
    obtain ⟨f0, h0⟩ := analyzeFunctionF_inert a pass st funcDecl.params funcDecl.lbrace
      funcDecl.body htv hmiss (inert_of_onlyLookalikes hl)
    refine ⟨f0, fun fuel hf => ?_⟩
    obtain ⟨w, e, k1, k2, _⟩ := h0 fuel hf
    simp only [analyzeTestFunction, analyzeFunction, e, Option.some_bind, hi, k1, k2,
      Bool.not_false, Bool.and_self, if_true]
    refine ⟨_, rfl, ?_⟩
    rw [reportDefer_reports, deferDiagnostics_nil_of_not_parallel a w _ k1, List.append_nil]
    rfl
  · intro a pass fuel st st' funcDecl stmt pos args htv hmiss hm hd hv h
    obtain ⟨r, hr, hrep⟩ := analyzeTestFunction_reports a pass fuel st st' funcDecl h
    obtain ⟨f, w, rfl, hw, e1, e2, _⟩ :=
      analyzeFunctionF_miss a pass fuel st _ _ _ r htv hmiss hr
    have hpar : r.2.val.hasParallel = true := by
      rw [e2]
      obtain ⟨_, _, _, _, _, _, _, _, _, _, k1, _, _⟩ :=
        walkBody_reaches a pass f st _ _ w stmt _ hw hm hd hv
      exact k1.1 (by simp [TestAnalysis.flags, TestAnalysis.empty, isParallelCall,
        exprCallHasMethod, methodCall])
    obtain ⟨X, eX, qX⟩ := analyzeFunctionF_ext a pass _ st _ _ _ r hr
    rw [topLevelDiagnostics_nil_of_hasParallel a _ _ hpar, List.append_nil, eX,
      List.append_assoc] at hrep
    refine ⟨_, hrep, fun d hd => ?_⟩
    rcases List.mem_append.1 hd with hd | hd
    · exact (qX d hd).1
    · exact not_missingParallel_of_defer a _ _ d hd

theorem receiver_identity_by_name_witness :
    (∃ f0, ∀ fuel, f0 ≤ fuel → ∃ st',
      analyzeTestFunction {} lookalikePass fuel {} testFunctionWithParallelLookalike = some st' ∧
      st'.reports = [⟨200, .missingParallel, "TestFunctionWithParallelLookalike"⟩]) ∧
    ∃ st', analyzeTestFunction {} lookalikePass 8 {} testFunctionWithOtherTestingVar = some st' ∧
      st'.reports = [] := by
  constructor
  · exact receiver_identity_by_name.2.2.1 {} lookalikePass {} testFunctionWithParallelLookalike
      rfl (by decide) rfl (by decide!)
  · have h : (analyzeTestFunction {} lookalikePass 8 {} testFunctionWithOtherTestingVar).map
        (fun st => st.reports) = some [] := by decide!
    obtain ⟨st', hst, hrep⟩ := Option.map_eq_some'.1 h
    obtain ⟨added, h1, h2⟩ :=
      receiver_identity_by_name.2.2.2 {} lookalikePass 8 {} st' testFunctionWithOtherTestingVar
        (.exprStmt (methodCall 353 "q" "Parallel" [])) 353 [] (by decide) rfl
        (by simp [testFunctionWithOtherTestingVar, mkFunc]) rfl
        (show Visits _ (methodCall 353 "q" "Parallel" []) from
          .child _ _ _ rfl (by simp [Node.children]) (.here _ rfl)) hst
    exact ⟨st', hst, hrep⟩

theorem findTestParamName_nil : findTestParamName [] = "" := by
  simp [findTestParamName]

theorem findTestParamName_single (p : Node) :
    findTestParamName [p] ≠ "" ↔
      ∃ name names, p = .field (name :: names) testingT ∧ name ≠ "" := by
  constructor
  · intro h
    unfold findTestParamName at h
    split at h
    · exact absurd rfl h
    · rename_i names pkg sel rest heq
      obtain ⟨rfl, rfl⟩ := List.cons.inj heq
      split at h
      · rename_i hc
        simp only [Bool.and_eq_true, beq_iff_eq] at hc
        obtain ⟨rfl, rfl⟩ := hc
        cases names with
        | nil => exact absurd findTestParamName_nil h
        | cons name names => exact ⟨name, names, rfl, h⟩
      · exact absurd findTestParamName_nil h
    · rename_i x rest hne heq
      obtain ⟨rfl, rfl⟩ := List.cons.inj heq
      exact absurd findTestParamName_nil h
  · rintro ⟨name, names, rfl, hn⟩
    simpa [findTestParamName, testingT, testMethodStruct, testMethodPackageType] using hn

/-- C13, on the code: `isTestFunction` holds exactly when the name starts with "Test" and
the parameter list is one field of type `*testing.T` that has a name. It is false for
`func TestX(*testing.T)`, whose single parameter is of type `*testing.T` and has no name,
and true for `func TestX(a, b *testing.T)`, which declares two parameters in one field. -/
theorem isTestFunction_single_named_field :
    (∀ d : FuncDecl, isTestFunction d = true ↔
      "Test".toList.isPrefixOf d.name.toList = true ∧
        ∃ name names, d.params = [.field (name :: names) testingT] ∧ name ≠ "") ∧
    (isTestFunction testUnnamedParam = false ∧ numParams testUnnamedParam.params = 1 ∧
      testUnnamedParam.params = [.field [] testingT]) ∧
    (isTestFunction testGroupedParams = true ∧ numParams testGroupedParams.params = 2) := by
  refine ⟨fun d => ?_, ⟨by decide, by decide, rfl⟩, ⟨by decide, by decide⟩⟩
  unfold isTestFunction hasExactlyOneParameter
  cases hp : "Test".toList.isPrefixOf d.name.toList with
  | false => simp
  | true =>
    simp only [Bool.not_true, Bool.false_eq_true, if_false, true_and]
    constructor
    · intro h
      split at h
      · cases h
      · rename_i hl
        have hl' : d.params.length = 1 := by simpa using hl
        obtain ⟨p, hp1⟩ := List.length_eq_one.1 hl'
        rw [hp1] at h ⊢
        have h' : findTestParamName [p] ≠ "" := by simpa using h
        obtain ⟨name, names, rfl, hn⟩ := (findTestParamName_single p).1 h'
        exact ⟨name, names, rfl, hn⟩
    · rintro ⟨name, names, he, hn⟩
      rw [he]
      have h' := (findTestParamName_single _).2 ⟨name, names, rfl, hn⟩
      simpa using h'

theorem findSome_decls (name : String) (decls : List Decl) :
    (decls.findSome? fun decl =>
      match decl with
      | .funcDecl funcDecl => if funcDecl.name == name then some funcDecl else none
      | .genDecl => none) =
    (File.funcDecls ⟨"", decls⟩).find? (fun d => d.name == name) := by
  induction decls with
  | nil => rfl
  | cons decl rest ih =>
    cases decl with
    | genDecl =>
      simp only [List.findSome?_cons, File.funcDecls, List.filterMap_cons] at ih ⊢
      exact ih
    | funcDecl d =>
      simp only [List.findSome?_cons, File.funcDecls, List.filterMap_cons, List.find?_cons] at ih ⊢
      cases hd : d.name == name with
      | true => simp
      | false => simpa using ih

/-- C14, as stated, fails: in a package that declares the method
`func (o Obj) Setup(t *testing.T)` before the function `func Setup(t *testing.T)`,
`findFunction` returns the method for the name `Setup`: the declaration at position 10,
which has a receiver. -/
theorem findFunction_counterexample :
    (findFunction methodFirstPass "Setup").map (fun d => (d.pos, d.recv.length)) = some (10, 1) := by
  decide

/-- C14, amended: `findFunction` returns nothing for the empty name; for any other name
it returns the first function declaration with that name, with or without a receiver,
in the order of the files of the pass and of the declarations of each file, and nothing
when no function declaration has the name. -/
theorem findFunction_first_declaration (pass : Pass) (name : String) :
    findFunction pass name =
      if name = "" then none else pass.funcDecls.find? (fun d => d.name == name) := by
  unfold findFunction Pass.funcDecls
  by_cases hn : name = ""
  · simp [hn]
  · have hn' : (name == "") = false := by simpa using hn
    simp only [hn', Bool.false_eq_true, if_false, hn]
    induction pass.files with
    | nil => rfl
    | cons file rest ih =>
      have e : File.funcDecls ⟨"", file.decls⟩ = file.funcDecls := rfl
      rw [List.findSome?_cons, List.flatMap_cons, List.find?_append, ← ih, findSome_decls, e]
      cases file.funcDecls.find? (fun d => d.name == name) <;> rfl

/-- In the package `recPass`, from a cache without the body of `h`, neither the analysis
of the body of `h` nor the analysis of a call `h(t)` returns at any bound: the body of
`h` is put in the cache only after its walk, and the walk analyzes `h` again. -/
theorem recHelper_diverges (a : ParallelAnalyzer) : ∀ fuel : Nat,
    (∀ st, st.getAnalysis (nodeHash recHelper.lbrace recHelper.body) = none →
      analyzeFunctionF a recPass fuel st recHelper.params recHelper.lbrace recHelper.body =
        none) ∧
    (∀ st acc tv pos, st.getAnalysis (nodeHash recHelper.lbrace recHelper.body) = none →
      analyzeCallExpr a recPass fuel st acc tv (funcCall pos "h" [.ident "t"]) = none) ∧
    (∀ st acc tv pos, st.getAnalysis (nodeHash recHelper.lbrace recHelper.body) = none →
      visitExprStmt a recPass fuel st acc tv (.exprStmt (funcCall pos "h" [.ident "t"])) =
        none) := by
  intro fuel
  induction fuel using Nat.strong_induction_on with
  | _ fuel ih =>
    have hfind : findFunction recPass "h" = some recHelper := by
      simp [findFunction, recPass, mkPass, recHelper, mkFunc]
    have hcall : ∀ st acc tv pos,
        st.getAnalysis (nodeHash recHelper.lbrace recHelper.body) = none →
        analyzeCallExpr a recPass fuel st acc tv (funcCall pos "h" [.ident "t"]) = none := by
      intro st acc tv pos hmiss
      cases fuel with
      | zero => rfl
      | succ f =>
        rw [analyzeCallExpr]
        simp only [funcCall, Node.args, List.foldlM_cons, Node.isCallExpr, Bool.false_eq_true,
          if_false, List.foldlM_nil, Option.pure_def, Option.bind_eq_bind, Option.some_bind]
        cases f with
        | zero => rfl
        | succ f' =>
          have hrun : analyzeTestRun a recPass (f' + 1) st
              (.callExpr pos (.ident "h") [.ident "t"]) tv = some (st, TestAnalysis.empty) := by
            simp [analyzeTestRun, isTestRunCall, exprCallHasMethod]
          rw [hrun]
          simp only [Option.some_bind, analyzeFunctionCall, getCallName, hfind]
          rw [(ih f' (by omega)).1 st hmiss]
          rfl
    have hvisit : ∀ st acc tv pos,
        st.getAnalysis (nodeHash recHelper.lbrace recHelper.body) = none →
        visitExprStmt a recPass fuel st acc tv (.exprStmt (funcCall pos "h" [.ident "t"])) =
          none := by
      intro st acc tv pos hmiss
      cases fuel with
      | zero => rfl
      | succ f =>
        rw [visitExprStmt]
        simp only [Node.isCallExpr, Bool.false_eq_true, if_false, Node.children,
          List.foldlM_cons, List.foldlM_nil]
        cases f with
        | zero => rfl
        | succ f' =>
          have e : visitExprStmt a recPass (f' + 1) st acc tv (funcCall pos "h" [.ident "t"]) =
              analyzeCallExpr a recPass f' st acc tv (funcCall pos "h" [.ident "t"]) := by
            rw [visitExprStmt]; rfl
          rw [e, (ih f' (by omega)).2.1 st acc tv pos hmiss]
          rfl
    refine ⟨fun st hmiss => ?_, hcall, hvisit⟩
    cases fuel with
    | zero => rfl
    | succ f =>
      rw [analyzeFunctionF_succ]
      have htv : (findTestParamName recHelper.params == "") = false := by decide
      simp only [htv, Bool.false_eq_true, if_false, hmiss, walkBody]
      have hb : recHelper.body = [.exprStmt (funcCall 34 "h" [.ident "t"])] := rfl
      rw [hb, List.foldlM_cons]
      simp only [Node.isDeferStmt, Bool.false_eq_true, if_false]
      rw [(ih f (by omega)).2.2 st _ _ 34 hmiss]
      rfl

/-- C15, on the code: for the helper `func h(t *testing.T) { h(t) }`, which calls itself,
`analyzeFunctionF` on the body of `h` returns at no bound on the call depth, under any
options and from the empty cache; and for the test `func TestCallsRec(t *testing.T) { h(t) }`
of the same package neither `analyzeFunctionF` nor the run returns at any bound. -/
theorem recursive_helper_never_returns (a : ParallelAnalyzer) (fuel : Nat) :
    analyzeFunctionF a recPass fuel {} recHelper.params recHelper.lbrace recHelper.body = none ∧
    analyzeFunctionF a recPass fuel {} testCallsRec.params testCallsRec.lbrace
      testCallsRec.body = none ∧
    run a recPass fuel {} = none := by
  have hmiss : ({} : State).getAnalysis (nodeHash recHelper.lbrace recHelper.body) = none := rfl
  have h2 : analyzeFunctionF a recPass fuel {} testCallsRec.params testCallsRec.lbrace
      testCallsRec.body = none := by
    cases fuel with
    | zero => rfl
    | succ f =>
      rw [analyzeFunctionF_succ]
      have htv : (findTestParamName testCallsRec.params == "") = false := by decide
      have hm : ({} : State).getAnalysis (nodeHash testCallsRec.lbrace testCallsRec.body) =
          none := rfl
      simp only [htv, Bool.false_eq_true, if_false, hm, walkBody]
      have hb : testCallsRec.body = [.exprStmt (funcCall 87 "h" [.ident "t"])] := rfl
      rw [hb, List.foldlM_cons]
      simp only [Node.isDeferStmt, Bool.false_eq_true, if_false]
      rw [(recHelper_diverges a f).2.2 {} _ _ 87 hmiss]
      rfl
  refine ⟨(recHelper_diverges a fuel).1 {} hmiss, h2, ?_⟩
  have hsuf : "_test.go".toList.isSuffixOf "a_test.go".toList = true := by decide
  have ht1 : isTestFunction recHelper = false := by decide
  have ht2 : isTestFunction testCallsRec = true := by decide
  simp only [run, recPass, mkPass, List.foldlM_cons, List.foldlM_nil, File.funcDecls,
    List.filterMap_cons, List.filterMap_nil, List.map_cons, List.map_nil, runDecl, hsuf,
    Bool.not_true, Bool.false_eq_true, if_false, ht1, ht2, if_true, Option.pure_def,
    Option.bind_eq_bind, Option.some_bind, analyzeTestFunction, analyzeFunction]
  have h2' : analyzeFunctionF a
      ⟨[⟨"a_test.go", [Decl.funcDecl recHelper, Decl.funcDecl testCallsRec]⟩]⟩ fuel {}
      testCallsRec.params testCallsRec.lbrace testCallsRec.body = none := h2
  rw [h2']
  rfl

/-- C16, on the code: in the package of `func foo(t *testing.T) {}` and `TestTwice`, a
first analysis of the body of `foo` returns facts with `numberOfTestRun = 0` and caches
them; the sub-test invocation `t.Run("1", foo)` then increments the cached facts through
the pointer it was returned, and a second analysis of the same body returns
`numberOfTestRun = 1`. After the run the cached count of the body of `foo` is 2. -/
theorem cached_facts_change :
    ((analyzeFunction {} twicePass 10 {} fooHelper).bind fun q1 =>
      (analyzeTestRun {} twicePass 10 q1.1 runFooFirst "t").bind fun q2 =>
        (analyzeFunction {} twicePass 10 q2.1 fooHelper).map fun q3 =>
          (q1.2.val.numberOfTestRun,
            (q1.1.getAnalysis (nodeHash fooHelper.lbrace fooHelper.body)).map
              (fun v => v.numberOfTestRun),
            (q2.1.getAnalysis (nodeHash fooHelper.lbrace fooHelper.body)).map
              (fun v => v.numberOfTestRun),
            q3.2.val.numberOfTestRun)) = some (0, some 0, some 1, 1) ∧
    (run {} twicePass 10 {}).map
      (fun st => (st.getAnalysis (nodeHash fooHelper.lbrace fooHelper.body)).map
        (fun v => v.numberOfTestRun)) = some (some 2) := by
  constructor <;> decide!

/-- C17, on the code: the body of `TestTwice` is `t.Run("1", foo); t.Run("2", foo)`, two
sub-test invocations of the function `foo`, whose body is empty; the facts computed for
the body of `TestTwice` from a fresh cache have `numberOfTestRun = 3`. -/
theorem num_subtests_counts_thrice :
    testTwice.body = [.exprStmt runFooFirst, .exprStmt runFooSecond] ∧
    fooHelper.body = [] ∧
    ((visitedList testTwice.body).filter fun c => isTestRunCall c "t").length = 2 ∧
    (analyzeFunction {} twicePass 10 {} testTwice).map (fun q => q.2.val.numberOfTestRun) =
      some 3 := by
  refine ⟨rfl, rfl, by decide, by decide!⟩

/-- C18: `analyzeFunctionCall` returns empty facts, and the state it was given, when the
name of the callee resolves to no declaration. `analyzeTestRun` returns empty facts and
the state it was given, so reports nothing, when the call is not `testVar.Run` with at
least two arguments; when the second argument is neither a function literal, an
identifier nor a call expression; when it is an identifier that resolves to no
declaration or to one without exactly one parameter; and when it is a call whose name
resolves to no declaration. Merging empty facts leaves `hasParallel`, `cantParallel` and
`numberOfTestRun` of the caller as they are. -/
theorem unresolved_degrades_to_empty (a : ParallelAnalyzer) (pass : Pass) (fuel : Nat)
    (st : State) (callExpr : Node) (testVar : String) :
    (findFunction pass (getCallName callExpr) = none →
      analyzeFunctionCall a pass (fuel + 1) st callExpr = some (st, TestAnalysis.empty)) ∧
    ((isTestRunCall callExpr testVar = false ∨ callExpr.args.length ≤ 1) →
      analyzeTestRun a pass (fuel + 1) st callExpr testVar = some (st, TestAnalysis.empty)) ∧
    (∀ arg, callExpr.args.get? 1 = some arg →
      arg.isFuncLit = false → arg.isIdent = false → arg.isCallExpr = false →
      analyzeTestRun a pass (fuel + 1) st callExpr testVar = some (st, TestAnalysis.empty)) ∧
    (∀ name, callExpr.args.get? 1 = some (.ident name) →
      (findFunction pass name = none ∨
        ∃ funcDecl, findFunction pass name = some funcDecl ∧
          hasExactlyOneParameter funcDecl = false) →
      analyzeTestRun a pass (fuel + 1) st callExpr testVar = some (st, TestAnalysis.empty)) ∧
    (∀ bpos bfunc bargs, callExpr.args.get? 1 = some (.callExpr bpos bfunc bargs) →
      findFunction pass (getCallName (.callExpr bpos bfunc bargs)) = none →
      analyzeTestRun a pass (fuel + 1) st callExpr testVar = some (st, TestAnalysis.empty)) ∧
    (∀ x : TestAnalysis,
      (x.merge TestAnalysis.empty).hasParallel = x.hasParallel ∧
      (x.merge TestAnalysis.empty).cantParallel = x.cantParallel ∧
      (x.merge TestAnalysis.empty).numberOfTestRun = x.numberOfTestRun) := by
  refine ⟨fun h => ?_, fun h => ?_, fun arg harg h1 h2 h3 => ?_, fun name harg h => ?_,
    fun bpos bfunc bargs harg h => ?_, fun x => by rw [merge_empty]; exact ⟨rfl, rfl, rfl⟩⟩
  · simp [analyzeFunctionCall, h]
  · rw [analyzeTestRun]
    split
    · rename_i hc
      simp only [Bool.and_eq_true, decide_eq_true_eq] at hc
      rcases h with h | h
      · rw [h] at hc; exact absurd hc.1 (by simp)
      · omega
    · rfl
  · rw [analyzeTestRun, harg]
    cases arg <;> simp_all [Node.isFuncLit, Node.isIdent, Node.isCallExpr]
  · rw [analyzeTestRun, harg]
    rcases h with h | ⟨funcDecl, h, h1⟩
    · simp [h]
    · simp [h, h1]
  · rw [analyzeTestRun, harg]
    simp only [h]
    split <;> rfl

theorem unresolved_degrades_to_empty_witness :
    analyzeFunctionCall {} twicePass 1 {} (funcCall 5 "missing" [.ident "t"]) =
      some ({}, TestAnalysis.empty) ∧
    analyzeTestRun {} twicePass 1 {}
      (methodCall 5 "t" "Run" [basicLit, .selectorExpr (.ident "obj") "method"]) "t" =
      some ({}, TestAnalysis.empty) ∧
    analyzeTestRun {} twicePass 1 {} (methodCall 5 "t" "Run" [basicLit, .ident "missing"]) "t" =
      some ({}, TestAnalysis.empty) := by
  refine ⟨?_, ?_, ?_⟩
  · exact (unresolved_degrades_to_empty {} twicePass 0 {} (funcCall 5 "missing" [.ident "t"])
      "t").1 rfl
  · exact (unresolved_degrades_to_empty {} twicePass 0 {}
      (methodCall 5 "t" "Run" [basicLit, .selectorExpr (.ident "obj") "method"]) "t").2.2.1
      (.selectorExpr (.ident "obj") "method") rfl rfl rfl rfl
  · exact (unresolved_degrades_to_empty {} twicePass 0 {}
      (methodCall 5 "t" "Run" [basicLit, .ident "missing"]) "t").2.2.2.1
      "missing" rfl (Or.inl rfl)

theorem findTestParamName_eq_empty (params : List Node)
    (h : ∀ p ∈ params, ∀ name names, p ≠ .field (name :: names) testingT) :
    findTestParamName params = "" := by
  induction params with
  | nil => exact findTestParamName_nil
  | cons p rest ih =>
    have ih' := ih (fun q hq => h q (List.mem_cons_of_mem _ hq))
    have hp := h p (List.mem_cons_self _ _)
    unfold findTestParamName
    split
    · rfl
    · rename_i names pkg sel rest' heq
      obtain ⟨rfl, rfl⟩ := List.cons.inj heq
      split
      · rename_i hc
        simp only [Bool.and_eq_true, beq_iff_eq] at hc
        obtain ⟨rfl, rfl⟩ := hc
        cases names with
        | nil => exact ih'
        | cons name names => exact absurd rfl (hp name names)
      · exact ih'
    · rename_i x rest' hne heq
      obtain ⟨rfl, rfl⟩ := List.cons.inj heq
      exact ih'

/-- C19: for a function whose parameter list has no field of type `*testing.T` with a
name, the test-parameter name is empty and `analyzeFunctionF` returns, already at the
bound 1 (where no walk of the body and no analysis of a callee can return) and whatever
the body and the package are, the state it was given (same cache, same reports) and
fresh empty facts: all flags false, no sub-test, no defer statement. -/
theorem analyzeFunctionF_without_test_parameter (a : ParallelAnalyzer) (pass : Pass)
    (fuel : Nat) (st : State) (params : List Node) (lbrace : Nat) (body : List Node)
    (h : ∀ p ∈ params, ∀ name names, p ≠ .field (name :: names) testingT) :
    findTestParamName params = "" ∧
    analyzeFunctionF a pass (fuel + 1) st params lbrace body =
      some (st, ⟨none, TestAnalysis.empty⟩) ∧
    TestAnalysis.empty.hasParallel = false ∧ TestAnalysis.empty.cantParallel = false ∧
    TestAnalysis.empty.funcHasDeferStatement = false ∧
    TestAnalysis.empty.numberOfTestRun = 0 ∧ TestAnalysis.empty.deferStatements = [] := by
  have e := findTestParamName_eq_empty params h
  refine ⟨e, ?_, rfl, rfl, rfl, rfl, rfl⟩
  rw [analyzeFunctionF_succ, e]
  rfl

theorem analyzeFunctionF_without_test_parameter_witness :
    analyzeFunctionF {} twicePass 1 {} [.field [] testingT, .field ["s"] (.ident "string")] 40
      [.exprStmt (funcCall 42 "foo" [.ident "s"])] = some ({}, ⟨none, TestAnalysis.empty⟩) :=
  (analyzeFunctionF_without_test_parameter {} twicePass 0 {}
    [.field [] testingT, .field ["s"] (.ident "string")] 40
    [.exprStmt (funcCall 42 "foo" [.ident "s"])]
    (by
      intro p hp name names
      simp only [List.mem_cons, List.mem_singleton, List.not_mem_nil, or_false] at hp
      rcases hp with rfl | rfl
      · exact fun e => by cases e
      · exact fun e => by cases e)).2.1

theorem deferOK_empty (a : ParallelAnalyzer) : DeferOK a TestAnalysis.empty :=
  ⟨by simp [TestAnalysis.empty], fun _ => ⟨rfl, rfl⟩⟩

theorem deferOK_addDefer (a : ParallelAnalyzer) (x : TestAnalysis) (l : Node)
    (h : DeferOK a x) : DeferOK a (x.addDefer a l) := by
  unfold TestAnalysis.addDefer
  split
  · rename_i hc
    exact ⟨by simp, fun hf => by rw [hc] at hf; cases hf⟩
  · exact h

theorem cacheDeferOK_of_visited {a : ParallelAnalyzer} {s s' : State}
    (hv : s'.visited = s.visited) (h : CacheDeferOK a s) : CacheDeferOK a s' :=
  fun k v hk => h k v (by rw [← getAnalysis_congr s' s k hv]; exact hk)

/-- The analyzer simulates itself with every cached and every computed facts value
satisfying the defer-field invariant. -/
theorem deferOK_sim (a : ParallelAnalyzer) :
    Sim a a (fun s s' => s = s' ∧ CacheDeferOK a s) (fun x y => x = y ∧ DeferOK a x) where
  lookup := fun s s' hash h => by
    obtain ⟨rfl, hs⟩ := h
    cases hv : s.getAnalysis hash with
    | none => trivial
    | some v => exact ⟨rfl, hs hash v hv⟩
  cache := fun s s' hash x y h hxy => by
    obtain ⟨rfl, hs⟩ := h
    obtain ⟨rfl, hx⟩ := hxy
    refine ⟨rfl, fun k v hk => ?_⟩
    by_cases hkh : k = hash
    · rw [hkh, getAnalysis_cacheAnalysis_self] at hk
      cases hk
      exact hx
    · rw [getAnalysis_cacheAnalysis_of_ne _ _ _ _ hkh] at hk
      exact hs k v hk
  defer := fun s s' x y name h hxy => by
    obtain ⟨rfl, hs⟩ := h
    obtain ⟨rfl, _⟩ := hxy
    exact ⟨rfl, cacheDeferOK_of_visited (reportDefer_visited a s x name) hs⟩
  subtest := fun s s' x y pos name h hxy => by
    obtain ⟨rfl, hs⟩ := h
    obtain ⟨rfl, _⟩ := hxy
    exact ⟨rfl, cacheDeferOK_of_visited (reportParallelSubtest_visited a s x pos name) hs⟩
  empty := ⟨rfl, deferOK_empty a⟩
  merge := fun x y u v hxy huv => by
    obtain ⟨rfl, hx⟩ := hxy
    obtain ⟨rfl, _⟩ := huv
    exact ⟨rfl, hx⟩
  flags := fun x y c tv hxy => by
    obtain ⟨rfl, hx⟩ := hxy
    exact ⟨rfl, hx⟩
  incr := fun x y hxy => by
    obtain ⟨rfl, hx⟩ := hxy
    exact ⟨rfl, hx⟩
  addDefer := fun x y l hxy => by
    obtain ⟨rfl, hx⟩ := hxy
    exact ⟨rfl, deferOK_addDefer a x l hx⟩

theorem optRel_self_some {α : Type} {R : α → α → Prop} {o : Option α} {r : α}
    (h : OptRel R o o) (e : o = some r) : R r r := by
  subst e
  exact h

theorem analyzeTestFunction_cacheDeferOK (a : ParallelAnalyzer) (pass : Pass) (fuel : Nat)
    (st st' : State) (fd : FuncDecl) (hst : CacheDeferOK a st)
    (h : analyzeTestFunction a pass fuel st fd = some st') : CacheDeferOK a st' := by
  simp only [analyzeTestFunction, analyzeFunction, Option.bind_eq_some] at h
  obtain ⟨r, hr, e⟩ := h
  cases e
  have h1 := optRel_self_some
    ((core_sim a a pass _ _ (deferOK_sim a) fuel).2.2.2.2.1 st st fd.params fd.lbrace fd.body
      ⟨rfl, hst⟩) hr
  refine cacheDeferOK_of_visited ?_ h1.1.2
  rw [reportDefer_visited]
  split <;> rfl

/-- C20: from a cache whose facts all satisfy the defer-field invariant (the empty cache
of a fresh analyzer does), every facts value that `analyzeFunctionF`, `analyzeTestRun`,
`analyzeBuilderCall` (both of its results) and `analyzeCallExpr` (after its merges, from
facts that satisfy the invariant) return satisfies it, and so does every facts value in
the cache they and the whole run leave behind: `funcHasDeferStatement` is set exactly
when `deferStatements` is not empty, and without `checkCleanup` the one is false and the
other empty. And `merge` changes neither `funcHasDeferStatement` nor `deferStatements`
of its receiver. -/
theorem defer_field_invariant (a : ParallelAnalyzer) (pass : Pass) (fuel : Nat) (st : State)
    (hst : CacheDeferOK a st) :
    (∀ params lbrace body r, analyzeFunctionF a pass fuel st params lbrace body = some r →
      DeferOK a r.2.val ∧ CacheDeferOK a r.1) ∧
    (∀ c tv r, analyzeTestRun a pass fuel st c tv = some r →
      DeferOK a r.2 ∧ CacheDeferOK a r.1) ∧
    (∀ fd r, analyzeBuilderCall a pass fuel st fd = some r →
      DeferOK a r.2.1 ∧ DeferOK a r.2.2 ∧ CacheDeferOK a r.1) ∧
    (∀ acc tv c r, DeferOK a acc → analyzeCallExpr a pass fuel st acc tv c = some r →
      DeferOK a r.2 ∧ CacheDeferOK a r.1) ∧
    (∀ st', run a pass fuel st = some st' → CacheDeferOK a st') ∧
    (∀ x y : TestAnalysis,
      (x.merge y).funcHasDeferStatement = x.funcHasDeferStatement ∧
      (x.merge y).deferStatements = x.deferStatements) := by
  obtain ⟨hRun, _, _, hExpr, hF, _, hB⟩ := core_sim a a pass _ _ (deferOK_sim a) fuel
  refine ⟨fun params lbrace body r hr => ?_, fun c tv r hr => ?_, fun fd r hr => ?_,
    fun acc tv c r hacc hr => ?_, fun st' hr => ?_, fun x y => ⟨rfl, rfl⟩⟩
  · have h := optRel_self_some (hF st st params lbrace body ⟨rfl, hst⟩) hr
    exact ⟨h.2.2.2, h.1.2⟩
  · have h := optRel_self_some (hRun st st c tv ⟨rfl, hst⟩) hr
    exact ⟨h.2.2, h.1.2⟩
  · have h := optRel_self_some (hB st st fd ⟨rfl, hst⟩) hr
    exact ⟨h.2.1.2, h.2.2.2, h.1.2⟩
  · have h := optRel_self_some (hExpr st st acc acc tv c ⟨rfl, hst⟩ ⟨rfl, hacc⟩) hr
    exact ⟨h.2.2, h.1.2⟩
  · simp only [run] at hr
    refine foldlM_rel (fun s t => CacheDeferOK a s → CacheDeferOK a t) (fun _ => id)
      (fun _ _ _ h1 h2 => h2 ∘ h1) _ _ _ _ (fun file _ t t' ht => ?_) hr hst
    refine foldlM_rel (fun s t => CacheDeferOK a s → CacheDeferOK a t) (fun _ => id)
      (fun _ _ _ h1 h2 => h2 ∘ h1) _ _ _ _ (fun fd _ u u' hu hs => ?_) ht
    simp only [runDecl] at hu
    split at hu
    · cases hu; exact hs
    · split at hu
      · exact analyzeTestFunction_cacheDeferOK a pass fuel u u' fd hs hu
      · cases hu; exact hs

theorem defer_field_invariant_witness :
    ∃ r, analyzeFunctionF { checkCleanup := true } (mkPass [testWithDefer]) 12 {}
        testWithDefer.params testWithDefer.lbrace testWithDefer.body = some r ∧
      r.2.val.funcHasDeferStatement = true ∧ r.2.val.deferStatements.length = 1 ∧
      DeferOK { checkCleanup := true } r.2.val ∧ CacheDeferOK { checkCleanup := true } r.1 := by
  have h : (analyzeFunctionF { checkCleanup := true } (mkPass [testWithDefer]) 12 {}
      testWithDefer.params testWithDefer.lbrace testWithDefer.body).map
      (fun r => (r.2.val.funcHasDeferStatement, r.2.val.deferStatements.length)) =
      some (true, 1) := by decide!
  obtain ⟨r, hr, e⟩ := Option.map_eq_some'.1 h
  have hempty : CacheDeferOK { checkCleanup := true } {} := by
    intro k v hk
    simp [State.getAnalysis, List.lookup] at hk
  obtain ⟨h1, h2⟩ :=
    (defer_field_invariant { checkCleanup := true } (mkPass [testWithDefer]) 12 {} hempty).1
      _ _ _ r hr
  exact ⟨r, hr, (Prod.mk.inj e).1, (Prod.mk.inj e).2, h1, h2⟩

theorem runDecl_ext (a : ParallelAnalyzer) (pass : Pass) (fuel : Nat) (s s' : State)
    (name : String) (d : FuncDecl) (h : runDecl a pass fuel s name d = some s') :
    Ext (RunFormat a) s s' := by
  simp only [runDecl] at h
  split at h
  · cases h; exact Ext.ext_refl _ _
  · split at h
    · exact analyzeTestFunction_runFormat a pass fuel s s' d h
    · cases h; exact Ext.ext_refl _ _

/-- C21, as stated, fails: for `TestMissingBoth`, declared at position 10 with a
sub-test literal at position 58, the run reports the sub-test diagnostic at 58 first and
the top-level diagnostic at 10 after it. -/
theorem source_order_counterexample :
    (run {} (mkPass [testMissingBoth]) 12 {}).map (fun st => st.reports) =
      some [⟨58, .missingParallelSubtest, "literal"⟩,
        ⟨10, .missingParallel, "TestMissingBoth"⟩] ∧
    testMissingBoth.pos < 58 := by
  constructor
  · decide!
  · decide

/-- C21, amended: diagnostics are reported in the order of the traversal. For a test
function, `analyzeTestFunction` first reports the diagnostics of the analysis of the body
(sub-test diagnostics and defer warnings of sub-tests, none of them top-level), then the
top-level diagnostic of the declaration, then the defer warnings of the declaration.
Within a body the diagnostics of earlier statements precede those of later statements,
and within a file those of earlier declarations precede those of later declarations. -/
theorem reports_in_traversal_order (a : ParallelAnalyzer) (pass : Pass) (fuel : Nat)
    (st : State) :
    (∀ fd st', analyzeTestFunction a pass fuel st fd = some st' →
      ∃ r body, analyzeFunction a pass fuel st fd = some r ∧
        r.1.reports = st.reports ++ body ∧ (∀ d ∈ body, d.format ≠ .missingParallel) ∧
        st'.reports = st.reports ++ body ++ topLevelDiagnostics a r.2.val fd ++
          deferDiagnostics a r.2.val fd.name) ∧
    (∀ (tv : String) (l1 l2 : List Node) (acc : TestAnalysis) (r : State × TestAnalysis),
      (l1 ++ l2).foldlM
        (fun (r : State × TestAnalysis) (l : Node) =>
          if l.isDeferStmt then some (r.1, r.2.addDefer a l)
          else visitExprStmt a pass fuel r.1 r.2 tv l) (st, acc) = some r →
      ∃ m x y,
        l1.foldlM
          (fun (r : State × TestAnalysis) (l : Node) =>
            if l.isDeferStmt then some (r.1, r.2.addDefer a l)
            else visitExprStmt a pass fuel r.1 r.2 tv l) (st, acc) = some m ∧
        l2.foldlM
          (fun (r : State × TestAnalysis) (l : Node) =>
            if l.isDeferStmt then some (r.1, r.2.addDefer a l)
            else visitExprStmt a pass fuel r.1 r.2 tv l) m = some r ∧
        m.1.reports = st.reports ++ x ∧ r.1.reports = st.reports ++ x ++ y) ∧
    (∀ (name : String) (l1 l2 : List FuncDecl) (st' : State),
      (l1 ++ l2).foldlM (fun st d => runDecl a pass fuel st name d) st = some st' →
      ∃ m x y, l1.foldlM (fun st d => runDecl a pass fuel st name d) st = some m ∧
        l2.foldlM (fun st d => runDecl a pass fuel st name d) m = some st' ∧
        m.reports = st.reports ++ x ∧ st'.reports = st.reports ++ x ++ y) := by
  refine ⟨fun fd st' h => ?_, fun tv l1 l2 acc r h => ?_, fun name l1 l2 st' h => ?_⟩
  · obtain ⟨r, hr, hrep⟩ := analyzeTestFunction_reports a pass fuel st st' fd h
    obtain ⟨body, e, q⟩ := analyzeFunctionF_ext a pass fuel st _ _ _ r hr
    exact ⟨r, body, hr, e, fun d hd => (q d hd).1, by rw [hrep, e]⟩
  · rw [List.foldlM_append] at h
    simp only [Option.bind_eq_bind, Option.bind_eq_some] at h
    obtain ⟨m, h1, h2⟩ := h
    have e1 := foldlM_rel (fun (s t : State × TestAnalysis) => Ext (CoreFormat a) s.1 t.1)
      (fun _ => Ext.ext_refl _ _) (fun _ _ _ => Ext.ext_trans) _ l1 _ _
      (fun l _ t t' ht => (walkBody_step_le a pass fuel tv l t t' ht).1) h1
    have e2 := foldlM_rel (fun (s t : State × TestAnalysis) => Ext (CoreFormat a) s.1 t.1)
      (fun _ => Ext.ext_refl _ _) (fun _ _ _ => Ext.ext_trans) _ l2 _ _
      (fun l _ t t' ht => (walkBody_step_le a pass fuel tv l t t' ht).1) h2
    obtain ⟨x, ex, _⟩ := e1
    obtain ⟨y, ey, _⟩ := e2
    exact ⟨m, x, y, h1, h2, ex, by rw [ey, ex]⟩
  · rw [List.foldlM_append] at h
    simp only [Option.bind_eq_bind, Option.bind_eq_some] at h
    obtain ⟨m, h1, h2⟩ := h
    have e1 := foldlM_rel (Ext (RunFormat a)) (Ext.ext_refl _) (fun _ _ _ => Ext.ext_trans)
      _ l1 _ _ (fun d _ t t' ht => runDecl_ext a pass fuel t t' name d ht) h1
    have e2 := foldlM_rel (Ext (RunFormat a)) (Ext.ext_refl _) (fun _ _ _ => Ext.ext_trans)
      _ l2 _ _ (fun d _ t t' ht => runDecl_ext a pass fuel t t' name d ht) h2
    obtain ⟨x, ex, _⟩ := e1
    obtain ⟨y, ey, _⟩ := e2
    exact ⟨m, x, y, h1, h2, ex, by rw [ey, ex]⟩

theorem reports_in_traversal_order_witness :
    ∃ st', analyzeTestFunction {} (mkPass [testMissingBoth]) 12 {} testMissingBoth = some st' ∧
      ∃ r body, analyzeFunction {} (mkPass [testMissingBoth]) 12 {} testMissingBoth = some r ∧
        r.1.reports = body ∧
        st'.reports = body ++ topLevelDiagnostics {} r.2.val testMissingBoth ++
          deferDiagnostics {} r.2.val testMissingBoth.name ∧
        st'.reports = [⟨58, .missingParallelSubtest, "literal"⟩,
          ⟨10, .missingParallel, "TestMissingBoth"⟩] := by
  have h : (analyzeTestFunction {} (mkPass [testMissingBoth]) 12 {} testMissingBoth).map
      (fun st => st.reports) = some [⟨58, .missingParallelSubtest, "literal"⟩,
        ⟨10, .missingParallel, "TestMissingBoth"⟩] := by decide!
  obtain ⟨st', hst, hrep⟩ := Option.map_eq_some'.1 h
  obtain ⟨r, body, hr, e1, _, e2⟩ :=
    (reports_in_traversal_order {} (mkPass [testMissingBoth]) 12 {}).1 testMissingBoth st' hst
  exact ⟨st', hst, r, body, hr, by simpa using e1, by simpa using e2, hrep⟩

theorem core_merge (x y w : TestAnalysis) (h : x.core = y.core) :
    (x.merge w).core = (y.merge w).core := by
  simp only [TestAnalysis.core, Prod.mk.injEq] at h
  obtain ⟨h1, h2, h3⟩ := h
  simp [TestAnalysis.core, TestAnalysis.merge, h1, h2, h3]

theorem core_addDefer (a : ParallelAnalyzer) (x : TestAnalysis) (l : Node) :
    (x.addDefer a l).core = x.core := by
  unfold TestAnalysis.addDefer
  split <;> rfl

/-- The statement loop of `analyzeFunctionF` gives the same state, the same flags and the
same count on a body and on the body without its top-level defer statements. -/
theorem foldlM_without_defers (a : ParallelAnalyzer) (pass : Pass) (fuel : Nat) (tv : String) :
    ∀ (body : List Node) (st : State) (acc acc' : TestAnalysis), acc.core = acc'.core →
      (body.foldlM
        (fun (r : State × TestAnalysis) (l : Node) =>
          if l.isDeferStmt then some (r.1, r.2.addDefer a l)
          else visitExprStmt a pass fuel r.1 r.2 tv l) (st, acc)).map
        (fun r => (r.1, r.2.core)) =
      ((body.filter fun l => !l.isDeferStmt).foldlM
        (fun (r : State × TestAnalysis) (l : Node) =>
          if l.isDeferStmt then some (r.1, r.2.addDefer a l)
          else visitExprStmt a pass fuel r.1 r.2 tv l) (st, acc')).map
        (fun r => (r.1, r.2.core))
  | [], st, acc, acc', h => by simp [h]
  | l :: rest, st, acc, acc', h => by
    by_cases hd : l.isDeferStmt = true
    · simp only [List.foldlM_cons, hd, if_true, List.filter_cons, Bool.not_true,
        Bool.false_eq_true, if_false]
      exact foldlM_without_defers a pass fuel tv rest st _ _
        ((core_addDefer a acc l).trans h)
    · have hd' : l.isDeferStmt = false := by simpa using hd
      simp only [List.foldlM_cons, hd', Bool.false_eq_true, if_false, List.filter_cons,
        Bool.not_false, if_true]
      rw [(walk_writer a pass fuel).1 st acc tv l, (walk_writer a pass fuel).1 st acc' tv l]
      cases visitExprStmt a pass fuel st TestAnalysis.empty tv l with
      | none => rfl
      | some w =>
        exact foldlM_without_defers a pass fuel tv rest w.1 _ _ (core_merge acc acc' w.2 h)

theorem Visits.visits_arg {n outer arg : Node} (hv : Visits n outer)
    (ho : outer.isCallExpr = true) (harg : arg ∈ outer.args) (hc : arg.isCallExpr = true) :
    Visits n arg := by
  induction hv with
  | here c _ => exact .arg c arg arg ho harg hc (.here arg hc)
  | child n ch c hn hmem _ ih => exact .child n ch arg hn hmem (ih ho harg)
  | arg n x c hn hmem hx _ ih => exact .arg n x arg hn hmem hx (ih ho harg)

theorem foldlM_filter_calls {σ : Type} (F : σ → Node → Option σ) :
    ∀ (args : List Node) (s : σ),
      args.foldlM (fun r arg => if arg.isCallExpr then F r arg else some r) s =
        (args.filter Node.isCallExpr).foldlM F s
  | [], _ => rfl
  | arg :: rest, s => by
    by_cases hc : arg.isCallExpr = true
    · simp only [List.foldlM_cons, hc, if_true, List.filter_cons]
      cases F s arg with
      | none => rfl
      | some t => exact foldlM_filter_calls F rest t
    · simp only [List.foldlM_cons, hc, Bool.false_eq_true, if_false, List.filter_cons]
      exact foldlM_filter_calls F rest s

theorem decide_length_eq_isSome (l : List Node) :
    decide (l.length > 1) = (l.get? 1).isSome := by
  cases l with
  | nil => rfl
  | cons x l =>
    cases l with
    | nil => rfl
    | cons y l => simp

theorem analyzeTestRun_congr (a : ParallelAnalyzer) (pass : Pass) (fuel : Nat) (st : State)
    (tv : String) (c c' : Node) (h : SameView tv c c') :
    analyzeTestRun a pass fuel st c tv = analyzeTestRun a pass fuel st c' tv := by
  obtain ⟨_, _, _, _, h5, _, h7⟩ := h
  cases fuel with
  | zero => rfl
  | succ f =>
    simp only [analyzeTestRun, decide_length_eq_isSome, ← h5]
    cases hr : isTestRunCall c tv with
    | false => simp
    | true =>
      obtain ⟨e1, e2⟩ := h7 hr
      rw [← e1, ← e2]

/-- The result of `analyzeCallExpr` depends on the call only through what `SameView`
compares. -/
theorem analyzeCallExpr_congr (a : ParallelAnalyzer) (pass : Pass) (fuel : Nat) (st : State)
    (acc : TestAnalysis) (tv : String) (c c' : Node) (h : SameView tv c c') :
    analyzeCallExpr a pass fuel st acc tv c = analyzeCallExpr a pass fuel st acc tv c' := by
  cases fuel with
  | zero => rfl
  | succ f =>
    have hrun := analyzeTestRun_congr a pass f
    obtain ⟨h1, h2, h3, h4, _, h6, _⟩ := id h
    have hcall : ∀ s, analyzeFunctionCall a pass f s c = analyzeFunctionCall a pass f s c' := by
      intro s
      cases f with
      | zero => rfl
      | succ f' => simp only [analyzeFunctionCall, h1]
    have hflags : ∀ x : TestAnalysis, x.flags c tv = x.flags c' tv := by
      intro x
      simp only [TestAnalysis.flags, h2, h3, h4]
    rw [analyzeCallExpr, analyzeCallExpr,
      foldlM_filter_calls (fun (r : State × TestAnalysis) (arg : Node) =>
        analyzeCallExpr a pass f r.1 r.2 tv arg),
      foldlM_filter_calls (fun (r : State × TestAnalysis) (arg : Node) =>
        analyzeCallExpr a pass f r.1 r.2 tv arg), h6]
    simp only [hrun _ tv c c' h, hcall, hflags]

theorem exprCallHasMethod_args (pos pos' : Nat) (func : Node) (args args' : List Node)
    (r m : String) :
    exprCallHasMethod (.callExpr pos func args) r m =
      exprCallHasMethod (.callExpr pos' func args') r m := by
  cases func with
  | selectorExpr x sel => cases x <;> rfl
  | _ => rfl

theorem exprCallHasMethod_of_not_ident (pos : Nat) (x : Node) (sel : String) (args : List Node)
    (r m : String) (hx : x.isIdent = false) :
    exprCallHasMethod (.callExpr pos (.selectorExpr x sel) args) r m = false := by
  cases x <;> first | rfl | cases hx

theorem exprCallHasMethod_of_funcLit (pos : Nat) (lit : Node) (args : List Node)
    (r m : String) (hl : lit.isFuncLit = true) :
    exprCallHasMethod (.callExpr pos lit args) r m = false := by
  cases lit <;> first | rfl | cases hl

theorem getCallName_of_funcLit (pos : Nat) (lit : Node) (args : List Node)
    (hl : lit.isFuncLit = true) : getCallName (.callExpr pos lit args) = "" := by
  cases lit <;> first | rfl | cases hl

/-- C25: the walk does not descend into a call expression: `visitExprStmt` hands it to
`analyzeCallExpr`, whose result does not depend on what the call hides. The arguments
that are no call expressions (function literals, other expressions) can be replaced by
any others, the function handed to a sub-test invocation `v.Run(_, g)`, which
`analyzeTestRun` analyzes as a function of its own, apart; the operand of a selector
callee that is no identifier (`mk(t)` in `mk(t).Do()`) can be replaced by any other; and
the function literal of an immediately invoked literal can be replaced by any other: the
result of `analyzeCallExpr` (state, reports and facts) is the same. -/
theorem descent_stops_at_outermost_call (a : ParallelAnalyzer) (pass : Pass) (fuel : Nat)
    (st : State) (acc : TestAnalysis) (tv : String) :
    (∀ c : Node, c.isCallExpr = true →
      visitExprStmt a pass (fuel + 1) st acc tv c = analyzeCallExpr a pass fuel st acc tv c) ∧
    (∀ (pos : Nat) (func : Node) (args args' : List Node),
      args.filter Node.isCallExpr = args'.filter Node.isCallExpr →
      (isTestRunCall (.callExpr pos func args) tv = true → args.get? 1 = args'.get? 1) →
      analyzeCallExpr a pass fuel st acc tv (.callExpr pos func args) =
        analyzeCallExpr a pass fuel st acc tv (.callExpr pos func args')) ∧
    (∀ (pos : Nat) (x x' : Node) (sel : String) (args : List Node),
      x.isIdent = false → x'.isIdent = false →
      analyzeCallExpr a pass fuel st acc tv (.callExpr pos (.selectorExpr x sel) args) =
        analyzeCallExpr a pass fuel st acc tv (.callExpr pos (.selectorExpr x' sel) args)) ∧
    (∀ (pos : Nat) (lit lit' : Node) (args : List Node),
      lit.isFuncLit = true → lit'.isFuncLit = true →
      analyzeCallExpr a pass fuel st acc tv (.callExpr pos lit args) =
        analyzeCallExpr a pass fuel st acc tv (.callExpr pos lit' args)) := by
  refine ⟨fun c hc => ?_, fun pos func args args' hf hr => ?_,
    fun pos x x' sel args hx hx' => ?_, fun pos lit lit' args hl hl' => ?_⟩
  · rw [visitExprStmt, if_pos hc]
  · refine analyzeCallExpr_congr a pass fuel st acc tv _ _ ⟨?_, ?_, ?_, ?_, ?_, hf, ?_⟩
    · cases func <;> rfl
    · exact exprCallHasMethod_args _ _ _ _ _ _ _
    · exact exprCallHasMethod_args _ _ _ _ _ _ _
    · exact exprCallHasMethod_args _ _ _ _ _ _ _
    · exact exprCallHasMethod_args _ _ _ _ _ _ _
    · exact fun h => ⟨rfl, hr h⟩
  · have e := exprCallHasMethod_of_not_ident pos x sel args tv
    have e' := exprCallHasMethod_of_not_ident pos x' sel args tv
    refine analyzeCallExpr_congr a pass fuel st acc tv _ _ ⟨rfl, ?_, ?_, ?_, ?_, rfl, ?_⟩
    · simp only [isParallelCall, e _ hx, e' _ hx']
    · simp only [isSetenvCall, e _ hx, e' _ hx']
    · simp only [isChdirCall, e _ hx, e' _ hx']
    · simp only [isTestRunCall, e _ hx, e' _ hx']
    · intro h; simp only [isTestRunCall, e _ hx] at h; cases h
  · have e := exprCallHasMethod_of_funcLit pos lit args tv
    have e' := exprCallHasMethod_of_funcLit pos lit' args tv
    refine analyzeCallExpr_congr a pass fuel st acc tv _ _ ⟨?_, ?_, ?_, ?_, ?_, rfl, ?_⟩
    · rw [getCallName_of_funcLit _ _ _ hl, getCallName_of_funcLit _ _ _ hl']
    · simp only [isParallelCall, e _ hl, e' _ hl']
    · simp only [isSetenvCall, e _ hl, e' _ hl']
    · simp only [isChdirCall, e _ hl, e' _ hl']
    · simp only [isTestRunCall, e _ hl, e' _ hl']
    · intro h; simp only [isTestRunCall, e _ hl] at h; cases h

theorem descent_stops_at_outermost_call_witness :
    analyzeCallExpr {} (mkPass [testHidden]) 4 {} TestAnalysis.empty "t" cleanupWithSetenv =
      analyzeCallExpr {} (mkPass [testHidden]) 4 {} TestAnalysis.empty "t"
        (methodCall 42 "t" "Cleanup" [basicLit]) ∧
    (analyzeFunction {} (mkPass [testHidden]) 12 {} testHidden).map (fun r => r.2.val.core) =
      some (false, false, 0) ∧
    (run {} (mkPass [testHidden]) 12 {}).map (fun st => st.reports) =
      some [⟨10, .missingParallel, "TestHidden"⟩] := by
  refine ⟨?_, by decide!, by decide!⟩
  exact (descent_stops_at_outermost_call {} (mkPass [testHidden]) 4 {} TestAnalysis.empty
    "t").2.1 42 (.selectorExpr (.ident "t") "Cleanup") _ [basicLit] rfl
      (fun _ => rfl)

theorem nonDefer_append (l1 l2 : List Diagnostic) :
    nonDefer (l1 ++ l2) = nonDefer l1 ++ nonDefer l2 := by
  simp [nonDefer]

theorem nonDefer_deferDiagnostics (a : ParallelAnalyzer) (g : TestAnalysis) (name : String) :
    nonDefer (deferDiagnostics a g name) = [] := by
  unfold nonDefer
  rw [List.filter_eq_nil_iff]
  intro d hd
  simp [(deferDiagnostics_format a g name d hd).1]

theorem subtestDiagnostics_sameCore (a a' : ParallelAnalyzer) (x y : TestAnalysis) (pos : Nat)
    (name : String) (hi : a.ignoreMissing = a'.ignoreMissing)
    (hs : a.ignoreMissingSubtests = a'.ignoreMissingSubtests) (h : SameCore x y) :
    subtestDiagnostics a x pos name = subtestDiagnostics a' y pos name := by
  simp only [SameCore, TestAnalysis.core, Prod.mk.injEq] at h
  simp only [subtestDiagnostics, hi, hs, h.1, h.2.1]

theorem sameCore_merge {x y u v : TestAnalysis} (h1 : SameCore x y) (h2 : SameCore u v) :
    SameCore (x.merge u) (y.merge v) := by
  simp only [SameCore, TestAnalysis.core, Prod.mk.injEq] at h1 h2 ⊢
  simp [TestAnalysis.merge, h1.1, h1.2.1, h1.2.2, h2.1, h2.2.1, h2.2.2]

/-- Two analyzers that differ at most in `checkCleanup` (and `ignoreLoopVar`) simulate
each other up to the defer fields of facts and the defer warnings. -/
theorem sameButDefer_sim (a a' : ParallelAnalyzer) (hi : a.ignoreMissing = a'.ignoreMissing)
    (hs : a.ignoreMissingSubtests = a'.ignoreMissingSubtests) :
    Sim a a' SameButDefer SameCore where
  lookup := fun s s' hash h => h.1 hash
  cache := fun s s' hash x y h hxy => by
    refine ⟨fun k => ?_, h.2⟩
    by_cases hk : k = hash
    · rw [hk, getAnalysis_cacheAnalysis_self, getAnalysis_cacheAnalysis_self]
      exact hxy
    · rw [getAnalysis_cacheAnalysis_of_ne _ _ _ _ hk, getAnalysis_cacheAnalysis_of_ne _ _ _ _ hk]
      exact h.1 k
  defer := fun s s' x y name h _ => by
    refine ⟨fun k => ?_, ?_⟩
    · rw [getAnalysis_congr _ s k (reportDefer_visited a s x name),
        getAnalysis_congr _ s' k (reportDefer_visited a' s' y name)]
      exact h.1 k
    · rw [reportDefer_reports, reportDefer_reports, nonDefer_append, nonDefer_append,
        nonDefer_deferDiagnostics, nonDefer_deferDiagnostics, h.2]
  subtest := fun s s' x y pos name h hxy => by
    refine ⟨fun k => ?_, ?_⟩
    · rw [getAnalysis_congr _ s k (reportParallelSubtest_visited a s x pos name),
        getAnalysis_congr _ s' k (reportParallelSubtest_visited a' s' y pos name)]
      exact h.1 k
    · rw [reportParallelSubtest_reports, reportParallelSubtest_reports, nonDefer_append,
        nonDefer_append, h.2, subtestDiagnostics_sameCore a a' x y pos name hi hs hxy]
  empty := rfl
  merge := fun x y u v h1 h2 => sameCore_merge h1 h2
  flags := fun x y c tv h => by
    simp only [SameCore, TestAnalysis.core, Prod.mk.injEq] at h ⊢
    simp [TestAnalysis.flags, h.1, h.2.1, h.2.2]
  incr := fun x y h => by
    simp only [SameCore, TestAnalysis.core, Prod.mk.injEq] at h ⊢
    simp [TestAnalysis.incr, h.1, h.2.1, h.2.2]
  addDefer := fun x y l h => by
    show (x.addDefer a l).core = (y.addDefer a' l).core
    rw [core_addDefer, core_addDefer]
    exact h

theorem analyzeTestFunction_sameButDefer (a a' : ParallelAnalyzer) (pass : Pass) (fuel : Nat)
    (hi : a.ignoreMissing = a'.ignoreMissing)
    (hs : a.ignoreMissingSubtests = a'.ignoreMissingSubtests)
    (s s' : State) (fd : FuncDecl) (h : SameButDefer s s') :
    OptRel SameButDefer (analyzeTestFunction a pass fuel s fd)
      (analyzeTestFunction a' pass fuel s' fd) := by
  have hS := sameButDefer_sim a a' hi hs
  simp only [analyzeTestFunction, analyzeFunction]
  refine optRel_bind ((core_sim a a' pass _ _ hS fuel).2.2.2.2.1 s s' _ _ _ h)
    (fun q q' hq => ?_)
  obtain ⟨h1, _, h3⟩ := hq
  show SameButDefer _ _
  refine hS.defer _ _ _ _ _ ?_ h3
  have h3' := h3
  simp only [SameCore, TestAnalysis.core, Prod.mk.injEq] at h3'
  rw [h3'.1, h3'.2.1, hi]
  split
  · exact ⟨h1.1, by simp only [State.report, nonDefer_append, h1.2]⟩
  · exact h1

theorem sameButDefer_empty : SameButDefer {} {} :=
  ⟨fun _ => trivial, rfl⟩

/-- C27: for every package, every bound and every setting of the other options, the run
of a fresh analyzer and the run of a fresh analyzer with any other value of
`checkCleanup` either both stop at the bound or both return, and then the two caches
have the same fingerprints with facts that have the same `hasParallel`, `cantParallel`
and `numberOfTestRun`, and the two sequences of reports are the same apart from defer
warnings: the same missing-parallel diagnostics, top-level and sub-test, in the same
order. The same holds for the analysis of any single body by `analyzeFunctionF`, whose
returned facts have the same flags and count for both analyzers. -/
theorem checkCleanup_does_not_interfere (a : ParallelAnalyzer) (cleanup : Bool) (pass : Pass)
    (fuel : Nat) :
    OptRel SameButDefer (run a pass fuel {})
      (run { a with checkCleanup := cleanup } pass fuel {}) ∧
    (∀ (params : List Node) (lbrace : Nat) (body : List Node),
      OptRel
        (fun (r r' : State × Ref) =>
          SameButDefer r.1 r'.1 ∧ r.2.key = r'.2.key ∧ SameCore r.2.val r'.2.val)
        (analyzeFunctionF a pass fuel {} params lbrace body)
        (analyzeFunctionF { a with checkCleanup := cleanup } pass fuel {} params lbrace body)) := by
  have hS := sameButDefer_sim a { a with checkCleanup := cleanup } rfl rfl
  constructor
  · simp only [run]
    refine optRel_foldlM SameButDefer _ _ _ _ _ (fun file _ t t' ht => ?_) sameButDefer_empty
    refine optRel_foldlM SameButDefer _ _ _ _ _ (fun fd _ u u' hu => ?_) ht
    simp only [runDecl]
    split
    · exact hu
    · split
      · exact analyzeTestFunction_sameButDefer a { a with checkCleanup := cleanup } pass fuel
          rfl rfl u u' fd hu
      · exact hu
  · intro params lbrace body
    exact (core_sim a _ pass _ _ hS fuel).2.2.2.2.1 {} {} params lbrace body sameButDefer_empty

/-! ## Induction on syntax trees -/

mutual
theorem Node.induct_children (P : Node → Prop) (h : ∀ n, (∀ c ∈ n.children, P c) → P n) :
    ∀ n : Node, P n
  | .ident name => h _ (by simp [Node.children])
  | .selectorExpr x sel =>
    have hx := Node.induct_children P h x
    h _ (by
      intro c hc
      simp only [Node.children, List.mem_cons, List.mem_singleton, List.not_mem_nil, or_false] at hc
      rcases hc with hc | hc
      · rw [hc]; exact hx
      · rw [hc]; exact h _ (by simp [Node.children]))
  | .starExpr x =>
    have hx := Node.induct_children P h x
    h _ (by
      intro c hc
      simp only [Node.children, List.mem_singleton] at hc
      rw [hc]; exact hx)
  | .callExpr pos func args =>
    have hx := Node.induct_children P h func
    have hl := induct_children_list P h args
    h _ (by
      intro c hc
      simp only [Node.children, List.mem_cons] at hc
      rcases hc with hc | hc
      · rw [hc]; exact hx
      · exact hl c hc)
  | .field names type =>
    have hx := Node.induct_children P h type
    h _ (by
      intro c hc
      simp only [Node.children, List.mem_append, List.mem_map, List.mem_singleton] at hc
      rcases hc with ⟨s, _, hc⟩ | hc
      · rw [← hc]; exact h _ (by simp [Node.children])
      · rw [hc]; exact hx)
  | .funcLit pos params results lbrace body =>
    have h1 := induct_children_list P h params
    have h2 := induct_children_list P h results
    have h3 := induct_children_list P h body
    h _ (by
      intro c hc
      simp only [Node.children, List.mem_append] at hc
      rcases hc with (hc | hc) | hc
      · exact h1 c hc
      · exact h2 c hc
      · exact h3 c hc)
  | .exprStmt x =>
    have hx := Node.induct_children P h x
    h _ (by
      intro c hc
      simp only [Node.children, List.mem_singleton] at hc
      rw [hc]; exact hx)
  | .deferStmt pos call =>
    have hx := Node.induct_children P h call
    h _ (by
      intro c hc
      simp only [Node.children, List.mem_singleton] at hc
      rw [hc]; exact hx)
  | .returnStmt results =>
    have hl := induct_children_list P h results
    h _ (by
      intro c hc
      simp only [Node.children] at hc
      exact hl c hc)
  | .rangeStmt header lbrace body =>
    have h1 := induct_children_list P h header
    have h2 := induct_children_list P h body
    h _ (by
      intro c hc
      simp only [Node.children, List.mem_append] at hc
      rcases hc with hc | hc
      · exact h1 c hc
      · exact h2 c hc)
  | .other children =>
    have hl := induct_children_list P h children
    h _ (by
      intro c hc
      simp only [Node.children] at hc
      exact hl c hc)
theorem induct_children_list (P : Node → Prop) (h : ∀ n, (∀ c ∈ n.children, P c) → P n) :
    ∀ (l : List Node), ∀ c ∈ l, P c
  | [] => fun c hc => by cases hc
  | x :: xs =>
    have hx := Node.induct_children P h x
    have hl := induct_children_list P h xs
    fun c hc => by
      rcases List.mem_cons.1 hc with hc | hc
      · rw [hc]; exact hx
      · exact hl c hc
end

/-! ## Termination without recursion through resolved names -/

theorem foldlM_isSome {σ α : Type} (f : σ → α → Option σ) :
    ∀ (l : List α), (∀ x ∈ l, ∀ s, (f s x).isSome = true) → ∀ s, (l.foldlM f s).isSome = true := by
  intro l
  induction l with
  | nil => intro _ s; rfl
  | cons x xs ih =>
    intro h s
    obtain ⟨t, ht⟩ := Option.isSome_iff_exists.1 (h x (List.mem_cons_self _ _) s)
    simp only [List.foldlM_cons, Option.bind_eq_bind, ht, Option.some_bind]
    exact ih (fun y hy => h y (List.mem_cons_of_mem _ hy)) t

theorem isSome_bind_of {α β : Type} {o : Option α} {F : α → Option β}
    (ho : o.isSome = true) (hF : ∀ x, (F x).isSome = true) : (o.bind F).isSome = true := by
  obtain ⟨x, hx⟩ := Option.isSome_iff_exists.1 ho
  rw [hx, Option.some_bind]
  exact hF x

theorem exists_bound_list {α : Type} (P : α → Nat → Prop) :
    ∀ l : List α, (∀ x ∈ l, ∃ b, ∀ fuel, b ≤ fuel → P x fuel) →
      ∃ B, ∀ x ∈ l, ∀ fuel, B ≤ fuel → P x fuel := by
  intro l
  induction l with
  | nil => intro _; exact ⟨0, fun x hx => by cases hx⟩
  | cons y ys ih =>
    intro h
    obtain ⟨b1, h1⟩ := h y (List.mem_cons_self _ _)
    obtain ⟨b2, h2⟩ := ih (fun x hx => h x (List.mem_cons_of_mem _ hx))
    refine ⟨max b1 b2, fun x hx fuel hf => ?_⟩
    rcases List.mem_cons.1 hx with rfl | hx
    · exact h1 fuel (le_trans (le_max_left _ _) hf)
    · exact h2 x hx fuel (le_trans (le_max_right _ _) hf)

theorem analyzeTestRun_isSome (a : ParallelAnalyzer) (pass : Pass) (B f : Nat) (c : Node)
    (hB : B ≤ f) (hg : ∀ name ∈ c.ownCallees, Good a pass B name)
    (hl : ∀ pos params results lbrace body, Node.funcLit pos params results lbrace body ∈ c.args →
      ∀ st, (analyzeFunctionF a pass f st params lbrace body).isSome = true)
    (st : State) (tv : String) : (analyzeTestRun a pass (f + 1) st c tv).isSome = true := by
  cases c with
  | callExpr pos func args =>
    simp only [analyzeTestRun, Node.args]
    split
    · split
      · rename_i lpos params results lbrace body hget
        obtain ⟨q, hq⟩ := Option.isSome_iff_exists.1
          (hl lpos params results lbrace body (List.get?_mem hget) st)
        simp [hq]
      · rename_i name hget
        split
        · rename_i fd hfd
          split
          · have hn : name ∈ (Node.callExpr pos func args).ownCallees := by
              simp only [Node.ownCallees, hget, List.mem_cons, true_or, or_true]
            obtain ⟨q, hq⟩ := Option.isSome_iff_exists.1 ((hg name hn fd hfd f hB st).1)
            simp [hq]
          · rfl
        · rfl
      · rename_i bpos bfunc bargs hget
        split
        · rename_i fd hfd
          have hn : getCallName (.callExpr bpos bfunc bargs) ∈
              (Node.callExpr pos func args).ownCallees := by
            simp only [Node.ownCallees, hget, List.mem_cons, true_or, or_true]
          obtain ⟨q, hq⟩ := Option.isSome_iff_exists.1 ((hg _ hn fd hfd f hB st).2)
          simp [hq]
        · rfl
      · rfl
    · rfl
  | _ => simp [analyzeTestRun, isTestRunCall, exprCallHasMethod]

theorem analyzeFunctionCall_isSome (a : ParallelAnalyzer) (pass : Pass) (B f : Nat) (c : Node)
    (hB : B ≤ f) (hg : Good a pass B (getCallName c))
    (st : State) : (analyzeFunctionCall a pass (f + 1) st c).isSome = true := by
  simp only [analyzeFunctionCall]
  split
  · rfl
  · rename_i fd hfd
    obtain ⟨q, hq⟩ := Option.isSome_iff_exists.1 ((hg fd hfd f hB st).1)
    simp [hq]

theorem args_subset_children (n arg : Node) (h : arg ∈ n.args) : arg ∈ n.children := by
  cases n <;> simp [Node.args] at h
  simp [Node.children, h]

theorem getCallName_mem_ownCallees (n : Node) (h : n.isCallExpr = true) :
    getCallName n ∈ n.ownCallees := by
  cases n <;> simp [Node.isCallExpr] at h
  simp [Node.ownCallees]

theorem nodeTotal_step (a : ParallelAnalyzer) (pass : Pass) (B b : Nat) (n : Node)
    (hg : ∀ name ∈ n.ownCallees, Good a pass B name)
    (hc : ∀ c ∈ n.children, NodeTotal a pass b c) : NodeTotal a pass (max b B + 4) n := by
  have h4 : ∀ f, b ≤ f → ∀ st pos params results lbrace body,
      n = .funcLit pos params results lbrace body →
      (analyzeFunctionF a pass (f + 1) st params lbrace body).isSome = true := by
    intro f hf st pos params results lbrace body hn
    rw [analyzeFunctionF_succ]
    split
    · rfl
    · split
      · rfl
      · have hw : (walkBody a pass f st (findTestParamName params) body).isSome = true := by
          unfold walkBody
          refine foldlM_isSome _ _ (fun l hl s => ?_) _
          split
          · rfl
          · exact (hc l (by rw [hn]; simp [Node.children, hl]) f hf s.1).1 s.2 _
        obtain ⟨w, hw⟩ := Option.isSome_iff_exists.1 hw
        simp [hw]
  have h2 : ∀ f, max b B ≤ f → ∀ st acc tv, n.isCallExpr = true →
      (analyzeCallExpr a pass (f + 1 + 1) st acc tv n).isSome = true := by
    intro f hf st acc tv hn
    have hb : b ≤ f := le_trans (le_max_left _ _) hf
    have hB : B ≤ f := le_trans (le_max_right _ _) hf
    rw [analyzeCallExpr]
    have h1 : (n.args.foldlM
        (fun (r : State × TestAnalysis) (arg : Node) =>
          if arg.isCallExpr then analyzeCallExpr a pass (f + 1) r.1 r.2 tv arg else some r)
        (st, acc)).isSome = true := by
      refine foldlM_isSome _ _ (fun arg harg s => ?_) _
      split
      · rename_i hcall
        exact (hc arg (args_subset_children n arg harg) (f + 1) (by omega) s.1).2.1 s.2 tv hcall
      · rfl
    obtain ⟨r1, e1⟩ := Option.isSome_iff_exists.1 h1
    obtain ⟨r2, e2⟩ := Option.isSome_iff_exists.1
      (analyzeTestRun_isSome a pass B f n hB hg
        (fun pos params results lbrace body hmem st' =>
          (hc _ (args_subset_children n _ hmem) f hb st').2.2.2 _ _ _ _ _ rfl) r1.1 tv)
    obtain ⟨r3, e3⟩ := Option.isSome_iff_exists.1
      (analyzeFunctionCall_isSome a pass B f n hB (hg _ (getCallName_mem_ownCallees n hn)) r2.1)
    simp only [e1, e2, e3, Option.some_bind, Option.isSome_some]
  have h1 : ∀ f, max b B + 2 ≤ f → ∀ st acc tv,
      (visitExprStmt a pass (f + 1) st acc tv n).isSome = true := by
    intro f hf st acc tv
    rw [visitExprStmt]
    split
    · rename_i hn
      obtain ⟨g, rfl⟩ : ∃ g, f = g + 1 + 1 := ⟨f - 2, by omega⟩
      exact h2 g (by omega) st acc tv hn
    · refine foldlM_isSome _ _ (fun c hcm s => ?_) _
      exact (hc c hcm f (by have := le_max_left b B; omega) s.1).1 s.2 tv
  intro fuel hfuel st
  obtain ⟨f, rfl⟩ : ∃ f, fuel = f + 1 := ⟨fuel - 1, by omega⟩
  have hbf : b ≤ f := by have := le_max_left b B; omega
  refine ⟨fun acc tv => h1 f (by omega) st acc tv, fun acc tv hn => ?_, fun facts tv => ?_,
    fun pos params results lbrace body hn => h4 f hbf st pos params results lbrace body hn⟩
  · obtain ⟨g, rfl⟩ : ∃ g, f = g + 1 := ⟨f - 1, by omega⟩
    exact h2 g (by omega) st acc tv hn
  · have hkids : ∀ r, (n.children.foldlM
        (fun (r : State × TestAnalysis × TestAnalysis) (child : Node) =>
          inspectBuilder a pass f r.1 r.2 tv child) r).isSome = true :=
      fun r => foldlM_isSome _ _ (fun c hcm s => (hc c hcm f hbf s.1).2.2.1 s.2 tv) r
    have hv : (visitExprStmt a pass f st facts.1 tv n).isSome = true := by
      obtain ⟨g, rfl⟩ : ∃ g, f = g + 1 := ⟨f - 1, by omega⟩
      exact h1 g (by omega) st facts.1 tv
    obtain ⟨v, hv⟩ := Option.isSome_iff_exists.1 hv
    cases n with
    | exprStmt x =>
      simp only [inspectBuilder]
      split
      · simp only [hv, Option.some_bind]; exact hkids _
      · simp only [Option.some_bind]; exact hkids _
    | rangeStmt header lbrace body =>
      simp only [inspectBuilder]
      split
      · simp only [hv, Option.some_bind]; exact hkids _
      · simp only [Option.some_bind]; exact hkids _
    | returnStmt results =>
      simp only [inspectBuilder]
      refine isSome_bind_of ?_ (fun r => hkids r)
      refine foldlM_isSome _ _ (fun result hr s => ?_) _
      split
      · rename_i lpos params lres lbrace body
        obtain ⟨q, hq⟩ := Option.isSome_iff_exists.1
          ((hc (Node.funcLit lpos params lres lbrace body)
            (by simpa [Node.children] using hr) f hbf s.1).2.2.2 _ _ _ _ _ rfl)
        simp only [hq, Option.some_bind, Option.isSome_some]
      · rfl
    | _ => simp only [inspectBuilder, Option.some_bind]; exact hkids _

/-- When every name looked up below a node is analyzed from the bound `B` on, the functions
of the core return on the node from some bound on. -/
theorem nodeTotal_of_good (a : ParallelAnalyzer) (pass : Pass) (B : Nat) :
    ∀ n : Node, (∀ name ∈ n.collect Node.ownCallees, Good a pass B name) →
      ∃ b, NodeTotal a pass b n := by
  refine Node.induct_children _ (fun n ih hg => ?_)
  have hkids : ∀ c ∈ n.children, ∃ b, ∀ fuel, b ≤ fuel → NodeTotalAt a pass c fuel :=
    fun c hc => ih c hc (fun name hname => hg name (by
      rw [collect_eq]
      exact List.mem_append_right _ ((mem_collectList _ _ _).2 ⟨c, hc, hname⟩)))
  obtain ⟨b, hb⟩ := exists_bound_list (NodeTotalAt a pass) n.children hkids
  exact ⟨_, nodeTotal_step a pass B b n
    (fun name hname => hg name (by rw [collect_eq]; exact List.mem_append_left _ hname)) hb⟩

theorem nodeTotal_list_of_good (a : ParallelAnalyzer) (pass : Pass) (B : Nat) (l : List Node)
    (hg : ∀ name ∈ collectList Node.ownCallees l, Good a pass B name) :
    ∃ b, ∀ n ∈ l, NodeTotal a pass b n :=
  exists_bound_list (NodeTotalAt a pass) l (fun n hn =>
    nodeTotal_of_good a pass B n (fun name hname =>
      hg name ((mem_collectList _ _ _).2 ⟨n, hn, hname⟩)))

theorem walkBody_isSome (a : ParallelAnalyzer) (pass : Pass) (b : Nat) (body : List Node)
    (h : ∀ n ∈ body, NodeTotal a pass b n) (fuel : Nat) (hf : b ≤ fuel) (st : State)
    (tv : String) : (walkBody a pass fuel st tv body).isSome = true := by
  unfold walkBody
  refine foldlM_isSome _ _ (fun l hl s => ?_) _
  split
  · rfl
  · exact (h l hl fuel hf s.1).1 s.2 tv

theorem analyzeFunctionF_isSome (a : ParallelAnalyzer) (pass : Pass) (b : Nat)
    (params : List Node) (lbrace : Nat) (body : List Node)
    (h : ∀ n ∈ body, NodeTotal a pass b n) (fuel : Nat) (hf : b + 1 ≤ fuel) (st : State) :
    (analyzeFunctionF a pass fuel st params lbrace body).isSome = true := by
  obtain ⟨f, rfl⟩ : ∃ f, fuel = f + 1 := ⟨fuel - 1, by omega⟩
  rw [analyzeFunctionF_succ]
  split
  · rfl
  · split
    · rfl
    · exact isSome_bind_of (walkBody_isSome a pass b body h f (by omega) st _) (fun _ => rfl)

theorem declTotal_of_good (a : ParallelAnalyzer) (pass : Pass) (B : Nat) (d : FuncDecl)
    (hg : ∀ name ∈ d.callees, Good a pass B name) : ∃ b, DeclTotal a pass b d := by
  obtain ⟨b, hb⟩ := nodeTotal_list_of_good a pass B d.nodes hg
  refine ⟨b + 1, fun fuel hf st => ⟨?_, ?_⟩⟩
  · exact analyzeFunctionF_isSome a pass b _ _ _
      (fun n hn => hb n (by simp [FuncDecl.nodes, hn])) fuel hf st
  · obtain ⟨f, rfl⟩ : ∃ f, fuel = f + 1 := ⟨fuel - 1, by omega⟩
    rw [analyzeBuilderCall]
    exact foldlM_isSome _ _ (fun n hn s => (hb n hn f (by omega) s.1).2.2.1 s.2 _) _

theorem ranked_callee {pass : Pass} {rank : String → Nat} (h : pass.ranked rank = true)
    {d d' : FuncDecl} (hd : d ∈ pass.funcDecls) {name : String} (hn : name ∈ d.callees)
    (hf : findFunction pass name = some d') : rank d'.name < rank d.name := by
  simp only [Pass.ranked, List.all_eq_true] at h
  have := h d hd name hn
  rw [hf] at this
  rw [(findFunction_mem pass name d' hf).2]
  simpa using this

theorem ranked_below (a : ParallelAnalyzer) (pass : Pass) (rank : String → Nat)
    (h : pass.ranked rank = true) :
    ∀ k, ∃ B, ∀ d ∈ pass.funcDecls, rank d.name < k → DeclTotal a pass B d := by
  intro k
  induction k with
  | zero => exact ⟨0, fun d _ hk => absurd hk (Nat.not_lt_zero _)⟩
  | succ k ih =>
    obtain ⟨B, hB⟩ := ih
    have hall : ∀ d ∈ pass.funcDecls, ∃ b, ∀ fuel, b ≤ fuel → (rank d.name < k + 1 →
        ∀ st, (analyzeFunctionF a pass fuel st d.params d.lbrace d.body).isSome = true ∧
          (analyzeBuilderCall a pass fuel st d).isSome = true) := by
      intro d hd
      by_cases hk : rank d.name < k + 1
      · obtain ⟨b, hb⟩ := declTotal_of_good a pass B d (fun name hname d' hd' =>
          hB d' (findFunction_mem pass name d' hd').1
            (lt_of_lt_of_le (ranked_callee h hd hname hd') (Nat.lt_succ_iff.1 hk)))
        exact ⟨b, fun fuel hf _ st => hb fuel hf st⟩
      · exact ⟨0, fun _ _ hk' => absurd hk' hk⟩
    obtain ⟨B', hB'⟩ := exists_bound_list _ pass.funcDecls hall
    exact ⟨B', fun d hd hk fuel hf st => hB' d hd fuel hf hk st⟩

/-- In a package without recursion through resolved names every declaration is analyzed
from one bound on. -/
theorem ranked_good (a : ParallelAnalyzer) (pass : Pass) (rank : String → Nat)
    (h : pass.ranked rank = true) : ∃ B, ∀ name, Good a pass B name := by
  have hall : ∀ d ∈ pass.funcDecls, ∃ b, ∀ fuel, b ≤ fuel →
      ∀ st, (analyzeFunctionF a pass fuel st d.params d.lbrace d.body).isSome = true ∧
        (analyzeBuilderCall a pass fuel st d).isSome = true := by
    intro d hd
    obtain ⟨B, hB⟩ := ranked_below a pass rank h (rank d.name + 1)
    exact ⟨B, fun fuel hf st => hB d hd (Nat.lt_succ_self _) fuel hf st⟩
  obtain ⟨B, hB⟩ := exists_bound_list _ pass.funcDecls hall
  exact ⟨B, fun name d hd fuel hf st => hB d (findFunction_mem pass name d hd).1 fuel hf st⟩

/-- In a package without recursion through resolved names the functions of the core
return on every node from some bound on, in every state. -/
theorem ranked_nodeTotal (a : ParallelAnalyzer) (pass : Pass) (rank : String → Nat)
    (h : pass.ranked rank = true) (n : Node) : ∃ b, NodeTotal a pass b n := by
  obtain ⟨B, hB⟩ := ranked_good a pass rank h
  exact nodeTotal_of_good a pass B n (fun name _ => hB name)

/-- In a package without recursion through resolved names the analysis of every function
(of the package or not) returns from some bound on, in every state. -/
theorem ranked_total (a : ParallelAnalyzer) (pass : Pass) (rank : String → Nat)
    (h : pass.ranked rank = true) (params : List Node) (lbrace : Nat) (body : List Node) :
    ∃ f0, ∀ fuel, f0 ≤ fuel → ∀ st,
      (analyzeFunctionF a pass fuel st params lbrace body).isSome = true := by
  obtain ⟨B, hB⟩ := ranked_good a pass rank h
  obtain ⟨b, hb⟩ := nodeTotal_list_of_good a pass B body (fun name _ => hB name)
  exact ⟨b + 1, fun fuel hf st => analyzeFunctionF_isSome a pass b params lbrace body hb fuel hf st⟩

/-- In a package without recursion through resolved names the analysis of every
declaration as a builder returns from some bound on, in every state. -/
theorem ranked_builder_total (a : ParallelAnalyzer) (pass : Pass) (rank : String → Nat)
    (h : pass.ranked rank = true) (d : FuncDecl) :
    ∃ f0, ∀ fuel, f0 ≤ fuel → ∀ st, (analyzeBuilderCall a pass fuel st d).isSome = true := by
  obtain ⟨B, hB⟩ := ranked_good a pass rank h
  obtain ⟨b, hb⟩ := declTotal_of_good a pass B d (fun name _ => hB name)
  exact ⟨b, fun fuel hf st => (hb fuel hf st).2⟩

/-! ## A walk as a sequence of calls -/

/-- What a function of the recursive core returns at one bound, it returns at every
larger bound. -/
theorem fuel_mono_le (a : ParallelAnalyzer) (pass : Pass) (fuel fuel' : Nat) (h : fuel ≤ fuel') :
    (∀ st c tv r, analyzeTestRun a pass fuel st c tv = some r →
      analyzeTestRun a pass fuel' st c tv = some r) ∧
    (∀ st c r, analyzeFunctionCall a pass fuel st c = some r →
      analyzeFunctionCall a pass fuel' st c = some r) ∧
    (∀ st acc tv n r, visitExprStmt a pass fuel st acc tv n = some r →
      visitExprStmt a pass fuel' st acc tv n = some r) ∧
    (∀ st acc tv c r, analyzeCallExpr a pass fuel st acc tv c = some r →
      analyzeCallExpr a pass fuel' st acc tv c = some r) ∧
    (∀ st params lbrace body r, analyzeFunctionF a pass fuel st params lbrace body = some r →
      analyzeFunctionF a pass fuel' st params lbrace body = some r) ∧
    (∀ st facts tv n r, inspectBuilder a pass fuel st facts tv n = some r →
      inspectBuilder a pass fuel' st facts tv n = some r) ∧
    (∀ st fd r, analyzeBuilderCall a pass fuel st fd = some r →
      analyzeBuilderCall a pass fuel' st fd = some r) := by
  induction h with
  | refl => exact ⟨fun _ _ _ _ h => h, fun _ _ _ h => h, fun _ _ _ _ _ h => h,
      fun _ _ _ _ _ h => h, fun _ _ _ _ _ h => h, fun _ _ _ _ _ h => h, fun _ _ _ h => h⟩
  | step _ ih =>
    obtain ⟨i1, i2, i3, i4, i5, i6, i7⟩ := ih
    obtain ⟨m1, m2, m3, m4, m5, m6, m7⟩ := fuel_mono a pass _
    exact ⟨fun _ _ _ _ h => m1 _ _ _ _ (i1 _ _ _ _ h), fun _ _ _ h => m2 _ _ _ (i2 _ _ _ h),
      fun _ _ _ _ _ h => m3 _ _ _ _ _ (i3 _ _ _ _ _ h),
      fun _ _ _ _ _ h => m4 _ _ _ _ _ (i4 _ _ _ _ _ h),
      fun _ _ _ _ _ h => m5 _ _ _ _ _ (i5 _ _ _ _ _ h),
      fun _ _ _ _ _ h => m6 _ _ _ _ _ (i6 _ _ _ _ _ h), fun _ _ _ h => m7 _ _ _ (i7 _ _ _ h)⟩

theorem callStep_mono (a : ParallelAnalyzer) (pass : Pass) (fuel fuel' : Nat) (h : fuel ≤ fuel')
    (tv : String) (r x : State × TestAnalysis) (c : Node)
    (hx : callStep a pass fuel tv r c = some x) : callStep a pass fuel' tv r c = some x := by
  obtain ⟨m1, m2, _⟩ := fuel_mono_le a pass fuel fuel' h
  unfold callStep at hx ⊢
  exact bind_mono hx (fun y hy => m1 _ _ _ _ hy)
    (fun y hy => bind_mono hy (fun z hz => m2 _ _ _ hz) (fun _ hz => hz))

theorem foldlM_callStep_mono (a : ParallelAnalyzer) (pass : Pass) (fuel fuel' : Nat)
    (h : fuel ≤ fuel') (tv : String) (l : List Node) (s x : State × TestAnalysis)
    (hx : l.foldlM (callStep a pass fuel tv) s = some x) :
    l.foldlM (callStep a pass fuel' tv) s = some x :=
  foldlM_mono _ _ l s x (fun c _ u v hu => callStep_mono a pass fuel fuel' h tv u v c hu) hx

theorem foldlM_append_some {σ α : Type} (f : σ → α → Option σ) (l1 l2 : List α) (s t u : σ)
    (h1 : l1.foldlM f s = some t) (h2 : l2.foldlM f t = some u) :
    (l1 ++ l2).foldlM f s = some u := by
  rw [List.foldlM_append, h1]
  exact h2

theorem foldlM_append_split {σ α : Type} (f : σ → α → Option σ) (l1 l2 : List α) (s u : σ)
    (h : (l1 ++ l2).foldlM f s = some u) :
    ∃ t, l1.foldlM f s = some t ∧ l2.foldlM f t = some u := by
  rw [List.foldlM_append] at h
  simpa [Option.bind_eq_some] using h

theorem visitedList_append (l1 l2 : List Node) :
    visitedList (l1 ++ l2) = visitedList l1 ++ visitedList l2 := by
  induction l1 with
  | nil => simp [visitedList]
  | cons x xs ih => simp [visitedList, ih]

theorem visitedList_idents (names : List String) : visitedList (names.map Node.ident) = [] := by
  induction names with
  | nil => simp [visitedList]
  | cons x xs ih => simp [visitedList, Node.visited, ih]

theorem visited_of_not_call (n : Node) (h : n.isCallExpr = false) :
    n.visited = visitedList n.children := by
  cases n <;>
    simp_all [Node.visited, Node.children, visitedList, visitedList_append, visitedList_idents,
      Node.isCallExpr]

theorem visited_of_call (n : Node) (h : n.isCallExpr = true) :
    n.visited = visitedArgs n.args ++ [n] := by
  cases n <;> simp_all [Node.visited, Node.args, Node.isCallExpr]

/-- The walk from a node is the sequence of the steps of `analyzeCallExpr` for the calls it
visits, in order. -/
theorem walk_trace (a : ParallelAnalyzer) (pass : Pass) : ∀ fuel,
    (∀ st acc tv n r, visitExprStmt a pass fuel st acc tv n = some r →
      n.visited.foldlM (callStep a pass fuel tv) (st, acc) = some r) ∧
    (∀ st acc tv c r, c.isCallExpr = true → analyzeCallExpr a pass fuel st acc tv c = some r →
      c.visited.foldlM (callStep a pass fuel tv) (st, acc) = some r) := by
  intro fuel
  induction fuel with
  | zero => constructor <;> intros <;> simp_all [visitExprStmt, analyzeCallExpr]
  | succ fuel ih =>
    obtain ⟨ihV, ihC⟩ := ih
    constructor
    · intro st acc tv n r h
      rw [visitExprStmt] at h
      split at h
      · rename_i hn
        exact foldlM_callStep_mono a pass fuel (fuel + 1) (Nat.le_succ _) tv _ _ _
          (ihC st acc tv n r hn h)
      · rename_i hn
        rw [visited_of_not_call n (by simpa using hn)]
        have key : ∀ (l : List Node) (s r : State × TestAnalysis),
            l.foldlM (fun (r : State × TestAnalysis) (child : Node) =>
              visitExprStmt a pass fuel r.1 r.2 tv child) s = some r →
            (visitedList l).foldlM (callStep a pass (fuel + 1) tv) s = some r := by
          intro l
          induction l with
          | nil => intro s r h; simpa [visitedList] using h
          | cons x xs ihl =>
            intro s r h
            simp only [List.foldlM_cons, Option.bind_eq_bind, Option.bind_eq_some] at h
            obtain ⟨t, h1, h2⟩ := h
            simp only [visitedList]
            exact foldlM_append_some _ _ _ _ _ _
              (foldlM_callStep_mono a pass fuel (fuel + 1) (Nat.le_succ _) tv _ _ _
                (ihV s.1 s.2 tv x t h1)) (ihl t r h2)
        exact key _ _ _ h
    · intro st acc tv c r hc h
      rw [visited_of_call c hc]
      rw [analyzeCallExpr] at h
      simp only [Option.bind_eq_some] at h
      obtain ⟨r1, h1, r2, h2, r3, h3, h⟩ := h
      have key : ∀ (l : List Node) (s r : State × TestAnalysis),
          l.foldlM (fun (r : State × TestAnalysis) (arg : Node) =>
            if arg.isCallExpr then analyzeCallExpr a pass fuel r.1 r.2 tv arg else some r) s
            = some r →
          (visitedArgs l).foldlM (callStep a pass (fuel + 1) tv) s = some r := by
        intro l
        induction l with
        | nil => intro s r h; simpa [visitedArgs] using h
        | cons x xs ihl =>
          intro s r h
          simp only [List.foldlM_cons, Option.bind_eq_bind, Option.bind_eq_some] at h
          obtain ⟨t, h1, h2⟩ := h
          simp only [visitedArgs]
          refine foldlM_append_some _ _ _ _ t _ ?_ (ihl t r h2)
          split at h1
          · rename_i hx
            rw [if_pos hx]
            exact foldlM_callStep_mono a pass fuel (fuel + 1) (Nat.le_succ _) tv _ _ _
              (ihC s.1 s.2 tv x t hx h1)
          · rename_i hx
            rw [if_neg hx]
            cases h1
            rfl
      refine foldlM_append_some _ _ _ _ r1 _ (key _ _ _ h1) ?_
      simp only [List.foldlM_cons, List.foldlM_nil, Option.bind_eq_bind]
      have hs : callStep a pass fuel tv r1 c = some r := by
        unfold callStep
        simp only [h2, h3, Option.some_bind, h]
      rw [callStep_mono a pass fuel (fuel + 1) (Nat.le_succ _) tv r1 r c hs]
      rfl

theorem core_flags (x y : TestAnalysis) (c : Node) (tv : String) (h : x.core = y.core) :
    (x.flags c tv).core = (y.flags c tv).core := by
  simp only [TestAnalysis.core, Prod.mk.injEq] at h
  obtain ⟨h1, h2, h3⟩ := h
  simp [TestAnalysis.core, TestAnalysis.flags, h1, h2, h3]

theorem callStep_core (a : ParallelAnalyzer) (pass : Pass) (fuel : Nat) (tv : String)
    (s : State) (acc acc' : TestAnalysis) (c : Node) (x : State × TestAnalysis)
    (h : acc.core = acc'.core) (hx : callStep a pass fuel tv (s, acc) c = some x) :
    ∃ x', callStep a pass fuel tv (s, acc') c = some x' ∧ x'.1 = x.1 ∧ x'.2.core = x.2.core := by
  unfold callStep at hx ⊢
  simp only [Option.bind_eq_some] at hx
  obtain ⟨r2, h2, r3, h3, hx⟩ := hx
  cases hx
  simp only [h2, h3, Option.some_bind]
  exact ⟨_, rfl, rfl, core_merge _ _ _ (core_merge _ _ _ (core_flags _ _ c tv h.symm))⟩

theorem foldlM_callStep_core (a : ParallelAnalyzer) (pass : Pass) (fuel : Nat) (tv : String) :
    ∀ (l : List Node) (s : State) (acc acc' : TestAnalysis) (x : State × TestAnalysis),
      acc.core = acc'.core → l.foldlM (callStep a pass fuel tv) (s, acc) = some x →
      ∃ x', l.foldlM (callStep a pass fuel tv) (s, acc') = some x' ∧ x'.1 = x.1 ∧
        x'.2.core = x.2.core := by
  intro l
  induction l with
  | nil =>
    intro s acc acc' x h hx
    simp only [List.foldlM_nil] at hx
    cases hx
    exact ⟨(s, acc'), rfl, rfl, h.symm⟩
  | cons c cs ih =>
    intro s acc acc' x h hx
    simp only [List.foldlM_cons, Option.bind_eq_bind, Option.bind_eq_some] at hx
    obtain ⟨t, h1, h2⟩ := hx
    obtain ⟨t', e1, e2, e3⟩ := callStep_core a pass fuel tv s acc acc' c t h h1
    obtain ⟨x', g1, g2, g3⟩ := ih t.1 t.2 t'.2 x e3.symm h2
    refine ⟨x', ?_, g2, g3⟩
    simp only [List.foldlM_cons, Option.bind_eq_bind, e1, Option.some_bind]
    have : t' = (t.1, t'.2) := by rw [← e2]
    rw [this]
    exact g1

theorem walkCalls_cons_defer (l : Node) (rest : List Node) (h : l.isDeferStmt = true) :
    walkCalls (l :: rest) = walkCalls rest := by
  simp [walkCalls, List.filter_cons, h]

theorem walkCalls_cons (l : Node) (rest : List Node) (h : l.isDeferStmt = false) :
    walkCalls (l :: rest) = l.visited ++ walkCalls rest := by
  simp [walkCalls, List.filter_cons, h]

/-- The statement loop of `analyzeFunctionF` is the sequence of the steps of
`analyzeCallExpr` for the calls of `walkCalls`, in order: same state, same flags and same
count. -/
theorem walkBody_trace_aux (a : ParallelAnalyzer) (pass : Pass) (fuel : Nat) (tv : String) :
    ∀ (body : List Node) (st : State) (acc acc' : TestAnalysis) (w : State × TestAnalysis),
      acc.core = acc'.core →
      body.foldlM
        (fun (r : State × TestAnalysis) (l : Node) =>
          if l.isDeferStmt then some (r.1, r.2.addDefer a l)
          else visitExprStmt a pass fuel r.1 r.2 tv l) (st, acc) = some w →
      ∃ x, (walkCalls body).foldlM (callStep a pass fuel tv) (st, acc') = some x ∧
        x.1 = w.1 ∧ x.2.core = w.2.core := by
  intro body
  induction body with
  | nil =>
    intro st acc acc' w h hw
    simp only [List.foldlM_nil] at hw
    cases hw
    exact ⟨(st, acc'), rfl, rfl, h.symm⟩
  | cons l rest ih =>
    intro st acc acc' w h hw
    simp only [List.foldlM_cons, Option.bind_eq_bind, Option.bind_eq_some] at hw
    obtain ⟨t, h1, h2⟩ := hw
    by_cases hd : l.isDeferStmt = true
    · rw [if_pos hd] at h1
      cases h1
      rw [walkCalls_cons_defer l rest hd]
      exact ih st _ acc' w ((core_addDefer a acc l).trans h) h2
    · rw [if_neg hd] at h1
      rw [walkCalls_cons l rest (by simpa using hd)]
      have e1 := (walk_trace a pass fuel).1 st acc tv l t h1
      obtain ⟨t', g1, g2, g3⟩ := foldlM_callStep_core a pass fuel tv l.visited st acc acc' t h e1
      obtain ⟨x, k1, k2, k3⟩ := ih t.1 t.2 t'.2 w g3.symm h2
      refine ⟨x, foldlM_append_some _ _ _ _ t' _ g1 ?_, k2, k3⟩
      have : t' = (t.1, t'.2) := by rw [← g2]
      rw [this]
      exact k1

theorem walkBody_trace (a : ParallelAnalyzer) (pass : Pass) (fuel : Nat) (st : State)
    (tv : String) (body : List Node) (w : State × TestAnalysis)
    (h : walkBody a pass fuel st tv body = some w) :
    ∃ x, (walkCalls body).foldlM (callStep a pass fuel tv) (st, TestAnalysis.empty) = some x ∧
      x.1 = w.1 ∧ x.2.core = w.2.core :=
  walkBody_trace_aux a pass fuel tv body st _ _ w rfl h

theorem callStep_le (a : ParallelAnalyzer) (pass : Pass) (fuel : Nat) (tv : String)
    (r x : State × TestAnalysis) (c : Node) (h : callStep a pass fuel tv r c = some x) :
    Ext (CoreFormat a) r.1 x.1 ∧ FactsLe r.2 x.2 := by
  unfold callStep at h
  simp only [Option.bind_eq_some] at h
  obtain ⟨r2, h2, r3, h3, h⟩ := h
  cases h
  exact ⟨(analyzeTestRun_ext a pass fuel _ _ _ _ h2).ext_trans
      (analyzeFunctionCall_ext a pass fuel _ _ r3 h3),
    (FactsLe.flags r.2 c tv).le_trans
      ((FactsLe.merge_left _ r2.2).le_trans (FactsLe.merge_left _ r3.2))⟩

theorem foldlM_callStep_le (a : ParallelAnalyzer) (pass : Pass) (fuel : Nat) (tv : String)
    (l : List Node) (s x : State × TestAnalysis)
    (h : l.foldlM (callStep a pass fuel tv) s = some x) :
    Ext (CoreFormat a) s.1 x.1 ∧ FactsLe s.2 x.2 :=
  foldlM_rel (fun (s t : State × TestAnalysis) => Ext (CoreFormat a) s.1 t.1 ∧ FactsLe s.2 t.2)
    (fun _ => ⟨Ext.ext_refl _ _, FactsLe.le_refl _⟩)
    (fun _ _ _ h1 h2 => ⟨h1.1.ext_trans h2.1, h1.2.le_trans h2.2⟩) _ l s x
    (fun c _ t t' ht => callStep_le a pass fuel tv t t' c ht) h

/-! ## The analysis of a body at one of its calls -/

theorem core_factsLe {x y : TestAnalysis} (h : x.core = y.core) : FactsLe x y := by
  simp only [TestAnalysis.core, Prod.mk.injEq] at h
  exact ⟨fun e => h.1 ▸ e, fun e => h.2.1 ▸ e⟩

/-- In a package without recursion through resolved names, the first analysis of a body
with a test parameter returns from some bound on; at each call `c` of `walkCalls`, the
state in which `analyzeTestRun` is applied to `c` is the one the steps for the calls before
`c` leave, `analyzeFunctionCall` is applied in the state `analyzeTestRun` leaves, and the
flags of the call and of both results are flags of the facts of the body. -/
theorem analyzeFunctionF_at_call (a : ParallelAnalyzer) (pass : Pass) (rank : String → Nat)
    (hrank : pass.ranked rank = true) (st : State) (params : List Node) (lbrace : Nat)
    (body pre post : List Node) (c : Node)
    (htv : findTestParamName params ≠ "")
    (hmiss : st.getAnalysis (nodeHash lbrace body) = none)
    (hsplit : walkCalls body = pre ++ c :: post) :
    ∃ f0, ∀ fuel, f0 ≤ fuel → ∃ (r : State × Ref) (sa rb rc : State × TestAnalysis),
      analyzeFunctionF a pass fuel st params lbrace body = some r ∧
      pre.foldlM (callStep a pass fuel (findTestParamName params)) (st, TestAnalysis.empty)
        = some sa ∧
      analyzeTestRun a pass fuel sa.1 c (findTestParamName params) = some rb ∧
      analyzeFunctionCall a pass fuel rb.1 c = some rc ∧
      Ext (CoreFormat a) st sa.1 ∧ Ext (CoreFormat a) rc.1 r.1 ∧
      FactsLe (TestAnalysis.empty.flags c (findTestParamName params)) r.2.val ∧
      FactsLe rb.2 r.2.val ∧ FactsLe rc.2 r.2.val := by
  obtain ⟨f0, h0⟩ := ranked_total a pass rank hrank params lbrace body
  refine ⟨f0, fun fuel hf => ?_⟩
  obtain ⟨r, hr⟩ := Option.isSome_iff_exists.1 (h0 fuel hf st)
  obtain ⟨f, w, rfl, hw, e1, e2, _⟩ := analyzeFunctionF_miss a pass fuel st params lbrace body r
    htv hmiss hr
  obtain ⟨x, hx, x1, x2⟩ := walkBody_trace a pass f st _ body w hw
  have hx' := foldlM_callStep_mono a pass f (f + 1) (Nat.le_succ _) _ _ _ _ hx
  rw [hsplit] at hx'
  obtain ⟨sa, hsa, hrest⟩ := foldlM_append_split _ _ _ _ _ hx'
  simp only [List.foldlM_cons, Option.bind_eq_bind, Option.bind_eq_some] at hrest
  obtain ⟨t, ht, hpost⟩ := hrest
  have ht' := ht
  unfold callStep at ht'
  simp only [Option.bind_eq_some] at ht'
  obtain ⟨rb, hrb, rc, hrc, et⟩ := ht'
  have lpost := foldlM_callStep_le a pass (f + 1) _ post t x hpost
  have lpre := foldlM_callStep_le a pass (f + 1) _ pre _ sa hsa
  have hxw : FactsLe x.2 r.2.val := by rw [e2]; exact core_factsLe x2
  have et' := Option.some.inj et
  have ht2 : t.2 = ((sa.2.flags c (findTestParamName params)).merge rb.2).merge rc.2 := by
    rw [← et']
  have ht1 : t.1 = rc.1 := by rw [← et']
  refine ⟨r, sa, rb, rc, hr, hsa, hrb, hrc, lpre.1, ?_, ?_, ?_, ?_⟩
  · rw [← ht1]
    refine lpost.1.ext_trans ?_
    rw [x1]
    exact ⟨[], by rw [e1]; simp [State.cacheAnalysis], by simp⟩
  · refine FactsLe.le_trans ?_ (lpost.2.le_trans hxw)
    rw [ht2]
    exact (FactsLe.flags_empty sa.2 c _).le_trans
      ((FactsLe.merge_left _ rb.2).le_trans (FactsLe.merge_left _ rc.2))
  · refine FactsLe.le_trans ?_ (lpost.2.le_trans hxw)
    rw [ht2]
    exact (FactsLe.merge_right _ rb.2).le_trans (FactsLe.merge_left _ rc.2)
  · refine FactsLe.le_trans ?_ (lpost.2.le_trans hxw)
    rw [ht2]
    exact FactsLe.merge_right _ rc.2

/-! ## Sub-tests of a body -/

theorem analyzeTarget_mono (a : ParallelAnalyzer) (pass : Pass) (fuel fuel' : Nat)
    (h : fuel ≤ fuel') (st : State) (target : RunTarget) (r : State × TestAnalysis)
    (hr : analyzeTarget a pass fuel st target = some r) :
    analyzeTarget a pass fuel' st target = some r := by
  obtain ⟨_, _, _, _, m5, _, m7⟩ := fuel_mono_le a pass fuel fuel' h
  cases target with
  | unresolved => simp [analyzeTarget] at hr
  | lit pos params lbrace body =>
    simp only [analyzeTarget] at hr ⊢
    exact bind_mono hr (fun x hx => m5 _ _ _ _ _ hx) (fun _ hx => hx)
  | named name fd =>
    simp only [analyzeTarget] at hr ⊢
    exact bind_mono hr (fun x hx => m5 _ _ _ _ _ hx) (fun _ hx => hx)
  | builder name fd =>
    simp only [analyzeTarget] at hr ⊢
    exact bind_mono hr (fun x hx => m7 _ _ _ hx) (fun _ hx => hx)

/-- When the facts of a test function have a flag, `analyzeTestFunction` returns and adds
no top-level diagnostic. -/
theorem analyzeTestFunction_of_flag (a : ParallelAnalyzer) (pass : Pass) (fuel : Nat)
    (st : State) (fd : FuncDecl) (r : State × Ref)
    (hr : analyzeFunction a pass fuel st fd = some r)
    (hflag : r.2.val.hasParallel = true ∨ r.2.val.cantParallel = true) :
    ∃ st', analyzeTestFunction a pass fuel st fd = some st' ∧
      ∃ added, st'.reports = st.reports ++ added ∧ ∀ d ∈ added, d.format ≠ .missingParallel := by
  have hsome : ∃ st', analyzeTestFunction a pass fuel st fd = some st' := by
    simp only [analyzeTestFunction, hr, Option.some_bind]
    exact ⟨_, rfl⟩
  obtain ⟨st', hst⟩ := hsome
  refine ⟨st', hst, ?_⟩
  obtain ⟨r', hr', e⟩ := analyzeTestFunction_reports a pass fuel st st' fd hst
  rw [hr] at hr'
  cases hr'
  obtain ⟨A, eA, hA⟩ := analyzeFunctionF_ext a pass fuel st _ _ _ r hr
  have htop : topLevelDiagnostics a r.2.val fd = [] := by
    rcases hflag with h | h
    · exact topLevelDiagnostics_nil_of_hasParallel a _ fd h
    · exact topLevelDiagnostics_nil_of_cantParallel a _ fd h
  refine ⟨A ++ deferDiagnostics a r.2.val fd.name, ?_, ?_⟩
  · rw [e, htop, eA]; simp
  · intro d hd
    rcases List.mem_append.1 hd with hd | hd
    · exact (hA d hd).1
    · exact not_missingParallel_of_defer a _ _ d hd

/-- The analysis of a sub-test invocation at a call of a body: what `analyzeTestRun` does
there in terms of the analysis of the function handed to `Run`. -/
theorem analyzeTestRun_at (a : ParallelAnalyzer) (pass : Pass) (fuel : Nat) (st : State)
    (c : Node) (tv : String) (rb : State × TestAnalysis)
    (h : analyzeTestRun a pass fuel st c tv = some rb)
    (ht : runTarget pass c tv ≠ .unresolved) :
    ∃ s1 : State × TestAnalysis,
      analyzeTarget a pass fuel st (runTarget pass c tv) = some s1 ∧
      rb.1.reports = s1.1.reports ++ deferDiagnostics a s1.2 (runTarget pass c tv).label ++
        subtestDiagnostics a s1.2 ((runTarget pass c tv).pos c) (runTarget pass c tv).label ∧
      FactsLe s1.2 rb.2 := by
  obtain ⟨f, s1, g, rfl, hg⟩ := analyzeTarget_of_analyzeTestRun a pass fuel st c tv rb h ht
  obtain ⟨r', hr', e1, e2⟩ := analyzeTestRun_reports a pass f st c tv s1 g hg
  rw [h] at hr'
  cases hr'
  exact ⟨(s1, g), analyzeTarget_mono a pass f (f + 1) (Nat.le_succ _) _ _ _ hg, e1, e2⟩

/-- C5: in a package without recursion through resolved names, the first analysis of a
function with a test parameter returns from some bound on.  For every sub-test invocation
`v.Run(_, g)` among the calls of its walk (the calls of `walkCalls`, which the walk of the
statements other than top-level defer statements visits, in a range loop or elsewhere)
with `g` an inline literal, a resolved one-parameter named function or a call of a
resolved builder: `g` is analyzed in the state `sa.1` that the steps for the calls before
the invocation leave, and if the facts `s1.2` of that analysis have `cantParallel`, then
`analyzeTestRun` adds to the reports of that analysis nothing but defer warnings (no
sub-test diagnostic), the facts of the function have `cantParallel`, and
`analyzeTestFunction` returns without a top-level diagnostic. -/
theorem subtest_disqualification_propagates (a : ParallelAnalyzer) (pass : Pass)
    (rank : String → Nat) (st : State) (fd : FuncDecl) (pre post : List Node) (c : Node)
    (hrank : pass.ranked rank = true)
    (htv : findTestParamName fd.params ≠ "")
    (hmiss : st.getAnalysis (nodeHash fd.lbrace fd.body) = none)
    (hsplit : walkCalls fd.body = pre ++ c :: post)
    (ht : runTarget pass c (findTestParamName fd.params) ≠ .unresolved) :
    ∃ f0, ∀ fuel, f0 ≤ fuel →
      ∃ (r : State × Ref) (st' : State) (sa s1 sb : State × TestAnalysis),
        analyzeFunction a pass fuel st fd = some r ∧
        analyzeTestFunction a pass fuel st fd = some st' ∧
        pre.foldlM (callStep a pass fuel (findTestParamName fd.params))
          (st, TestAnalysis.empty) = some sa ∧
        analyzeTarget a pass fuel sa.1 (runTarget pass c (findTestParamName fd.params))
          = some s1 ∧
        analyzeTestRun a pass fuel sa.1 c (findTestParamName fd.params) = some sb ∧
        (s1.2.cantParallel = true →
          sb.1.reports = s1.1.reports ++
            deferDiagnostics a s1.2 (runTarget pass c (findTestParamName fd.params)).label ∧
          r.2.val.cantParallel = true ∧
          ∃ added, st'.reports = st.reports ++ added ∧
            ∀ d ∈ added, d.format ≠ .missingParallel) := by
  obtain ⟨f0, h0⟩ := analyzeFunctionF_at_call a pass rank hrank st fd.params fd.lbrace fd.body
    pre post c htv hmiss hsplit
  refine ⟨f0, fun fuel hf => ?_⟩
  obtain ⟨r, sa, rb, rc, hr, hsa, hrb, hrc, _, _, _, k2, _⟩ := h0 fuel hf
  obtain ⟨s1, hs1, e1, e2⟩ := analyzeTestRun_at a pass fuel sa.1 c _ rb hrb ht
  have hst : ∃ st', analyzeTestFunction a pass fuel st fd = some st' := by
    have hr' : analyzeFunction a pass fuel st fd = some r := hr
    simp only [analyzeTestFunction, hr', Option.some_bind]
    exact ⟨_, rfl⟩
  obtain ⟨st', hst⟩ := hst
  refine ⟨r, st', sa, s1, rb, hr, hst, hsa, hs1, hrb, fun hc => ?_⟩
  have hrc' : r.2.val.cantParallel = true := k2.2 (e2.2 hc)
  refine ⟨?_, hrc', ?_⟩
  · rw [e1, subtestDiagnostics_nil_of_cantParallel a _ _ _ hc, List.append_nil]
  · obtain ⟨st'', hst'', h⟩ := analyzeTestFunction_of_flag a pass fuel st fd r hr (Or.inr hrc')
    rw [hst] at hst''
    cases hst''
    exact h

/-- C5, counterexample: the body of `TestHiddenChild` contains the sub-test invocation
`t.Run("a", func(t *testing.T) { t.Setenv("k", "v") })`, whose literal has facts with
`cantParallel`, inside the closure handed to `t.Cleanup`; the walk does not enter the
arguments of a call, so the facts of the test have no flag and the test gets the
top-level diagnostic. -/
theorem hidden_subtest_counterexample :
    (analyzeFuncLit {} (mkPass [testHiddenChild]) 10 {}
      (testLit 71 "t" 90 [.exprStmt (methodCall 92 "t" "Setenv" [basicLit, basicLit])])).map
      (fun r => r.2.val.cantParallel) = some true ∧
    (analyzeFunction {} (mkPass [testHiddenChild]) 10 {} testHiddenChild).map
      (fun r => (r.2.val.hasParallel, r.2.val.cantParallel)) = some (false, false) ∧
    (run {} (mkPass [testHiddenChild]) 10 {}).map (fun st => st.reports) =
      some [⟨10, .missingParallel, "TestHiddenChild"⟩] := by
  refine ⟨?_, ?_, ?_⟩ <;> decide!

theorem subtest_disqualification_propagates_witness :
    (mkPass [testFunctionWithSetenvRange]).ranked (fun _ => 0) = true ∧
    walkCalls testFunctionWithSetenvRange.body = [] ++ setenvRangeRun :: [] ∧
    (∃ f0, ∀ fuel, f0 ≤ fuel →
      ∃ (r : State × Ref) (st' : State) (sa s1 sb : State × TestAnalysis),
        analyzeFunction {} (mkPass [testFunctionWithSetenvRange]) fuel {}
          testFunctionWithSetenvRange = some r ∧
        analyzeTestFunction {} (mkPass [testFunctionWithSetenvRange]) fuel {}
          testFunctionWithSetenvRange = some st' ∧
        ([] : List Node).foldlM
          (callStep {} (mkPass [testFunctionWithSetenvRange]) fuel
            (findTestParamName testFunctionWithSetenvRange.params))
          ({}, TestAnalysis.empty) = some sa ∧
        analyzeTarget {} (mkPass [testFunctionWithSetenvRange]) fuel sa.1
          (runTarget (mkPass [testFunctionWithSetenvRange]) setenvRangeRun
            (findTestParamName testFunctionWithSetenvRange.params)) = some s1 ∧
        analyzeTestRun {} (mkPass [testFunctionWithSetenvRange]) fuel sa.1 setenvRangeRun
          (findTestParamName testFunctionWithSetenvRange.params) = some sb ∧
        (s1.2.cantParallel = true →
          sb.1.reports = s1.1.reports ++
            deferDiagnostics {} s1.2
              (runTarget (mkPass [testFunctionWithSetenvRange]) setenvRangeRun
                (findTestParamName testFunctionWithSetenvRange.params)).label ∧
          r.2.val.cantParallel = true ∧
          ∃ added, st'.reports = ({} : State).reports ++ added ∧
            ∀ d ∈ added, d.format ≠ .missingParallel)) ∧
    (analyzeTarget {} (mkPass [testFunctionWithSetenvRange]) 14 {}
      (runTarget (mkPass [testFunctionWithSetenvRange]) setenvRangeRun "t")).map
      (fun r => r.2.cantParallel) = some true ∧
    (run {} (mkPass [testFunctionWithSetenvRange]) 14 {}).map (fun st => st.reports) =
      some [] := by
  have ht : runTarget (mkPass [testFunctionWithSetenvRange]) setenvRangeRun
      (findTestParamName testFunctionWithSetenvRange.params) =
      RunTarget.lit 108 [testParam "t"] 127
        [.exprStmt (methodCall 129 "t" "Setenv" [basicLit, basicLit])] := rfl
  exact ⟨by decide, rfl,
    subtest_disqualification_propagates {} (mkPass [testFunctionWithSetenvRange]) (fun _ => 0) {}
      testFunctionWithSetenvRange [] [] setenvRangeRun (by decide) (by decide) rfl rfl
      (by rw [ht]; exact fun e => by cases e),
    by decide!, by decide!⟩

/-- The first analysis of a function at a sub-test invocation among the calls of its walk,
in a package without recursion through resolved names. -/
theorem analyzeFunction_at_subtest (a : ParallelAnalyzer) (pass : Pass)
    (rank : String → Nat) (st : State) (fd : FuncDecl) (pre post : List Node) (c : Node)
    (hrank : pass.ranked rank = true)
    (htv : findTestParamName fd.params ≠ "")
    (hmiss : st.getAnalysis (nodeHash fd.lbrace fd.body) = none)
    (hsplit : walkCalls fd.body = pre ++ c :: post)
    (ht : runTarget pass c (findTestParamName fd.params) ≠ .unresolved) :
    ∃ f0, ∀ fuel, f0 ≤ fuel → ∃ (r : State × Ref) (sa s1 sb : State × TestAnalysis),
      analyzeFunction a pass fuel st fd = some r ∧
      pre.foldlM (callStep a pass fuel (findTestParamName fd.params))
        (st, TestAnalysis.empty) = some sa ∧
      analyzeTarget a pass fuel sa.1 (runTarget pass c (findTestParamName fd.params))
        = some s1 ∧
      analyzeTestRun a pass fuel sa.1 c (findTestParamName fd.params) = some sb ∧
      sb.1.reports = s1.1.reports ++
        deferDiagnostics a s1.2 (runTarget pass c (findTestParamName fd.params)).label ++
        subtestDiagnostics a s1.2 ((runTarget pass c (findTestParamName fd.params)).pos c)
          (runTarget pass c (findTestParamName fd.params)).label ∧
      FactsLe s1.2 r.2.val ∧ Ext (CoreFormat a) st s1.1 ∧ Ext (CoreFormat a) sb.1 r.1 := by
  obtain ⟨f0, h0⟩ := analyzeFunctionF_at_call a pass rank hrank st fd.params fd.lbrace fd.body
    pre post c htv hmiss hsplit
  refine ⟨f0, fun fuel hf => ?_⟩
  obtain ⟨r, sa, rb, rc, hr, hsa, hrb, hrc, x1, x2, _, k2, _⟩ := h0 fuel hf
  obtain ⟨s1, hs1, e1, e2⟩ := analyzeTestRun_at a pass fuel sa.1 c _ rb hrb ht
  exact ⟨r, sa, s1, rb, hr, hsa, hs1, hrb, e1, e2.le_trans k2,
    x1.ext_trans (analyzeTarget_ext a pass fuel _ _ _ hs1),
    (analyzeFunctionCall_ext a pass fuel _ _ rc hrc).ext_trans x2⟩

/-- C24: in a package without recursion through resolved names, the first analysis of a
function with a test parameter `v` returns from some bound on.  For every sub-test
invocation `v.Run(_, g)` among the calls of its walk (the calls of `walkCalls`, which the
walk of the statements other than top-level defer statements visits) with a resolved `g`:
`g` is analyzed in the state `sa.1` that the steps for the calls before the invocation
leave, and if the facts `s1.2` of that analysis have `hasParallel`, then the facts of the
function have `hasParallel`, whatever else its body calls, and `analyzeTestFunction`
returns without a top-level diagnostic. -/
theorem hasParallel_inherited_from_subtest (a : ParallelAnalyzer) (pass : Pass)
    (rank : String → Nat) (st : State) (fd : FuncDecl) (pre post : List Node) (c : Node)
    (hrank : pass.ranked rank = true)
    (htv : findTestParamName fd.params ≠ "")
    (hmiss : st.getAnalysis (nodeHash fd.lbrace fd.body) = none)
    (hsplit : walkCalls fd.body = pre ++ c :: post)
    (ht : runTarget pass c (findTestParamName fd.params) ≠ .unresolved) :
    ∃ f0, ∀ fuel, f0 ≤ fuel →
      ∃ (r : State × Ref) (st' : State) (sa s1 : State × TestAnalysis),
        analyzeFunction a pass fuel st fd = some r ∧
        analyzeTestFunction a pass fuel st fd = some st' ∧
        pre.foldlM (callStep a pass fuel (findTestParamName fd.params))
          (st, TestAnalysis.empty) = some sa ∧
        analyzeTarget a pass fuel sa.1 (runTarget pass c (findTestParamName fd.params))
          = some s1 ∧
        (s1.2.hasParallel = true →
          r.2.val.hasParallel = true ∧
          ∃ added, st'.reports = st.reports ++ added ∧
            ∀ d ∈ added, d.format ≠ .missingParallel) := by
  obtain ⟨f0, h0⟩ := analyzeFunction_at_subtest a pass rank st fd pre post c hrank htv hmiss
    hsplit ht
  refine ⟨f0, fun fuel hf => ?_⟩
  obtain ⟨r, sa, s1, sb, hr, hsa, hs1, _, _, k, _, _⟩ := h0 fuel hf
  have hst : ∃ st', analyzeTestFunction a pass fuel st fd = some st' := by
    simp only [analyzeTestFunction, hr, Option.some_bind]
    exact ⟨_, rfl⟩
  obtain ⟨st', hst⟩ := hst
  refine ⟨r, st', sa, s1, hr, hst, hsa, hs1, fun hp => ⟨k.1 hp, ?_⟩⟩
  obtain ⟨st'', hst'', h⟩ := analyzeTestFunction_of_flag a pass fuel st fd r hr (Or.inl (k.1 hp))
  rw [hst] at hst''
  cases hst''
  exact h

/-- C24, counterexample: the body of `TestDeferredRun` contains the sub-test invocation
`t.Run("a", func(x *testing.T) { x.Parallel() })`, whose literal has facts with
`hasParallel`, in a top-level defer statement; the statement loop does not walk defer
statements, so the facts of the test have no flag and the test gets the top-level
diagnostic. -/
theorem deferred_subtest_counterexample :
    (analyzeFuncLit {} (mkPass [testDeferredRun]) 10 {}
      (testLit 59 "x" 78 [.exprStmt (methodCall 80 "x" "Parallel" [])])).map
      (fun r => r.2.val.hasParallel) = some true ∧
    (analyzeFunction {} (mkPass [testDeferredRun]) 10 {} testDeferredRun).map
      (fun r => (r.2.val.hasParallel, r.2.val.cantParallel)) = some (false, false) ∧
    (run {} (mkPass [testDeferredRun]) 10 {}).map (fun st => st.reports) =
      some [⟨10, .missingParallel, "TestDeferredRun"⟩] := by
  refine ⟨?_, ?_, ?_⟩ <;> decide!

theorem hasParallel_inherited_from_subtest_witness :
    (mkPass [testSub]).ranked (fun _ => 0) = true ∧
    walkCalls testSub.body = [] ++
      methodCall 42 "t" "Run"
        [basicLit, testLit 53 "x" 72 [.exprStmt (methodCall 74 "x" "Parallel" [])]] :: [] ∧
    (testSub.body.all fun stmt => stmt.visited.all fun c => !isParallelCall c "t") = true ∧
    (∃ f0, ∀ fuel, f0 ≤ fuel →
      ∃ (r : State × Ref) (st' : State) (sa s1 : State × TestAnalysis),
        analyzeFunction {} (mkPass [testSub]) fuel {} testSub = some r ∧
        analyzeTestFunction {} (mkPass [testSub]) fuel {} testSub = some st' ∧
        ([] : List Node).foldlM
          (callStep {} (mkPass [testSub]) fuel (findTestParamName testSub.params))
          ({}, TestAnalysis.empty) = some sa ∧
        analyzeTarget {} (mkPass [testSub]) fuel sa.1
          (runTarget (mkPass [testSub])
            (methodCall 42 "t" "Run"
              [basicLit, testLit 53 "x" 72 [.exprStmt (methodCall 74 "x" "Parallel" [])]])
            (findTestParamName testSub.params)) = some s1 ∧
        (s1.2.hasParallel = true →
          r.2.val.hasParallel = true ∧
          ∃ added, st'.reports = ({} : State).reports ++ added ∧
            ∀ d ∈ added, d.format ≠ .missingParallel)) ∧
    (analyzeTarget {} (mkPass [testSub]) 12 {}
      (runTarget (mkPass [testSub])
        (methodCall 42 "t" "Run"
          [basicLit, testLit 53 "x" 72 [.exprStmt (methodCall 74 "x" "Parallel" [])]]) "t")).map
      (fun r => r.2.hasParallel) = some true ∧
    (run {} (mkPass [testSub]) 12 {}).map (fun st => st.reports) = some [] := by
  have ht : runTarget (mkPass [testSub])
      (methodCall 42 "t" "Run"
        [basicLit, testLit 53 "x" 72 [.exprStmt (methodCall 74 "x" "Parallel" [])]])
      (findTestParamName testSub.params) =
      RunTarget.lit 53 [testParam "x"] 72 [.exprStmt (methodCall 74 "x" "Parallel" [])] := rfl
  exact ⟨by decide, rfl, by decide,
    hasParallel_inherited_from_subtest {} (mkPass [testSub]) (fun _ => 0) {} testSub [] []
      (methodCall 42 "t" "Run"
        [basicLit, testLit 53 "x" 72 [.exprStmt (methodCall 74 "x" "Parallel" [])]])
      (by decide) (by decide) rfl rfl (by rw [ht]; exact fun e => by cases e),
    by decide!, by decide!⟩

theorem mem_walkCalls_flags (a : ParallelAnalyzer) (pass : Pass) (rank : String → Nat)
    (hrank : pass.ranked rank = true) (st : State) (params : List Node) (lbrace : Nat)
    (body : List Node) (c : Node)
    (htv : findTestParamName params ≠ "")
    (hmiss : st.getAnalysis (nodeHash lbrace body) = none)
    (hc : c ∈ walkCalls body) :
    ∃ f0, ∀ fuel, f0 ≤ fuel → ∃ r : State × Ref,
      analyzeFunctionF a pass fuel st params lbrace body = some r ∧
      FactsLe (TestAnalysis.empty.flags c (findTestParamName params)) r.2.val := by
  obtain ⟨pre, post, hsplit⟩ := List.append_of_mem hc
  obtain ⟨f0, h0⟩ := analyzeFunctionF_at_call a pass rank hrank st params lbrace body
    pre post c htv hmiss hsplit
  refine ⟨f0, fun fuel hf => ?_⟩
  obtain ⟨r, _, _, _, hr, _, _, _, _, _, k, _, _⟩ := h0 fuel hf
  exact ⟨r, hr, k⟩

/-- C4: in a package without recursion through resolved names, for the first analysis of
a test function whose walk has among its calls (the calls of `walkCalls`, which the walk
of the statements other than top-level defer statements visits) a call `v.Setenv(..)` or
`v.Chdir(..)` and a sub-test invocation `v.Run(_, lit)` with an inline literal:
`analyzeTestFunction` returns from some bound on and adds no top-level diagnostic, the
facts of the function have `cantParallel`, the literal is analyzed in the state `sa.1`
that the steps for the calls before the invocation leave, and if the facts of that
analysis have neither `hasParallel` nor `cantParallel` (and neither ignore option is set)
the diagnostic "Function literal missing the call to method parallel in the t.Run" at the
literal is among the diagnostics added. -/
theorem subtest_diagnostic_in_disqualified_body (a : ParallelAnalyzer) (pass : Pass)
    (rank : String → Nat) (st : State) (fd : FuncDecl) (c₁ c₂ : Node) (pre post : List Node)
    (pos : Nat) (params : List Node) (lbrace : Nat) (body : List Node)
    (hrank : pass.ranked rank = true)
    (htv : findTestParamName fd.params ≠ "")
    (hmiss : st.getAnalysis (nodeHash fd.lbrace fd.body) = none)
    (hi : a.ignoreMissing = false) (hs : a.ignoreMissingSubtests = false)
    (hc₁ : c₁ ∈ walkCalls fd.body)
    (hdisq : isSetenvCall c₁ (findTestParamName fd.params) = true ∨
      isChdirCall c₁ (findTestParamName fd.params) = true)
    (hsplit : walkCalls fd.body = pre ++ c₂ :: post)
    (hlit : runTarget pass c₂ (findTestParamName fd.params) = .lit pos params lbrace body) :
    ∃ f0, ∀ fuel, f0 ≤ fuel →
      ∃ (r : State × Ref) (st' : State) (sa : State × TestAnalysis) (q : State × Ref),
        analyzeFunction a pass fuel st fd = some r ∧ r.2.val.cantParallel = true ∧
        analyzeTestFunction a pass fuel st fd = some st' ∧
        pre.foldlM (callStep a pass fuel (findTestParamName fd.params))
          (st, TestAnalysis.empty) = some sa ∧
        analyzeFunctionF a pass fuel sa.1 params lbrace body = some q ∧
        ∃ added, st'.reports = st.reports ++ added ∧
          (∀ d ∈ added, d.format ≠ .missingParallel) ∧
          (q.2.val.hasParallel = false → q.2.val.cantParallel = false →
            (⟨pos, .missingParallelSubtest, "literal"⟩ : Diagnostic) ∈ added) := by
  obtain ⟨f1, h1⟩ := mem_walkCalls_flags a pass rank hrank st fd.params fd.lbrace fd.body c₁
    htv hmiss hc₁
  obtain ⟨f2, h2⟩ := analyzeFunction_at_subtest a pass rank st fd pre post c₂ hrank htv hmiss
    hsplit (by rw [hlit]; exact fun e => by cases e)
  refine ⟨max f1 f2, fun fuel hf => ?_⟩
  obtain ⟨r1, hr1, k1⟩ := h1 fuel (le_trans (le_max_left _ _) hf)
  obtain ⟨r, sa, s1, sb, hr, hsa, hs1, hsb, e1, _, x1, x2⟩ :=
    h2 fuel (le_trans (le_max_right _ _) hf)
  have hr' : analyzeFunctionF a pass fuel st fd.params fd.lbrace fd.body = some r := hr
  have er : r1 = r := Option.some.inj (hr1.symm.trans hr')
  rw [er] at k1
  have hcant : r.2.val.cantParallel = true := k1.2 (flags_cantParallel c₁ _ hdisq)
  obtain ⟨st', hst, added, hadd, hno⟩ :=
    analyzeTestFunction_of_flag a pass fuel st fd r hr (Or.inr hcant)
  rw [hlit] at hs1 e1
  simp only [analyzeTarget, Option.bind_eq_some] at hs1
  obtain ⟨q, hq, e⟩ := hs1
  cases e
  refine ⟨r, st', sa, q, hr, hcant, hst, hsa, hq, added, hadd, hno, fun hp hc => ?_⟩
  obtain ⟨r', hr'', hrep⟩ := analyzeTestFunction_reports a pass fuel st st' fd hst
  rw [hr] at hr''
  cases hr''
  rw [topLevelDiagnostics_nil_of_cantParallel a _ _ hcant, List.append_nil] at hrep
  obtain ⟨X, eX, _⟩ := analyzeFunctionF_ext a pass fuel st _ _ _ r hr
  rw [List.append_assoc] at e1
  have hmem := mem_added_of_chain x1 e1 x2 eX ⟨pos, .missingParallelSubtest, "literal"⟩
    (by simp [RunTarget.pos, RunTarget.label, subtestDiagnostics, hp, hc, hi, hs])
  have : st.reports ++ added = st.reports ++ (X ++ deferDiagnostics a r.2.val fd.name) := by
    rw [← hadd, hrep, eX, List.append_assoc]
  rw [List.append_cancel_left this]
  exact List.mem_append_left _ hmem

/-- C4, counterexample: the body of `TestDeferredSetenv` calls `t.Setenv` in a top-level
defer statement and has the sub-test invocation `t.Run("a", func(t *testing.T) {})`; the
statement loop does not walk defer statements, so the facts of the test do not have
`cantParallel` and the top-level diagnostic is reported, after the diagnostic of the
literal. -/
theorem deferred_setenv_counterexample :
    (analyzeFunction {} (mkPass [testDeferredSetenv]) 10 {} testDeferredSetenv).map
      (fun r => (r.2.val.hasParallel, r.2.val.cantParallel)) = some (false, false) ∧
    (run {} (mkPass [testDeferredSetenv]) 10 {}).map (fun st => st.reports) =
      some [⟨81, .missingParallelSubtest, "literal"⟩,
        ⟨10, .missingParallel, "TestDeferredSetenv"⟩] := by
  refine ⟨?_, ?_⟩ <;> decide!

theorem subtest_diagnostic_in_disqualified_body_witness :
    (mkPass [testFunctionSetenvChildrenCanBeParallel]).ranked (fun _ => 0) = true ∧
    walkCalls testFunctionSetenvChildrenCanBeParallel.body =
      [methodCall 62 "t" "Setenv" [basicLit, basicLit]] ++
        methodCall 90 "t" "Run"
          [basicLit,
            testLit 101 "t" 120 [.exprStmt (methodCall 122 "fmt" "Println" [basicLit])]] :: [] ∧
    (∃ f0, ∀ fuel, f0 ≤ fuel →
      ∃ (r : State × Ref) (st' : State) (sa : State × TestAnalysis) (q : State × Ref),
        analyzeFunction {} (mkPass [testFunctionSetenvChildrenCanBeParallel]) fuel {}
          testFunctionSetenvChildrenCanBeParallel = some r ∧
        r.2.val.cantParallel = true ∧
        analyzeTestFunction {} (mkPass [testFunctionSetenvChildrenCanBeParallel]) fuel {}
          testFunctionSetenvChildrenCanBeParallel = some st' ∧
        [methodCall 62 "t" "Setenv" [basicLit, basicLit]].foldlM
          (callStep {} (mkPass [testFunctionSetenvChildrenCanBeParallel]) fuel
            (findTestParamName testFunctionSetenvChildrenCanBeParallel.params))
          ({}, TestAnalysis.empty) = some sa ∧
        analyzeFunctionF {} (mkPass [testFunctionSetenvChildrenCanBeParallel]) fuel sa.1
          [testParam "t"] 120 [.exprStmt (methodCall 122 "fmt" "Println" [basicLit])]
          = some q ∧
        ∃ added, st'.reports = ({} : State).reports ++ added ∧
          (∀ d ∈ added, d.format ≠ .missingParallel) ∧
          (q.2.val.hasParallel = false → q.2.val.cantParallel = false →
            (⟨101, .missingParallelSubtest, "literal"⟩ : Diagnostic) ∈ added)) ∧
    (run {} (mkPass [testFunctionSetenvChildrenCanBeParallel]) 12 {}).map
      (fun st => st.reports) = some [⟨101, .missingParallelSubtest, "literal"⟩] := by
  exact ⟨by decide, rfl,
    subtest_diagnostic_in_disqualified_body {}
      (mkPass [testFunctionSetenvChildrenCanBeParallel]) (fun _ => 0) {}
      testFunctionSetenvChildrenCanBeParallel
      (methodCall 62 "t" "Setenv" [basicLit, basicLit])
      (methodCall 90 "t" "Run"
        [basicLit, testLit 101 "t" 120 [.exprStmt (methodCall 122 "fmt" "Println" [basicLit])]])
      [methodCall 62 "t" "Setenv" [basicLit, basicLit]] []
      101 [testParam "t"] 120 [.exprStmt (methodCall 122 "fmt" "Println" [basicLit])]
      (by decide) (by decide) rfl rfl rfl
      (by simp [walkCalls, testFunctionSetenvChildrenCanBeParallel, mkFunc, Node.visited,
        Node.isDeferStmt, methodCall, visitedArgs, basicLit, Node.isCallExpr])
      (Or.inl (by decide)) rfl rfl,
    by decide!⟩

/-! ## Helpers -/

theorem mem_walkCalls (body : List Node) (c : Node) :
    c ∈ walkCalls body ↔ ∃ stmt ∈ body, stmt.isDeferStmt = false ∧ c ∈ stmt.visited := by
  simp only [walkCalls, List.mem_flatMap, List.mem_filter, Bool.not_eq_true']
  constructor
  · rintro ⟨stmt, ⟨hm, hd⟩, hc⟩
    exact ⟨stmt, hm, hd, hc⟩
  · rintro ⟨stmt, hm, hd, hc⟩
    exact ⟨stmt, ⟨hm, hd⟩, hc⟩

theorem callsDisqualifier_of_mem (tv : String) (body : List Node) (c : Node)
    (hc : c ∈ walkCalls body) (h : isSetenvCall c tv = true ∨ isChdirCall c tv = true) :
    callsDisqualifier tv body = true := by
  obtain ⟨stmt, hm, hd, hv⟩ := (mem_walkCalls body c).1 hc
  simp only [callsDisqualifier, List.any_eq_true, Bool.and_eq_true, Bool.not_eq_true',
    Bool.or_eq_true]
  exact ⟨stmt, hm, hd, c, hv, h⟩

/-- C6: let the cache be sound for disqualification through a helper (as the cache of a
fresh analyzer is, and stays after every analysis), in a package without recursion
through resolved names.  For every test function of the package whose walk has among its
calls (the calls of `walkCalls`, which the walk of the statements other than top-level
defer statements visits) a call whose name resolves to a package-level function `h` with a
test parameter of any name, where the walk of `h` has among its calls a call of `Setenv`
or `Chdir` on that parameter (the bodies of the test and of `h` having fingerprints of
their own): from some bound on `analyzeTestFunction` returns, the facts of the test have
`cantParallel`, no top-level diagnostic is among the reports added, and the cache is
sound again. -/
theorem helper_transitivity (a : ParallelAnalyzer) (pass : Pass) (rank : String → Nat)
    (st : State) (fd h : FuncDecl) (c c' : Node)
    (hrank : pass.ranked rank = true)
    (hsound : HelperSound pass st)
    (hfd : fd ∈ pass.funcDecls)
    (htv : findTestParamName fd.params ≠ "")
    (hufd : pass.uniqueHash fd.toFunc = true)
    (hc : c ∈ walkCalls fd.body)
    (hh : findFunction pass (getCallName c) = some h)
    (htvh : findTestParamName h.params ≠ "")
    (hu : pass.uniqueHash h.toFunc = true)
    (hc' : c' ∈ walkCalls h.body)
    (hdisq : isSetenvCall c' (findTestParamName h.params) = true ∨
      isChdirCall c' (findTestParamName h.params) = true) :
    ∃ f0, ∀ fuel, f0 ≤ fuel → ∃ (r : State × Ref) (st' : State),
      analyzeFunction a pass fuel st fd = some r ∧ r.2.val.cantParallel = true ∧
      analyzeTestFunction a pass fuel st fd = some st' ∧ HelperSound pass st' ∧
      ∃ added, st'.reports = st.reports ++ added ∧
        ∀ d ∈ added, d.format ≠ .missingParallel := by
  obtain ⟨f0, h0⟩ := ranked_total a pass rank hrank fd.params fd.lbrace fd.body
  refine ⟨f0, fun fuel hf => ?_⟩
  obtain ⟨r, hr⟩ := Option.isSome_iff_exists.1 (h0 fuel hf st)
  have hst : ∃ st', analyzeTestFunction a pass fuel st fd = some st' := by
    simp only [analyzeTestFunction, analyzeFunction, hr, Option.some_bind]
    exact ⟨_, rfl⟩
  obtain ⟨st', hst⟩ := hst
  obtain ⟨stmt, hm, hd, hv⟩ := (mem_walkCalls fd.body c).1 hc
  obtain ⟨r', hr', hcant, hadd⟩ := helper_disqualifies a pass fuel st st' fd h stmt c hsound hfd
    htv hufd hm hd (visits_of_mem_visited stmt c hv) hh htvh
    (callsDisqualifier_of_mem _ _ c' hc' hdisq) hu hst
  exact ⟨r', st', hr', hcant, hst,
    analyzeTestFunction_inv a pass _ (helperSound_cacheInv a pass) fuel st st' fd hfd hsound hst,
    hadd⟩

/-- C6, counterexample: the body of `TestDeferredHelper` calls the helper `setEnvHelper`,
whose body calls `Setenv` on its test parameter, in a top-level defer statement; the
statement loop does not walk defer statements, so the facts of the test do not have
`cantParallel` and the test gets the top-level diagnostic. -/
theorem deferred_helper_counterexample :
    findFunction (mkPass [setEnvHelper, testDeferredHelper]) "setEnvHelper" =
      some setEnvHelper ∧
    (analyzeFunction {} (mkPass [setEnvHelper, testDeferredHelper]) 10 {} setEnvHelper).map
      (fun r => r.2.val.cantParallel) = some true ∧
    (analyzeFunction {} (mkPass [setEnvHelper, testDeferredHelper]) 10 {}
      testDeferredHelper).map (fun r => r.2.val.cantParallel) = some false ∧
    (run {} (mkPass [setEnvHelper, testDeferredHelper]) 10 {}).map (fun st => st.reports) =
      some [⟨90, .missingParallel, "TestDeferredHelper"⟩] := by
  refine ⟨rfl, ?_, ?_, ?_⟩ <;> decide!

theorem helper_transitivity_witness :
    (mkPass [setEnvHelper, testFunctionWithHelperSetenv]).ranked
      (fun name => if name = "setEnvHelper" then 0 else 1) = true ∧
    HelperSound (mkPass [setEnvHelper, testFunctionWithHelperSetenv]) {} ∧
    funcCall 142 "setEnvHelper" [.ident "t"] ∈ walkCalls testFunctionWithHelperSetenv.body ∧
    findFunction (mkPass [setEnvHelper, testFunctionWithHelperSetenv])
      (getCallName (funcCall 142 "setEnvHelper" [.ident "t"])) = some setEnvHelper ∧
    methodCall 52 "testT" "Setenv" [basicLit, basicLit] ∈ walkCalls setEnvHelper.body ∧
    (∃ f0, ∀ fuel, f0 ≤ fuel → ∃ (r : State × Ref) (st' : State),
      analyzeFunction {} (mkPass [setEnvHelper, testFunctionWithHelperSetenv]) fuel {}
        testFunctionWithHelperSetenv = some r ∧ r.2.val.cantParallel = true ∧
      analyzeTestFunction {} (mkPass [setEnvHelper, testFunctionWithHelperSetenv]) fuel {}
        testFunctionWithHelperSetenv = some st' ∧
      HelperSound (mkPass [setEnvHelper, testFunctionWithHelperSetenv]) st' ∧
      ∃ added, st'.reports = ({} : State).reports ++ added ∧
        ∀ d ∈ added, d.format ≠ .missingParallel) ∧
    (run {} (mkPass [setEnvHelper, testFunctionWithHelperSetenv]) 12 {}).map
      (fun st => st.reports) = some [] := by
  have m1 : funcCall 142 "setEnvHelper" [.ident "t"] ∈
      walkCalls testFunctionWithHelperSetenv.body := by
    simp [walkCalls, testFunctionWithHelperSetenv, mkFunc, Node.visited, Node.isDeferStmt,
      funcCall, visitedArgs, Node.isCallExpr]
  have m2 : methodCall 52 "testT" "Setenv" [basicLit, basicLit] ∈ walkCalls setEnvHelper.body := by
    simp [walkCalls, setEnvHelper, mkFunc, Node.visited, Node.isDeferStmt, methodCall,
      visitedArgs, basicLit, Node.isCallExpr]
  exact ⟨by decide, helperSound_empty _, m1, rfl, m2,
    helper_transitivity {} (mkPass [setEnvHelper, testFunctionWithHelperSetenv])
      (fun name => if name = "setEnvHelper" then 0 else 1) {}
      testFunctionWithHelperSetenv setEnvHelper (funcCall 142 "setEnvHelper" [.ident "t"])
      (methodCall 52 "testT" "Setenv" [basicLit, basicLit])
      (by decide) (helperSound_empty _)
      (by simp [Pass.funcDecls, mkPass, File.funcDecls])
      (by decide) (by decide!) m1 rfl (by decide) (by decide!) m2 (Or.inl (by decide)),
    by decide!⟩

/-! ## Calls in argument position -/

theorem append_eq_split {α : Type} (l1 l2 pre post : List α) (x : α)
    (h : l1 ++ l2 = pre ++ x :: post) :
    (∃ post1, l1 = pre ++ x :: post1) ∨ (∃ pre2, pre = l1 ++ pre2 ∧ l2 = pre2 ++ x :: post) := by
  rcases List.append_eq_append_iff.1 h with ⟨a', h1, h2⟩ | ⟨c', h1, h2⟩
  · exact Or.inr ⟨a', h1, h2⟩
  · cases c' with
    | nil =>
      refine Or.inr ⟨[], ?_, ?_⟩
      · simpa using h1.symm
      · simpa using h2.symm
    | cons y ys =>
      simp only [List.cons_append, List.cons.injEq] at h2
      obtain ⟨rfl, _⟩ := h2
      exact Or.inl ⟨ys, h1⟩

/-- Every occurrence of a call among the calls a walk visits comes right after the calls
visited for its arguments. -/
theorem visited_split : ∀ n : Node, ∀ (pre : List Node) (x : Node) (post : List Node),
    n.visited = pre ++ x :: post → ∃ pre0, pre = pre0 ++ visitedArgs x.args := by
  refine Node.induct_children _ (fun n ih => ?_)
  have hl : ∀ l : List Node, (∀ c ∈ l, c ∈ n.children) →
      ∀ (pre : List Node) (x : Node) (post : List Node),
        visitedList l = pre ++ x :: post → ∃ pre0, pre = pre0 ++ visitedArgs x.args := by
    intro l
    induction l with
    | nil => intro _ pre x post h; simp [visitedList] at h
    | cons c cs ihl =>
      intro hmem pre x post h
      simp only [visitedList] at h
      rcases append_eq_split _ _ _ _ _ h with ⟨post1, h1⟩ | ⟨pre2, h1, h2⟩
      · exact ih c (hmem c (List.mem_cons_self _ _)) pre x post1 h1
      · obtain ⟨pre0, e⟩ := ihl (fun d hd => hmem d (List.mem_cons_of_mem _ hd)) pre2 x post h2
        exact ⟨c.visited ++ pre0, by rw [h1, e, List.append_assoc]⟩
  have ha : ∀ l : List Node, (∀ c ∈ l, c ∈ n.children) →
      ∀ (pre : List Node) (x : Node) (post : List Node),
        visitedArgs l = pre ++ x :: post → ∃ pre0, pre = pre0 ++ visitedArgs x.args := by
    intro l
    induction l with
    | nil => intro _ pre x post h; simp [visitedArgs] at h
    | cons c cs ihl =>
      intro hmem pre x post h
      simp only [visitedArgs] at h
      rcases append_eq_split _ _ _ _ _ h with ⟨post1, h1⟩ | ⟨pre2, h1, h2⟩
      · split at h1
        · exact ih c (hmem c (List.mem_cons_self _ _)) pre x post1 h1
        · simp at h1
      · obtain ⟨pre0, e⟩ := ihl (fun d hd => hmem d (List.mem_cons_of_mem _ hd)) pre2 x post h2
        exact ⟨(if c.isCallExpr = true then c.visited else []) ++ pre0,
          by rw [h1, e, List.append_assoc]⟩
  intro pre x post h
  by_cases hn : n.isCallExpr = true
  · rw [visited_of_call n hn] at h
    rcases append_eq_split _ _ _ _ _ h with ⟨post1, h1⟩ | ⟨pre2, h1, h2⟩
    · exact ha n.args (fun c hc => args_subset_children n c hc) pre x post1 h1
    · cases pre2 with
      | nil =>
        simp only [List.nil_append, List.cons.injEq] at h2
        obtain ⟨rfl, _⟩ := h2
        exact ⟨[], by simpa using h1⟩
      | cons y ys =>
        simp only [List.cons_append, List.cons.injEq] at h2
        have := h2.2
        simp at this
  · rw [visited_of_not_call n (by simpa using hn)] at h
    exact hl n.children (fun c hc => hc) pre x post h

theorem visitedList_eq_flatMap (l : List Node) : visitedList l = l.flatMap Node.visited := by
  induction l with
  | nil => rfl
  | cons x xs ih => simp [visitedList, ih]

theorem walkCalls_split (body pre post : List Node) (x : Node)
    (h : walkCalls body = pre ++ x :: post) : ∃ pre0, pre = pre0 ++ visitedArgs x.args := by
  unfold walkCalls at h
  rw [← visitedList_eq_flatMap] at h
  have h' : (Node.other (body.filter fun l => !l.isDeferStmt)).visited = pre ++ x :: post := by
    simpa [Node.visited] using h
  exact visited_split _ pre x post h'

theorem visitedArgs_mem (args : List Node) (arg : Node) (hm : arg ∈ args)
    (hc : arg.isCallExpr = true) : ∃ A B, visitedArgs args = A ++ arg :: B := by
  induction args with
  | nil => cases hm
  | cons c cs ih =>
    rcases List.mem_cons.1 hm with rfl | hm'
    · refine ⟨visitedArgs arg.args, visitedArgs cs, ?_⟩
      simp only [visitedArgs, hc, if_true]
      rw [visited_of_call arg hc]
      simp
    · obtain ⟨A, B, e⟩ := ih hm'
      exact ⟨(if c.isCallExpr = true then c.visited else []) ++ A, B, by
        simp only [visitedArgs, e, List.append_assoc]⟩

/-- A direct argument of a call of `walkCalls` that is a call expression is itself a call
of `walkCalls`, before that call. -/
theorem walkCalls_arg_before (body pre post : List Node) (outer arg : Node)
    (h : walkCalls body = pre ++ outer :: post) (hm : arg ∈ outer.args)
    (hc : arg.isCallExpr = true) : ∃ pre1 mid, pre = pre1 ++ arg :: mid := by
  obtain ⟨pre0, e⟩ := walkCalls_split body pre post outer h
  obtain ⟨A, B, e'⟩ := visitedArgs_mem outer.args arg hm hc
  exact ⟨pre0 ++ A, B, by rw [e, e', List.append_assoc]⟩

theorem analyzeFunctionCall_resolved (a : ParallelAnalyzer) (pass : Pass) (fuel : Nat)
    (st : State) (c : Node) (h : FuncDecl) (r : State × TestAnalysis)
    (hh : findFunction pass (getCallName c) = some h)
    (hr : analyzeFunctionCall a pass fuel st c = some r) :
    (analyzeFunction a pass fuel st h).map (fun q => (q.1, q.2.val)) = some r := by
  cases fuel with
  | zero => simp [analyzeFunctionCall] at hr
  | succ f =>
    simp only [analyzeFunctionCall, hh, Option.bind_eq_some] at hr
    obtain ⟨q, hq, e⟩ := hr
    have hq' := (fuel_mono a pass f).2.2.2.2.1 _ _ _ _ _ hq
    simp only [analyzeFunction, hq', Option.map_some', e]

/-- C23: `analyzeCallExpr` on a call is its loop over the direct arguments that are call
expressions, each handed to `analyzeCallExpr` in order, followed by the step for the call
itself (`analyzeTestRun` and `analyzeFunctionCall` on the call) in the state and with the
facts the loop leaves.  In a package without recursion through resolved names, for the
first analysis of a function with a test parameter, every call of its walk (the calls of
`walkCalls`, which the walk of the statements other than top-level defer statements
visits) and every direct argument of it that is a call expression: the argument is a call
of the walk before the call, the analysis returns from some bound on,
`analyzeFunctionCall` is applied to the argument in the state `sb.1` that the steps for
the calls before the argument and `analyzeTestRun` on the argument leave, its result is
the analysis of the declaration the name of the argument resolves to, the flags of the
facts it gives are flags of the facts of the function, and when they have `hasParallel`
or `cantParallel`, `analyzeTestFunction` adds no top-level diagnostic. -/
theorem calls_in_argument_position (a : ParallelAnalyzer) (pass : Pass) :
    (∀ (fuel : Nat) (st : State) (acc : TestAnalysis) (tv : String) (outer : Node),
      analyzeCallExpr a pass (fuel + 1) st acc tv outer =
        ((outer.args.filter Node.isCallExpr).foldlM
          (fun (r : State × TestAnalysis) (arg : Node) =>
            analyzeCallExpr a pass fuel r.1 r.2 tv arg) (st, acc)).bind
          fun r1 => callStep a pass fuel tv r1 outer) ∧
    (∀ (rank : String → Nat) (st : State) (fd : FuncDecl) (pre post : List Node)
        (outer arg : Node),
      pass.ranked rank = true →
      findTestParamName fd.params ≠ "" →
      st.getAnalysis (nodeHash fd.lbrace fd.body) = none →
      walkCalls fd.body = pre ++ outer :: post →
      arg ∈ outer.args → arg.isCallExpr = true →
      ∃ pre1 mid, pre = pre1 ++ arg :: mid ∧
        ∃ f0, ∀ fuel, f0 ≤ fuel →
          ∃ (r : State × Ref) (st' : State) (sa sb sc : State × TestAnalysis),
            analyzeFunction a pass fuel st fd = some r ∧
            analyzeTestFunction a pass fuel st fd = some st' ∧
            pre1.foldlM (callStep a pass fuel (findTestParamName fd.params))
              (st, TestAnalysis.empty) = some sa ∧
            analyzeTestRun a pass fuel sa.1 arg (findTestParamName fd.params) = some sb ∧
            analyzeFunctionCall a pass fuel sb.1 arg = some sc ∧
            (∀ h, findFunction pass (getCallName arg) = some h →
              (analyzeFunction a pass fuel sb.1 h).map (fun q => (q.1, q.2.val)) = some sc) ∧
            FactsLe sc.2 r.2.val ∧
            ((sc.2.hasParallel = true ∨ sc.2.cantParallel = true) →
              ∃ added, st'.reports = st.reports ++ added ∧
                ∀ d ∈ added, d.format ≠ .missingParallel)) := by
  constructor
  · intro fuel st acc tv outer
    rw [analyzeCallExpr, foldlM_filter_calls]
    rfl
  · intro rank st fd pre post outer arg hrank htv hmiss hsplit harg hc
    obtain ⟨pre1, mid, e⟩ := walkCalls_arg_before fd.body pre post outer arg hsplit harg hc
    refine ⟨pre1, mid, e, ?_⟩
    have hsplit' : walkCalls fd.body = pre1 ++ arg :: (mid ++ outer :: post) := by
      rw [hsplit, e]; simp
    obtain ⟨f0, h0⟩ := analyzeFunctionF_at_call a pass rank hrank st fd.params fd.lbrace fd.body
      pre1 _ arg htv hmiss hsplit'
    refine ⟨f0, fun fuel hf => ?_⟩
    obtain ⟨r, sa, rb, rc, hr, hsa, hrb, hrc, _, _, _, _, k3⟩ := h0 fuel hf
    have hst : ∃ st', analyzeTestFunction a pass fuel st fd = some st' := by
      simp only [analyzeTestFunction, analyzeFunction, hr, Option.some_bind]
      exact ⟨_, rfl⟩
    obtain ⟨st', hst⟩ := hst
    refine ⟨r, st', sa, rb, rc, hr, hst, hsa, hrb, hrc,
      fun h hh => analyzeFunctionCall_resolved a pass fuel rb.1 arg h rc hh hrc, k3,
      fun hflag => ?_⟩
    have hflag' : r.2.val.hasParallel = true ∨ r.2.val.cantParallel = true := by
      rcases hflag with h | h
      · exact Or.inl (k3.1 h)
      · exact Or.inr (k3.2 h)
    obtain ⟨st'', hst'', h⟩ := analyzeTestFunction_of_flag a pass fuel st fd r hr hflag'
    rw [hst] at hst''
    cases hst''
    exact h

/-- C23, counterexample: the body of `TestDeferredNested` has the call
`nestedHelper1(nestedParallel(t))` in a top-level defer statement, and the facts of the
helper `nestedParallel` the argument resolves to have `hasParallel`; the statement loop
does not walk defer statements, so the facts of the test have no flag and the test gets
the top-level diagnostic. -/
theorem deferred_argument_counterexample :
    findFunction (mkPass [nestedHelper1, nestedParallel, testDeferredNested])
      "nestedParallel" = some nestedParallel ∧
    (analyzeFunction {} (mkPass [nestedHelper1, nestedParallel, testDeferredNested]) 10 {}
      nestedParallel).map (fun r => r.2.val.hasParallel) = some true ∧
    (analyzeFunction {} (mkPass [nestedHelper1, nestedParallel, testDeferredNested]) 10 {}
      testDeferredNested).map (fun r => (r.2.val.hasParallel, r.2.val.cantParallel)) =
      some (false, false) ∧
    (run {} (mkPass [nestedHelper1, nestedParallel, testDeferredNested]) 10 {}).map
      (fun st => st.reports) = some [⟨140, .missingParallel, "TestDeferredNested"⟩] := by
  refine ⟨rfl, ?_, ?_, ?_⟩ <;> decide!

theorem calls_in_argument_position_witness :
    nestedPass.ranked (fun name => if name = "TestNestedFunctionWithParallel" then 1 else 0)
      = true ∧
    walkCalls testNestedFunctionWithParallel.body =
      [nestedParallelCall] ++ nestedHelperCall :: [] ∧
    nestedParallelCall ∈ nestedHelperCall.args ∧
    (∃ pre1 mid, [nestedParallelCall] = pre1 ++ nestedParallelCall :: mid ∧
      ∃ f0, ∀ fuel, f0 ≤ fuel →
        ∃ (r : State × Ref) (st' : State) (sa sb sc : State × TestAnalysis),
          analyzeFunction {} nestedPass fuel {} testNestedFunctionWithParallel = some r ∧
          analyzeTestFunction {} nestedPass fuel {} testNestedFunctionWithParallel
            = some st' ∧
          pre1.foldlM
            (callStep {} nestedPass fuel
              (findTestParamName testNestedFunctionWithParallel.params))
            ({}, TestAnalysis.empty) = some sa ∧
          analyzeTestRun {} nestedPass fuel sa.1 nestedParallelCall
            (findTestParamName testNestedFunctionWithParallel.params) = some sb ∧
          analyzeFunctionCall {} nestedPass fuel sb.1 nestedParallelCall = some sc ∧
          (∀ h, findFunction nestedPass (getCallName nestedParallelCall) = some h →
            (analyzeFunction {} nestedPass fuel sb.1 h).map (fun q => (q.1, q.2.val))
              = some sc) ∧
          FactsLe sc.2 r.2.val ∧
          ((sc.2.hasParallel = true ∨ sc.2.cantParallel = true) →
            ∃ added, st'.reports = ({} : State).reports ++ added ∧
              ∀ d ∈ added, d.format ≠ .missingParallel)) ∧
    (analyzeFunctionCall {} nestedPass 14 {} nestedParallelCall).map
      (fun r => r.2.hasParallel) = some true ∧
    (run {} nestedPass 14 {}).map (fun st => st.reports) = some [] := by
  have hm : nestedParallelCall ∈ nestedHelperCall.args := by
    simp [nestedHelperCall, funcCall, Node.args]
  exact ⟨by decide, rfl, hm,
    (calls_in_argument_position {} nestedPass).2
      (fun name => if name = "TestNestedFunctionWithParallel" then 1 else 0) {}
      testNestedFunctionWithParallel [nestedParallelCall] [] nestedHelperCall
      nestedParallelCall (by decide) (by decide) rfl rfl hm rfl,
    by decide!, by decide!⟩

/-! ## The walk of a builder as a sequence of events -/

theorem analyzeFuncLit_mono (a : ParallelAnalyzer) (pass : Pass) (fuel fuel' : Nat)
    (h : fuel ≤ fuel') (st : State) (lit : Node) (q : State × Ref)
    (hq : analyzeFuncLit a pass fuel st lit = some q) :
    analyzeFuncLit a pass fuel' st lit = some q := by
  cases lit <;> simp only [analyzeFuncLit] at hq ⊢ <;> try cases hq
  exact (fuel_mono_le a pass fuel fuel' h).2.2.2.2.1 _ _ _ _ _ hq

theorem builderEvent_mono (a : ParallelAnalyzer) (pass : Pass) (fuel fuel' : Nat)
    (h : fuel ≤ fuel') (tv : String) (r x : State × TestAnalysis × List TestAnalysis)
    (e : BuilderEvent) (hx : builderEvent a pass fuel tv r e = some x) :
    builderEvent a pass fuel' tv r e = some x := by
  cases e with
  | visit c =>
    simp only [builderEvent] at hx ⊢
    exact bind_mono hx (fun y hy => callStep_mono a pass fuel fuel' h tv _ y c hy)
      (fun _ hy => hy)
  | returned lit =>
    simp only [builderEvent] at hx ⊢
    exact bind_mono hx (fun y hy => analyzeFuncLit_mono a pass fuel fuel' h _ lit y hy)
      (fun _ hy => hy)

theorem foldlM_builderEvent_mono (a : ParallelAnalyzer) (pass : Pass) (fuel fuel' : Nat)
    (h : fuel ≤ fuel') (tv : String) (l : List BuilderEvent)
    (s x : State × TestAnalysis × List TestAnalysis)
    (hx : l.foldlM (builderEvent a pass fuel tv) s = some x) :
    l.foldlM (builderEvent a pass fuel' tv) s = some x :=
  foldlM_mono _ _ l s x (fun e _ u v hu => builderEvent_mono a pass fuel fuel' h tv u v e hu) hx

theorem visits_fold (a : ParallelAnalyzer) (pass : Pass) (fuel : Nat) (tv : String)
    (gs : List TestAnalysis) :
    ∀ (l : List Node) (s x : State × TestAnalysis),
      l.foldlM (callStep a pass fuel tv) s = some x →
      (l.map BuilderEvent.visit).foldlM (builderEvent a pass fuel tv) (s.1, s.2, gs) =
        some (x.1, x.2, gs) := by
  intro l
  induction l with
  | nil =>
    intro s x h
    simp only [List.foldlM_nil, Option.pure_def, Option.some.injEq] at h
    subst h
    rfl
  | cons c cs ih =>
    intro s x h
    simp only [List.foldlM_cons, Option.bind_eq_bind, Option.bind_eq_some] at h
    obtain ⟨t, h1, h2⟩ := h
    simp only [List.map_cons, List.foldlM_cons, Option.bind_eq_bind, builderEvent, h1,
      Option.some_bind]
    exact ih t x h2

theorem returned_fold (a : ParallelAnalyzer) (pass : Pass) (fuel : Nat) (tv : String)
    (results : List Node) :
    ∀ (s q : State × TestAnalysis × TestAnalysis),
      results.foldlM
        (fun (r : State × TestAnalysis × TestAnalysis) (result : Node) =>
          match result with
          | .funcLit _ params _ lbrace body =>
            (analyzeFunctionF a pass fuel r.1 params lbrace body).bind fun inner =>
              some (inner.1, r.2.1, r.2.2.merge inner.2.val)
          | _ => some r) s = some q →
      ∀ gs0, ∃ gs,
        ((results.filter Node.isFuncLit).map BuilderEvent.returned).foldlM
          (builderEvent a pass fuel tv) (s.1, s.2.1, gs0) = some (q.1, q.2.1, gs0 ++ gs) ∧
        q.2.2 = gs.foldl TestAnalysis.merge s.2.2 := by
  induction results with
  | nil =>
    intro s q h gs0
    simp only [List.foldlM_nil, Option.pure_def, Option.some.injEq] at h
    subst h
    exact ⟨[], by simp, rfl⟩
  | cons x xs ih =>
    intro s q h gs0
    simp only [List.foldlM_cons, Option.bind_eq_bind, Option.bind_eq_some] at h
    obtain ⟨t, h1, h2⟩ := h
    cases x with
    | funcLit pos params res lbrace body =>
      simp only [Option.bind_eq_some] at h1
      obtain ⟨inner, hin, e⟩ := h1
      cases e
      obtain ⟨gs, i1, i2⟩ := ih _ q h2 (gs0 ++ [inner.2.val])
      refine ⟨inner.2.val :: gs, ?_, ?_⟩
      · simp only [List.filter_cons, Node.isFuncLit, if_true, List.map_cons, List.foldlM_cons,
          Option.bind_eq_bind, builderEvent, analyzeFuncLit, hin, Option.some_bind]
        rw [i1]
        simp
      · simpa using i2
    | _ =>
      simp only [Option.some.injEq] at h1
      subst h1
      obtain ⟨gs, i1, i2⟩ := ih _ q h2 gs0
      exact ⟨gs, by simpa [List.filter_cons, Node.isFuncLit] using i1, i2⟩

/-- The walk of `analyzeBuilderCall` below a node is the sequence of the steps for its
events: the state and the parent facts are those the steps leave, and the builder facts
are the facts of the returned literals, merged in order into the builder facts the walk
started with. -/
theorem inspectBuilder_events (a : ParallelAnalyzer) (pass : Pass) : ∀ fuel,
    ∀ (st : State) (facts : TestAnalysis × TestAnalysis) (tv : String) (n : Node)
      (r : State × TestAnalysis × TestAnalysis),
      inspectBuilder a pass fuel st facts tv n = some r →
      ∀ gs0, ∃ gs,
        (n.collect (Node.ownEvents tv)).foldlM (builderEvent a pass fuel tv)
          (st, facts.1, gs0) = some (r.1, r.2.1, gs0 ++ gs) ∧
        r.2.2 = gs.foldl TestAnalysis.merge facts.2 := by
  intro fuel
  induction fuel with
  | zero => intro st facts tv n r h; simp [inspectBuilder] at h
  | succ fuel ih =>
    intro st facts tv n r h gs0
    simp only [inspectBuilder, Option.bind_eq_some] at h
    obtain ⟨q, hq, h⟩ := h
    have hown : ∃ gs,
        (Node.ownEvents tv n).foldlM (builderEvent a pass fuel tv) (st, facts.1, gs0) =
          some (q.1, q.2.1, gs0 ++ gs) ∧
        q.2.2 = gs.foldl TestAnalysis.merge facts.2 := by
      split at hq
      · split at hq
        · rename_i hif
          simp only [Option.bind_eq_some] at hq
          obtain ⟨q', hq', hq⟩ := hq
          cases hq
          refine ⟨[], ?_, rfl⟩
          simp only [Node.ownEvents, hif, if_true, List.append_nil]
          exact visits_fold a pass fuel tv gs0 _ (st, facts.1) q'
            ((walk_trace a pass fuel).1 st facts.1 tv _ q' hq')
        · rename_i hif
          cases hq
          exact ⟨[], by simp [Node.ownEvents, hif], rfl⟩
      · split at hq
        · rename_i hif
          simp only [Option.bind_eq_some] at hq
          obtain ⟨q', hq', hq⟩ := hq
          cases hq
          refine ⟨[], ?_, rfl⟩
          simp only [Node.ownEvents, hif, if_true, List.append_nil]
          exact visits_fold a pass fuel tv gs0 _ (st, facts.1) q'
            ((walk_trace a pass fuel).1 st facts.1 tv _ q' hq')
        · rename_i hif
          cases hq
          exact ⟨[], by simp [Node.ownEvents, hif], rfl⟩
      · simp only [Node.ownEvents]
        exact returned_fold a pass fuel tv _ (st, facts) q hq gs0
      · rename_i h1 h2 h3
        cases hq
        refine ⟨[], ?_, rfl⟩
        cases n <;> simp [Node.ownEvents]
        · exact absurd rfl (h1 _)
        · exact absurd rfl (h3 _)
        · exact absurd rfl (h2 _ _ _)
    have hkids : ∀ (l : List Node) (s t : State × TestAnalysis × TestAnalysis),
        l.foldlM (fun (r : State × TestAnalysis × TestAnalysis) (child : Node) =>
          inspectBuilder a pass fuel r.1 r.2 tv child) s = some t →
        ∀ gs0, ∃ gs,
          (collectList (Node.ownEvents tv) l).foldlM (builderEvent a pass fuel tv)
            (s.1, s.2.1, gs0) = some (t.1, t.2.1, gs0 ++ gs) ∧
          t.2.2 = gs.foldl TestAnalysis.merge s.2.2 := by
      intro l
      induction l with
      | nil =>
        intro s t ht gs0
        simp only [List.foldlM_nil, Option.pure_def, Option.some.injEq] at ht
        subst ht
        exact ⟨[], by simp [collectList], rfl⟩
      | cons x xs ihl =>
        intro s t ht gs0
        simp only [List.foldlM_cons, Option.bind_eq_bind, Option.bind_eq_some] at ht
        obtain ⟨u, hu, ht⟩ := ht
        obtain ⟨g1, f1, e1⟩ := ih s.1 s.2 tv x u hu gs0
        obtain ⟨g2, f2, e2⟩ := ihl u t ht (gs0 ++ g1)
        refine ⟨g1 ++ g2, ?_, by rw [e2, e1, List.foldl_append]⟩
        simp only [collectList]
        rw [← List.append_assoc]
        exact foldlM_append_some _ _ _ _ _ _ f1 f2
    obtain ⟨g1, f1, e1⟩ := hown
    obtain ⟨g2, f2, e2⟩ := hkids _ q r h (gs0 ++ g1)
    refine ⟨g1 ++ g2, ?_, by rw [e2, e1, List.foldl_append]⟩
    rw [collect_eq, ← List.append_assoc]
    exact foldlM_append_some _ _ _ _ _ _
      (foldlM_builderEvent_mono a pass fuel (fuel + 1) (Nat.le_succ _) tv _ _ _ f1)
      (foldlM_builderEvent_mono a pass fuel (fuel + 1) (Nat.le_succ _) tv _ _ _ f2)

theorem inspectBuilderList_events (a : ParallelAnalyzer) (pass : Pass) (fuel : Nat)
    (tv : String) :
    ∀ (l : List Node) (s t : State × TestAnalysis × TestAnalysis),
      l.foldlM (fun (r : State × TestAnalysis × TestAnalysis) (child : Node) =>
        inspectBuilder a pass fuel r.1 r.2 tv child) s = some t →
      ∀ gs0, ∃ gs,
        (collectList (Node.ownEvents tv) l).foldlM (builderEvent a pass fuel tv)
          (s.1, s.2.1, gs0) = some (t.1, t.2.1, gs0 ++ gs) ∧
        t.2.2 = gs.foldl TestAnalysis.merge s.2.2 := by
  intro l
  induction l with
  | nil =>
    intro s t ht gs0
    simp only [List.foldlM_nil, Option.pure_def, Option.some.injEq] at ht
    subst ht
    exact ⟨[], by simp [collectList], rfl⟩
  | cons x xs ihl =>
    intro s t ht gs0
    simp only [List.foldlM_cons, Option.bind_eq_bind, Option.bind_eq_some] at ht
    obtain ⟨u, hu, ht⟩ := ht
    obtain ⟨g1, f1, e1⟩ := inspectBuilder_events a pass fuel s.1 s.2 tv x u hu gs0
    obtain ⟨g2, f2, e2⟩ := ihl u t ht (gs0 ++ g1)
    refine ⟨g1 ++ g2, ?_, by rw [e2, e1, List.foldl_append]⟩
    simp only [collectList]
    rw [← List.append_assoc]
    exact foldlM_append_some _ _ _ _ _ _ f1 f2

/-- The result of `analyzeBuilderCall` is what the steps for the events of the builder
leave: the state, the parent facts, and as builder facts the merge of the facts of the
returned literals. -/
theorem analyzeBuilderCall_events (a : ParallelAnalyzer) (pass : Pass) (fuel : Nat)
    (st : State) (fd : FuncDecl) (r : State × TestAnalysis × TestAnalysis)
    (h : analyzeBuilderCall a pass fuel st fd = some r) :
    ∃ gs, fd.builderEvents.foldlM (builderEvent a pass fuel (findTestParamName fd.params))
        (st, TestAnalysis.empty, []) = some (r.1, r.2.1, gs) ∧
      r.2.2 = gs.foldl TestAnalysis.merge TestAnalysis.empty := by
  cases fuel with
  | zero => simp [analyzeBuilderCall] at h
  | succ f =>
    simp only [analyzeBuilderCall] at h
    obtain ⟨gs, h1, h2⟩ := inspectBuilderList_events a pass f _ _ _ r h []
    refine ⟨gs, ?_, h2⟩
    have := foldlM_builderEvent_mono a pass f (f + 1) (Nat.le_succ _) _ _ _ _ h1
    simpa [FuncDecl.builderEvents, FuncDecl.nodes] using this

theorem builderEvent_le (a : ParallelAnalyzer) (pass : Pass) (fuel : Nat) (tv : String)
    (s t : State × TestAnalysis × List TestAnalysis) (e : BuilderEvent)
    (h : builderEvent a pass fuel tv s e = some t) : FactsLe s.2.1 t.2.1 := by
  cases e with
  | visit c =>
    simp only [builderEvent, Option.bind_eq_some] at h
    obtain ⟨x, hx, h⟩ := h
    cases h
    exact (callStep_le a pass fuel tv _ x c hx).2
  | returned lit =>
    simp only [builderEvent, Option.bind_eq_some] at h
    obtain ⟨x, _, h⟩ := h
    cases h
    exact FactsLe.le_refl _

theorem foldlM_builderEvent_le (a : ParallelAnalyzer) (pass : Pass) (fuel : Nat) (tv : String)
    (l : List BuilderEvent) (s t : State × TestAnalysis × List TestAnalysis)
    (h : l.foldlM (builderEvent a pass fuel tv) s = some t) : FactsLe s.2.1 t.2.1 :=
  foldlM_rel (fun (s t : State × TestAnalysis × List TestAnalysis) => FactsLe s.2.1 t.2.1)
    (fun _ => FactsLe.le_refl _) (fun _ _ _ h1 h2 => h1.le_trans h2) _ l s t
    (fun e _ u v hu => builderEvent_le a pass fuel tv u v e hu) h

theorem collectList_filterMap {α β : Type} (f : Node → List α) (f' : Node → List β)
    (g : α → Option β) (hf : ∀ n, (f n).filterMap g = f' n) :
    ∀ l : List Node, (collectList f l).filterMap g = collectList f' l := by
  have hn : ∀ n : Node, (n.collect f).filterMap g = n.collect f' := by
    refine Node.induct_children _ (fun n ih => ?_)
    have hl : ∀ l : List Node, (∀ c ∈ l, c ∈ n.children) →
        (collectList f l).filterMap g = collectList f' l := by
      intro l
      induction l with
      | nil => intro _; simp [collectList]
      | cons c cs ihl =>
        intro hmem
        simp only [collectList, List.filterMap_append]
        rw [ih c (hmem c (List.mem_cons_self _ _)),
          ihl (fun d hd => hmem d (List.mem_cons_of_mem _ hd))]
    rw [collect_eq, collect_eq, List.filterMap_append, hf, hl _ (fun c hc => hc)]
  intro l
  induction l with
  | nil => simp [collectList]
  | cons c cs ihl => simp only [collectList, List.filterMap_append, hn, ihl]

theorem builderEvents_returned (fd : FuncDecl) :
    fd.builderEvents.filterMap BuilderEvent.returnedLit? = fd.returnedLits := by
  unfold FuncDecl.builderEvents FuncDecl.returnedLits
  refine collectList_filterMap _ _ _ (fun n => ?_) _
  cases n <;> simp only [Node.ownEvents, Node.ownReturned, List.filterMap_nil]
  · split <;> simp [List.filterMap_map, Function.comp_def, BuilderEvent.returnedLit?]
  · simp [List.filterMap_map, Function.comp_def, BuilderEvent.returnedLit?]
  · split <;> simp [List.filterMap_map, Function.comp_def, BuilderEvent.returnedLit?]

/-- C7: for a sub-test invocation `v.Run(_, b(...))` whose builder call resolves to the
declaration `fd`, in a package without recursion through resolved names: the label
`name` is the name of `fd`; the function literals handed to `analyzeFuncLit` by the walk
of `analyzeBuilderCall` are the result operands of the return statements of `fd` that are
function literals; and from some bound on `analyzeTestRun` and `analyzeBuilderCall`
return, with `(parent, returned)` the facts of `analyzeBuilderCall`, such that: the state
and `parent` are what the steps for the events of `fd` leave, and `returned` is the merge
of the facts `gs` that `analyzeFuncLit` gave for the returned literals, each in the state
of its moment; `analyzeTestRun` adds to the reports of that analysis the defer warnings
and the sub-test diagnostic decided on `returned` alone, labelled `name`, at the position
of the invocation, and hands `parent` merged with `returned` to the walk of the enclosing
body; for every call `c'` that the walk visits from an expression statement or range
statement of `fd`, `analyzeTestRun` is applied to `c'` in the state the steps for the
events before it leave, `analyzeFunctionCall` in the state that leaves, its result is the
analysis of the declaration the name of `c'` resolves to, and when `c'` is a `Setenv` or
`Chdir` call on the test parameter of `fd`, or that result has `cantParallel`, then
`parent` and the facts `analyzeTestRun` returns have `cantParallel`. -/
theorem builder_semantics (a : ParallelAnalyzer) (pass : Pass) (rank : String → Nat)
    (st : State) (c : Node) (tv name : String) (fd : FuncDecl)
    (hrank : pass.ranked rank = true)
    (ht : runTarget pass c tv = .builder name fd) :
    fd.name = name ∧
    fd.builderEvents.filterMap BuilderEvent.returnedLit? = fd.returnedLits ∧
    ∃ f0, ∀ fuel, f0 ≤ fuel →
      ∃ (r : State × TestAnalysis) (s1 : State) (parent returned : TestAnalysis)
          (gs : List TestAnalysis),
        analyzeTestRun a pass fuel st c tv = some r ∧
        analyzeBuilderCall a pass fuel st fd = some (s1, parent, returned) ∧
        fd.builderEvents.foldlM (builderEvent a pass fuel (findTestParamName fd.params))
          (st, TestAnalysis.empty, []) = some (s1, parent, gs) ∧
        returned = gs.foldl TestAnalysis.merge TestAnalysis.empty ∧
        r.1.reports = s1.reports ++ deferDiagnostics a returned name ++
          subtestDiagnostics a returned c.pos name ∧
        r.2 = (parent.merge returned).incr ∧
        (∀ (pre post : List BuilderEvent) (c' : Node),
          fd.builderEvents = pre ++ BuilderEvent.visit c' :: post →
          ∃ (sa : State × TestAnalysis × List TestAnalysis) (sb sc : State × TestAnalysis),
            pre.foldlM (builderEvent a pass fuel (findTestParamName fd.params))
              (st, TestAnalysis.empty, []) = some sa ∧
            analyzeTestRun a pass fuel sa.1 c' (findTestParamName fd.params) = some sb ∧
            analyzeFunctionCall a pass fuel sb.1 c' = some sc ∧
            (∀ h, findFunction pass (getCallName c') = some h →
              (analyzeFunction a pass fuel sb.1 h).map (fun q => (q.1, q.2.val)) = some sc) ∧
            ((isSetenvCall c' (findTestParamName fd.params) = true ∨
                isChdirCall c' (findTestParamName fd.params) = true ∨
                sc.2.cantParallel = true) →
              parent.cantParallel = true ∧ r.2.cantParallel = true)) ∧
        (findTestParamName fd.params ≠ "" →
          ∀ root ∈ fd.nodes, ∀ s c', Sub root s → s.isBuilderStmt = true → Visits s c' →
            (isSetenvCall c' (findTestParamName fd.params) = true ∨
              isChdirCall c' (findTestParamName fd.params) = true) →
            parent.cantParallel = true) := by
  obtain ⟨_, hfind, _⟩ := runTarget_builder pass c tv name fd ht
  refine ⟨(findFunction_mem pass name fd hfind).2, builderEvents_returned fd, ?_⟩
  obtain ⟨f1, h1⟩ := ranked_builder_total a pass rank hrank fd
  refine ⟨f1 + 1, fun fuel hf => ?_⟩
  obtain ⟨k, rfl⟩ : ∃ k, fuel = k + 1 := ⟨fuel - 1, by omega⟩
  obtain ⟨q, hq⟩ := Option.isSome_iff_exists.1 (h1 k (by omega) st)
  obtain ⟨s1, parent, returned⟩ := q
  have hb := (fuel_mono a pass k).2.2.2.2.2.2 _ _ _ hq
  obtain ⟨gs, hgs, hret⟩ := analyzeBuilderCall_events a pass (k + 1) st fd _ hb
  have hcant : parent.cantParallel = true →
      (builderStep a c.pos name (s1, parent, returned)).2.cantParallel = true := by
    intro hp
    simp [builderStep, TestAnalysis.incr, TestAnalysis.merge, hp]
  refine ⟨builderStep a c.pos name (s1, parent, returned), s1, parent, returned, gs, ?_, hb,
    hgs, hret, builderStep_reports a c.pos name (s1, parent, returned), rfl, ?_, ?_⟩
  · rw [analyzeTestRun_succ, ht]
    simp only [hq, Option.some_bind]
  · intro pre post c' hsplit
    rw [hsplit] at hgs
    obtain ⟨sa, hsa, hrest⟩ := foldlM_append_split _ _ _ _ _ hgs
    simp only [List.foldlM_cons, Option.bind_eq_bind, Option.bind_eq_some] at hrest
    obtain ⟨t, ht1, ht2⟩ := hrest
    have hle := foldlM_builderEvent_le a pass (k + 1) _ post t _ ht2
    simp only [builderEvent, Option.bind_eq_some] at ht1
    obtain ⟨x, hx, et⟩ := ht1
    unfold callStep at hx
    simp only [Option.bind_eq_some] at hx
    obtain ⟨sb, hsb, sc, hsc, ex⟩ := hx
    have ex' := Option.some.inj ex
    have et' := Option.some.inj et
    have hpar : FactsLe x.2 parent := by
      rw [← et'] at hle
      exact hle
    refine ⟨sa, sb, sc, hsa, hsb, hsc,
      fun h hh => analyzeFunctionCall_resolved a pass (k + 1) sb.1 c' h sc hh hsc, fun hd => ?_⟩
    have hx2 : x.2.cantParallel = true := by
      rw [← ex']
      rcases hd with hd | hd | hd
      · exact (FactsLe.merge_left _ sc.2).2 ((FactsLe.merge_left _ sb.2).2
          ((FactsLe.flags_empty sa.2.1 c' _).2 (flags_cantParallel c' _ (Or.inl hd))))
      · exact (FactsLe.merge_left _ sc.2).2 ((FactsLe.merge_left _ sb.2).2
          ((FactsLe.flags_empty sa.2.1 c' _).2 (flags_cantParallel c' _ (Or.inr hd))))
      · exact (FactsLe.merge_right _ sc.2).2 hd
    exact ⟨hpar.2 hx2, hcant (hpar.2 hx2)⟩
  · intro htv root hroot s c' hsub hs hv hdisq
    obtain ⟨f, sa, sb, sc, dRun, dCall, _, _, _, _, k1, _, _⟩ :=
      analyzeBuilderCall_reaches a pass (k + 1) st fd _ root s c' hb htv hroot hsub hs hv
    exact k1.2 (flags_cantParallel c' _ hdisq)

/-- C7, counterexample: the builder `deferBuilder` calls `t.Setenv` on its test parameter
in a defer statement, which the walk of `analyzeBuilderCall` does not hand to
`visitExprStmt`; the parent facts have no `cantParallel`, and the test whose body is only
`t.Run("x", deferBuilder(t))` gets the top-level diagnostic. -/
theorem deferred_builder_counterexample :
    runTarget (mkPass [deferBuilder, testDeferBuilder]) runDeferBuilder "t" =
      .builder "deferBuilder" deferBuilder ∧
    deferBuilder.body.head? =
      some (.deferStmt 62 (methodCall 68 "t" "Setenv" [basicLit, basicLit])) ∧
    isSetenvCall (methodCall 68 "t" "Setenv" [basicLit, basicLit])
      (findTestParamName deferBuilder.params) = true ∧
    (analyzeBuilderCall {} (mkPass [deferBuilder, testDeferBuilder]) 16 {} deferBuilder).map
      (fun r => (r.2.1.cantParallel, r.2.2.hasParallel, r.2.2.cantParallel)) =
      some (false, false, false) ∧
    (analyzeFunction {} (mkPass [deferBuilder, testDeferBuilder]) 16 {} testDeferBuilder).map
      (fun r => r.2.val.cantParallel) = some false ∧
    (run {} (mkPass [deferBuilder, testDeferBuilder]) 16 {}).map (fun st => st.reports) =
      some [⟨172, .missingParallelSubtest, "deferBuilder"⟩,
        ⟨130, .missingParallel, "TestDeferBuilder"⟩] := by
  refine ⟨rfl, rfl, ?_, ?_, ?_, ?_⟩ <;> decide!

theorem builder_semantics_witness :
    builderPass.ranked
      (fun name => if name = "setEnvHelper" then 0
        else if name = "builderWithSetenvHelper" then 1 else 2) = true ∧
    runTarget builderPass runBuilderWithSetenvHelper "t" =
      .builder "builderWithSetenvHelper" builderWithSetenvHelper ∧
    builderWithSetenvHelper.builderEvents =
      [] ++ BuilderEvent.visit (funcCall 142 "setEnvHelper" [.ident "t"]) ::
        [.returned (testLit 167 "t" 186 [.exprStmt (methodCall 188 "t" "Parallel" [])]),
         .visit (methodCall 188 "t" "Parallel" [])] ∧
    (∃ f0, ∀ fuel, f0 ≤ fuel →
      ∃ (r : State × TestAnalysis) (sc : State × TestAnalysis),
        analyzeTestRun {} builderPass fuel {} runBuilderWithSetenvHelper "t" = some r ∧
        (analyzeFunction {} builderPass fuel {} setEnvHelperT).map
          (fun q => (q.1, q.2.val)) = some sc ∧
        (sc.2.cantParallel = true → r.2.cantParallel = true)) ∧
    (analyzeFunction {} builderPass 12 {} setEnvHelperT).map
      (fun q => q.2.val.cantParallel) = some true ∧
    (analyzeTestRun {} builderPass 12 {} runBuilderWithSetenvHelper "t").map
      (fun r => (r.1.reports, r.2.hasParallel, r.2.cantParallel)) = some ([], true, true) ∧
    (run {} builderPass 16 {}).map (fun st => st.reports) = some [] := by
  have hrank : builderPass.ranked
      (fun name => if name = "setEnvHelper" then 0
        else if name = "builderWithSetenvHelper" then 1 else 2) = true := by decide
  have hsplit : builderWithSetenvHelper.builderEvents =
      [] ++ BuilderEvent.visit (funcCall 142 "setEnvHelper" [.ident "t"]) ::
        [.returned (testLit 167 "t" 186 [.exprStmt (methodCall 188 "t" "Parallel" [])]),
         .visit (methodCall 188 "t" "Parallel" [])] := rfl
  refine ⟨hrank, rfl, hsplit, ?_, by decide!, by decide!, by decide!⟩
  obtain ⟨f0, h0⟩ := (builder_semantics {} builderPass _ {} runBuilderWithSetenvHelper "t"
    "builderWithSetenvHelper" builderWithSetenvHelper hrank rfl).2.2
  refine ⟨f0, fun fuel hf => ?_⟩
  obtain ⟨r, s1, parent, returned, gs, hr, _, _, _, _, _, hvis, _⟩ := h0 fuel hf
  obtain ⟨sa, sb, sc, hsa, hsb, _, hres, hd⟩ := hvis _ _ _ hsplit
  have hsa' := Option.some.inj hsa
  have hsb1 : sb.1 = ({} : State) := by
    have : analyzeTestRun {} builderPass fuel sa.1 (funcCall 142 "setEnvHelper" [.ident "t"])
        (findTestParamName builderWithSetenvHelper.params) = some (sa.1, TestAnalysis.empty) := by
      cases fuel with
      | zero => simp [analyzeTestRun] at hsb
      | succ k => rw [analyzeTestRun_succ]; rfl
    rw [this] at hsb
    rw [← Option.some.inj hsb, ← hsa']
  have := hres setEnvHelperT rfl
  rw [hsb1] at this
  exact ⟨r, sc, hr, this, fun h => (hd (Or.inr (Or.inr h))).2⟩

/-- C22: on a first analysis of a body with a test parameter, under `checkCleanup` the
recorded `deferStatements` are exactly the defer statements among the top-level
statements of the body, in order (a defer statement nested in another statement is none
of them). And, whatever `checkCleanup` is, the top-level defer statements contribute
nothing else: the analysis of the body and the analysis of the body without its
top-level defer statements return alike, with the same reports and the same
`hasParallel`, `cantParallel` and `numberOfTestRun`. And the analysis does return: in a
package without recursion through resolved names, from some bound on it returns facts,
whose `deferStatements` under `checkCleanup` are those defer statements. -/
theorem defers_only_at_top_level (a : ParallelAnalyzer) (pass : Pass) (fuel : Nat) (st : State)
    (params : List Node) (lbrace : Nat) (body : List Node)
    (htv : findTestParamName params ≠ "")
    (hmiss : st.getAnalysis (nodeHash lbrace body) = none) :
    (∀ r, a.checkCleanup = true →
      analyzeFunctionF a pass fuel st params lbrace body = some r →
      r.2.val.deferStatements = body.filter Node.isDeferStmt) ∧
    (∀ lbrace', st.getAnalysis (nodeHash lbrace' (body.filter fun l => !l.isDeferStmt)) = none →
      (analyzeFunctionF a pass fuel st params lbrace body).map
        (fun r => (r.1.reports, r.2.val.core)) =
      (analyzeFunctionF a pass fuel st params lbrace'
        (body.filter fun l => !l.isDeferStmt)).map (fun r => (r.1.reports, r.2.val.core))) ∧
    (∀ rank : String → Nat, pass.ranked rank = true →
      ∃ f0, ∀ fuel', f0 ≤ fuel' →
        ∃ r, analyzeFunctionF a pass fuel' st params lbrace body = some r ∧
          (a.checkCleanup = true →
            r.2.val.deferStatements = body.filter Node.isDeferStmt)) := by
  have first : ∀ fuel r, a.checkCleanup = true →
      analyzeFunctionF a pass fuel st params lbrace body = some r →
      r.2.val.deferStatements = body.filter Node.isDeferStmt := by
    intro fuel r hcc h
    obtain ⟨f, w, _, hw, _, e2, _⟩ := analyzeFunctionF_miss a pass fuel st _ _ _ r htv hmiss h
    rw [e2, (walkBody_defers a pass f st _ _ w hw).1, hcc]
    rfl
  refine ⟨first fuel, ?_, ?_⟩
  · intro lbrace' hmiss'
    cases fuel with
    | zero => rfl
    | succ f =>
      have htv' : (findTestParamName params == "") = false := by simpa using htv
      rw [analyzeFunctionF_succ, analyzeFunctionF_succ]
      simp only [htv', Bool.false_eq_true, if_false, hmiss, hmiss']
      have key := foldlM_without_defers a pass f (findTestParamName params) body st
        TestAnalysis.empty TestAnalysis.empty rfl
      change (walkBody a pass f st (findTestParamName params) body).map _ =
        (walkBody a pass f st (findTestParamName params)
          (body.filter fun l => !l.isDeferStmt)).map _ at key
      cases h1 : walkBody a pass f st (findTestParamName params) body with
      | none =>
        rw [h1] at key
        cases h2 : walkBody a pass f st (findTestParamName params)
            (body.filter fun l => !l.isDeferStmt) with
        | none => rfl
        | some w' => rw [h2] at key; cases key
      | some w =>
        rw [h1] at key
        cases h2 : walkBody a pass f st (findTestParamName params)
            (body.filter fun l => !l.isDeferStmt) with
        | none => rw [h2] at key; cases key
        | some w' =>
          rw [h2] at key
          simp only [Option.map_some', Option.some.injEq, Prod.mk.injEq] at key
          simp only [Option.some_bind, Option.map_some', State.cacheAnalysis, key.1, key.2]
  · intro rank hrank
    obtain ⟨f0, h0⟩ := ranked_total a pass rank hrank params lbrace body
    refine ⟨f0, fun fuel' hf => ?_⟩
    obtain ⟨r, hr⟩ := Option.isSome_iff_exists.1 (h0 fuel' hf st)
    exact ⟨r, hr, fun hcc => first fuel' r hcc hr⟩

theorem defers_only_at_top_level_witness :
    (∃ r, analyzeFunctionF { checkCleanup := true } (mkPass [testDefers]) 12 {}
        testDefers.params testDefers.lbrace testDefers.body = some r ∧
      r.2.val.deferStatements.map Node.pos = [56] ∧
      r.2.val.core = (true, false, 1)) ∧
    (mkPass [testDefers]).ranked (fun _ => 0) = true ∧
    (∃ f0, ∀ fuel, f0 ≤ fuel →
      ∃ r, analyzeFunctionF { checkCleanup := true } (mkPass [testDefers]) fuel {}
          testDefers.params testDefers.lbrace testDefers.body = some r ∧
        r.2.val.deferStatements.map Node.pos = [56]) := by
  have h : (analyzeFunctionF { checkCleanup := true } (mkPass [testDefers]) 12 {}
      testDefers.params testDefers.lbrace testDefers.body).map (fun r => r.2.val.core) =
      some (true, false, 1) := by decide!
  obtain ⟨r, hr, e⟩ := Option.map_eq_some'.1 h
  have hall := defers_only_at_top_level { checkCleanup := true } (mkPass [testDefers]) 12 {}
    testDefers.params testDefers.lbrace testDefers.body (by decide) rfl
  have hd := hall.1 r rfl hr
  have hrank : (mkPass [testDefers]).ranked (fun _ => 0) = true := by decide
  obtain ⟨f0, h0⟩ := hall.2.2 (fun _ => 0) hrank
  refine ⟨⟨r, hr, by rw [hd]; rfl, e⟩, hrank, f0, fun fuel hf => ?_⟩
  obtain ⟨r', hr', hd'⟩ := h0 fuel hf
  exact ⟨r', hr', by rw [hd' rfl]; rfl⟩

/-- C26: the name `getCallName` gives for a call `x.f(..)` is the selected name `f`,
whatever the operand `x` is, and `analyzeFunctionCall` gives for `x.f(..)` what it gives
for the unqualified call `f(..)`: when `f` resolves to a declaration `d` of the package,
the facts of the analysis of `d`. `analyzeCallExpr` on `x.f(..)` is then its loop over the
arguments that are call expressions, `analyzeTestRun` on the call in the state the loop
leaves, and the analysis of `d` in the state `analyzeTestRun` leaves, whose facts are
merged into the facts of the body after the flags of the call and the facts of
`analyzeTestRun`; so the flags of `d` are flags of the result and its sub-test count is
part of the count of the result. -/
theorem resolution_ignores_qualifier (a : ParallelAnalyzer) (pass : Pass) (fuel : Nat)
    (st : State) (x : Node) (f : String) (pos pos' : Nat) (args args' : List Node) :
    getCallName (.callExpr pos (.selectorExpr x f) args) = f ∧
    analyzeFunctionCall a pass fuel st (.callExpr pos (.selectorExpr x f) args) =
      analyzeFunctionCall a pass fuel st (.callExpr pos' (.ident f) args') ∧
    (∀ d, findFunction pass f = some d →
      analyzeFunctionCall a pass (fuel + 1) st (.callExpr pos (.selectorExpr x f) args) =
        (analyzeFunction a pass fuel st d).bind fun r => some (r.1, r.2.val)) ∧
    (∀ d, findFunction pass f = some d → ∀ (acc : TestAnalysis) (tv : String),
      analyzeCallExpr a pass (fuel + 2) st acc tv (.callExpr pos (.selectorExpr x f) args) =
        ((args.filter Node.isCallExpr).foldlM
          (fun (r : State × TestAnalysis) (arg : Node) =>
            analyzeCallExpr a pass (fuel + 1) r.1 r.2 tv arg) (st, acc)).bind fun r1 =>
        (analyzeTestRun a pass (fuel + 1) r1.1 (.callExpr pos (.selectorExpr x f) args)
          tv).bind fun r2 =>
        (analyzeFunction a pass fuel r2.1 d).bind fun q =>
          some (q.1, ((r1.2.flags (.callExpr pos (.selectorExpr x f) args) tv).merge
            r2.2).merge q.2.val)) ∧
    (∀ d, findFunction pass f = some d →
      ∀ (acc : TestAnalysis) (tv : String) (r : State × TestAnalysis),
      analyzeCallExpr a pass (fuel + 2) st acc tv (.callExpr pos (.selectorExpr x f) args) =
        some r →
      ∃ (r1 r2 : State × TestAnalysis) (q : State × Ref),
        (args.filter Node.isCallExpr).foldlM
          (fun (r : State × TestAnalysis) (arg : Node) =>
            analyzeCallExpr a pass (fuel + 1) r.1 r.2 tv arg) (st, acc) = some r1 ∧
        analyzeTestRun a pass (fuel + 1) r1.1 (.callExpr pos (.selectorExpr x f) args) tv =
          some r2 ∧
        analyzeFunction a pass fuel r2.1 d = some q ∧
        r.1 = q.1 ∧
        (q.2.val.hasParallel = true → r.2.hasParallel = true) ∧
        (q.2.val.cantParallel = true → r.2.cantParallel = true) ∧
        q.2.val.numberOfTestRun ≤ r.2.numberOfTestRun) := by
  have heq : ∀ d, findFunction pass f = some d → ∀ (acc : TestAnalysis) (tv : String),
      analyzeCallExpr a pass (fuel + 2) st acc tv (.callExpr pos (.selectorExpr x f) args) =
        ((args.filter Node.isCallExpr).foldlM
          (fun (r : State × TestAnalysis) (arg : Node) =>
            analyzeCallExpr a pass (fuel + 1) r.1 r.2 tv arg) (st, acc)).bind fun r1 =>
        (analyzeTestRun a pass (fuel + 1) r1.1 (.callExpr pos (.selectorExpr x f) args)
          tv).bind fun r2 =>
        (analyzeFunction a pass fuel r2.1 d).bind fun q =>
          some (q.1, ((r1.2.flags (.callExpr pos (.selectorExpr x f) args) tv).merge
            r2.2).merge q.2.val) := by
    intro d hd acc tv
    rw [analyzeCallExpr, foldlM_filter_calls]
    simp only [Node.args, analyzeFunctionCall, getCallName, hd, analyzeFunction,
      Option.bind_assoc, Option.some_bind]
  refine ⟨rfl, ?_, fun d hd => ?_, heq, fun d hd acc tv r h => ?_⟩
  · cases fuel with
    | zero => rfl
    | succ n => simp only [analyzeFunctionCall, getCallName]
  · simp only [analyzeFunctionCall, getCallName, hd, analyzeFunction]
  · rw [heq d hd acc tv] at h
    simp only [Option.bind_eq_some] at h
    obtain ⟨r1, h1, r2, h2, q, hq, h⟩ := h
    refine ⟨r1, r2, q, h1, h2, hq, ?_, ?_, ?_, ?_⟩ <;> rw [← Option.some.inj h]
    · intro hp; simp [TestAnalysis.merge, hp]
    · intro hc; simp [TestAnalysis.merge, hc]
    · simp [TestAnalysis.merge]

theorem resolution_ignores_qualifier_witness :
    analyzeFunctionCall {} (mkPass [setupHelper, testQualified]) 6 {} qualifiedSetup =
      (analyzeFunction {} (mkPass [setupHelper, testQualified]) 5 {} setupHelper).bind
        (fun r => some (r.1, r.2.val)) ∧
    (analyzeFunction {} (mkPass [setupHelper, testQualified]) 5 {} setupHelper).map
      (fun q => q.2.val.core) = some (false, true, 0) ∧
    (analyzeCallExpr {} (mkPass [setupHelper, testQualified]) 7 {} TestAnalysis.empty "t"
      qualifiedSetup).map (fun r => r.2.core) = some (false, true, 0) ∧
    (analyzeFunction {} (mkPass [setupHelper, testQualified]) 12 {} testQualified).map
      (fun r => r.2.val.core) = some (false, true, 0) ∧
    (run {} (mkPass [setupHelper, testQualified]) 12 {}).map (fun st => st.reports) =
      some [] ∧
    (run {} (mkPass [runHelper, testRunResolved]) 12 {}).map (fun st => st.reports) =
      some [⟨118, .missingParallelSubtest, "literal"⟩] := by
  refine ⟨?_, by decide!, by decide!, by decide!, by decide!, by decide!⟩
  exact (resolution_ignores_qualifier {} (mkPass [setupHelper, testQualified]) 5 {}
    (.ident "obj") "Setup" 102 102 [.ident "t"] [.ident "t"]).2.2.1 setupHelper rfl

end Paralleltest
